import Mathlib

/-!
# fansi: ANSI control sequence aware string functions

A shallow embedding of the C sources `utils.c`, `tabs.c` and `wrap.c` of the
`fansi` package, and theorems about the escape scanner, the tab expander and
the reflow engine.

Conventions of the embedding.

* A C string is the list of its bytes (values `0 .. 255`) without the
  terminating NUL; reading at or past the end yields the terminator `0`.
  A pointer into a string is an offset into that list.
* A `char` is signed in the sources (`x_val < 0` tests for a byte above 127);
  here a byte is a natural number and `x_val < 0 || x_val > 127` reads
  `128 ≤ b`.
* `error(...)` aborts the enclosing call: fallible functions return `Except`.
-/

namespace Fansi

/-! ## Basic data -/

/-- Byte of a NUL-terminated C string at an offset. -/
def byteAt (x : List Nat) (i : Nat) : Nat := x.getD i 0

/-- The calls of `error(...)` in the sources, one constructor per message.
`fuel` is not an error of the program: it marks a loop of the embedding that
reached its iteration bound. -/
inductive FANSI_error where
  | add_int_overflow
  | buff_size_initial
  | buff_size_max
  | no_tab_stop
  | not_a_tab
  | stop_size_lt_one
  | tab_width_overflow
  | tabs_longer_than_int_max
  | chr_size
  | chrsxp_too_long
  | drop_indent
  | boundary_leading
  | substring_too_long
  | overflow_padding
  | overflow_pre_dat
  | overflow_sgr
  | writeline_too_long
  | invalid_width
  | incompatible_width
  | wrap_too_narrow
  | pad_end_invalid
  | illegal_indent
  | width_error
  | ctl_value
  | fuel
  deriving DecidableEq, Repr

deriving instance DecidableEq for Except

/-- The `FANSI_CTL_*` masks of `fansi.h`. The header is not among the sources,
so the masks are a parameter of the scanner. -/
structure FANSI_ctl_masks where
  NL : Nat
  C0 : Nat
  SGR : Nat
  CSI : Nat
  ESC : Nat
  deriving DecidableEq, Repr

/-- Modelled from the spec: the values of the `FANSI_CTL_*` masks of `fansi.h`
(the header is missing). One bit per category; `utils.c` documents that
`ctl & (1 << 0)` is newlines and `ctl & (1 << 1)` is C0, and
`FANSI_ctl_as_int` uses bits `0 .. 4`. -/
def FANSI_CTL : FANSI_ctl_masks := { NL := 1, C0 := 2, SGR := 4, CSI := 8, ESC := 16 }

/-- Masks that are usable as category flags: each one is non-zero and no two
share a bit. -/
def FANSI_ctl_masks.distinct (K : FANSI_ctl_masks) : Prop :=
  K.NL ≠ 0 ∧ K.C0 ≠ 0 ∧ K.SGR ≠ 0 ∧ K.CSI ≠ 0 ∧ K.ESC ≠ 0 ∧
  K.NL &&& K.C0 = 0 ∧ K.NL &&& K.SGR = 0 ∧ K.NL &&& K.CSI = 0 ∧ K.NL &&& K.ESC = 0 ∧
  K.C0 &&& K.SGR = 0 ∧ K.C0 &&& K.CSI = 0 ∧ K.C0 &&& K.ESC = 0 ∧
  K.SGR &&& K.CSI = 0 ∧ K.SGR &&& K.ESC = 0 ∧ K.CSI &&& K.ESC = 0

/-! ## utils.c: the escape scanner -/

/-- Result of `FANSI_find_esc`: `start` is the offset of the match from the
scan start `x`, `valid` is the C truth value of the field. -/
structure FANSI_csi_pos where
  start : Nat
  len : Nat
  valid : Bool
  ctl : Nat
  deriving DecidableEq, Repr

/-- The loops `while(*x_track >= lo && *x_track <= hi) ++x_track;` of
`FANSI_find_esc`: the number of bytes the pointer advances over `rest`. The
terminator is outside every range used, so the loop stops at the end. -/
def skip_range (lo hi : Nat) : List Nat → Nat
  | [] => 0
  | b :: rest => if lo ≤ b ∧ b ≤ hi then skip_range lo hi rest + 1 else 0

/-- Loop variables of `FANSI_find_esc`. -/
structure find_esc_vars where
  valid : Bool
  found : Bool
  found_ctl : Nat
  x_found_start : Nat
  x_found_end : Nat
  deriving DecidableEq, Repr

/-- The tail of `FANSI_find_esc` after its `while` loop. -/
def find_esc_result (v : find_esc_vars) : FANSI_csi_pos :=
  if v.found then
    { start := v.x_found_start, len := v.x_found_end - v.x_found_start,
      valid := v.valid, ctl := v.found_ctl }
  else
    { start := 0, len := 0, valid := v.valid, ctl := v.found_ctl }

/-- The body of the `while(*x_track)` loop of `FANSI_find_esc`, entered with
`x_track` at offset `i` on a byte that is not the terminator. It yields
whether the loop is left by `break`, the offset of `x_track` and the variables
after the body. -/
def find_esc_step (K : FANSI_ctl_masks) (x : List Nat) (ctl : Nat) (i : Nat)
    (v : find_esc_vars) : Bool × Nat × find_esc_vars :=
  let x_val := byteAt x i
  let i1 := i + 1
  if (31 < x_val ∧ x_val < 127) ∨ 128 ≤ x_val then
    -- found_this = 0
    (v.found, i1, v)
  else
    let v1 : find_esc_vars :=
      if v.found then v else { v with x_found_start := i1 - 1, x_found_end := i1 - 1 }
    if x_val = 27 then
      if byteAt x i1 = 91 then
        -- skip [
        let i2 := i1 + 1
        -- skip all the valid parameters tokens
        let i3 := i2 + skip_range 0x30 0x3F (x.drop i2)
        -- and all the valid intermediates
        let n_inter := skip_range 0x20 0x2F (x.drop i3)
        let intermediate : Bool := decide (0 < n_inter)
        let i4 := i3 + n_inter
        -- check validity
        let valid_tmp : Bool := decide (0x40 ≤ byteAt x i4 ∧ byteAt x i4 ≤ 0x7E)
        -- if not valid, consume all subsequent parameter tokens
        let i5 := if valid_tmp then i4 else i4 + skip_range 0x20 0x3F (x.drop i4)
        -- CSI SGR only found if ends in m and no intermediate
        let sgr : Bool := !intermediate && decide (byteAt x i5 = 109)
        let found_ctl := v1.found_ctl ||| (if sgr then K.SGR &&& ctl else K.CSI &&& ctl)
        let found_this : Bool :=
          (sgr && decide (ctl &&& K.SGR ≠ 0)) || (!sgr && decide (ctl &&& K.CSI ≠ 0))
        -- advance unless next char is ESC
        let i6 := if byteAt x i5 ≠ 0 ∧ byteAt x i5 ≠ 27 then i5 + 1 else i5
        let v2 : find_esc_vars :=
          { v1 with valid := v1.valid && valid_tmp, found_ctl := found_ctl }
        let v3 : find_esc_vars :=
          if found_this then { v2 with x_found_end := i6, found := true } else v2
        (v3.found && !found_this, i6, v3)
      else
        -- includes both the C1 set and "controls strings"
        let found_this : Bool := decide (ctl &&& K.ESC ≠ 0)
        let i6 := if byteAt x i1 ≠ 0 ∧ byteAt x i1 ≠ 27 then i1 + 1 else i1
        let v2 : find_esc_vars :=
          { v1 with
            valid := v1.valid && decide (0x40 ≤ byteAt x i1 ∧ byteAt x i1 ≤ 0x7E),
            found_ctl := v1.found_ctl ||| (ctl &&& K.ESC) }
        let v3 : find_esc_vars :=
          if found_this then { v2 with x_found_end := i6, found := true } else v2
        (v3.found && !found_this, i6, v3)
    else
      -- x01-x1F, x7F, all the C0 codes
      let found_this : Bool :=
        (decide (x_val = 10) && decide (ctl &&& K.NL ≠ 0)) ||
        (decide (x_val ≠ 10) && decide (ctl &&& K.C0 ≠ 0))
      let v2 : find_esc_vars :=
        { v1 with
          found_ctl := v1.found_ctl ||| (if x_val = 10 then ctl &&& K.NL else ctl &&& K.C0) }
      let v3 : find_esc_vars :=
        if found_this then { v2 with x_found_end := i1, found := true } else v2
      (v3.found && !found_this, i1, v3)

/-- The `while(*x_track)` loop of `FANSI_find_esc`; `i` is the offset of
`x_track`. Every iteration advances `x_track`, so the loop is over after
`x.length - i` iterations (`find_esc_loop_fuel`). -/
def find_esc_loop (K : FANSI_ctl_masks) (x : List Nat) (ctl : Nat) :
    Nat → Nat → find_esc_vars → FANSI_csi_pos
  | 0, _, v => find_esc_result v
  | fuel + 1, i, v =>
    if byteAt x i = 0 then find_esc_result v
    else
      match find_esc_step K x ctl i v with
      | (true, _, w) => find_esc_result w
      | (false, j, w) => find_esc_loop K x ctl fuel j w

/-- `FANSI_find_esc(x, ctl)`: location and size of the next control sequence
run of the enabled categories. `x` is the string from the scan start on. The
last initialiser of the no-match result is written `ctl=found_ctl` in the
source; it initialises the member that follows `valid`. -/
def FANSI_find_esc (K : FANSI_ctl_masks) (x : List Nat) (ctl : Nat) : FANSI_csi_pos :=
  find_esc_loop K x ctl x.length 0
    { valid := true, found := false, found_ctl := 0, x_found_start := 0, x_found_end := 0 }

/-! ## utils.c: checked addition and the scratch buffer -/

/-- `INT_MAX` of a 32-bit `int`. -/
def INT_MAX : Int := 2147483647

/-- `INT_MIN` of a 32-bit `int`. -/
def INT_MIN : Int := -2147483648

/-- The number of values of a `size_t` (64 bits). -/
def SIZE_MOD : Nat := 18446744073709551616

/-- Conversion of an `int` to `size_t`: a negative value wraps. -/
def to_size_t (z : Int) : Nat := (z % (SIZE_MOD : Int)).toNat

/-- `FANSI_add_int(x, y, file, line)`. It is not affected by `FANSI_int_max`. -/
def FANSI_add_int (x y : Int) : Except FANSI_error Int :=
  if (y ≥ 0 ∧ x > INT_MAX - y) ∨ (y < 0 ∧ x ≤ INT_MIN - y) then
    .error .add_int_overflow
  else .ok (x + y)

/-- The scratch buffer `struct FANSI_buff`: `len` is the capacity, `buff`
counts the allocations made for it and so identifies the storage. The contents
are not kept: every writer rewrites the buffer from its start. -/
structure FANSI_buff where
  len : Nat
  buff : Nat
  deriving DecidableEq, Repr

/-- `FANSI_size_buff(buff, size)` under the global `FANSI_int_max`. -/
def FANSI_size_buff (int_max : Int) (buff : FANSI_buff) (size : Nat) :
    Except FANSI_error FANSI_buff :=
  if size > buff.len then
    -- special case for the initial allocation: yields the new `size` and `buff->len`
    let first : Except FANSI_error (Nat × Nat) :=
      if buff.len = 0 then
        if size < 128 ∧ int_max > 128 then .ok (128, buff.len)
        else if size > to_size_t int_max + 1 then .error .buff_size_initial
        else .ok (size, size)
      else .ok (size, buff.len)
    match first with
    | .error e => .error e
    | .ok (size1, len1) =>
      if size1 > len1 then
        let tmp_double_size :=
          if len1 > to_size_t (((to_size_t int_max : Int) + 1) - len1) then to_size_t int_max + 1
          else len1 + len1
        let tmp_double_size := if size1 > tmp_double_size then size1 else tmp_double_size
        if tmp_double_size > to_size_t int_max + 1 then .error .buff_size_max
        else .ok { len := tmp_double_size, buff := buff.buff + 1 }
      else .ok { len := len1, buff := buff.buff + 1 }
  else .ok buff

/-- `FANSI_check_chr_size(start, end, i)`, on the number of bytes written. -/
def FANSI_check_chr_size (int_max : Int) (written : Nat) : Except FANSI_error Unit :=
  if (written : Int) > int_max then .error .chr_size else .ok ()

/-! ## The character-state cursor

`fansi.h`, `read.c` and `state.c` are not among the sources. The cursor that
`tabs.c` and `wrap.c` call is modelled from section 4.2 of the specification.
-/

/-- A `CHARSXP` as made by `mkCharLenCE`: its bytes and whether it is marked
`CE_UTF8` (otherwise `CE_NATIVE`). -/
structure CHARSXP where
  chars : List Nat
  utf8 : Bool
  deriving DecidableEq, Repr

/-- Modelled from the spec: `struct FANSI_state` of the missing `fansi.h`, the
CursorState of the data model: byte offset, visual-width offset, active style,
multibyte-content flag and pending-warning flag. The sources use the fields
`string`, `pos_byte`, `pos_width`, `has_utf8` and `warn`. The active style is
the ascending list of the SGR attribute codes that are switched on; `warned`
is the pending-warning flag and `ctl` the enabled control categories. -/
structure FANSI_state where
  string : List Nat
  pos_byte : Nat
  pos_width : Int
  style : List Nat
  has_utf8 : Bool
  warn : Int
  warned : Bool
  ctl : Nat
  deriving DecidableEq, Repr

/-- Modelled from the spec: `FANSI_state_init_full` of the missing `state.c`,
the cursor `init` at offset 0 with no active style. -/
def FANSI_state_init_full (x : List Nat) (warn : Int) (ctl : Nat) : FANSI_state :=
  { string := x, pos_byte := 0, pos_width := 0, style := [], has_utf8 := false,
    warn := warn, warned := false, ctl := ctl }

/-- Modelled from the spec: `FANSI_check_chrsxp` of the missing sources. The
comment in `FANSI_writeline` states that it checks on entry that a string is
not longer than `FANSI_int_max`. -/
def FANSI_check_chrsxp (int_max : Int) (chr : CHARSXP) : Except FANSI_error Unit :=
  if (chr.chars.length : Int) > int_max then .error .chrsxp_too_long else .ok ()

/-- Modelled from the spec: the display width of a code point, which the
missing sources take from R: 0 for combining marks, 2 for wide CJK, 1
otherwise. The ranges are the combining diacritical marks and the main East
Asian wide blocks. -/
def cp_width (cp : Nat) : Int :=
  if 0x0300 ≤ cp ∧ cp ≤ 0x036F then 0
  else if (0x1100 ≤ cp ∧ cp ≤ 0x115F) ∨ (0x2E80 ≤ cp ∧ cp ≤ 0xA4CF) ∨
      (0xAC00 ≤ cp ∧ cp ≤ 0xD7A3) ∨ (0xF900 ≤ cp ∧ cp ≤ 0xFAFF) ∨
      (0xFE30 ≤ cp ∧ cp ≤ 0xFE6F) ∨ (0xFF00 ≤ cp ∧ cp ≤ 0xFF60) ∨
      (0xFFE0 ≤ cp ∧ cp ≤ 0xFFE6) ∨ (0x20000 ≤ cp ∧ cp ≤ 0x3FFFD) then 2
  else 1

/-- Modelled from the spec: the number of bytes of the UTF-8 sequence that a
lead byte announces (0 for a byte that cannot start a sequence). -/
def utf8_len (b : Nat) : Nat :=
  if 0xC2 ≤ b ∧ b ≤ 0xDF then 2
  else if 0xE0 ≤ b ∧ b ≤ 0xEF then 3
  else if 0xF0 ≤ b ∧ b ≤ 0xF4 then 4
  else 0

/-- Modelled from the spec: the code point of a UTF-8 sequence, given its lead
byte and its continuation bytes. -/
def utf8_decode (b : Nat) (cont : List Nat) : Nat :=
  cont.foldl (fun acc c => acc * 64 + c % 64) (b % (if cont.length = 1 then 32 else if cont.length = 2 then 16 else 8))

/-- Modelled from the spec: one step of the cursor over a byte above 127. A
well-formed sequence is one code point; a malformed one records a warning
(unless warnings are disabled) and processing continues byte for byte. -/
def read_utf8 (state : FANSI_state) : FANSI_state :=
  let b := byteAt state.string state.pos_byte
  let n := utf8_len b
  let cont := (state.string.drop (state.pos_byte + 1)).take (n - 1)
  if n ≠ 0 ∧ cont.length = n - 1 ∧ cont.all (fun c => decide (0x80 ≤ c ∧ c ≤ 0xBF)) then
    { state with pos_byte := state.pos_byte + n,
                 pos_width := state.pos_width + cp_width (utf8_decode b cont),
                 has_utf8 := true }
  else
    { state with pos_byte := state.pos_byte + 1, pos_width := state.pos_width + 1,
                 has_utf8 := true, warned := state.warned || decide (state.warn ≠ 0) }

/-- Modelled from the spec: the value of a run of decimal digits, `none` when
another byte occurs in it. An empty parameter counts as 0. -/
def sgr_param (tok : List Nat) : Option Nat :=
  tok.foldl (fun acc c =>
    match acc with
    | none => none
    | some n => if 48 ≤ c ∧ c ≤ 57 then some (n * 10 + (c - 48)) else none) (some 0)

/-- Modelled from the spec: split the parameter bytes of an SGR sequence at
the semicolons. -/
def sgr_split : List Nat → List (List Nat)
  | [] => [[]]
  | c :: rest =>
    if c = 59 then [] :: sgr_split rest
    else
      match sgr_split rest with
      | [] => [[c]]
      | tok :: toks => (c :: tok) :: toks

/-- Modelled from the spec: an SGR sequence updates the active-style set;
`ESC[0m` and the bare `ESC[m` clear it, another code is switched on. -/
def sgr_apply (style : List Nat) (params : List Nat) : List Nat :=
  (sgr_split params).foldl (fun st tok =>
    match sgr_param tok with
    | none => st
    | some 0 => []
    | some n => if n ∈ st then st else st.orderedInsert (· ≤ ·) n) style

/-- Modelled from the spec: the style after the control sequences of a span
located by the scanner; only the sequences `ESC [ parameters m` change it. -/
def sgr_scan : Nat → List Nat → List Nat → List Nat
  | 0, _, style => style
  | _, [], style => style
  | fuel + 1, b :: rest, style =>
    if b = 27 ∧ rest.head? = some 91 then
      let n := skip_range 0x30 0x3F (rest.drop 1)
      let after := rest.drop (1 + n)
      if after.head? = some 109 then
        sgr_scan fuel (after.drop 1) (sgr_apply style ((rest.drop 1).take n))
      else sgr_scan fuel after style
    else sgr_scan fuel rest style

/-- Modelled from the spec: `FANSI_read_next` of the missing `read.c`, the
cursor `advance`. It moves one visual unit: one code point, or one full
control sequence located by the escape scanner and consumed atomically. An SGR
sequence updates the active style, the other control categories advance the
byte offset only, a newline resets the width to 0. A tab advances the byte
offset only (`tabs.c` calls this function to consume a tab and adds the spaces
owed itself). At the end of the string the state is unchanged (`tabs.c` calls
it there). An ESC that starts no sequence of an enabled category is read as a
single C0 byte. -/
def FANSI_read_next (K : FANSI_ctl_masks) (state : FANSI_state) : FANSI_state :=
  let b := byteAt state.string state.pos_byte
  if b = 0 then state
  else if 0x20 ≤ b ∧ b < 0x7F then
    { state with pos_byte := state.pos_byte + 1, pos_width := state.pos_width + 1 }
  else if 128 ≤ b then read_utf8 state
  else if b = 27 then
    let span := state.string.drop state.pos_byte
    let r := FANSI_find_esc K span (state.ctl &&& (K.SGR ||| K.CSI ||| K.ESC))
    if r.start = 0 ∧ 0 < r.len then
      { state with pos_byte := state.pos_byte + r.len,
                   style := sgr_scan r.len (span.take r.len) state.style }
    else { state with pos_byte := state.pos_byte + 1 }
  else if b = 10 then { state with pos_byte := state.pos_byte + 1, pos_width := 0 }
  else { state with pos_byte := state.pos_byte + 1 }

/-- Modelled from the spec: `FANSI_state_has_style` of the missing sources,
`has_open_style`. -/
def FANSI_state_has_style (state : FANSI_state) : Bool := !state.style.isEmpty

/-- Modelled from the spec: the bytes of the decimal digits of a number. -/
def digit_bytes (n : Nat) : List Nat := (Nat.toDigits 10 n).map Char.toNat

/-- Modelled from the spec: `FANSI_csi_write` of the missing sources,
`serialize_style`: the minimal SGR sequence that reproduces the active style,
`ESC [ c1 ; ... ; cn m`. -/
def FANSI_csi_write (state : FANSI_state) : List Nat :=
  [27, 91] ++ List.intercalate [59] (state.style.map digit_bytes) ++ [109]

/-- Modelled from the spec: `FANSI_state_size` of the missing sources,
`serialized_style_size`. -/
def FANSI_state_size (state : FANSI_state) : Int := (FANSI_csi_write state).length

/-- Modelled from the spec: `FANSI_reset_width` of the missing sources. -/
def FANSI_reset_width (state : FANSI_state) : FANSI_state := { state with pos_width := 0 }

/-- Modelled from the spec: `FANSI_inc_width` of the missing sources; width
math goes through the overflow-checked addition. -/
def FANSI_inc_width (state : FANSI_state) (inc : Int) : Except FANSI_error FANSI_state :=
  match FANSI_add_int state.pos_width inc with
  | .error e => .error e
  | .ok w => .ok { state with pos_width := w }

/-! ## tabs.c: the tab expander -/

/-- The `while(state.pos_width >= tab_width)` loop of `FANSI_tab_width`. Every
iteration adds a stop of at least 1 to `tab_width`, so `pos_width + 1`
iterations suffice. -/
def tab_width_loop (int_max : Int) (pos_width : Int) (tab_stops : List Int) :
    Nat → Int → Nat → Except FANSI_error Int
  | fuel, tab_width, stop_idx =>
    if pos_width ≥ tab_width then
      match fuel with
      | 0 => .error .fuel
      | fuel + 1 =>
        let stop_size := tab_stops.getD stop_idx 0
        if stop_size < 1 then .error .stop_size_lt_one
        else if tab_width > int_max - stop_size then .error .tab_width_overflow
        else
          tab_width_loop int_max pos_width tab_stops fuel (tab_width + stop_size)
            (if stop_idx + 1 < tab_stops.length then stop_idx + 1 else stop_idx)
    else .ok tab_width

/-- `FANSI_tab_width(state, tab_stops)`: how many spaces the tab under the
cursor is wide. -/
def FANSI_tab_width (int_max : Int) (state : FANSI_state) (tab_stops : List Int) :
    Except FANSI_error Int :=
  if tab_stops.length = 0 then .error .no_tab_stop
  else if byteAt state.string state.pos_byte ≠ 9 then .error .not_a_tab
  else
    match tab_width_loop int_max state.pos_width tab_stops (state.pos_width + 1).toNat 0 0 with
    | .error e => .error e
    | .ok tab_width => .ok (tab_width - state.pos_width)

/-- The loop `while(*source && (source = strchr(source, '\t')))` of
`FANSI_tabs_as_spaces`: the number of tabs of a C string. -/
def count_tabs : List Nat → Nat
  | [] => 0
  | b :: rest => if b = 0 then 0 else if b = 9 then count_tabs rest + 1 else count_tabs rest

/-- The loop of `FANSI_tabs_as_spaces` that sizes the buffer: `k` tabs are
left, each one allowed `tab_extra` more bytes. -/
def tabs_buff_size (int_max : Int) (tab_extra : Int) : Nat → Nat → Except FANSI_error Nat
  | 0, new_buff_size => .ok new_buff_size
  | k + 1, new_buff_size =>
    if new_buff_size > to_size_t (int_max - tab_extra) then .error .tabs_longer_than_int_max
    else tabs_buff_size int_max tab_extra k ((new_buff_size + to_size_t tab_extra) % SIZE_MOD)

/-- Variables of the `while(1)` loop of `FANSI_tabs_as_spaces`; `out` holds the
bytes between `buff_start` and `buff_track`. -/
structure tabs_loop_vars where
  state : FANSI_state
  last_byte : Nat
  out : List Nat
  deriving DecidableEq, Repr

/-- The body of the `while(1)` loop of `FANSI_tabs_as_spaces`. It yields
whether the loop is left by `break` and the variables after the body. -/
def tabs_step (K : FANSI_ctl_masks) (int_max : Int) (tab_stops : List Int) (warn_old : Int)
    (v : tabs_loop_vars) : Except FANSI_error (Bool × tabs_loop_vars) :=
  let cur_chr := byteAt v.state.string v.state.pos_byte
  match (if cur_chr = 9 then FANSI_tab_width int_max v.state tab_stops else .ok 0) with
  | .error e => .error e
  | .ok extra_spaces =>
    let state := if cur_chr ≠ 9 ∧ cur_chr = 10 then FANSI_reset_width v.state else v.state
    -- write string
    if cur_chr = 9 ∨ cur_chr = 0 then
      let write_bytes := state.pos_byte - v.last_byte
      let out := v.out ++ (state.string.drop v.last_byte).take write_bytes
      -- consume tab and advance
      let state := { state with warn := 0 }
      let state := FANSI_read_next K state
      let state := { state with warn := warn_old }
      let cur_chr := byteAt state.string state.pos_byte
      match FANSI_inc_width state extra_spaces with
      | .error e => .error e
      | .ok state =>
        let last_byte := state.pos_byte
        -- actually write the extra spaces
        let out := out ++ List.replicate extra_spaces.toNat 32
        if cur_chr = 0 then .ok (true, { state := state, last_byte := last_byte, out := out })
        else
          .ok (false, { state := FANSI_read_next K state, last_byte := last_byte, out := out })
    else
      .ok (false, { state := FANSI_read_next K state, last_byte := v.last_byte, out := v.out })

/-- The `while(1)` loop of `FANSI_tabs_as_spaces`. Reaching the iteration bound
is reported as `fuel`. -/
def tabs_loop (K : FANSI_ctl_masks) (int_max : Int) (tab_stops : List Int) (warn_old : Int) :
    Nat → tabs_loop_vars → Except FANSI_error tabs_loop_vars
  | 0, _ => .error .fuel
  | fuel + 1, v =>
    match tabs_step K int_max tab_stops warn_old v with
    | .error e => .error e
    | .ok (true, w) => .ok w
    | .ok (false, w) => tabs_loop K int_max tab_stops warn_old fuel w

/-- Variables of `FANSI_tabs_as_spaces` across the elements of the batch.
`duplicated` tells that `res_sxp` is a duplicate of `vec` and not `vec` itself
(it is set together with `tabs_in_str`). -/
structure tabs_vars where
  tabs_in_str : Bool
  max_tab_stop : Int
  res_sxp : List (Option CHARSXP)
  duplicated : Bool
  buff : FANSI_buff
  deriving DecidableEq, Repr

/-- The body of the `for` loop of `FANSI_tabs_as_spaces` for element `i`, a
string that is not `NA_STRING`. -/
def tabs_elem (K : FANSI_ctl_masks) (int_max : Int) (vec : List (Option CHARSXP))
    (tab_stops : List Int) (warn : Int) (ctl : Nat) (i : Nat) (chr : CHARSXP)
    (v : tabs_vars) : Except FANSI_error tabs_vars :=
  match FANSI_check_chrsxp int_max chr with
  | .error e => .error e
  | .ok _ =>
    let tab_count := count_tabs chr.chars
    let v : tabs_vars :=
      if 0 < tab_count ∧ v.tabs_in_str = false then
        { v with tabs_in_str := true, res_sxp := vec, duplicated := true,
                 max_tab_stop := tab_stops.foldl (fun m s => if s > m then s else m) v.max_tab_stop }
      else v
    if 0 < tab_count then
      let tab_extra := v.max_tab_stop - 1
      match tabs_buff_size int_max tab_extra tab_count chr.chars.length with
      | .error e => .error e
      | .ok new_buff_size =>
        match FANSI_size_buff int_max v.buff ((new_buff_size + 1) % SIZE_MOD) with
        | .error e => .error e
        | .ok buff =>
          let state := FANSI_state_init_full chr.chars warn ctl
          match tabs_loop K int_max tab_stops state.warn (chr.chars.length + 1)
              { state := state, last_byte := state.pos_byte, out := [] } with
          | .error e => .error e
          | .ok w =>
            match FANSI_check_chr_size int_max w.out.length with
            | .error e => .error e
            | .ok _ =>
              .ok { v with buff := buff,
                           res_sxp := v.res_sxp.set i (some { chars := w.out, utf8 := w.state.has_utf8 }) }
    else .ok v

/-- The `for` loop of `FANSI_tabs_as_spaces` over the elements from `i` on. -/
def tabs_elems (K : FANSI_ctl_masks) (int_max : Int) (vec : List (Option CHARSXP))
    (tab_stops : List Int) (warn : Int) (ctl : Nat) :
    List (Option CHARSXP) → Nat → tabs_vars → Except FANSI_error tabs_vars
  | [], _, v => .ok v
  | none :: rest, i, v => tabs_elems K int_max vec tab_stops warn ctl rest (i + 1) v
  | some chr :: rest, i, v =>
    match tabs_elem K int_max vec tab_stops warn ctl i chr v with
    | .error e => .error e
    | .ok v => tabs_elems K int_max vec tab_stops warn ctl rest (i + 1) v

/-- `FANSI_tabs_as_spaces(vec, tab_stops, buff, warn, term_cap, ctl)`. An
element of the batch is `none` for `NA_STRING`. The terminal capabilities only
reach the missing cursor and are left out. -/
def FANSI_tabs_as_spaces (K : FANSI_ctl_masks) (int_max : Int) (vec : List (Option CHARSXP))
    (tab_stops : List Int) (buff : FANSI_buff) (warn : Int) (ctl : Nat) :
    Except FANSI_error tabs_vars :=
  tabs_elems K int_max vec tab_stops warn ctl vec 0
    { tabs_in_str := false, max_tab_stop := 1, res_sxp := vec, duplicated := false, buff := buff }

/-! ## wrap.c: the reflow engine -/

/-- Data related to prefix / initial: `struct FANSI_prefix_dat`. -/
structure FANSI_prefix_dat where
  string : List Nat
  width : Int
  bytes : Int
  indent : Int
  has_utf8 : Bool
  warn : Int
  deriving DecidableEq, Repr

/-- `pad_pre(dat, spaces)`: combine initial and indent (or prefix and exdent).
The buffer is allocated only when `alloc_size > 1`; otherwise the string is
the empty literal. -/
def pad_pre (dat : FANSI_prefix_dat) (spaces : Int) : Except FANSI_error FANSI_prefix_dat :=
  let pre_len := dat.bytes
  let pre_chr := dat.string
  match FANSI_add_int pre_len spaces with
  | .error e => .error e
  | .ok s1 =>
    match FANSI_add_int s1 1 with
    | .error e => .error e
    | .ok alloc_size =>
      let res_start : List Nat :=
        if alloc_size > 1 then pre_chr.take pre_len.toNat ++ List.replicate spaces.toNat 32
        else []
      match FANSI_add_int dat.bytes spaces with
      | .error e => .error e
      | .ok bytes =>
        match FANSI_add_int dat.width spaces with
        | .error e => .error e
        | .ok width =>
          match FANSI_add_int dat.indent spaces with
          | .error e => .error e
          | .ok indent =>
            .ok { dat with string := res_start, bytes := bytes, width := width, indent := indent }

/-- `drop_pre_indent(dat)`: adjust widths and sizes to pretend there is no
indent; the string is not modified. -/
def drop_pre_indent (dat : FANSI_prefix_dat) : Except FANSI_error FANSI_prefix_dat :=
  match FANSI_add_int dat.bytes (-dat.indent) with
  | .error e => .error e
  | .ok bytes =>
    match FANSI_add_int dat.width (-dat.indent) with
    | .error e => .error e
    | .ok width =>
      match FANSI_add_int dat.indent (-dat.indent) with
      | .error e => .error e
      | .ok indent =>
        if indent < 0 then .error .drop_indent
        else .ok { dat with bytes := bytes, width := width, indent := indent }

/-- The prefix data in force in `FANSI_writeline`: a line of zero bytes drops
the indent. -/
def writeline_pre (state_bound state_start : FANSI_state) (pre_dat : FANSI_prefix_dat) :
    Except FANSI_error FANSI_prefix_dat :=
  let target_size : Nat := state_bound.pos_byte - state_start.pos_byte
  if target_size = 0 then drop_pre_indent pre_dat else .ok pre_dat

/-- The test `target_width <= (size_t) tar_width && *pad_chr` of
`FANSI_writeline`, after `tar_width` was raised to 0. -/
def writeline_pads (state_bound state_start : FANSI_state) (tar_width : Int)
    (pad_chr : List Nat) : Bool :=
  let tar_width := if tar_width < 0 then 0 else tar_width
  let target_width : Nat := to_size_t (state_bound.pos_width - state_start.pos_width)
  decide (target_width ≤ to_size_t tar_width ∧ byteAt pad_chr 0 ≠ 0)

/-- The value of `target_pad` in `FANSI_writeline`. -/
def writeline_pad (state_bound state_start : FANSI_state) (tar_width : Int)
    (pad_chr : List Nat) : Int :=
  let tar_width0 := if tar_width < 0 then 0 else tar_width
  let target_width : Nat := to_size_t (state_bound.pos_width - state_start.pos_width)
  if writeline_pads state_bound state_start tar_width pad_chr then tar_width0 - target_width
  else 0

/-- The size computation of `FANSI_writeline` from the padding on: the three
overflow checks and the final `target_size`, the terminator included. -/
def writeline_size (int_max : Int) (target_size : Nat) (pads : Bool) (target_pad : Int)
    (pre_bytes : Int) (start_close : Int) : Except FANSI_error Nat :=
  if pads = true ∧ target_size > to_size_t (int_max - target_pad) then .error .overflow_padding
  else
    let target_size :=
      if pads then (target_size + to_size_t target_pad) % SIZE_MOD else target_size
    if target_size > to_size_t (int_max - pre_bytes) then .error .overflow_pre_dat
    else
      let target_size := (target_size + to_size_t pre_bytes) % SIZE_MOD
      if target_size > to_size_t (int_max - start_close) then .error .overflow_sgr
      else
        let target_size := (target_size + to_size_t start_close) % SIZE_MOD
        .ok ((target_size + 1) % SIZE_MOD)

/-- The writes of `FANSI_writeline` through `buff_track`, from the start of the
buffer: the bytes between `buff->buff` and `buff_track` at the end. -/
def writeline_write (state_bound state_start : FANSI_state) (pre_dat : FANSI_prefix_dat)
    (target_pad : Int) (pad_chr : List Nat) : List Nat :=
  let out : List Nat := []
  -- apply previous CSI style
  let out := if FANSI_state_has_style state_start then out ++ FANSI_csi_write state_start else out
  -- apply indent/exdent prefix/initial
  let out := if pre_dat.bytes ≠ 0 then out ++ pre_dat.string.take pre_dat.bytes.toNat else out
  -- actual string
  let out := out ++
    (state_start.string.drop state_start.pos_byte).take
      (state_bound.pos_byte - state_start.pos_byte)
  -- add padding if needed
  let out := out ++ List.replicate target_pad.toNat (byteAt pad_chr 0)
  -- and turn off CSI styles if needed
  if FANSI_state_has_style state_bound then out ++ [27, 91, 48, 109] else out

/-- `FANSI_writeline(state_bound, state_start, buff, pre_dat, tar_width,
pad_chr)`: the line as a `CHARSXP`, and the buffer after the call. -/
def FANSI_writeline (int_max : Int) (state_bound state_start : FANSI_state)
    (buff : FANSI_buff) (pre_dat : FANSI_prefix_dat) (tar_width : Int) (pad_chr : List Nat) :
    Except FANSI_error (CHARSXP × FANSI_buff) :=
  let needs_close := FANSI_state_has_style state_bound
  let needs_start := FANSI_state_has_style state_start
  if state_bound.pos_byte < state_start.pos_byte ∨
      state_bound.pos_width < state_start.pos_width then
    .error .boundary_leading
  else
    let target_size : Nat := state_bound.pos_byte - state_start.pos_byte
    match writeline_pre state_bound state_start pre_dat with
    | .error e => .error e
    | .ok pre_dat =>
      if target_size > to_size_t int_max then .error .substring_too_long
      else
        let state_start_size : Int := if needs_start then FANSI_state_size state_start else 0
        let start_close : Int := (if needs_close then 4 else 0) + state_start_size
        match writeline_size int_max target_size
            (writeline_pads state_bound state_start tar_width pad_chr)
            (writeline_pad state_bound state_start tar_width pad_chr)
            pre_dat.bytes start_close with
        | .error e => .error e
        | .ok target_size =>
          match FANSI_size_buff int_max buff target_size with
          | .error e => .error e
          | .ok buff =>
            let out := writeline_write state_bound state_start pre_dat
              (writeline_pad state_bound state_start tar_width pad_chr) pad_chr
            let chr_type : Bool := state_bound.has_utf8 || pre_dat.has_utf8
            if (out.length : Int) > int_max then .error .writeline_too_long
            else .ok ({ chars := out, utf8 := chr_type }, buff)

/-- Variables of the `while(1)` loop of `strwrap`; `char_list` holds the lines
appended to the `LISTSXP` so far. -/
structure strwrap_vars where
  state : FANSI_state
  state_start : FANSI_state
  state_bound : FANSI_state
  state_prev : FANSI_state
  prev_boundary : Bool
  has_boundary : Bool
  para_start : Bool
  first_line : Bool
  last_start : Nat
  width_tar : Int
  char_list : List CHARSXP
  buff : FANSI_buff
  deriving DecidableEq, Repr

/-- The loop of `strwrap` that skips the spaces after a break:
`while(state_bound.string[state_bound.pos_byte] == ' ')`. -/
def skip_spaces (K : FANSI_ctl_masks) : Nat → FANSI_state → Except FANSI_error FANSI_state
  | fuel, state_bound =>
    if byteAt state_bound.string state_bound.pos_byte = 32 then
      match fuel with
      | 0 => .error .fuel
      | fuel + 1 => skip_spaces K fuel (FANSI_read_next K state_bound)
    else .ok state_bound

/-- The values at hand in the body of the loop of `strwrap` once the next
state is read and the word boundary is detected (lines 350-382). -/
structure strwrap_scan where
  state : FANSI_state
  state_next : FANSI_state
  state_bound : FANSI_state
  has_boundary : Bool
  prev_boundary : Bool
  deriving DecidableEq, Repr

/-- The first part of the body of the loop of `strwrap`: read the next state,
copy its warning flag, and detect word boundaries. -/
def strwrap_detect (K : FANSI_ctl_masks) (strip_spaces : Bool) (v : strwrap_vars) :
    strwrap_scan :=
  let state := v.state
  let state_next :=
    if byteAt state.string state.pos_byte = 0 then state else FANSI_read_next K state
  -- avoid double warning
  let state := { state with warn := state_next.warn }
  let state_bound := { v.state_bound with warn := state_next.warn }
  let c := byteAt state.string state.pos_byte
  let is_ws : Bool := decide (c = 32 ∨ c = 9 ∨ c = 10)
  { state := state,
    state_next := state_next,
    state_bound :=
      if is_ws then
        if strip_spaces && !v.prev_boundary then state
        else if !strip_spaces then state
        else state_bound
      else state_bound,
    has_boundary := if is_ws then true else v.has_boundary,
    prev_boundary := is_ws }

/-- The test of the loop of `strwrap` that a line is to be written (lines
385-400). -/
def strwrap_must_write (wrap_always first_only : Bool) (width_tar : Int) (d : strwrap_scan) :
    Bool :=
  let c := byteAt d.state.string d.state.pos_byte
  decide (c = 0 ∨ (c = 10 ∧ first_only = false) ∨
    ((d.state.pos_width > width_tar ∨
        (d.state.pos_width = width_tar ∧ d.state_next.pos_width > d.state.pos_width)) ∧
      (d.has_boundary = true ∨ wrap_always = true)))

/-- The end of the line to write (lines 401-409): the state, backed off to the
previous one on a wide character overshoot, and the boundary. -/
def strwrap_line_end (wrap_always first_only : Bool) (v : strwrap_vars) (d : strwrap_scan) :
    FANSI_state × FANSI_state :=
  let c := byteAt d.state.string d.state.pos_byte
  if c = 0 ∨ (wrap_always = true ∧ d.has_boundary = false) ∨ first_only = true then
    let state :=
      if d.state.pos_width > v.width_tar ∧ wrap_always = true then v.state_prev else d.state
    (state, state)
  else (d.state, d.state_bound)

/-- Keep the last boundary character when spaces are not stripped (lines
417-428). -/
def strwrap_keep_boundary (K : FANSI_ctl_masks) (strip_spaces has_boundary : Bool)
    (state state_bound : FANSI_state) : FANSI_state :=
  let bc := byteAt state_bound.string state_bound.pos_byte
  if strip_spaces = false ∧ has_boundary = true ∧ (bc = 32 ∨ bc = 9) ∧
      state_bound.pos_byte < state.pos_byte then
    FANSI_read_next K state_bound
  else state_bound

/-- The state at the wrap point, from which the next line starts (lines
457-478). -/
def strwrap_next_start (K : FANSI_ctl_masks) (strip_spaces has_boundary para_start : Bool)
    (state state_bound : FANSI_state) : Except FANSI_error FANSI_state :=
  let state_bound :=
    if has_boundary = true ∧ para_start = true then FANSI_read_next K state_bound
    else if has_boundary = false then state
    else state_bound
  match (if strip_spaces then skip_spaces K state_bound.string.length state_bound
         else .ok state_bound) with
  | .error e => .error e
  | .ok state_bound => .ok { state_bound with pos_width := 0 }

/-- The part of the body of the loop of `strwrap` that writes a line (lines
401-481). -/
def strwrap_write (K : FANSI_ctl_masks) (int_max : Int) (width_1 width_2 : Int)
    (pre_first pre_next : FANSI_prefix_dat) (wrap_always : Bool) (pad_chr : List Nat)
    (strip_spaces first_only : Bool) (v : strwrap_vars) (d : strwrap_scan) :
    Except FANSI_error (Bool × strwrap_vars) :=
  let state := (strwrap_line_end wrap_always first_only v d).1
  let state_bound := (strwrap_line_end wrap_always first_only v d).2
  if v.first_line = false ∧ v.last_start ≥ v.state_start.pos_byte then
    .error .wrap_too_narrow
  else
    let state_bound := strwrap_keep_boundary K strip_spaces d.has_boundary state state_bound
    -- write the string
    match FANSI_writeline int_max state_bound v.state_start v.buff
        (if v.para_start then pre_first else pre_next) v.width_tar pad_chr with
    | .error e => .error e
    | .ok (res_sxp, buff) =>
      let w : strwrap_vars :=
        { v with state := state, state_bound := state_bound,
                 prev_boundary := d.prev_boundary, has_boundary := d.has_boundary,
                 first_line := false, last_start := v.state_start.pos_byte, buff := buff }
      if first_only then .ok (true, { w with char_list := [res_sxp] })
      else
        let w := { w with char_list := v.char_list ++ [res_sxp] }
        if byteAt state.string state.pos_byte = 0 then .ok (true, w)
        else
          -- next line will be the beginning of a paragraph
          let para_start : Bool := decide (byteAt state.string state.pos_byte = 10)
          match strwrap_next_start K strip_spaces d.has_boundary para_start state state_bound with
          | .error e => .error e
          | .ok state_bound =>
            .ok (false,
              { w with para_start := para_start,
                       width_tar := if para_start then width_1 else width_2,
                       has_boundary := false, state_prev := state,
                       state := state_bound, state_start := state_bound,
                       state_bound := state_bound })

/-- The body of the `while(1)` loop of `strwrap`. It yields whether the loop
is left by `break` and the variables after the body. -/
def strwrap_step (K : FANSI_ctl_masks) (int_max : Int) (width_1 width_2 : Int)
    (pre_first pre_next : FANSI_prefix_dat) (wrap_always : Bool) (pad_chr : List Nat)
    (strip_spaces first_only : Bool) (v : strwrap_vars) :
    Except FANSI_error (Bool × strwrap_vars) :=
  let d := strwrap_detect K strip_spaces v
  if strwrap_must_write wrap_always first_only v.width_tar d then
    strwrap_write K int_max width_1 width_2 pre_first pre_next wrap_always pad_chr
      strip_spaces first_only v d
  else
    .ok (false,
      { v with state_prev := d.state, state := d.state_next, state_bound := d.state_bound,
               prev_boundary := d.prev_boundary, has_boundary := d.has_boundary })

/-- The `while(1)` loop of `strwrap`. The result holds the variables at the
`break`. Reaching the iteration bound is reported as `fuel`. -/
def strwrap_loop (K : FANSI_ctl_masks) (int_max : Int) (width_1 width_2 : Int)
    (pre_first pre_next : FANSI_prefix_dat) (wrap_always : Bool) (pad_chr : List Nat)
    (strip_spaces first_only : Bool) :
    Nat → strwrap_vars → Except FANSI_error strwrap_vars
  | 0, _ => .error .fuel
  | fuel + 1, v =>
    match strwrap_step K int_max width_1 width_2 pre_first pre_next wrap_always pad_chr
        strip_spaces first_only v with
    | .error e => .error e
    | .ok (true, w) => .ok w
    | .ok (false, w) =>
      strwrap_loop K int_max width_1 width_2 pre_first pre_next wrap_always pad_chr
        strip_spaces first_only fuel w

/-- `strwrap(x, width, pre_first, pre_next, wrap_always, buff, pad_chr,
strip_spaces, warn, term_cap, first_only, ctl)`: the wrapped lines in order
and the buffer after the call. With `first_only` the source returns the one
`CHARSXP` it wrote; here that is a list of one line. The loop runs under the
iteration bound `(length + 2) * (length + 2)`: a line is flushed within
`length + 1` iterations and every flush but the first must start further on. -/
def strwrap (K : FANSI_ctl_masks) (int_max : Int) (x : List Nat) (width : Int)
    (pre_first pre_next : FANSI_prefix_dat) (wrap_always : Bool) (buff : FANSI_buff)
    (pad_chr : List Nat) (strip_spaces : Bool) (warn : Int) (first_only : Bool) (ctl : Nat) :
    Except FANSI_error (List CHARSXP × FANSI_buff) :=
  let state := FANSI_state_init_full x warn ctl
  match FANSI_add_int width (-pre_first.width) with
  | .error e => .error e
  | .ok width_1 =>
    match FANSI_add_int width (-pre_next.width) with
    | .error e => .error e
    | .ok width_2 =>
      if width < 1 ∧ wrap_always = true then .error .invalid_width
      else if wrap_always = true ∧ (width_1 < 0 ∨ width_2 < 0) then .error .incompatible_width
      else
        match strwrap_loop K int_max width_1 width_2 pre_first pre_next wrap_always pad_chr
            strip_spaces first_only ((x.length + 2) * (x.length + 2))
            { state := state, state_start := state, state_bound := state, state_prev := state,
              prev_boundary := false, has_boundary := false, para_start := true,
              first_line := true, last_start := 0, width_tar := width_1,
              char_list := [], buff := buff } with
        | .error e => .error e
        | .ok v => .ok (v.char_list, v.buff)

/-! ## wrap.c: the batch entry point -/

/-- The functions that `make_pre` and `FANSI_strwrap_ext` call and that are
neither among the sources nor modelled here, taken as parameters:
`FANSI_has_utf8`; `FANSI_strip` on one string, which yields the stripped
string and whether the `warn` attribute is set; `R_nchar` of type `Width`,
which yields `none` for `NA_INTEGER`; and `FANSI_process`, which may resize
the buffer. -/
structure wrap_env where
  has_utf8 : List Nat → Bool
  strip : List Nat → List Nat × Bool
  nchar_width : List Nat → Option Int
  process : List (Option CHARSXP) → FANSI_buff →
    Except FANSI_error (List (Option CHARSXP) × FANSI_buff)

/-- `strlen` of a C string: the bytes before the first NUL. -/
def strlen (x : List Nat) : Nat := (x.takeWhile (fun b => decide (b ≠ 0))).length

/-- `make_pre(x)`: generate the data related to prefix / initial from the
first element of the vector. -/
def make_pre (E : wrap_env) (int_max : Int) (chrsxp : CHARSXP) :
    Except FANSI_error FANSI_prefix_dat :=
  match FANSI_check_chrsxp int_max chrsxp with
  | .error e => .error e
  | .ok _ =>
    let x_utf8 := chrsxp.chars
    let x_has_utf8 := E.has_utf8 x_utf8
    let x_strip := E.strip x_utf8
    let x_width := E.nchar_width x_strip.1
    let x_bytes : Int := strlen x_utf8
    let warn_int : Int := if x_strip.2 then 1 else 0
    match x_width with
    | none =>
      .ok { string := x_utf8, width := x_bytes, bytes := x_bytes, has_utf8 := x_has_utf8,
            indent := 0, warn := 9 }
    | some w =>
      .ok { string := x_utf8, width := w, bytes := x_bytes, has_utf8 := x_has_utf8,
            indent := 0, warn := warn_int }

/-- What `FANSI_strwrap_ext` has at hand when it checks the widths: the input
after the preprocessing, the buffer, and the three leading strings. -/
structure strwrap_ext_dat where
  x : List (Option CHARSXP)
  buff : FANSI_buff
  ini_first_dat : FANSI_prefix_dat
  pre_first_dat : FANSI_prefix_dat
  pre_next_dat : FANSI_prefix_dat
  deriving DecidableEq, Repr

/-- The tab expansion of `FANSI_strwrap_ext` (lines 572-581) on the input, the
prefix and the initial string, through the one buffer. -/
def strwrap_ext_tabs (K : FANSI_ctl_masks) (int_max : Int) (x : List (Option CHARSXP))
    (pre_sxp ini_sxp : CHARSXP) (tabs_as_spaces : Bool) (tab_stops : List Int)
    (buff : FANSI_buff) (warn : Int) (ctl : Nat) :
    Except FANSI_error (List (Option CHARSXP) × CHARSXP × CHARSXP × FANSI_buff) :=
  if tabs_as_spaces then
    match FANSI_tabs_as_spaces K int_max x tab_stops buff warn ctl with
    | .error e => .error e
    | .ok r1 =>
      match FANSI_tabs_as_spaces K int_max [some pre_sxp] tab_stops r1.buff warn ctl with
      | .error e => .error e
      | .ok r2 =>
        match FANSI_tabs_as_spaces K int_max [some ini_sxp] tab_stops r2.buff warn ctl with
        | .error e => .error e
        | .ok r3 =>
          .ok (r1.res_sxp,
            (match r2.res_sxp with
              | some c :: _ => c
              | _ => pre_sxp),
            (match r3.res_sxp with
              | some c :: _ => c
              | _ => ini_sxp),
            r3.buff)
  else .ok (x, pre_sxp, ini_sxp, buff)

/-- The part of `FANSI_strwrap_ext` before the widths are checked (lines
549-617): the check of the pad character, the preprocessing of the input, and
the three leading strings. The test `prefix != initial` compares two vectors
for identity; here the strings are compared, which selects the same data since
`make_pre` and `pad_pre` are functions of the string. Warnings are not
modelled. -/
def strwrap_ext_pre (E : wrap_env) (K : FANSI_ctl_masks) (int_max : Int)
    (x : List (Option CHARSXP)) (indent exdent : Int) (pre_sxp ini_sxp : CHARSXP)
    (pad_end : List Nat) (strip_spaces tabs_as_spaces : Bool) (tab_stops : List Int)
    (warn : Int) (ctl : Nat) : Except FANSI_error strwrap_ext_dat :=
  if byteAt pad_end 0 ≠ 0 ∧ (byteAt pad_end 0 < 0x20 ∨ byteAt pad_end 0 > 0x7e) then
    .error .pad_end_invalid
  else
    match (if strip_spaces then E.process x { len := 0, buff := 0 }
           else .ok (x, { len := 0, buff := 0 })) with
    | .error e => .error e
    | .ok (x, buff) =>
      match strwrap_ext_tabs K int_max x pre_sxp ini_sxp tabs_as_spaces tab_stops buff warn
          ctl with
      | .error e => .error e
      | .ok (x, pre_sxp, ini_sxp, buff) =>
        if indent < 0 ∨ exdent < 0 then .error .illegal_indent
        else
          match make_pre E int_max pre_sxp with
          | .error e => .error e
          | .ok pre_dat_raw =>
            match (if pre_sxp ≠ ini_sxp then make_pre E int_max ini_sxp
                   else .ok pre_dat_raw) with
            | .error e => .error e
            | .ok ini_dat_raw =>
              match pad_pre ini_dat_raw indent with
              | .error e => .error e
              | .ok ini_first_dat =>
                match (if ini_sxp ≠ pre_sxp then pad_pre pre_dat_raw indent
                       else .ok ini_first_dat) with
                | .error e => .error e
                | .ok pre_first_dat =>
                  match (if indent ≠ exdent then pad_pre pre_dat_raw exdent
                         else .ok pre_first_dat) with
                  | .error e => .error e
                  | .ok pre_next_dat =>
                    .ok { x := x, buff := buff, ini_first_dat := ini_first_dat,
                          pre_first_dat := pre_first_dat, pre_next_dat := pre_next_dat }

/-- The loop of `FANSI_strwrap_ext` that wraps each element (lines 653-678),
from element `i` on. An element of the result is `none` where the loop left
it untouched, for `NA_STRING`. -/
def strwrap_ext_elems (K : FANSI_ctl_masks) (int_max : Int) (width : Int)
    (ini_first_dat pre_first_dat pre_next_dat : FANSI_prefix_dat) (wrap_always : Bool)
    (pad_end : List Nat) (strip_spaces : Bool) (warn : Int) (first_only : Bool) (ctl : Nat) :
    List (Option CHARSXP) → Nat → FANSI_buff → Except FANSI_error (List (Option (List CHARSXP)))
  | [], _, _ => .ok []
  | none :: rest, i, buff =>
    match strwrap_ext_elems K int_max width ini_first_dat pre_first_dat pre_next_dat wrap_always
        pad_end strip_spaces warn first_only ctl rest (i + 1) buff with
    | .error e => .error e
    | .ok res => .ok (none :: res)
  | some chr :: rest, i, buff =>
    match FANSI_check_chrsxp int_max chr with
    | .error e => .error e
    | .ok _ =>
      match strwrap K int_max chr.chars width (if i ≠ 0 then pre_first_dat else ini_first_dat)
          pre_next_dat wrap_always buff pad_end strip_spaces warn first_only ctl with
      | .error e => .error e
      | .ok (str_i, buff) =>
        match strwrap_ext_elems K int_max width ini_first_dat pre_first_dat pre_next_dat
            wrap_always pad_end strip_spaces warn first_only ctl rest (i + 1) buff with
        | .error e => .error e
        | .ok res => .ok (some str_i :: res)

/-- `FANSI_strwrap_ext(x, width, indent, exdent, prefix, initial, wrap_always,
pad_end, strip_spaces, tabs_as_spaces, tab_stops, warn, term_cap, first_only,
ctl)`. The checks of the argument types are the typing of the arguments; the
result holds the lines of each element (one line in trim mode). -/
def FANSI_strwrap_ext (E : wrap_env) (K : FANSI_ctl_masks) (int_max : Int)
    (x : List (Option CHARSXP)) (width indent exdent : Int) (pre_sxp ini_sxp : CHARSXP)
    (wrap_always : Bool) (pad_end : List Nat) (strip_spaces tabs_as_spaces : Bool)
    (tab_stops : List Int) (warn : Int) (first_only : Bool) (ctl : Nat) :
    Except FANSI_error (List (Option (List CHARSXP))) :=
  match strwrap_ext_pre E K int_max x indent exdent pre_sxp ini_sxp pad_end strip_spaces
      tabs_as_spaces tab_stops warn ctl with
  | .error e => .error e
  | .ok d =>
    -- check that widths are feasible
    if wrap_always = true ∧ (d.ini_first_dat.width ≥ width ∨ d.pre_first_dat.width ≥ width ∨
        d.pre_next_dat.width ≥ width) then
      .error .width_error
    else
      strwrap_ext_elems K int_max width d.ini_first_dat d.pre_first_dat d.pre_next_dat
        wrap_always pad_end strip_spaces warn first_only ctl d.x 0 d.buff

/-! ## utils.c: the buffer struct in place, digits and control categories -/

/-- `FANSI_size_buff(buff, size)` as it acts on the struct in place: the struct
after the call, and the error when the call raises one. The assignments to
`buff->len` and `buff->buff` are made in the order of the source, so the
struct that is left behind by a call that raises is visible. -/
def FANSI_size_buff_inplace (int_max : Int) (buff : FANSI_buff) (size : Nat) :
    FANSI_buff × Option FANSI_error :=
  if size > buff.len then
    -- special case for the initial allocation
    let first : Nat × FANSI_buff × Option FANSI_error :=
      if buff.len = 0 then
        if size < 128 ∧ int_max > 128 then (128, buff, none)
        else if size > to_size_t int_max + 1 then (size, buff, some .buff_size_initial)
        else (size, { buff with len := size }, none)
      else (size, buff, none)
    match first with
    | (_, buff, some e) => (buff, some e)
    | (size, buff, none) =>
      -- more generic case
      let second : FANSI_buff × Option FANSI_error :=
        if size > buff.len then
          let tmp_double_size :=
            if buff.len > to_size_t (((to_size_t int_max : Int) + 1) - buff.len) then
              to_size_t int_max + 1
            else buff.len + buff.len
          let tmp_double_size := if size > tmp_double_size then size else tmp_double_size
          if tmp_double_size > to_size_t int_max + 1 then (buff, some .buff_size_max)
          else ({ buff with len := tmp_double_size }, none)
        else (buff, none)
      match second with
      | (buff, some e) => (buff, some e)
      | (buff, none) => ({ buff with buff := buff.buff + 1 }, none)
  else (buff, none)

/-- A sequence of calls of `FANSI_size_buff` on one buffer struct under a fixed
`FANSI_int_max`: the struct after the calls. A call that raises is abandoned
and the struct stays as that call left it. -/
def size_buff_seq (int_max : Int) (buff : FANSI_buff) : List Nat → FANSI_buff
  | [] => buff
  | n :: rest => size_buff_seq int_max (FANSI_size_buff_inplace int_max buff n).1 rest

/-- The value of a C `int` computation under two's-complement wrap-around. -/
def int_wrap (z : Int) : Int := (z + 2147483648) % 4294967296 - 2147483648

/-- The loop `while((x = (x / 10))) ++num;` of `FANSI_digits_in_int`. The
division of C truncates toward zero. -/
def digits_loop : Nat → Int → Int → Except FANSI_error Int
  | 0, _, _ => .error .fuel
  | fuel + 1, x, num =>
    if x.tdiv 10 ≠ 0 then digits_loop fuel (x.tdiv 10) (num + 1) else .ok num

/-- `FANSI_digits_in_int(x)`. The negation `-x` wraps for `INT_MIN`. The loop
runs under the iteration bound 32: an `int` has at most ten decimal digits. -/
def FANSI_digits_in_int (x : Int) : Except FANSI_error Int :=
  let num : Int := 1
  if x < 0 then digits_loop 32 (int_wrap (-x)) (num + 1) else digits_loop 32 x num

/-- The body of the loop of `FANSI_ctl_as_int` on the pair of `ctl_int` and
`flip_bits`. -/
def ctl_as_int_step (acc : Nat × Bool) (v : Int) : Except FANSI_error (Nat × Bool) :=
  let ctl_val := int_wrap (v - 2)
  if ctl_val > 4 then .error .ctl_value
  else if ctl_val < 0 then .ok (acc.1, true)
  else .ok (acc.1 ||| (1 <<< ctl_val.toNat), acc.2)

/-- The loop of `FANSI_ctl_as_int` over the elements of `ctl`. -/
def ctl_as_int_loop : List Int → Nat × Bool → Except FANSI_error (Nat × Bool)
  | [], acc => .ok acc
  | v :: rest, acc =>
    match ctl_as_int_step acc v with
    | .error e => .error e
    | .ok acc => ctl_as_int_loop rest acc

/-- `FANSI_ctl_as_int(ctl)`. The mask `FANSI_CTL_ALL` of the missing `fansi.h`
is the parameter `all`. -/
def FANSI_ctl_as_int (all : Nat) (ctl : List Int) : Except FANSI_error Nat :=
  match ctl_as_int_loop ctl (0, false) with
  | .error e => .error e
  | .ok (ctl_int, flip_bits) => .ok (if flip_bits then ctl_int ^^^ all else ctl_int)

/-- Modelled from the spec: the mask `FANSI_CTL_ALL` of the missing `fansi.h`,
the five category bits. -/
def FANSI_CTL_ALL : Nat := 31

/-! ## The tab-stop table as the specification words it -/

/-- The tab stop in force at position `j` of the table (from 0): once the
table is exhausted, the last value repeats indefinitely. -/
def tab_stop_at (tab_stops : List Int) (j : Nat) : Int :=
  tab_stops.getD (min j (tab_stops.length - 1)) 0

/-- The sum of the first `m` stops in force. -/
def stop_sum (tab_stops : List Int) : Nat → Int
  | 0 => 0
  | m + 1 => stop_sum tab_stops m + tab_stop_at tab_stops m

/-- The cumulative sequence of stops `stop_1, stop_1 + stop_2, ...`, indexed
from 0. -/
def cum_stop (tab_stops : List Int) (k : Nat) : Int := stop_sum tab_stops (k + 1)

/-- The largest tab stop as `FANSI_tabs_as_spaces` computes it, at least 1. -/
def max_stop (tab_stops : List Int) : Int :=
  tab_stops.foldl (fun m s => if s > m then s else m) 1

/-! ## The written line as the specification words it -/

/-- The line of `FANSI_writeline` part by part, in the order of the
specification, with `pre_bytes` bytes of the prefix string. -/
def writeline_parts (state_bound state_start : FANSI_state) (pre_dat : FANSI_prefix_dat)
    (pre_bytes : Int) (tar_width : Int) (pad_chr : List Nat) : List Nat :=
  (if FANSI_state_has_style state_start then FANSI_csi_write state_start else []) ++
  pre_dat.string.take pre_bytes.toNat ++
  (state_start.string.drop state_start.pos_byte).take
    (state_bound.pos_byte - state_start.pos_byte) ++
  (if byteAt pad_chr 0 ≠ 0 ∧ state_bound.pos_width - state_start.pos_width ≤ max 0 tar_width then
    List.replicate (max 0 tar_width - (state_bound.pos_width - state_start.pos_width)).toNat
      (byteAt pad_chr 0)
   else []) ++
  (if FANSI_state_has_style state_bound then [27, 91, 48, 109] else [])

/-- The visual width of a string as the cursor measures it with the control
categories `ctl` enabled: the width offset after as many steps as the string
has bytes, from offset 0. -/
def cursor_width (K : FANSI_ctl_masks) (ctl : Nat) (x : List Nat) : Int :=
  ((FANSI_read_next K)^[x.length] (FANSI_state_init_full x 0 ctl)).pos_width

/-! ## Invariants -/

/-- Invariant of the batch loop of `FANSI_tabs_as_spaces`: the result differs
from the input only at elements that have a tab, and it is the input itself
until the first tab is seen. -/
def tabs_inv (vec : List (Option CHARSXP)) (v : tabs_vars) : Prop :=
  v.duplicated = v.tabs_in_str ∧
  v.res_sxp.length = vec.length ∧
  (∀ j : Nat, v.res_sxp[j]? ≠ vec[j]? →
    ∃ chr : CHARSXP, vec[j]? = some (some chr) ∧ 0 < count_tabs chr.chars) ∧
  (v.tabs_in_str = false → v.res_sxp = vec) ∧
  (v.tabs_in_str = true → ∃ chr : CHARSXP, some chr ∈ vec ∧ 0 < count_tabs chr.chars)

/-! ## Strings used in the statements -/

/-- The empty prefix with no indent. -/
def empty_pre : FANSI_prefix_dat :=
  { string := [], width := 0, bytes := 0, indent := 0, has_utf8 := false, warn := 0 }

/-- The prefix `">"` followed by an indent of two spaces. -/
def quote_pre : FANSI_prefix_dat :=
  { string := [62, 32, 32], width := 3, bytes := 3, indent := 2, has_utf8 := false, warn := 0 }

/-- The bytes of `"The quick brown fox"`. -/
def quick_fox : List Nat :=
  [84, 104, 101, 32, 113, 117, 105, 99, 107, 32, 98, 114, 111, 119, 110, 32, 102, 111, 120]

/-- The bytes of `"The quick"`. -/
def the_quick : List Nat := [84, 104, 101, 32, 113, 117, 105, 99, 107]

/-- The bytes of `"brown fox"`. -/
def brown_fox : List Nat := [98, 114, 111, 119, 110, 32, 102, 111, 120]

/-- The UTF-8 bytes of U+6F22, a wide CJK character. -/
def wide_char : List Nat := [230, 188, 162]

/-- The lines of a result of `strwrap` as byte strings. -/
def lines_of (r : Except FANSI_error (List CHARSXP × FANSI_buff)) : Option (List (List Nat)) :=
  match r with
  | .ok (lines, _) => some (lines.map CHARSXP.chars)
  | .error _ => none

/-- A cursor over `x` at byte offset `pos_byte` and visual column `pos_width`,
with no active style. -/
def cursor_at (x : List Nat) (pos_byte : Nat) (pos_width : Int) : FANSI_state :=
  { FANSI_state_init_full x 1 0 with pos_byte := pos_byte, pos_width := pos_width }

/-- The bytes of `"\x1b[31mHELLO\x1b[0m"`. -/
def str_red_hello : List Nat := [27, 91, 51, 49, 109, 72, 69, 76, 76, 79, 27, 91, 48, 109]

/-! ## The reflow engine over printable ASCII: invariant and line property -/

/-- A string of printable ASCII bytes (`0x20 .. 0x7E`, the space included). -/
def printable (x : List Nat) : Prop := ∀ b ∈ x, 32 ≤ b ∧ b < 127

/-- Invariant of the loop of `strwrap` over a printable ASCII string `x`: the
cursors are on `x` with no style, the widths count the bytes since the line
start, the boundary lies between the line start and the cursor, no space was
passed while there is no boundary, and the cursor is within the budget once
there is a boundary or `wrap_always` is on. -/
structure wrap_inv (x : List Nat) (width_1 width_2 : Int) (wrap_always : Bool)
    (v : strwrap_vars) : Prop where
  s_string : v.state.string = x
  st_string : v.state_start.string = x
  b_string : v.state_bound.string = x
  s_style : v.state.style = []
  st_style : v.state_start.style = []
  b_style : v.state_bound.style = []
  st_width : v.state_start.pos_width = 0
  s_width : v.state.pos_width = (v.state.pos_byte : Int) - v.state_start.pos_byte
  b_width : v.state_bound.pos_width = (v.state_bound.pos_byte : Int) - v.state_start.pos_byte
  st_le_b : v.state_start.pos_byte ≤ v.state_bound.pos_byte
  b_le_s : v.state_bound.pos_byte ≤ v.state.pos_byte
  s_le : v.state.pos_byte ≤ x.length
  no_ws : v.has_boundary = false →
    ∀ i, v.state_start.pos_byte ≤ i → i < v.state.pos_byte → byteAt x i ≠ 32
  within : (v.has_boundary = true ∨ wrap_always = true) → v.state.pos_width ≤ v.width_tar
  tar : v.width_tar = if v.para_start then width_1 else width_2

/-- What holds of a line that `strwrap` emits for a printable ASCII string: it
is the prefix in force, a piece of the input, and padding; the content with
its padding is within the budget `width - pre.width`, unless `wrap_always` is
off and the content is free of spaces and wider than the budget. -/
def line_ok (x : List Nat) (width : Int) (pre_first pre_next : FANSI_prefix_dat)
    (wrap_always : Bool) (pad_chr : List Nat) (line : CHARSXP) : Prop :=
  ∃ (pre : FANSI_prefix_dat) (content : List Nat) (pad : Nat),
    (pre = pre_first ∨ pre = pre_next) ∧
    content <:+: x ∧
    line.chars =
      pre.string.take (if content = [] then pre.bytes - pre.indent else pre.bytes).toNat ++
        content ++ List.replicate pad (byteAt pad_chr 0) ∧
    ((content.length : Int) + pad ≤ width - pre.width ∨
      (wrap_always = false ∧ 32 ∉ content ∧ pad = 0 ∧ width - pre.width < content.length))

/-- A cursor on a printable string `x` that lies between the line start and
the current state and whose width counts the bytes since the line start. -/
def on_line (x : List Nat) (v : strwrap_vars) (b : FANSI_state) : Prop :=
  b.string = x ∧ b.style = [] ∧ v.state_start.pos_byte ≤ b.pos_byte ∧
    b.pos_byte ≤ v.state.pos_byte ∧
    b.pos_width = (b.pos_byte : Int) - v.state_start.pos_byte

/-- What the specification states of a line that `strwrap` emits: as
`line_ok`, but the content of a line that exceeds the budget is a token, which
is not empty. -/
def line_claimed (x : List Nat) (width : Int) (pre_first pre_next : FANSI_prefix_dat)
    (wrap_always : Bool) (pad_chr : List Nat) (line : CHARSXP) : Prop :=
  ∃ (pre : FANSI_prefix_dat) (content : List Nat) (pad : Nat),
    (pre = pre_first ∨ pre = pre_next) ∧
    content <:+: x ∧
    line.chars =
      pre.string.take (if content = [] then pre.bytes - pre.indent else pre.bytes).toNat ++
        content ++ List.replicate pad (byteAt pad_chr 0) ∧
    ((content.length : Int) + pad ≤ width - pre.width ∨
      (wrap_always = false ∧ content ≠ [] ∧ 32 ∉ content ∧ pad = 0 ∧
        width - pre.width < content.length))

/-- The prefix `"a b c"` with no indent. -/
def abc_pre : FANSI_prefix_dat :=
  { string := [97, 32, 98, 32, 99], width := 5, bytes := 5, indent := 0, has_utf8 := false,
    warn := 0 }

/-! ## The scan of `FANSI_find_esc` as the specification words it -/

/-- A byte that the scanner passes over: printable ASCII or high bit set. -/
def plain_byte (b : Nat) : Prop := (32 ≤ b ∧ b ≤ 126) ∨ 128 ≤ b

instance (b : Nat) : Decidable (plain_byte b) := by unfold plain_byte; infer_instance

/-- The offsets at which the body of the `while(*x_track)` loop of
`FANSI_find_esc` is entered: the bytes read into `x_val`, in order. -/
def find_esc_visits (K : FANSI_ctl_masks) (x : List Nat) (ctl : Nat) :
    Nat → Nat → find_esc_vars → List Nat
  | 0, _, _ => []
  | fuel + 1, i, v =>
    if byteAt x i = 0 then []
    else
      match find_esc_step K x ctl i v with
      | (true, _, _) => [i]
      | (false, j, w) => i :: find_esc_visits K x ctl fuel j w

/-- The offsets that a call `FANSI_find_esc(x, ctl)` examines before the scan
stops. -/
def find_esc_scanned (K : FANSI_ctl_masks) (x : List Nat) (ctl : Nat) : List Nat :=
  find_esc_visits K x ctl x.length 0
    { valid := true, found := false, found_ctl := 0, x_found_start := 0, x_found_end := 0 }

/-- Whether the sequence that the ESC at offset `i` introduces is terminated
by a final byte: for a CSI sequence the byte after its parameter bytes
(`0x30 .. 0x3F`) and intermediate bytes (`0x20 .. 0x2F`) is in `0x40 .. 0x7E`,
for another ESC sequence the byte after the ESC is. -/
def seq_valid_at (x : List Nat) (i : Nat) : Bool :=
  if byteAt x (i + 1) = 91 then
    let p := i + 2 + skip_range 0x30 0x3F (x.drop (i + 2))
    let q := p + skip_range 0x20 0x2F (x.drop p)
    decide (0x40 ≤ byteAt x q ∧ byteAt x q ≤ 0x7E)
  else decide (0x40 ≤ byteAt x (i + 1) ∧ byteAt x (i + 1) ≤ 0x7E)

/-- An invalid ESC or CSI sequence starts at offset `i`. -/
def invalid_esc_at (x : List Nat) (i : Nat) : Prop :=
  byteAt x i = 27 ∧ seq_valid_at x i = false

instance (x : List Nat) (i : Nat) : Decidable (invalid_esc_at x i) := by
  unfold invalid_esc_at
  infer_instance

/-- The number of intermediate bytes (`0x20 .. 0x2F`) of the CSI sequence that
the ESC at offset `i` introduces: the run after its parameter bytes
(`0x30 .. 0x3F`). -/
def csi_inters_at (x : List Nat) (i : Nat) : Nat :=
  skip_range 0x20 0x2F (x.drop (i + 2 + skip_range 0x30 0x3F (x.drop (i + 2))))

/-- The final position of the CSI sequence that the ESC at offset `i`
introduces: the byte after the parameter and intermediate bytes when that is a
final byte (`0x40 .. 0x7E`), and otherwise the byte after the further
parameter and intermediate bytes that the recovery consumes. -/
def csi_final_at (x : List Nat) (i : Nat) : Nat :=
  let p := i + 2 + skip_range 0x30 0x3F (x.drop (i + 2))
  let q := p + skip_range 0x20 0x2F (x.drop p)
  if 0x40 ≤ byteAt x q ∧ byteAt x q ≤ 0x7E then q
  else q + skip_range 0x20 0x3F (x.drop q)

/-- The classification of the specification: a CSI sequence is SGR when it has
no intermediate bytes and the byte at its final position is `m`. -/
def csi_is_sgr (x : List Nat) (i : Nat) : Bool :=
  decide (csi_inters_at x i = 0 ∧ byteAt x (csi_final_at x i) = 109)

/-- Whether the category of the CSI sequence at offset `i` is enabled. -/
def csi_enabled (K : FANSI_ctl_masks) (x : List Nat) (ctl : Nat) (i : Nat) : Bool :=
  if csi_is_sgr x i then decide (ctl &&& K.SGR ≠ 0) else decide (ctl &&& K.CSI ≠ 0)

/-- Whether the category of the control byte or sequence at offset `i` is
enabled in `ctl`: SGR or CSI-other for a CSI sequence, otherwise ESC,
newline or C0. -/
def ctl_enabled_at (K : FANSI_ctl_masks) (x : List Nat) (ctl : Nat) (i : Nat) : Bool :=
  if byteAt x i = 27 then
    if byteAt x (i + 1) = 91 then csi_enabled K x ctl i else decide (ctl &&& K.ESC ≠ 0)
  else if byteAt x i = 10 then decide (ctl &&& K.NL ≠ 0)
  else decide (ctl &&& K.C0 ≠ 0)

/-- The offset of `x_track` after the loop body read the control at offset
`i`, as the three step lemmas give it. -/
def ctl_next (x : List Nat) (i : Nat) : Nat :=
  if byteAt x i = 27 then
    if byteAt x (i + 1) = 91 then
      if byteAt x (csi_final_at x i) ≠ 0 ∧ byteAt x (csi_final_at x i) ≠ 27
      then csi_final_at x i + 1 else csi_final_at x i
    else if byteAt x (i + 1) ≠ 0 ∧ byteAt x (i + 1) ≠ 27 then i + 2 else i + 1
  else i + 1

/-- A well-formed control sequence of the category with mask `M`: a newline,
another C0 byte, `ESC` with a final byte, an SGR sequence `ESC [ P m`, or
another CSI sequence `ESC [ P I F`, with parameter bytes `P`, intermediate
bytes `I` and a final byte `F`. -/
def ctl_seq (K : FANSI_ctl_masks) (M : Nat) (s : List Nat) : Prop :=
  (s = [10] ∧ M = K.NL) ∨
  (∃ b, s = [b] ∧ ((1 ≤ b ∧ b ≤ 31) ∨ b = 127) ∧ b ≠ 10 ∧ b ≠ 27 ∧ M = K.C0) ∨
  (∃ F, s = [27, F] ∧ (0x40 ≤ F ∧ F ≤ 0x7E) ∧ F ≠ 91 ∧ M = K.ESC) ∨
  (∃ P, s = 27 :: 91 :: (P ++ [109]) ∧ (∀ b ∈ P, 0x30 ≤ b ∧ b ≤ 0x3F) ∧ M = K.SGR) ∨
  (∃ P I F, s = 27 :: 91 :: (P ++ I ++ [F]) ∧ (∀ b ∈ P, 0x30 ≤ b ∧ b ≤ 0x3F) ∧
    (∀ b ∈ I, 0x20 ≤ b ∧ b ≤ 0x2F) ∧ (0x40 ≤ F ∧ F ≤ 0x7E) ∧ ¬ (I = [] ∧ F = 109) ∧ M = K.CSI)

/-- Where a run of control sequences of enabled categories ends: at the end of
the string, before a plain byte, or before a well-formed control sequence of a
category that is not enabled. -/
def run_stops (K : FANSI_ctl_masks) (ctl : Nat) (R : List Nat) : Prop :=
  R = [] ∨ (∃ b rest, R = b :: rest ∧ plain_byte b) ∨
  (∃ s M rest, R = s ++ rest ∧ ctl_seq K M s ∧ ctl &&& M = 0)

/-- The bytes of `"\x1b[31m\x1b[1mX"`. -/
def str_red_bold_x : List Nat := [27, 91, 51, 49, 109, 27, 91, 49, 109, 88]

/-! ## The loop of `strwrap` line by line -/

/-- The variables of `strwrap` on entry of its `while(1)` loop. -/
def strwrap_start (x : List Nat) (warn : Int) (ctl : Nat) (width_1 : Int) (buff : FANSI_buff) :
    strwrap_vars :=
  { state := FANSI_state_init_full x warn ctl, state_start := FANSI_state_init_full x warn ctl,
    state_bound := FANSI_state_init_full x warn ctl,
    state_prev := FANSI_state_init_full x warn ctl,
    prev_boundary := false, has_boundary := false, para_start := true,
    first_line := true, last_start := 0, width_tar := width_1,
    char_list := [], buff := buff }

/-- Whether the iteration of the loop of `strwrap` that starts with the
variables `v` writes a line. -/
def strwrap_flushing (K : FANSI_ctl_masks) (wrap_always strip_spaces first_only : Bool)
    (v : strwrap_vars) : Bool :=
  strwrap_must_write wrap_always first_only v.width_tar (strwrap_detect K strip_spaces v)

/-- Whether the line that the iteration from `v` writes ends in a break at a
newline: `state.string[state.pos_byte] == '\n'` at line 454, for the state
after the overshoot back-off. -/
def strwrap_nl_break (K : FANSI_ctl_masks) (wrap_always strip_spaces first_only : Bool)
    (v : strwrap_vars) : Bool :=
  decide (byteAt
    (strwrap_line_end wrap_always first_only v (strwrap_detect K strip_spaces v)).1.string
    (strwrap_line_end wrap_always first_only v (strwrap_detect K strip_spaces v)).1.pos_byte = 10)

/-- The variables at the iterations of the loop of `strwrap` that write a
line, in order, from the variables `v` on. -/
def strwrap_flushes (K : FANSI_ctl_masks) (int_max : Int) (width_1 width_2 : Int)
    (pre_first pre_next : FANSI_prefix_dat) (wrap_always : Bool) (pad_chr : List Nat)
    (strip_spaces first_only : Bool) : Nat → strwrap_vars → List strwrap_vars
  | 0, _ => []
  | fuel + 1, v =>
    (if strwrap_flushing K wrap_always strip_spaces first_only v then [v] else []) ++
    match strwrap_step K int_max width_1 width_2 pre_first pre_next wrap_always pad_chr
        strip_spaces first_only v with
    | .ok (false, w) =>
      strwrap_flushes K int_max width_1 width_2 pre_first pre_next wrap_always pad_chr
        strip_spaces first_only fuel w
    | _ => []

/-- The bytes of `"\x1b[31mredredred text\x1b[0m"`. -/
def str_red_text : List Nat :=
  [27, 91, 51, 49, 109, 114, 101, 100, 114, 101, 100, 114, 101, 100, 32, 116, 101, 120, 116,
    27, 91, 48, 109]

/-- The bytes of `"aa bb\ncc dd"`. -/
def str_two_paras : List Nat := [97, 97, 32, 98, 98, 10, 99, 99, 32, 100, 100]

/-- The prefix `">"` with no indent. -/
def gt_pre : FANSI_prefix_dat :=
  { string := [62], width := 1, bytes := 1, indent := 0, has_utf8 := false, warn := 0 }

/-! ## An environment for the batch entry point -/

/-- The collaborators on plain ASCII strings without control sequences:
nothing is stripped, every byte is one column wide, and the preprocessing
leaves the input as it is. -/
def ascii_env : wrap_env :=
  { has_utf8 := fun x => x.any (fun b => decide (128 ≤ b)),
    strip := fun x => (x, false),
    nchar_width := fun x => some x.length,
    process := fun x buff => .ok (x, buff) }

/-- The string `"> "`. -/
def gt_sxp : CHARSXP := { chars := [62, 32], utf8 := false }

/-- The leading string `">   "`: the prefix `"> "` with an indent of 2. -/
def gt_indent_pre : FANSI_prefix_dat :=
  { string := [62, 32, 32, 32], width := 4, bytes := 4, indent := 2, has_utf8 := false,
    warn := 0 }

/-- The leading string `"> "`: the prefix `"> "` with no exdent. -/
def gt_exdent_pre : FANSI_prefix_dat :=
  { string := [62, 32], width := 2, bytes := 2, indent := 0, has_utf8 := false, warn := 0 }

/-! ## Strings and lines used in the statements about the reflow engine -/

/-- The bytes of `"\x1b[31m"`, a sequence of five bytes and no column. -/
def str_red_on : List Nat := [27, 91, 51, 49, 109]

/-- The slice of a string from the byte offset `s` up to but excluding the
byte offset `e`. -/
def slice (x : List Nat) (s e : Nat) : List Nat := (x.drop s).take (e - s)

/-- What is stated of a line of `strwrap` whose content is the slice of the
input from the byte offset `sp.1` up to `sp.2`: the line is the prefix string,
without its indent when the content has zero bytes, then the content, then
copies of the pad character, none when there is no pad character. -/
def line_of_span (x : List Nat) (pre : FANSI_prefix_dat) (pad_chr : List Nat) (line : CHARSXP)
    (sp : Nat × Nat) : Prop :=
  sp.1 ≤ sp.2 ∧ sp.2 ≤ x.length ∧
  ∃ pad : Nat, (byteAt pad_chr 0 = 0 → pad = 0) ∧
    line.chars =
      pre.string.take (if sp.2 = sp.1 then pre.bytes - pre.indent else pre.bytes).toNat ++
        slice x sp.1 sp.2 ++ List.replicate pad (byteAt pad_chr 0)

/-- What is stated of the contents `a` and `b` of two consecutive lines in
strip-spaces mode: the bytes of the input between the end of `a` and the start
of `b` are spaces, and the byte at the start of `b` is not a space. -/
def break_skipped (x : List Nat) (a b : Nat × Nat) : Prop :=
  a.2 ≤ b.1 ∧ (∀ j, a.2 ≤ j → j < b.1 → byteAt x j = 32) ∧ byteAt x b.1 ≠ 32

/-- The lines of `strwrap` and the slices of the input that are their
contents: the first line has the prefix `pre_first` and the later lines the
prefix `pre_next`, consecutive contents are separated by skipped spaces, and
the content of a later line does not start on a space. -/
structure spans_ok (x : List Nat) (pre_first pre_next : FANSI_prefix_dat) (pad_chr : List Nat)
    (lines : List CHARSXP) (spans : List (Nat × Nat)) : Prop where
  len : spans.length = lines.length
  line : ∀ (i : Nat) (l : CHARSXP) (sp : Nat × Nat), lines[i]? = some l → spans[i]? = some sp →
    line_of_span x (if i = 0 then pre_first else pre_next) pad_chr l sp
  chain : List.Chain' (break_skipped x) spans
  starts : ∀ (i : Nat) (sp : Nat × Nat), 1 ≤ i → spans[i]? = some sp → byteAt x sp.1 ≠ 32

/-- Invariant of the loop of `strwrap` in strip-spaces mode over a printable
string: the lines written so far are described by `spans`, the line under
construction starts after the spaces that follow the last line, only the
first line is the start of a paragraph, and in trim mode no line is written
yet. -/
structure strip_inv (x : List Nat) (pre_first pre_next : FANSI_prefix_dat) (pad_chr : List Nat)
    (first_only : Bool) (v : strwrap_vars) (spans : List (Nat × Nat)) : Prop where
  ok : spans_ok x pre_first pre_next pad_chr v.char_list spans
  trim : first_only = true → v.first_line = true
  last : ∀ sp ∈ spans.getLast?,
    break_skipped x sp (v.state_start.pos_byte, v.state_start.pos_byte)
  first : v.first_line = true → spans = [] ∧ v.para_start = true
  later : v.first_line = false → spans ≠ [] ∧ v.para_start = false

/-- The bytes of `"ab   cd"`. -/
def str_ab_cd : List Nat := [97, 98, 32, 32, 32, 99, 100]

/-- The bytes of `"ab cd ef"`. -/
def str_ab_cd_ef : List Nat := [97, 98, 32, 99, 100, 32, 101, 102]

/-! ## Invariants of the expansion loop and of the loop of `strwrap` -/

/-- Invariant of the `while(1)` loop of `FANSI_tabs_as_spaces` over the string
`x` with tabs of at most `M` spaces: the bytes up to `last_byte` are written
out, the cursor is at or beyond `last_byte`, its column is not negative, and
the output so far has at most `M - 1` bytes more than the input up to
`last_byte` for each tab among those bytes. -/
structure tabs_loop_inv (x : List Nat) (M : Int) (v : tabs_loop_vars) : Prop where
  string : v.state.string = x
  last_le : v.last_byte ≤ x.length
  last_pos : v.last_byte ≤ v.state.pos_byte
  width : 0 ≤ v.state.pos_width
  out : (v.out.length : Int) ≤ v.last_byte + ((x.take v.last_byte).count 9 : Nat) * (M - 1)

/-- What is stated of the expansion `out` of an element `chr` with tabs: it has
at most `M - 1` bytes more than `chr` for each tab, `M` being the largest tab
stop, and the buffer holds that many bytes and the terminator. -/
def tabs_expanded (tab_stops : List Int) (chr out : CHARSXP) (buff : FANSI_buff) : Prop :=
  (out.chars.length : Int) ≤
    chr.chars.length + (count_tabs chr.chars : Nat) * (max_stop tab_stops - 1) ∧
  (chr.chars.length : Int) + (count_tabs chr.chars : Nat) * (max_stop tab_stops - 1) + 1 ≤
    buff.len

/-- Invariant of the batch loop of `FANSI_tabs_as_spaces` before element `i`:
the largest stop is computed once the first tab is seen, and the elements with
tabs before `i` are expanded within the buffer. -/
structure tabs_batch_inv (vec : List (Option CHARSXP)) (tab_stops : List Int) (i : Nat)
    (v : tabs_vars) : Prop where
  len : v.res_sxp.length = vec.length
  stop : v.max_tab_stop = if v.tabs_in_str then max_stop tab_stops else 1
  fresh : v.tabs_in_str = false →
    ∀ (j : Nat) (chr : CHARSXP), j < i → vec[j]? = some (some chr) → count_tabs chr.chars = 0
  done : ∀ (j : Nat) (chr : CHARSXP), j < i → vec[j]? = some (some chr) →
    0 < count_tabs chr.chars →
    ∃ out, v.res_sxp[j]? = some (some out) ∧ tabs_expanded tab_stops chr out v.buff

/-- The bytes of `"aaaaaaaa\t"`: a tab at column 8. -/
def str_a8_tab : List Nat := [97, 97, 97, 97, 97, 97, 97, 97, 9]

/-- Invariant of the loop of `strwrap` over a printable string `x` that makes
every line start further on: the boundary is on a space, in strip-spaces mode
a space under the cursor that follows a boundary character has its boundary in
this line, a line after the first starts beyond the start of the line before
it, and the lines written so far are at most one for each start. -/
structure progress_inv (x : List Nat) (strip_spaces : Bool) (v : strwrap_vars) : Prop where
  bound_space : v.has_boundary = true → byteAt x v.state_bound.pos_byte = 32
  prev_space : strip_spaces = true → v.prev_boundary = true →
    v.has_boundary = true ∨ byteAt x v.state.pos_byte ≠ 32
  last : v.first_line = false → v.last_start < v.state_start.pos_byte
  none_yet : v.first_line = true → v.char_list = []
  count : v.first_line = false → v.char_list.length ≤ v.last_start + 1

/-- A bound of the number of iterations that the loop of `strwrap` is still to
make from `v`: a line start is followed by at most `length + 1` iterations
before the next one. -/
def wrap_potential (x : List Nat) (v : strwrap_vars) : Nat :=
  (x.length + 1 - v.state_start.pos_byte) * (x.length + 2) + (x.length + 1 - v.state.pos_byte)

/-- What the expansion loop keeps of the column of its cursor: the column is
at most the number of bytes written so far and of the bytes of the string
between `last_byte` and the cursor, which are still to be copied. -/
def tabs_col_ok (x : List Nat) (v : tabs_loop_vars) : Prop :=
  v.state.pos_width + v.last_byte ≤
    (v.out.length : Int) + (min v.state.pos_byte x.length : Nat)

/-! ## The reflow engine over every input: the width of a line -/

/-- The cursor after `n` steps of `FANSI_read_next` from `s`. -/
def read_steps (K : FANSI_ctl_masks) (s : FANSI_state) : Nat → FANSI_state
  | 0 => s
  | n + 1 => FANSI_read_next K (read_steps K s n)

/-- Whether a well-formed UTF-8 sequence of a code point wider than one column
starts at the byte offset `p` of the string. -/
def wide_at (x : List Nat) (p : Nat) : Bool :=
  let b := byteAt x p
  let n := utf8_len b
  let cont := (x.drop (p + 1)).take (n - 1)
  decide (128 ≤ b ∧ n ≠ 0 ∧ cont.length = n - 1 ∧
    cont.all (fun c => decide (0x80 ≤ c ∧ c ≤ 0xBF)) = true ∧ 1 < cp_width (utf8_decode b cont))

/-- A string without a character wider than one column. -/
def no_wide (x : List Nat) : Prop := ∀ p, p < x.length → wide_at x p = false

/-- What is stated of the content of a line that exceeds its budget: it is a
token. From the cursor `start` at the line start up to the byte offset `e`, no
unit that the cursor reads is a space, a tab or a newline. -/
def token_span (K : FANSI_ctl_masks) (start : FANSI_state) (e : Nat) : Prop :=
  ∀ n, (read_steps K start n).pos_byte < e →
    byteAt start.string (read_steps K start n).pos_byte ≠ 32 ∧
    byteAt start.string (read_steps K start n).pos_byte ≠ 9 ∧
    byteAt start.string (read_steps K start n).pos_byte ≠ 10

/-- What is stated of a line `l` that `strwrap` emits for the input `x`:
`FANSI_writeline` wrote it for the prefix in force and the content that the
cursor reads in `n` steps from a line start `st` of column 0, with the budget
`width - pre.width`. When `first_only` is off no unit of the content is a
newline, so that the column of the cursor at the end of the content is the
sum of the widths of its units. The visual width of the line, which is the
width of the prefix, the columns of the content and the padding, is at most
`width`; unless `wrap_always` is off and the content is a token, or nothing at
all, wider than the budget. -/
def line_within (K : FANSI_ctl_masks) (int_max : Int) (x : List Nat) (width : Int)
    (pre_first pre_next : FANSI_prefix_dat) (wrap_always first_only : Bool) (pad_chr : List Nat)
    (l : CHARSXP) : Prop :=
  ∃ (pre : FANSI_prefix_dat) (st : FANSI_state) (n : Nat) (buff0 buff1 : FANSI_buff),
    (pre = pre_first ∨ pre = pre_next) ∧ st.string = x ∧ st.pos_width = 0 ∧
    FANSI_writeline int_max (read_steps K st n) st buff0 pre (width - pre.width) pad_chr =
      .ok (l, buff1) ∧
    (first_only = false → ∀ i, (read_steps K st i).pos_byte < (read_steps K st n).pos_byte →
      byteAt x (read_steps K st i).pos_byte ≠ 10) ∧
    (pre.width + (read_steps K st n).pos_width +
        writeline_pad (read_steps K st n) st (width - pre.width) pad_chr ≤ width ∨
      (wrap_always = false ∧ token_span K st (read_steps K st n).pos_byte ∧
        width - pre.width < (read_steps K st n).pos_width))

/-- Invariant of the loop of `strwrap` over a string `x` without a character
wider than one column: the line start is at column 0; the state is reached
from the line start by steps of the cursor, over no space, tab or newline
while there is no boundary; the boundary is reached likewise and is the line
start while there is none; the state is within the budget once there is a
boundary or `wrap_always` is on, and so is the boundary; and when spaces are
kept the state is past the boundary character. -/
structure width_inv (K : FANSI_ctl_masks) (x : List Nat) (width_1 width_2 : Int)
    (wrap_always strip_spaces : Bool) (v : strwrap_vars) : Prop where
  st_string : v.state_start.string = x
  st_width : v.state_start.pos_width = 0
  s_steps : ∃ k, v.state = read_steps K v.state_start k ∧
    (v.has_boundary = false → ∀ i, i < k →
      byteAt x (read_steps K v.state_start i).pos_byte ≠ 32 ∧
      byteAt x (read_steps K v.state_start i).pos_byte ≠ 9 ∧
      byteAt x (read_steps K v.state_start i).pos_byte ≠ 10)
  b_steps : ∃ j, v.state_bound = read_steps K v.state_start j
  b_stale : v.has_boundary = false → v.state_bound = v.state_start
  b_warn : v.state_bound.warn = v.state.warn
  within : (v.has_boundary = true ∨ wrap_always = true) → v.state.pos_width ≤ v.width_tar
  b_within : v.has_boundary = true → v.state_bound.pos_width ≤ v.width_tar
  b_next : strip_spaces = false → v.has_boundary = true →
    (FANSI_read_next K v.state_bound).pos_width ≤ v.state.pos_width
  tar : v.width_tar = if v.para_start then width_1 else width_2

/-- Invariant of the loop of `strwrap` on the byte offsets: the boundary is not
past the state, and when `first_only` is off no unit that the cursor reads
between the line start and the state is a newline. -/
structure span_inv (K : FANSI_ctl_masks) (x : List Nat) (first_only : Bool)
    (v : strwrap_vars) : Prop where
  b_le : v.state_bound.pos_byte ≤ v.state.pos_byte
  no_nl : first_only = false →
    ∀ i, (read_steps K v.state_start i).pos_byte < v.state.pos_byte →
      byteAt x (read_steps K v.state_start i).pos_byte ≠ 10

/-! ## Theorems -/

/-- C1: scanning `ESC[31mHELLO ESC[0m` with only the SGR category enabled gives
a valid match at offset 0 of length 5; scanning again from the byte after that
match gives a valid match at offset 5 (after `HELLO`) of length 4; with only
CSI-other enabled the scan gives the zero-length no-match result. This holds
for any masks in which SGR is a non-zero flag that shares no bit with
CSI-other. -/
theorem find_esc_red_hello (K : FANSI_ctl_masks) (hS : K.SGR ≠ 0) (hSC : K.CSI &&& K.SGR = 0) :
    (FANSI_find_esc K str_red_hello K.SGR).valid = true ∧
    (FANSI_find_esc K str_red_hello K.SGR).start = 0 ∧
    (FANSI_find_esc K str_red_hello K.SGR).len = 5 ∧
    (FANSI_find_esc K (str_red_hello.drop 5) K.SGR).valid = true ∧
    (FANSI_find_esc K (str_red_hello.drop 5) K.SGR).start = 5 ∧
    (FANSI_find_esc K (str_red_hello.drop 5) K.SGR).len = 4 ∧
    (FANSI_find_esc K str_red_hello K.CSI).start = 0 ∧
    (FANSI_find_esc K str_red_hello K.CSI).len = 0 := by
  simp [FANSI_find_esc, find_esc_loop, find_esc_step, str_red_hello, byteAt, skip_range,
    find_esc_result, hS, hSC]

/-- Witness of C1 at the masks of the package. -/
theorem find_esc_red_hello_witness :
    FANSI_CTL.SGR ≠ 0 ∧ FANSI_CTL.CSI &&& FANSI_CTL.SGR = 0 ∧
    (FANSI_find_esc FANSI_CTL str_red_hello FANSI_CTL.SGR).len = 5 ∧
    (FANSI_find_esc FANSI_CTL (str_red_hello.drop 5) FANSI_CTL.SGR).len = 4 ∧
    (FANSI_find_esc FANSI_CTL str_red_hello FANSI_CTL.CSI).len = 0 :=
  have h := find_esc_red_hello FANSI_CTL (by decide) (by decide)
  ⟨by decide, by decide, h.2.2.1, h.2.2.2.2.2.1, h.2.2.2.2.2.2.2⟩

/-- A byte at or past the end of a string reads as the terminator. -/
theorem byteAt_of_le (x : List Nat) (i : Nat) (h : x.length ≤ i) : byteAt x i = 0 := by
  unfold byteAt
  simp [List.getD, List.getElem?_eq_none h]

/-- The body of the loop of `FANSI_find_esc` advances `x_track`. -/
theorem find_esc_step_advances (K : FANSI_ctl_masks) (x : List Nat) (ctl : Nat) (i : Nat)
    (v : find_esc_vars) : i < (find_esc_step K x ctl i v).2.1 := by
  unfold find_esc_step
  simp only []
  split_ifs <;> simp only [] <;> omega

/-- More fuel than `x.length - i` changes nothing: the loop of `FANSI_find_esc`
is over before the fuel is. -/
theorem find_esc_loop_fuel (K : FANSI_ctl_masks) (x : List Nat) (ctl : Nat) :
    ∀ (fuel i : Nat) (v : find_esc_vars), x.length ≤ i + fuel →
      find_esc_loop K x ctl (fuel + 1) i v = find_esc_loop K x ctl fuel i v := by
  intro fuel
  induction fuel with
  | zero =>
    intro i v h
    have h0 := byteAt_of_le x i (by omega)
    simp [find_esc_loop, h0]
  | succ n ih =>
    intro i v h
    rw [find_esc_loop.eq_2 K x ctl i v (n + 1), find_esc_loop.eq_2 K x ctl i v n]
    split
    · rfl
    · have hadv := find_esc_step_advances K x ctl i v
      rcases hstep : find_esc_step K x ctl i v with ⟨brk, j, w⟩
      rw [hstep] at hadv
      cases brk
      · exact ih j w (by simp only [] at hadv; omega)
      · rfl

/-! ### The tab expander -/

theorem tab_stop_at_pos (tab_stops : List Int) (hne : tab_stops ≠ [])
    (hpos : ∀ s ∈ tab_stops, 1 ≤ s) (j : Nat) : 1 ≤ tab_stop_at tab_stops j := by
  unfold tab_stop_at
  have hlen : 0 < tab_stops.length := List.length_pos.mpr hne
  have hlt : min j (tab_stops.length - 1) < tab_stops.length := by omega
  rw [List.getD_eq_getElem _ _ hlt]
  exact hpos _ (List.getElem_mem _)

theorem stop_sum_ge (tab_stops : List Int) (hne : tab_stops ≠ [])
    (hpos : ∀ s ∈ tab_stops, 1 ≤ s) (m : Nat) : (m : Int) ≤ stop_sum tab_stops m := by
  induction m with
  | zero => simp [stop_sum]
  | succ m ih =>
    have := tab_stop_at_pos tab_stops hne hpos m
    simp only [stop_sum]
    push_cast
    omega

theorem stop_sum_mono (tab_stops : List Int) (hne : tab_stops ≠ [])
    (hpos : ∀ s ∈ tab_stops, 1 ≤ s) (m d : Nat) :
    stop_sum tab_stops m ≤ stop_sum tab_stops (m + d) := by
  induction d with
  | zero => simp
  | succ d ih =>
    have := tab_stop_at_pos tab_stops hne hpos (m + d)
    rw [← Nat.add_assoc]
    simp only [stop_sum]
    omega

theorem tab_width_loop_spec (int_max c : Int) (tab_stops : List Int) (hne : tab_stops ≠ [])
    (hpos : ∀ s ∈ tab_stops, 1 ≤ s) (n : Nat)
    (hle : ∀ j, j < n → stop_sum tab_stops j ≤ c) (hgt : c < stop_sum tab_stops n)
    (hov : stop_sum tab_stops n ≤ int_max) :
    ∀ (d m fuel : Nat), m + d = n → d ≤ fuel →
      tab_width_loop int_max c tab_stops fuel (stop_sum tab_stops m)
        (min m (tab_stops.length - 1)) = .ok (stop_sum tab_stops n) := by
  intro d
  induction d with
  | zero =>
    intro m fuel hm _
    simp only [Nat.add_zero] at hm
    subst hm
    unfold tab_width_loop
    have : ¬ (c ≥ stop_sum tab_stops m) := by omega
    simp [this]
  | succ d ih =>
    intro m fuel hm hfuel
    obtain ⟨fuel, rfl⟩ : ∃ f, fuel = f + 1 := ⟨fuel - 1, by omega⟩
    have h1 : stop_sum tab_stops m ≤ c := hle m (by omega)
    have hstop := tab_stop_at_pos tab_stops hne hpos m
    have hmono := stop_sum_mono tab_stops hne hpos (m + 1) d
    have hn : m + 1 + d = n := by omega
    rw [hn] at hmono
    have hs : stop_sum tab_stops (m + 1) = stop_sum tab_stops m + tab_stop_at tab_stops m := rfl
    have hlen : 0 < tab_stops.length := List.length_pos.mpr hne
    unfold tab_width_loop
    have hge : c ≥ stop_sum tab_stops m := h1
    have hget : tab_stops.getD (min m (tab_stops.length - 1)) 0 = tab_stop_at tab_stops m := rfl
    simp only [hge, if_true, hget]
    have h2 : ¬ (tab_stop_at tab_stops m < 1) := by omega
    have h3 : ¬ (stop_sum tab_stops m > int_max - tab_stop_at tab_stops m) := by omega
    simp only [h2, h3, if_false]
    have hidx : (if min m (tab_stops.length - 1) + 1 < tab_stops.length
        then min m (tab_stops.length - 1) + 1 else min m (tab_stops.length - 1)) =
        min (m + 1) (tab_stops.length - 1) := by
      split <;> omega
    rw [hidx, ← hs]
    exact ih (m + 1) fuel hn (by omega)

/-- C2: for a non-empty table of tab stops that are all at least 1 and a
cursor on a tab byte at visual column `c ≥ 0`, there is a smallest element `S`
greater than `c` in the cumulative sequence of stops, the last stop repeating
once the table is exhausted; unless `S` overflows `FANSI_int_max`,
`FANSI_tab_width` returns `S - c`. -/
theorem tab_width_spec (int_max : Int) (state : FANSI_state) (tab_stops : List Int)
    (hne : tab_stops ≠ []) (hpos : ∀ s ∈ tab_stops, 1 ≤ s)
    (htab : byteAt state.string state.pos_byte = 9) (hc : 0 ≤ state.pos_width) :
    ∃ k, state.pos_width < cum_stop tab_stops k ∧
      (∀ j, state.pos_width < cum_stop tab_stops j → cum_stop tab_stops k ≤ cum_stop tab_stops j) ∧
      (cum_stop tab_stops k ≤ int_max →
        FANSI_tab_width int_max state tab_stops =
          .ok (cum_stop tab_stops k - state.pos_width)) := by
  have hex : ∃ k, state.pos_width < cum_stop tab_stops k := by
    refine ⟨state.pos_width.toNat, ?_⟩
    have := stop_sum_ge tab_stops hne hpos (state.pos_width.toNat + 1)
    unfold cum_stop
    push_cast at this
    omega
  classical
  refine ⟨Nat.find hex, Nat.find_spec hex, ?_, ?_⟩
  · intro j hj
    have hkj : Nat.find hex ≤ j := Nat.find_min' hex hj
    have := stop_sum_mono tab_stops hne hpos (Nat.find hex + 1) (j - Nat.find hex)
    have he : Nat.find hex + 1 + (j - Nat.find hex) = j + 1 := by omega
    rw [he] at this
    exact this
  · intro hov
    have hk := Nat.find_spec hex
    have hmin : ∀ j, j < Nat.find hex → cum_stop tab_stops j ≤ state.pos_width := by
      intro j hj
      have := Nat.find_min hex hj
      omega
    set k := Nat.find hex with hkdef
    have hle : ∀ j, j < k + 1 → stop_sum tab_stops j ≤ state.pos_width := by
      intro j hj
      cases j with
      | zero => simpa [stop_sum] using hc
      | succ j => exact hmin j (by omega)
    have hkc : (k : Int) ≤ state.pos_width := by
      have := stop_sum_ge tab_stops hne hpos k
      have := hle k (by omega)
      omega
    have hloop := tab_width_loop_spec int_max state.pos_width tab_stops hne hpos (k + 1) hle hk hov
      (k + 1) 0 (state.pos_width + 1).toNat (by omega) (by omega)
    have hlen : tab_stops.length ≠ 0 := by
      intro h
      exact hne (List.length_eq_zero.mp h)
    unfold FANSI_tab_width
    simp only [hlen, if_false, htab, ne_eq, not_true_eq_false]
    simp only [stop_sum, Nat.zero_min] at hloop
    rw [hloop]
    rfl

/-- Witness of C2: at column 5 with the stops 4, 2 the cumulative stops are 4,
6, 8, ... and the tab is 1 wide. -/
theorem tab_width_spec_witness :
    FANSI_tab_width INT_MAX (cursor_at [97, 98, 99, 100, 101, 9] 5 5) [4, 2] = .ok 1 ∧
    ∃ k, (cursor_at [97, 98, 99, 100, 101, 9] 5 5).pos_width < cum_stop [4, 2] k ∧
      (∀ j, (cursor_at [97, 98, 99, 100, 101, 9] 5 5).pos_width < cum_stop [4, 2] j →
        cum_stop [4, 2] k ≤ cum_stop [4, 2] j) ∧
      (cum_stop [4, 2] k ≤ INT_MAX →
        FANSI_tab_width INT_MAX (cursor_at [97, 98, 99, 100, 101, 9] 5 5) [4, 2] =
          .ok (cum_stop [4, 2] k - (cursor_at [97, 98, 99, 100, 101, 9] 5 5).pos_width)) :=
  ⟨by decide,
   tab_width_spec INT_MAX (cursor_at [97, 98, 99, 100, 101, 9] 5 5) [4, 2]
     (by decide) (by decide) (by decide) (by decide)⟩

/-- C3: `FANSI_tabs_as_spaces` applied to the one-element batch `["a\tb"]` with
the tab stops `[4]` and a fresh buffer returns `["a   b"]`: the tab is replaced
by exactly three spaces. This holds for all control masks, warning policies
and enabled categories. -/
theorem tabs_as_spaces_a_tab_b (K : FANSI_ctl_masks) (warn : Int) (ctl : Nat) :
    FANSI_tabs_as_spaces K INT_MAX [some ⟨[97, 9, 98], false⟩] [4] ⟨0, 0⟩ warn ctl =
      .ok { tabs_in_str := true, max_tab_stop := 4,
            res_sxp := [some ⟨[97, 32, 32, 32, 98], false⟩],
            duplicated := true, buff := ⟨128, 1⟩ } := by
  simp [FANSI_tabs_as_spaces, tabs_elems, tabs_elem, FANSI_check_chrsxp, count_tabs, INT_MAX,
    tabs_buff_size, to_size_t, SIZE_MOD, FANSI_size_buff, FANSI_state_init_full, tabs_loop,
    tabs_step, byteAt, FANSI_read_next, FANSI_tab_width, tab_width_loop, FANSI_inc_width, FANSI_add_int,
    INT_MIN, FANSI_check_chr_size, FANSI_reset_width]

/-- C4, the code at the failing input: for the batch `["a\t\tb"]` with the tab
stops `[4]` the result is `"a   \tb"`. The first tab is replaced by three
spaces; the tab that immediately follows it is read past by the
`FANSI_read_next` at the end of the loop body and copied through as a tab
byte. -/
theorem tabs_as_spaces_adjacent_tabs (K : FANSI_ctl_masks) (warn : Int) (ctl : Nat) :
    FANSI_tabs_as_spaces K INT_MAX [some ⟨[97, 9, 9, 98], false⟩] [4] ⟨0, 0⟩ warn ctl =
      .ok { tabs_in_str := true, max_tab_stop := 4,
            res_sxp := [some ⟨[97, 32, 32, 32, 9, 98], false⟩],
            duplicated := true, buff := ⟨128, 1⟩ } := by
  simp [FANSI_tabs_as_spaces, tabs_elems, tabs_elem, FANSI_check_chrsxp, count_tabs, INT_MAX,
    tabs_buff_size, to_size_t, SIZE_MOD, FANSI_size_buff, FANSI_state_init_full, tabs_loop,
    tabs_step, byteAt, FANSI_read_next, FANSI_tab_width, tab_width_loop, FANSI_inc_width, FANSI_add_int,
    INT_MIN, FANSI_check_chr_size, FANSI_reset_width]

theorem count_tabs_pos_mem (x : List Nat) (h : 0 < count_tabs x) : 9 ∈ x := by
  induction x with
  | nil => simp [count_tabs] at h
  | cons b rest ih =>
    unfold count_tabs at h
    by_cases h0 : b = 0
    · simp [h0] at h
    · by_cases h9 : b = 9
      · simp [h9]
      · simp only [h0, h9, if_false] at h
        exact List.mem_cons_of_mem _ (ih h)

theorem count_tabs_eq_zero (x : List Nat) (h : 9 ∉ x) : count_tabs x = 0 := by
  by_contra hne
  exact h (count_tabs_pos_mem x (by omega))

/-- What one element does to the variables of the batch loop. -/
theorem tabs_elem_spec (K : FANSI_ctl_masks) (int_max : Int) (vec : List (Option CHARSXP))
    (tab_stops : List Int) (warn : Int) (ctl : Nat) (i : Nat) (chr : CHARSXP)
    (v w : tabs_vars) (hinv : v.duplicated = v.tabs_in_str)
    (h : tabs_elem K int_max vec tab_stops warn ctl i chr v = .ok w) :
    w.duplicated = w.tabs_in_str ∧
    (count_tabs chr.chars = 0 → w = v) ∧
    (0 < count_tabs chr.chars → w.tabs_in_str = true ∧
      ∃ c, w.res_sxp = (if v.tabs_in_str = false then vec else v.res_sxp).set i c) := by
  unfold tabs_elem at h
  split at h
  · exact absurd h (by simp)
  · by_cases ht : 0 < count_tabs chr.chars
    · simp only [ht, true_and, if_true] at h
      split at h
      · exact absurd h (by simp)
      · split at h
        · exact absurd h (by simp)
        · split at h
          · exact absurd h (by simp)
          · split at h
            · exact absurd h (by simp)
            · simp only [Except.ok.injEq] at h
              subst h
              by_cases hv : v.tabs_in_str = false
              · simp [hv]
                omega
              · simp only [hv, if_false]
                simp only [Bool.not_eq_false] at hv
                exact ⟨hinv, fun h0 => by omega, fun _ => ⟨hv, _, rfl⟩⟩
    · have h0 : count_tabs chr.chars = 0 := by omega
      simp only [h0, Nat.lt_irrefl, false_and, if_false, Except.ok.injEq] at h
      subst h
      exact ⟨hinv, fun _ => rfl, fun h => absurd h (by omega)⟩

theorem tabs_elems_spec (K : FANSI_ctl_masks) (int_max : Int) (vec : List (Option CHARSXP))
    (tab_stops : List Int) (warn : Int) (ctl : Nat) :
    ∀ (rest : List (Option CHARSXP)) (i : Nat) (v w : tabs_vars),
      (∀ k : Nat, k < rest.length → rest[k]? = vec[i + k]?) → tabs_inv vec v →
      tabs_elems K int_max vec tab_stops warn ctl rest i v = .ok w → tabs_inv vec w := by
  intro rest
  induction rest with
  | nil =>
    intro i v w _ hv h
    simp only [tabs_elems, Except.ok.injEq] at h
    subst h
    exact hv
  | cons e rest ih =>
    intro i v w hrest hv h
    have hrest' : ∀ k : Nat, k < rest.length → rest[k]? = vec[i + 1 + k]? := by
      intro k hk
      have := hrest (k + 1) (by simp; omega)
      simp only [List.getElem?_cons_succ] at this
      rw [this]
      congr 1
      omega
    cases e with
    | none =>
      simp only [tabs_elems] at h
      exact ih (i + 1) v w hrest' hv h
    | some chr =>
      simp only [tabs_elems] at h
      split at h
      · exact absurd h (by simp)
      · rename_i v1 hv1
        refine ih (i + 1) v1 w hrest' ?_ h
        have hi : vec[i]? = some (some chr) := by
          have := hrest 0 (by simp)
          simpa using this.symm
        obtain ⟨hd, hlen, hdiff, hsame, hsome⟩ := hv
        obtain ⟨hd1, hz, hp⟩ := tabs_elem_spec K int_max vec tab_stops warn ctl i chr v v1 hd hv1
        by_cases ht : 0 < count_tabs chr.chars
        · obtain ⟨htabs, c, hres⟩ := hp ht
          refine ⟨hd1, ?_, ?_, ?_, fun _ => ⟨chr, List.getElem?_mem hi, ht⟩⟩
          · rw [hres]
            split <;> simp [hlen]
          · intro j hj
            by_cases hji : j = i
            · subst hji
              exact ⟨chr, hi, ht⟩
            · rw [hres, List.getElem?_set_ne (Ne.symm hji)] at hj
              split at hj
              · exact absurd rfl hj
              · exact hdiff j hj
          · intro hf
            rw [htabs] at hf
            exact absurd hf (by simp)
        · have := hz (by omega)
          subst this
          exact ⟨hd, hlen, hdiff, hsame, hsome⟩

theorem tabs_elems_no_tab (K : FANSI_ctl_masks) (int_max : Int) (vec : List (Option CHARSXP))
    (tab_stops : List Int) (warn : Int) (ctl : Nat) :
    ∀ (rest : List (Option CHARSXP)) (i : Nat) (v : tabs_vars),
      (∀ chr : CHARSXP, some chr ∈ rest → 9 ∉ chr.chars ∧ (chr.chars.length : Int) ≤ int_max) →
      tabs_elems K int_max vec tab_stops warn ctl rest i v = .ok v := by
  intro rest
  induction rest with
  | nil => intro i v _; rfl
  | cons e rest ih =>
    intro i v hall
    have hall' : ∀ chr : CHARSXP, some chr ∈ rest → 9 ∉ chr.chars ∧ (chr.chars.length : Int) ≤ int_max :=
      fun chr hc => hall chr (List.mem_cons_of_mem _ hc)
    cases e with
    | none => simpa only [tabs_elems] using ih (i + 1) v hall'
    | some chr =>
      obtain ⟨h9, hlen⟩ := hall chr (List.mem_cons_self _ _)
      have h0 := count_tabs_eq_zero chr.chars h9
      have hel : tabs_elem K int_max vec tab_stops warn ctl i chr v = .ok v := by
        unfold tabs_elem FANSI_check_chrsxp
        have : ¬ ((chr.chars.length : Int) > int_max) := by omega
        simp [this, h0]
      simp only [tabs_elems, hel]
      exact ih (i + 1) v hall'

/-- C5: for every batch, if `FANSI_tabs_as_spaces` returns, the result has the
length of the input and each element whose input element contains no tab byte
is equal to that input element; when no element contains a tab, the result is
the input vector itself and no copy is made (`duplicated = false`). Moreover,
when no element contains a tab and every string passes the size check on
entry, the call does return, with the input vector and the buffer untouched. -/
theorem tabs_as_spaces_untouched (K : FANSI_ctl_masks) (int_max : Int)
    (vec : List (Option CHARSXP)) (tab_stops : List Int) (buff : FANSI_buff) (warn : Int)
    (ctl : Nat) :
    (∀ r, FANSI_tabs_as_spaces K int_max vec tab_stops buff warn ctl = .ok r →
      r.res_sxp.length = vec.length ∧
      (∀ i : Nat, (∀ chr : CHARSXP, vec[i]? = some (some chr) → 9 ∉ chr.chars) →
        r.res_sxp[i]? = vec[i]?) ∧
      ((∀ chr : CHARSXP, some chr ∈ vec → 9 ∉ chr.chars) →
        r.duplicated = false ∧ r.res_sxp = vec)) ∧
    ((∀ chr : CHARSXP, some chr ∈ vec → 9 ∉ chr.chars ∧ (chr.chars.length : Int) ≤ int_max) →
      FANSI_tabs_as_spaces K int_max vec tab_stops buff warn ctl =
        .ok { tabs_in_str := false, max_tab_stop := 1, res_sxp := vec, duplicated := false,
              buff := buff }) := by
  constructor
  · intro r hr
    unfold FANSI_tabs_as_spaces at hr
    have hinv := tabs_elems_spec K int_max vec tab_stops warn ctl vec 0 _ r
      (fun k _ => by simp) ⟨rfl, rfl, fun j hj => absurd rfl hj, fun _ => rfl,
        fun h => absurd h (by simp)⟩ hr
    obtain ⟨hd, hlen, hdiff, hsame, hsome⟩ := hinv
    refine ⟨hlen, ?_, ?_⟩
    · intro i hi
      by_contra hne
      obtain ⟨chr, hchr, ht⟩ := hdiff i hne
      exact hi chr hchr (count_tabs_pos_mem _ ht)
    · intro hall
      have hres : r.res_sxp = vec := by
        apply List.ext_getElem? 
        intro i
        by_contra hne
        obtain ⟨chr, hchr, ht⟩ := hdiff i hne
        exact hall chr (List.getElem?_mem hchr) (count_tabs_pos_mem _ ht)
      refine ⟨?_, hres⟩
      rw [hd]
      by_contra hne
      simp only [Bool.not_eq_false] at hne
      obtain ⟨chr, hchr, ht⟩ := hsome hne
      exact hall chr hchr (count_tabs_pos_mem _ ht)
  · intro hall
    unfold FANSI_tabs_as_spaces
    exact tabs_elems_no_tab K int_max vec tab_stops warn ctl vec 0 _ hall

/-- Witness of C5: in the batch `["ab", NA, "a\tb"]` the first two elements come
back unchanged, and the batch `["ab", NA]` comes back as the input itself. -/
theorem tabs_as_spaces_untouched_witness :
    (∀ r, FANSI_tabs_as_spaces FANSI_CTL INT_MAX
          [some ⟨[97, 98], false⟩, none, some ⟨[97, 9, 98], false⟩] [4] ⟨0, 0⟩ 1 31 = .ok r →
        r.res_sxp[0]? = some (some ⟨[97, 98], false⟩) ∧ r.res_sxp[1]? = some none) ∧
    FANSI_tabs_as_spaces FANSI_CTL INT_MAX [some ⟨[97, 98], false⟩, none] [4] ⟨0, 0⟩ 1 31 =
      .ok { tabs_in_str := false, max_tab_stop := 1,
            res_sxp := [some ⟨[97, 98], false⟩, none], duplicated := false, buff := ⟨0, 0⟩ } :=
  ⟨fun r hr =>
    have h := (tabs_as_spaces_untouched FANSI_CTL INT_MAX
      [some ⟨[97, 98], false⟩, none, some ⟨[97, 9, 98], false⟩] [4] ⟨0, 0⟩ 1 31).1 r hr
    ⟨h.2.1 0 (by intro chr hc; simp at hc; subst hc; decide),
     h.2.1 1 (by intro chr hc; simp at hc)⟩,
   (tabs_as_spaces_untouched FANSI_CTL INT_MAX [some ⟨[97, 98], false⟩, none] [4] ⟨0, 0⟩ 1 31).2
     (by intro chr hc; simp at hc; subst hc; decide)⟩

theorem to_size_t_of_nonneg (z : Int) (h0 : 0 ≤ z) (h1 : z ≤ 2 * INT_MAX) :
    to_size_t z = z.toNat := by
  unfold to_size_t
  rw [Int.emod_eq_of_lt h0]
  unfold INT_MAX at h1
  unfold SIZE_MOD
  omega

/-- The sizing loop of `FANSI_tabs_as_spaces` when the largest stop is within
`FANSI_int_max`: it raises the error exactly when the worst-case length
exceeds `FANSI_int_max`, and otherwise yields that length. -/
theorem tabs_buff_size_spec (int_max e : Int) (he : 0 ≤ e) (hei : e ≤ int_max)
    (him : int_max ≤ INT_MAX) :
    ∀ (k n : Nat), (n : Int) ≤ int_max →
      ((n : Int) + k * e > int_max →
        tabs_buff_size int_max e k n = .error .tabs_longer_than_int_max) ∧
      ((n : Int) + k * e ≤ int_max →
        tabs_buff_size int_max e k n = .ok (n + k * e.toNat)) := by
  have hs1 : to_size_t (int_max - e) = (int_max - e).toNat :=
    to_size_t_of_nonneg _ (by omega) (by unfold INT_MAX at *; omega)
  have hs2 : to_size_t e = e.toNat := to_size_t_of_nonneg _ he (by unfold INT_MAX at *; omega)
  intro k
  induction k with
  | zero =>
    intro n hn
    refine ⟨fun h => ?_, fun _ => ?_⟩
    · simp at h
      omega
    · simp [tabs_buff_size]
  | succ k ih =>
    intro n hn
    have hke : (0 : Int) ≤ k * e := by positivity
    unfold tabs_buff_size
    rw [hs1, hs2]
    by_cases hgt : n > (int_max - e).toNat
    · simp only [hgt, if_true]
      refine ⟨fun _ => trivial, fun h => ?_⟩
      push_cast at h
      have : ((k : Int) + 1) * e = k * e + e := by ring
      omega
    · simp only [hgt, if_false]
      have hsmall : (n + e.toNat) % SIZE_MOD = n + e.toNat := by
        apply Nat.mod_eq_of_lt
        unfold INT_MAX at him
        unfold SIZE_MOD
        omega
      rw [hsmall]
      have hn' : ((n + e.toNat : Nat) : Int) ≤ int_max := by omega
      obtain ⟨h1, h2⟩ := ih (n + e.toNat) hn'
      have hcast : ((n + e.toNat : Nat) : Int) = n + e := by omega
      rw [hcast] at h1 h2
      have hmul : ((k + 1 : Nat) : Int) * e = k * e + e := by push_cast; ring
      rw [hmul]
      refine ⟨fun h => h1 (by omega), fun h => ?_⟩
      rw [h2 (by omega)]
      congr 1
      rw [Nat.add_mul]
      omega

theorem foldl_max_ge (tab_stops : List Int) :
    ∀ m : Int, m ≤ tab_stops.foldl (fun m s => if s > m then s else m) m := by
  induction tab_stops with
  | nil => intro m; exact le_refl _
  | cons s rest ih =>
    intro m
    simp only [List.foldl_cons]
    split
    · exact le_trans (by omega) (ih s)
    · exact ih m

theorem tab_width_loop_not_longer (int_max c : Int) (tab_stops : List Int) :
    ∀ (fuel : Nat) (w : Int) (idx : Nat),
      tab_width_loop int_max c tab_stops fuel w idx ≠ .error .tabs_longer_than_int_max := by
  intro fuel
  induction fuel with
  | zero =>
    intro w idx
    unfold tab_width_loop
    split <;> simp
  | succ n ih =>
    intro w idx
    unfold tab_width_loop
    split
    · simp only
      split
      · simp
      · split
        · simp
        · exact ih _ _
    · simp

theorem tab_width_not_longer (int_max : Int) (state : FANSI_state) (tab_stops : List Int) :
    FANSI_tab_width int_max state tab_stops ≠ .error .tabs_longer_than_int_max := by
  unfold FANSI_tab_width
  split
  · simp
  · split
    · simp
    · split
      · rename_i e he
        intro hc
        simp only [Except.error.injEq] at hc
        subst hc
        exact tab_width_loop_not_longer _ _ _ _ _ _ he
      · simp

theorem inc_width_not_longer (state : FANSI_state) (inc : Int) :
    FANSI_inc_width state inc ≠ .error .tabs_longer_than_int_max := by
  unfold FANSI_inc_width FANSI_add_int
  split
  · rename_i e he
    split at he <;> simp at he
    intro hc
    simp only [Except.error.injEq] at hc
    rw [hc] at he
    simp at he
  · simp

theorem tabs_step_not_longer (K : FANSI_ctl_masks) (int_max : Int) (tab_stops : List Int)
    (warn_old : Int) (v : tabs_loop_vars) :
    tabs_step K int_max tab_stops warn_old v ≠ .error .tabs_longer_than_int_max := by
  intro hc
  unfold tabs_step at hc
  simp only at hc
  generalize hw : (if byteAt v.state.string v.state.pos_byte = 9
    then FANSI_tab_width int_max v.state tab_stops else Except.ok 0) = r at hc
  cases r with
  | error e =>
    simp only [Except.error.injEq] at hc
    subst hc
    split at hw
    · exact tab_width_not_longer _ _ _ hw
    · simp at hw
  | ok w =>
    simp only at hc
    split at hc
    · generalize hi : FANSI_inc_width _ w = r2 at hc
      cases r2 with
      | error e =>
        simp only [Except.error.injEq] at hc
        subst hc
        exact inc_width_not_longer _ _ hi
      | ok s =>
        simp only at hc
        split_ifs at hc
    · exact absurd hc (by simp)

theorem tabs_loop_not_longer (K : FANSI_ctl_masks) (int_max : Int) (tab_stops : List Int)
    (warn_old : Int) :
    ∀ (fuel : Nat) (v : tabs_loop_vars),
      tabs_loop K int_max tab_stops warn_old fuel v ≠ .error .tabs_longer_than_int_max := by
  intro fuel
  induction fuel with
  | zero => intro v; simp [tabs_loop]
  | succ n ih =>
    intro v
    unfold tabs_loop
    split
    · rename_i e he
      intro hc
      simp only [Except.error.injEq] at hc
      subst hc
      exact tabs_step_not_longer K int_max tab_stops warn_old v he
    · simp
    · exact ih _

theorem size_buff_not_longer (int_max : Int) (buff : FANSI_buff) (size : Nat) :
    FANSI_size_buff int_max buff size ≠ .error .tabs_longer_than_int_max := by
  intro hc
  unfold FANSI_size_buff at hc
  simp only at hc
  split_ifs at hc
  all_goals simp only at hc
  all_goals try split_ifs at hc
  all_goals exact absurd hc (by simp)

/-- The error of the sizing guard for a batch of one string with a tab, when
the largest stop and the string are within `FANSI_int_max`: it is raised
exactly when the worst-case length exceeds `FANSI_int_max`. -/
theorem tabs_as_spaces_longer_iff (K : FANSI_ctl_masks) (int_max : Int) (chr : CHARSXP)
    (tab_stops : List Int) (buff : FANSI_buff) (warn : Int) (ctl : Nat)
    (hL : (chr.chars.length : Int) ≤ int_max) (ht : 0 < count_tabs chr.chars)
    (hM : max_stop tab_stops - 1 ≤ int_max) (him : int_max ≤ INT_MAX) :
    FANSI_tabs_as_spaces K int_max [some chr] tab_stops buff warn ctl =
        .error .tabs_longer_than_int_max ↔
      (chr.chars.length : Int) + count_tabs chr.chars * (max_stop tab_stops - 1) > int_max := by
  have hge : (1 : Int) ≤ max_stop tab_stops := foldl_max_ge tab_stops 1
  obtain ⟨hs1, hs2⟩ := tabs_buff_size_spec int_max (max_stop tab_stops - 1) (by omega) hM him
    (count_tabs chr.chars) chr.chars.length hL
  have hck : ¬ ((chr.chars.length : Int) > int_max) := by omega
  unfold FANSI_tabs_as_spaces
  simp only [tabs_elems, tabs_elem, FANSI_check_chrsxp, hck, if_false, ht, true_and, if_true]
  by_cases hgt : (chr.chars.length : Int) + count_tabs chr.chars * (max_stop tab_stops - 1) > int_max
  · have := hs1 hgt
    unfold max_stop at this
    simp [this, hgt]
  · have := hs2 (by omega)
    unfold max_stop at this
    simp only [this, hgt, iff_false]
    split
    · rename_i e he
      split at he
      · rename_i e1 he1
        simp only [Except.error.injEq] at he
        subst he
        intro hc
        simp only [Except.error.injEq] at hc
        subst hc
        exact size_buff_not_longer _ _ _ he1
      · split at he
        · rename_i e1 he1
          simp only [Except.error.injEq] at he
          subst he
          intro hc
          simp only [Except.error.injEq] at hc
          subst hc
          exact tabs_loop_not_longer _ _ _ _ _ _ he1
        · split at he
          · rename_i e1 he1
            simp only [Except.error.injEq] at he
            subst he
            intro hc
            simp only [Except.error.injEq] at hc
            subst hc
            unfold FANSI_check_chr_size at he1
            split at he1 <;> simp at he1
          · simp at he
    · simp
/-- C6, the code at the failing input: with `FANSI_int_max` set to 3, the tab
stops `[8]` and the batch `["\t"]`, the worst-case length `1 + 1 * (8 - 1)`
exceeds `FANSI_int_max`, but the guard compares against
`(size_t) (FANSI_int_max - tab_extra)`, which wraps for the negative
difference, so the error of the guard is not raised: the call goes on to
`FANSI_size_buff`, which raises its internal error. -/
theorem tabs_as_spaces_small_int_max (K : FANSI_ctl_masks) (warn : Int) (ctl : Nat) :
    ((1 : Int) + 1 * (8 - 1) > 3) ∧
    FANSI_tabs_as_spaces K 3 [some ⟨[9], false⟩] [8] ⟨0, 0⟩ warn ctl =
      .error .buff_size_initial := by
  simp [FANSI_tabs_as_spaces, tabs_elems, tabs_elem, FANSI_check_chrsxp, count_tabs,
    tabs_buff_size, to_size_t, SIZE_MOD, FANSI_size_buff]

/-! ### The reflow engine -/

/-- C7, counterexample: reflowing `"The quick brown fox"` with width 10, no
prefix, `wrap_always` false, pad character `' '` and `strip_spaces` true does
not yield the lines `"The quick"` and `"brown fox "`. -/
theorem strwrap_quick_fox_not_claimed :
    lines_of (strwrap FANSI_CTL INT_MAX quick_fox 10 empty_pre empty_pre false ⟨0, 0⟩ [32] true
      1 false 31) ≠ some [the_quick, brown_fox ++ [32]] := by
  decide!

/-- C7, amended: reflowing `"The quick brown fox"` with width 10, no prefix,
`wrap_always` false, pad character `' '` and `strip_spaces` true yields
exactly the two lines `"The quick "` and `"brown fox "`, in that order: each
line is padded to width 10. -/
theorem strwrap_quick_fox :
    strwrap FANSI_CTL INT_MAX quick_fox 10 empty_pre empty_pre false ⟨0, 0⟩ [32] true 1 false 31 =
      .ok ([⟨the_quick ++ [32], false⟩, ⟨brown_fox ++ [32], false⟩], ⟨128, 1⟩) := by
  decide!

/-- The wide-character overshoot that the statement about the width of a line
leaves out (see C9): with `wrap_always` true and width 3 the string `"ab"`,
U+6F22, `" x"` is wrapped into the lines `"ab"` U+6F22 and `"x"`. The wide
character takes the cursor from column 2 to column 4; the state there is a
space, which becomes the boundary, and the line is written up to it without
the back-off to `state_prev`. The first line is 4 columns wide. -/
theorem strwrap_wide_overshoot :
    lines_of (strwrap FANSI_CTL INT_MAX ([97, 98] ++ wide_char ++ [32, 120]) 3 empty_pre
      empty_pre true ⟨0, 0⟩ [] true 1 false 31) = some [[97, 98] ++ wide_char, [120]] ∧
    cursor_width FANSI_CTL 31 ([97, 98] ++ wide_char) = 4 := by
  decide!

/-- When `drop_pre_indent` succeeds, the byte count is lowered by the indent and
the string is kept. -/
theorem drop_pre_indent_ok (dat dat1 : FANSI_prefix_dat) (h : drop_pre_indent dat = .ok dat1) :
    dat1.string = dat.string ∧ dat1.bytes = dat.bytes - dat.indent ∧
      dat1.has_utf8 = dat.has_utf8 := by
  unfold drop_pre_indent FANSI_add_int at h
  split at h
  · exact absurd h (by simp)
  · rename_i b hb
    split at h
    · exact absurd h (by simp)
    · split at h
      · exact absurd h (by simp)
      · split at h
        · exact absurd h (by simp)
        · simp only [Except.ok.injEq] at h
          subst h
          split at hb
          · exact absurd hb (by simp)
          · simp only [Except.ok.injEq] at hb
            subst hb
            refine ⟨rfl, ?_, rfl⟩
            show dat.bytes + -dat.indent = dat.bytes - dat.indent
            omega

/-- The prefix data in force: the indent is dropped for a line of zero bytes. -/
theorem writeline_pre_ok (state_bound state_start : FANSI_state) (pre_dat pre1 : FANSI_prefix_dat)
    (hbyte : state_start.pos_byte ≤ state_bound.pos_byte)
    (h : writeline_pre state_bound state_start pre_dat = .ok pre1) :
    pre1.string = pre_dat.string ∧
      pre1.bytes = (if state_bound.pos_byte = state_start.pos_byte
        then pre_dat.bytes - pre_dat.indent else pre_dat.bytes) := by
  unfold writeline_pre at h
  by_cases he : state_bound.pos_byte = state_start.pos_byte
  · have h0 : state_bound.pos_byte - state_start.pos_byte = 0 := by omega
    simp only [h0, if_true] at h
    have := drop_pre_indent_ok _ _ h
    simp [he, this.1, this.2.1]
  · have h0 : ¬ (state_bound.pos_byte - state_start.pos_byte = 0) := by omega
    simp only [h0, if_false, Except.ok.injEq] at h
    subst h
    simp [he]

/-- The padding of `FANSI_writeline` as the specification words it. -/
theorem writeline_pad_eq (state_bound state_start : FANSI_state) (tar_width : Int)
    (pad_chr : List Nat) (hs : 0 ≤ state_start.pos_width) (hb : state_bound.pos_width ≤ INT_MAX)
    (ht : tar_width ≤ INT_MAX) (hwidth : state_start.pos_width ≤ state_bound.pos_width) :
    List.replicate (writeline_pad state_bound state_start tar_width pad_chr).toNat
        (byteAt pad_chr 0) =
      (if byteAt pad_chr 0 ≠ 0 ∧
          state_bound.pos_width - state_start.pos_width ≤ max 0 tar_width then
        List.replicate (max 0 tar_width - (state_bound.pos_width - state_start.pos_width)).toNat
          (byteAt pad_chr 0)
       else []) := by
  have hcw : to_size_t (state_bound.pos_width - state_start.pos_width) =
      (state_bound.pos_width - state_start.pos_width).toNat :=
    to_size_t_of_nonneg _ (by omega) (by unfold INT_MAX at *; omega)
  have hmax : (if tar_width < 0 then 0 else tar_width) = max 0 tar_width := by
    split <;> omega
  have htw : to_size_t (max 0 tar_width) = (max 0 tar_width).toNat :=
    to_size_t_of_nonneg _ (by omega) (by unfold INT_MAX at *; omega)
  unfold writeline_pad writeline_pads
  simp only [hmax, hcw, htw]
  by_cases hp : byteAt pad_chr 0 ≠ 0 ∧
      state_bound.pos_width - state_start.pos_width ≤ max 0 tar_width
  · have hle : (state_bound.pos_width - state_start.pos_width).toNat ≤ (max 0 tar_width).toNat := by
      omega
    rw [if_pos hp, decide_eq_true ⟨hle, hp.1⟩]
    simp only [if_true]
    rw [Int.toNat_of_nonneg (by omega)]
  · have hle : ¬ ((state_bound.pos_width - state_start.pos_width).toNat ≤ (max 0 tar_width).toNat ∧
        byteAt pad_chr 0 ≠ 0) := by
      intro hc
      apply hp
      refine ⟨hc.2, ?_⟩
      omega
    rw [if_neg hp, decide_eq_false hle]
    simp

/-- A call of `FANSI_writeline` that succeeds has the boundary at or after the
line start, and returns the bytes written for the prefix data in force and the
padding computed. -/
theorem writeline_ok_write (int_max : Int) (state_bound state_start : FANSI_state)
    (buff buff1 : FANSI_buff) (pre_dat : FANSI_prefix_dat) (tar_width : Int)
    (pad_chr : List Nat) (line : CHARSXP)
    (h : FANSI_writeline int_max state_bound state_start buff pre_dat tar_width pad_chr =
      .ok (line, buff1)) :
    state_start.pos_byte ≤ state_bound.pos_byte ∧
    state_start.pos_width ≤ state_bound.pos_width ∧
    ∃ pre1, writeline_pre state_bound state_start pre_dat = .ok pre1 ∧
      line.chars = writeline_write state_bound state_start pre1
        (writeline_pad state_bound state_start tar_width pad_chr) pad_chr := by
  unfold FANSI_writeline at h
  simp only at h
  split at h
  · exact absurd h (by simp)
  · rename_i hlead
    simp only [not_or, not_lt] at hlead
    obtain ⟨hbyte, hwidth⟩ := hlead
    split at h
    · exact absurd h (by simp)
    · rename_i pre1 hpre
      split at h
      · exact absurd h (by simp)
      · split at h
        · exact absurd h (by simp)
        · split at h
          · exact absurd h (by simp)
          · split at h
            · exact absurd h (by simp)
            · simp only [Except.ok.injEq, Prod.mk.injEq] at h
              obtain ⟨hline, _⟩ := h
              subst hline
              exact ⟨hbyte, hwidth, pre1, hpre, rfl⟩

/-- The bytes that `FANSI_writeline` writes are the parts of the line in the
order of the specification. -/
theorem writeline_write_parts (state_bound state_start : FANSI_state)
    (pre_dat pre1 : FANSI_prefix_dat) (tar_width : Int) (pad_chr : List Nat)
    (hs : 0 ≤ state_start.pos_width) (hb : state_bound.pos_width ≤ INT_MAX)
    (ht : tar_width ≤ INT_MAX) (hwidth : state_start.pos_width ≤ state_bound.pos_width)
    (hstr : pre1.string = pre_dat.string) :
    writeline_write state_bound state_start pre1
        (writeline_pad state_bound state_start tar_width pad_chr) pad_chr =
      writeline_parts state_bound state_start pre_dat pre1.bytes tar_width pad_chr := by
  simp only [writeline_write, writeline_parts, hstr,
    writeline_pad_eq _ _ _ _ hs hb ht hwidth, List.nil_append]
  by_cases hz : pre1.bytes = 0
  · simp [hz]
    split <;> simp
  · simp [hz]
    split <;> simp

/-- C8, counterexample: for the empty string with the prefix `"a b c"` (5
columns), target width 3 and `wrap_always` false, `strwrap` emits the line
`"a b c"`: its visual width is 5 + 0, above the target width, and its content
is not a token. -/
theorem strwrap_wide_prefix_not_claimed :
    strwrap FANSI_CTL INT_MAX [] 3 abc_pre abc_pre false ⟨0, 0⟩ [] true 1 false 31 =
      .ok ([⟨[97, 32, 98, 32, 99], false⟩], ⟨128, 1⟩) ∧
    ¬ line_claimed [] 3 abc_pre abc_pre false [] ⟨[97, 32, 98, 32, 99], false⟩ := by
  refine ⟨by decide!, ?_⟩
  rintro ⟨pre, content, pad, hpre, hcont, _, hw⟩
  have hnil : content = [] := by
    obtain ⟨s, t, hst⟩ := hcont
    have := congrArg List.length hst
    simp only [List.length_append, List.length_nil] at this
    exact List.length_eq_zero.mp (by omega)
  have hpw : pre.width = 5 := by
    rcases hpre with h | h <;> rw [h] <;> rfl
  subst hnil
  rw [hpw] at hw
  rcases hw with hw | hw
  · simp only [List.length_nil] at hw
    omega
  · exact hw.2.1 rfl

/-! ### The reflow engine over printable ASCII -/

/-- A byte within a string is the element of the list. -/
theorem byteAt_lt (x : List Nat) (i : Nat) (h : i < x.length) : byteAt x i = x[i] := by
  unfold byteAt
  simp [List.getD, List.getElem?_eq_getElem h]

/-- A byte within a printable string is printable. -/
theorem byteAt_printable (x : List Nat) (hx : printable x) (i : Nat) (h : i < x.length) :
    32 ≤ byteAt x i ∧ byteAt x i < 127 := by
  rw [byteAt_lt x i h]
  exact hx _ (List.getElem_mem _)

/-- The cursor steps over a printable byte: one byte, one column. -/
theorem read_next_printable (K : FANSI_ctl_masks) (x : List Nat) (hx : printable x)
    (st : FANSI_state) (hs : st.string = x) (h : st.pos_byte < x.length) :
    FANSI_read_next K st =
      { st with pos_byte := st.pos_byte + 1, pos_width := st.pos_width + 1 } := by
  have hb := byteAt_printable x hx st.pos_byte h
  unfold FANSI_read_next
  rw [hs]
  have h0 : byteAt x st.pos_byte ≠ 0 := by omega
  simp [h0, hb]

/-- Skipping spaces on a printable string stays on the string and ends on a byte
that is not a space. -/
theorem skip_spaces_printable (K : FANSI_ctl_masks) (x : List Nat) (hx : printable x) :
    ∀ (fuel : Nat) (st st1 : FANSI_state), st.string = x → st.pos_byte ≤ x.length →
      skip_spaces K fuel st = .ok st1 →
      st1.string = x ∧ st1.style = st.style ∧ st.pos_byte ≤ st1.pos_byte ∧
        st1.pos_byte ≤ x.length ∧ byteAt x st1.pos_byte ≠ 32 := by
  intro fuel
  induction fuel with
  | zero =>
    intro st st1 hs hle h
    unfold skip_spaces at h
    rw [hs] at h
    split at h
    · exact absurd h (by simp)
    · rename_i hne
      simp only [Except.ok.injEq] at h
      subst h
      exact ⟨hs, rfl, le_refl _, hle, hne⟩
  | succ n ih =>
    intro st st1 hs hle h
    unfold skip_spaces at h
    rw [hs] at h
    split at h
    · rename_i h32
      have hlt : st.pos_byte < x.length := by
        by_contra hge
        rw [byteAt_of_le x _ (by omega)] at h32
        omega
      rw [read_next_printable K x hx st hs hlt] at h
      simp only at h
      have := ih { st with pos_byte := st.pos_byte + 1, pos_width := st.pos_width + 1 } st1 hs
        (by show st.pos_byte + 1 ≤ x.length; omega) h
      simp only at this
      exact ⟨this.1, this.2.1, by omega, this.2.2.2.1, this.2.2.2.2⟩
    · rename_i hne
      simp only [Except.ok.injEq] at h
      subst h
      exact ⟨hs, rfl, le_refl _, hle, hne⟩

/-- A byte of a printable string, or the terminator, is neither a tab nor a
newline. -/
theorem byteAt_not_ctl (x : List Nat) (hx : printable x) (i : Nat) :
    byteAt x i ≠ 9 ∧ byteAt x i ≠ 10 := by
  by_cases h : i < x.length
  · have := byteAt_printable x hx i h
    omega
  · rw [byteAt_of_le x i (by omega)]
    omega

/-- A byte that is not the terminator lies within the string. -/
theorem byteAt_ne_zero_lt (x : List Nat) (i : Nat) (h : byteAt x i ≠ 0) : i < x.length := by
  by_contra hge
  exact h (byteAt_of_le x i (by omega))

/-- The scan of one loop iteration of `strwrap` over a printable string. -/
theorem detect_printable (K : FANSI_ctl_masks) (x : List Nat) (hx : printable x)
    (width_1 width_2 : Int) (wrap_always strip_spaces : Bool) (v : strwrap_vars)
    (hinv : wrap_inv x width_1 width_2 wrap_always v) :
    (strwrap_detect K strip_spaces v).state.string = x ∧
    (strwrap_detect K strip_spaces v).state.pos_byte = v.state.pos_byte ∧
    (strwrap_detect K strip_spaces v).state.pos_width = v.state.pos_width ∧
    (strwrap_detect K strip_spaces v).state.style = [] ∧
    (strwrap_detect K strip_spaces v).state_bound.string = x ∧
    (strwrap_detect K strip_spaces v).state_bound.style = [] ∧
    v.state_start.pos_byte ≤ (strwrap_detect K strip_spaces v).state_bound.pos_byte ∧
    (strwrap_detect K strip_spaces v).state_bound.pos_byte ≤ v.state.pos_byte ∧
    (strwrap_detect K strip_spaces v).state_bound.pos_width =
      ((strwrap_detect K strip_spaces v).state_bound.pos_byte : Int) - v.state_start.pos_byte ∧
    ((strwrap_detect K strip_spaces v).has_boundary = false →
      v.has_boundary = false ∧ byteAt x v.state.pos_byte ≠ 32) ∧
    (v.has_boundary = true → (strwrap_detect K strip_spaces v).has_boundary = true) := by
  obtain ⟨h9, h10⟩ := byteAt_not_ctl x hx v.state.pos_byte
  have hle := Nat.le_trans hinv.st_le_b hinv.b_le_s
  have hs := hinv.s_string
  rw [← hs] at h9 h10
  simp only [strwrap_detect, h9, h10, or_false]
  refine ⟨hs, trivial, trivial, hinv.s_style, ?_, ?_, ?_, ?_, ?_, ?_, ?_⟩
  · split_ifs <;> first | exact hinv.s_string | exact hinv.b_string
  · split_ifs <;> first | exact hinv.s_style | exact hinv.b_style
  · split_ifs <;> first | exact hle | exact hinv.st_le_b
  · split_ifs <;> first | exact le_refl _ | exact hinv.b_le_s
  · split_ifs <;> first | exact hinv.s_width | exact hinv.b_width
  · intro h
    by_cases h32 : byteAt v.state.string v.state.pos_byte = 32
    · simp [h32] at h
    · simp only [h32, decide_False, if_false, Bool.false_eq_true] at h
      exact ⟨h, by rw [← hs]; exact h32⟩
  · intro h
    split_ifs <;> first | rfl | exact h

/-- The next state of one loop iteration of `strwrap` before the end of a
printable string. -/
theorem detect_next_printable (K : FANSI_ctl_masks) (x : List Nat) (hx : printable x)
    (width_1 width_2 : Int) (wrap_always strip_spaces : Bool) (v : strwrap_vars)
    (hinv : wrap_inv x width_1 width_2 wrap_always v)
    (hc : byteAt x v.state.pos_byte ≠ 0) :
    (strwrap_detect K strip_spaces v).state_next =
      { v.state with pos_byte := v.state.pos_byte + 1, pos_width := v.state.pos_width + 1 } := by
  have hlt := byteAt_ne_zero_lt x _ hc
  have hs := hinv.s_string
  have hc1 : ¬ byteAt v.state.string v.state.pos_byte = 0 := by rw [hs]; exact hc
  simp only [strwrap_detect, hc1, if_false]
  exact read_next_printable K x hx v.state hs hlt

/-- A byte of the slice of `n` bytes from offset `s` is a byte of the string at
an offset from `s` to below `s + n`. -/
theorem mem_slice (x : List Nat) (s n : Nat) (c : Nat) (h : c ∈ (x.drop s).take n) :
    ∃ i, s ≤ i ∧ i < s + n ∧ byteAt x i = c := by
  obtain ⟨k, hk⟩ := List.mem_iff_getElem?.mp h
  rw [List.getElem?_take] at hk
  split at hk
  · rename_i hkn
    rw [List.getElem?_drop] at hk
    refine ⟨s + k, by omega, by omega, ?_⟩
    unfold byteAt
    simp [List.getD, hk]
  · exact absurd hk (by simp)

/-- A cursor with the empty style has no open style. -/
theorem has_style_nil (st : FANSI_state) (h : st.style = []) :
    FANSI_state_has_style st = false := by
  simp [FANSI_state_has_style, h]

/-- The line that `FANSI_writeline` returns for a boundary on the current line
of a printable string is within the budget, or it is free of spaces. -/
theorem writeline_printable_ok (x : List Nat) (width : Int)
    (pre_first pre_next : FANSI_prefix_dat) (width_1 width_2 : Int) (wrap_always : Bool)
    (pad_chr : List Nat) (int_max : Int) (v : strwrap_vars) (b : FANSI_state)
    (res : CHARSXP) (buff1 : FANSI_buff)
    (hxl : (x.length : Int) ≤ INT_MAX)
    (hw1 : width_1 = width - pre_first.width) (hw2 : width_2 = width - pre_next.width)
    (hb1 : width_1 ≤ INT_MAX) (hb2 : width_2 ≤ INT_MAX)
    (hinv : wrap_inv x width_1 width_2 wrap_always v)
    (hb_style : b.style = [])
    (hb_lo : v.state_start.pos_byte ≤ b.pos_byte) (hb_hi : b.pos_byte ≤ v.state.pos_byte)
    (hb_w : b.pos_width = (b.pos_byte : Int) - v.state_start.pos_byte)
    (h : FANSI_writeline int_max b v.state_start v.buff
      (if v.para_start then pre_first else pre_next) v.width_tar pad_chr = .ok (res, buff1)) :
    line_ok x width pre_first pre_next wrap_always pad_chr res := by
  have hsle := hinv.s_le
  have htar := hinv.tar
  have ht : v.width_tar ≤ INT_MAX := by
    rw [htar]
    split <;> assumption
  obtain ⟨hbyte, hwidth, pre1, hpre, hline⟩ :=
    writeline_ok_write int_max b v.state_start v.buff buff1 _ v.width_tar pad_chr res h
  obtain ⟨hstr, hbytes⟩ := writeline_pre_ok _ _ _ _ hbyte hpre
  rw [writeline_write_parts b v.state_start _ pre1 v.width_tar pad_chr
    (by rw [hinv.st_width]) (by rw [hb_w]; omega) ht hwidth hstr, hbytes] at hline
  simp only [writeline_parts, has_style_nil b hb_style, has_style_nil _ hinv.st_style,
    Bool.false_eq_true, if_false, List.nil_append, List.append_nil, hinv.st_string] at hline
  have hclen : ((x.drop v.state_start.pos_byte).take (b.pos_byte - v.state_start.pos_byte)).length
      = b.pos_byte - v.state_start.pos_byte := by
    simp only [List.length_take, List.length_drop]
    omega
  have hcnil : (x.drop v.state_start.pos_byte).take (b.pos_byte - v.state_start.pos_byte) = [] ↔
      b.pos_byte = v.state_start.pos_byte := by
    rw [← List.length_eq_zero, hclen]
    omega
  have hbudget : width - (if v.para_start then pre_first else pre_next).width = v.width_tar := by
    rw [htar]
    split <;> simp [hw1, hw2]
  refine ⟨if v.para_start then pre_first else pre_next,
    (x.drop v.state_start.pos_byte).take (b.pos_byte - v.state_start.pos_byte),
    if byteAt pad_chr 0 ≠ 0 ∧ b.pos_width - v.state_start.pos_width ≤ max 0 v.width_tar then
      (max 0 v.width_tar - (b.pos_width - v.state_start.pos_width)).toNat else 0,
    ?_, ?_, ?_, ?_⟩
  · split <;> simp
  · exact ⟨x.take v.state_start.pos_byte, (x.drop v.state_start.pos_byte).drop
      (b.pos_byte - v.state_start.pos_byte), by
        rw [List.append_assoc, List.take_append_drop, List.take_append_drop]⟩
  · rw [hline]
    congr 1
    · congr 2
      by_cases he : b.pos_byte = v.state_start.pos_byte
      · simp [he]
      · have : ¬ (x.drop v.state_start.pos_byte).take (b.pos_byte - v.state_start.pos_byte) = [] :=
          fun hc => he (hcnil.mp hc)
        simp [he, this]
    · split <;> simp
  · rw [hbudget, hclen, hb_w, hinv.st_width]
    have hcw : ((b.pos_byte - v.state_start.pos_byte : Nat) : Int) =
        (b.pos_byte : Int) - v.state_start.pos_byte := by omega
    rw [hcw]
    by_cases hle : (b.pos_byte : Int) - v.state_start.pos_byte ≤ v.width_tar
    · left
      split
      · rw [Int.toNat_of_nonneg (by omega)]
        omega
      · simpa using hle
    · right
      have hnb : ¬ (v.has_boundary = true ∨ wrap_always = true) := by
        intro hc
        have := hinv.within hc
        rw [hinv.s_width] at this
        omega
      simp only [not_or, Bool.not_eq_true] at hnb
      refine ⟨hnb.2, ?_, ?_, by omega⟩
      · intro hmem
        obtain ⟨i, hi1, hi2, hi3⟩ := mem_slice x _ _ _ hmem
        exact hinv.no_ws hnb.1 i hi1 (by omega) hi3
      · split
        · rename_i hp
          have := hp.2
          omega
        · rfl

/-- The end of the line to write on a printable string: the state is never
backed off, and the boundary is on the line. -/
theorem line_end_printable (K : FANSI_ctl_masks) (x : List Nat) (hx : printable x)
    (width_1 width_2 : Int) (wrap_always strip_spaces first_only : Bool) (v : strwrap_vars)
    (hinv : wrap_inv x width_1 width_2 wrap_always v) :
    (strwrap_line_end wrap_always first_only v (strwrap_detect K strip_spaces v)).1 =
      (strwrap_detect K strip_spaces v).state ∧
    on_line x v
      (strwrap_line_end wrap_always first_only v (strwrap_detect K strip_spaces v)).2 := by
  obtain ⟨d1, d2, d3, d4, d5, d6, d7, d8, d9, _, _⟩ :=
    detect_printable K x hx width_1 width_2 wrap_always strip_spaces v hinv
  have hsw : ¬ ((strwrap_detect K strip_spaces v).state.pos_width > v.width_tar ∧
      wrap_always = true) := by
    intro hc
    have := hinv.within (Or.inr hc.2)
    rw [d3] at hc
    omega
  have hle := Nat.le_trans hinv.st_le_b hinv.b_le_s
  unfold strwrap_line_end
  simp only [hsw, if_false]
  constructor
  · split <;> rfl
  · split
    · exact ⟨d1, d4, by rw [d2]; exact hle, by rw [d2], by rw [d2, d3]; exact hinv.s_width⟩
    · exact ⟨d5, d6, d7, d8, d9⟩

/-- Keeping the boundary character leaves the boundary on the line. -/
theorem keep_boundary_printable (K : FANSI_ctl_masks) (x : List Nat) (hx : printable x)
    (width_1 width_2 : Int) (wrap_always strip_spaces has_boundary : Bool) (v : strwrap_vars)
    (hinv : wrap_inv x width_1 width_2 wrap_always v) (st b : FANSI_state)
    (hst : st.pos_byte = v.state.pos_byte) (hb : on_line x v b) :
    on_line x v (strwrap_keep_boundary K strip_spaces has_boundary st b) := by
  obtain ⟨b1, b2, b3, b4, b5⟩ := hb
  unfold strwrap_keep_boundary
  simp only
  split
  · rename_i hc
    have hlt : b.pos_byte < x.length := by
      have := hinv.s_le
      omega
    rw [read_next_printable K x hx b b1 hlt]
    refine ⟨b1, b2, ?_, ?_, ?_⟩
    · show v.state_start.pos_byte ≤ b.pos_byte + 1
      omega
    · show b.pos_byte + 1 ≤ v.state.pos_byte
      omega
    · show b.pos_width + 1 = ((b.pos_byte + 1 : Nat) : Int) - v.state_start.pos_byte
      push_cast
      omega
  · exact ⟨b1, b2, b3, b4, b5⟩

/-- The start of the next line on a printable string, after a break that is not
a newline. -/
theorem next_start_printable (K : FANSI_ctl_masks) (x : List Nat) (hx : printable x)
    (strip_spaces has_boundary : Bool) (st b nb : FANSI_state)
    (hst : st.string = x ∧ st.style = [] ∧ st.pos_byte ≤ x.length)
    (hb : b.string = x ∧ b.style = [] ∧ b.pos_byte ≤ x.length)
    (h : strwrap_next_start K strip_spaces has_boundary false st b = .ok nb) :
    nb.string = x ∧ nb.style = [] ∧ nb.pos_byte ≤ x.length ∧ nb.pos_width = 0 := by
  unfold strwrap_next_start at h
  simp only [Bool.false_eq_true, and_false, if_false] at h
  have hsel : ∀ s : FANSI_state, s = (if has_boundary = false then st else b) →
      s.string = x ∧ s.style = [] ∧ s.pos_byte ≤ x.length := by
    intro s hs
    subst hs
    split
    · exact hst
    · exact hb
  generalize (if has_boundary = false then st else b) = s at h hsel
  obtain ⟨s1, s2, s3⟩ := hsel s rfl
  split at h
  · exact absurd h (by simp)
  · rename_i s' hs'
    simp only [Except.ok.injEq] at h
    subst h
    split at hs'
    · obtain ⟨t1, t2, _, t4, _⟩ := skip_spaces_printable K x hx _ s s' s1 s3 hs'
      exact ⟨t1, by rw [t2, s2], t4, rfl⟩
    · simp only [Except.ok.injEq] at hs'
      subst hs'
      exact ⟨s1, s2, s3, rfl⟩

/-- An iteration of `strwrap` that writes no line keeps the invariant. -/
theorem step_continue_printable (K : FANSI_ctl_masks) (x : List Nat) (hx : printable x)
    (width_1 width_2 : Int) (wrap_always strip_spaces first_only : Bool) (v : strwrap_vars)
    (hinv : wrap_inv x width_1 width_2 wrap_always v)
    (hmw : strwrap_must_write wrap_always first_only v.width_tar
      (strwrap_detect K strip_spaces v) = false) :
    wrap_inv x width_1 width_2 wrap_always
      { v with state_prev := (strwrap_detect K strip_spaces v).state,
               state := (strwrap_detect K strip_spaces v).state_next,
               state_bound := (strwrap_detect K strip_spaces v).state_bound,
               prev_boundary := (strwrap_detect K strip_spaces v).prev_boundary,
               has_boundary := (strwrap_detect K strip_spaces v).has_boundary } := by
  obtain ⟨d1, d2, d3, d4, d5, d6, d7, d8, d9, d10, d11⟩ :=
    detect_printable K x hx width_1 width_2 wrap_always strip_spaces v hinv
  unfold strwrap_must_write at hmw
  simp only [d1, d2, d3, decide_eq_false_iff_not, not_or] at hmw
  obtain ⟨hc, _, hnw⟩ := hmw
  have hnext := detect_next_printable K x hx width_1 width_2 wrap_always strip_spaces v hinv hc
  have hlt := byteAt_ne_zero_lt x _ hc
  rw [hnext] at hnw
  simp only at hnw
  have hsw := hinv.s_width
  exact
    { s_string := by rw [hnext]; exact hinv.s_string
      st_string := hinv.st_string
      b_string := d5
      s_style := by rw [hnext]; exact hinv.s_style
      st_style := hinv.st_style
      b_style := d6
      st_width := hinv.st_width
      s_width := by
        rw [hnext]
        show v.state.pos_width + 1 = ((v.state.pos_byte + 1 : Nat) : Int) - v.state_start.pos_byte
        push_cast
        omega
      b_width := d9
      st_le_b := d7
      b_le_s := by
        rw [hnext]
        show (strwrap_detect K strip_spaces v).state_bound.pos_byte ≤ v.state.pos_byte + 1
        omega
      s_le := by
        rw [hnext]
        show v.state.pos_byte + 1 ≤ x.length
        omega
      no_ws := by
        intro hb i hi1 hi2
        rw [hnext] at hi2
        have hi2' : i < v.state.pos_byte + 1 := hi2
        obtain ⟨hvb, h32⟩ := d10 hb
        by_cases hip : i = v.state.pos_byte
        · rw [hip]; exact h32
        · exact hinv.no_ws hvb i hi1 (by omega)
      within := by
        intro hb
        rw [hnext]
        show v.state.pos_width + 1 ≤ v.width_tar
        by_contra hgt
        apply hnw
        refine ⟨?_, hb⟩
        by_cases hgt2 : v.state.pos_width > v.width_tar
        · exact Or.inl hgt2
        · exact Or.inr ⟨by omega, by omega⟩
      tar := hinv.tar }

/-- An iteration of `strwrap` on a printable string adds at most a line that is
within the budget or free of spaces, and keeps the invariant. -/
theorem strwrap_step_printable (K : FANSI_ctl_masks) (int_max : Int) (x : List Nat)
    (width : Int) (pre_first pre_next : FANSI_prefix_dat) (width_1 width_2 : Int)
    (wrap_always : Bool) (pad_chr : List Nat) (strip_spaces first_only : Bool)
    (v w : strwrap_vars) (brk : Bool)
    (hx : printable x) (hxl : (x.length : Int) ≤ INT_MAX)
    (hw1 : width_1 = width - pre_first.width) (hw2 : width_2 = width - pre_next.width)
    (hb1 : width_1 ≤ INT_MAX) (hb2 : width_2 ≤ INT_MAX)
    (hwa : wrap_always = true → 0 ≤ width_2)
    (hinv : wrap_inv x width_1 width_2 wrap_always v)
    (hall : ∀ l ∈ v.char_list, line_ok x width pre_first pre_next wrap_always pad_chr l)
    (h : strwrap_step K int_max width_1 width_2 pre_first pre_next wrap_always pad_chr
      strip_spaces first_only v = .ok (brk, w)) :
    (∀ l ∈ w.char_list, line_ok x width pre_first pre_next wrap_always pad_chr l) ∧
    (brk = false → wrap_inv x width_1 width_2 wrap_always w) := by
  unfold strwrap_step at h
  simp only at h
  split at h
  · -- a line is written
    obtain ⟨d1, d2, d3, d4, d5, d6, d7, d8, d9, d10, d11⟩ :=
      detect_printable K x hx width_1 width_2 wrap_always strip_spaces v hinv
    obtain ⟨he1, he2⟩ :=
      line_end_printable K x hx width_1 width_2 wrap_always strip_spaces first_only v hinv
    have hk := keep_boundary_printable K x hx width_1 width_2 wrap_always strip_spaces
      (strwrap_detect K strip_spaces v).has_boundary v hinv
      (strwrap_detect K strip_spaces v).state _ d2 he2
    unfold strwrap_write at h
    simp only [he1] at h
    split at h
    · exact absurd h (by simp)
    · split at h
      · exact absurd h (by simp)
      · rename_i res buff1 hres
        have hok := writeline_printable_ok x width pre_first pre_next width_1 width_2 wrap_always
          pad_chr int_max v _ res buff1 hxl hw1 hw2 hb1 hb2 hinv hk.2.1 hk.2.2.1 hk.2.2.2.1
          hk.2.2.2.2 hres
        split at h
        · simp only [Except.ok.injEq, Prod.mk.injEq] at h
          obtain ⟨hbrk, hw⟩ := h
          subst hw
          subst hbrk
          refine ⟨?_, fun hc => absurd hc (by simp)⟩
          intro l hl
          simp only [List.mem_singleton] at hl
          subst hl
          exact hok
        · have hall' : ∀ l ∈ v.char_list ++ [res],
              line_ok x width pre_first pre_next wrap_always pad_chr l := by
            intro l hl
            rcases List.mem_append.mp hl with hl | hl
            · exact hall l hl
            · simp only [List.mem_singleton] at hl
              subst hl
              exact hok
          split at h
          · simp only [Except.ok.injEq, Prod.mk.injEq] at h
            obtain ⟨hbrk, hw⟩ := h
            subst hw
            subst hbrk
            exact ⟨hall', fun hc => absurd hc (by simp)⟩
          · rename_i hc0
            have h10 : decide (byteAt (strwrap_detect K strip_spaces v).state.string
                (strwrap_detect K strip_spaces v).state.pos_byte = 10) = false := by
              rw [d1, d2]
              exact decide_eq_false (byteAt_not_ctl x hx _).2
            rw [h10] at h
            split at h
            · exact absurd h (by simp)
            · rename_i nb hnb
              simp only [Except.ok.injEq, Prod.mk.injEq] at h
              obtain ⟨hbrk, hw⟩ := h
              subst hw
              subst hbrk
              have hsle := hinv.s_le
              obtain ⟨n1, n2, n3, n4⟩ := next_start_printable K x hx strip_spaces _ _ _ nb
                ⟨d1, d4, by rw [d2]; exact hsle⟩
                ⟨hk.1, hk.2.1, Nat.le_trans hk.2.2.2.1 hsle⟩ hnb
              refine ⟨hall', fun _ => ?_⟩
              exact
                { s_string := n1
                  st_string := n1
                  b_string := n1
                  s_style := n2
                  st_style := n2
                  b_style := n2
                  st_width := n4
                  s_width := by
                    show nb.pos_width = (nb.pos_byte : Int) - nb.pos_byte
                    rw [n4]; omega
                  b_width := by
                    show nb.pos_width = (nb.pos_byte : Int) - nb.pos_byte
                    rw [n4]; omega
                  st_le_b := le_refl _
                  b_le_s := le_refl _
                  s_le := n3
                  no_ws := by
                    intro _ i hi1 hi2
                    have hi1' : nb.pos_byte ≤ i := hi1
                    have hi2' : i < nb.pos_byte := hi2
                    omega
                  within := by
                    intro hc
                    show nb.pos_width ≤ (if false = true then width_1 else width_2)
                    rw [n4]
                    simp only [Bool.false_eq_true, if_false]
                    rcases hc with hc | hc
                    · exact absurd hc (by simp)
                    · exact hwa hc
                  tar := rfl }
  · -- no line is written
    rename_i hmw
    simp only [Except.ok.injEq, Prod.mk.injEq] at h
    obtain ⟨hbrk, hw⟩ := h
    subst hw
    refine ⟨hall, fun _ => ?_⟩
    exact step_continue_printable K x hx width_1 width_2 wrap_always strip_spaces first_only v
      hinv (by simpa using hmw)

/-- The loop of `strwrap` on a printable string only adds lines that are within
the budget or free of spaces. -/
theorem strwrap_loop_printable (K : FANSI_ctl_masks) (int_max : Int) (x : List Nat)
    (width : Int) (pre_first pre_next : FANSI_prefix_dat) (width_1 width_2 : Int)
    (wrap_always : Bool) (pad_chr : List Nat) (strip_spaces first_only : Bool)
    (hx : printable x) (hxl : (x.length : Int) ≤ INT_MAX)
    (hw1 : width_1 = width - pre_first.width) (hw2 : width_2 = width - pre_next.width)
    (hb1 : width_1 ≤ INT_MAX) (hb2 : width_2 ≤ INT_MAX)
    (hwa : wrap_always = true → 0 ≤ width_2) :
    ∀ (fuel : Nat) (v w : strwrap_vars), wrap_inv x width_1 width_2 wrap_always v →
      (∀ l ∈ v.char_list, line_ok x width pre_first pre_next wrap_always pad_chr l) →
      strwrap_loop K int_max width_1 width_2 pre_first pre_next wrap_always pad_chr
        strip_spaces first_only fuel v = .ok w →
      ∀ l ∈ w.char_list, line_ok x width pre_first pre_next wrap_always pad_chr l := by
  intro fuel
  induction fuel with
  | zero =>
    intro v w _ _ h
    exact absurd h (by simp [strwrap_loop])
  | succ n ih =>
    intro v w hinv hall h
    unfold strwrap_loop at h
    split at h
    · exact absurd h (by simp)
    · rename_i w1 hstep
      simp only [Except.ok.injEq] at h
      subst h
      exact (strwrap_step_printable K int_max x width pre_first pre_next width_1 width_2
        wrap_always pad_chr strip_spaces first_only v _ true hx hxl hw1 hw2 hb1 hb2 hwa hinv
        hall hstep).1
    · rename_i w1 hstep
      obtain ⟨hall1, hinv1⟩ := strwrap_step_printable K int_max x width pre_first pre_next
        width_1 width_2 wrap_always pad_chr strip_spaces first_only v _ false hx hxl hw1 hw2
        hb1 hb2 hwa hinv hall hstep
      exact ih w1 w (hinv1 rfl) hall1 h

/-- A checked addition that succeeds yields the sum, which is within `INT_MAX`
when the second summand is not negative. -/
theorem add_int_ok (a b c : Int) (h : FANSI_add_int a b = .ok c) :
    c = a + b ∧ (0 ≤ b → a + b ≤ INT_MAX) := by
  unfold FANSI_add_int at h
  split at h
  · exact absurd h (by simp)
  · rename_i hc
    simp only [Except.ok.injEq] at h
    subst h
    simp only [not_or, not_and, not_lt, not_le] at hc
    refine ⟨rfl, fun hb => ?_⟩
    have := hc.1 hb
    omega

/-- The printable case: for every printable ASCII input string (bytes
`0x20 .. 0x7E`) every line that `strwrap` emits is the prefix in force, a piece of the input
and the padding, and the content with its padding is within the budget
`width - pre.width`, so that the visual width (prefix width plus content width
plus padding) is at most the target width; except, when `wrap_always` is
false, a line whose content is free of spaces (a single token, or nothing) and
wider than the budget. In particular, with `wrap_always` true no emitted line
is wider than the target width. -/
theorem strwrap_printable_width (K : FANSI_ctl_masks) (int_max : Int) (x : List Nat)
    (width : Int) (pre_first pre_next : FANSI_prefix_dat) (wrap_always : Bool)
    (buff : FANSI_buff) (pad_chr : List Nat) (strip_spaces : Bool) (warn : Int)
    (first_only : Bool) (ctl : Nat) (lines : List CHARSXP) (buff1 : FANSI_buff)
    (hx : printable x) (hxl : (x.length : Int) ≤ INT_MAX) (hw : width ≤ INT_MAX)
    (h : strwrap K int_max x width pre_first pre_next wrap_always buff pad_chr strip_spaces
      warn first_only ctl = .ok (lines, buff1)) :
    ∀ line ∈ lines, line_ok x width pre_first pre_next wrap_always pad_chr line := by
  unfold strwrap at h
  simp only at h
  split at h
  · exact absurd h (by simp)
  · rename_i width_1 h1
    split at h
    · exact absurd h (by simp)
    · rename_i width_2 h2
      obtain ⟨e1, r1⟩ := add_int_ok _ _ _ h1
      obtain ⟨e2, r2⟩ := add_int_ok _ _ _ h2
      have hb1 : width_1 ≤ INT_MAX := by
        by_cases hp : 0 ≤ -pre_first.width
        · rw [e1]; exact r1 hp
        · omega
      have hb2 : width_2 ≤ INT_MAX := by
        by_cases hp : 0 ≤ -pre_next.width
        · rw [e2]; exact r2 hp
        · omega
      split at h
      · exact absurd h (by simp)
      · split at h
        · exact absurd h (by simp)
        · rename_i hg
          simp only [not_and, not_or, not_lt] at hg
          split at h
          · exact absurd h (by simp)
          · rename_i w hloop
            simp only [Except.ok.injEq, Prod.mk.injEq] at h
            obtain ⟨hl, _⟩ := h
            subst hl
            refine strwrap_loop_printable K int_max x width pre_first pre_next width_1 width_2
              wrap_always pad_chr strip_spaces first_only hx hxl (by omega) (by omega) hb1 hb2
              (fun hwa => (hg hwa).2) _ _ w ?_ ?_ hloop
            · exact
                { s_string := rfl
                  st_string := rfl
                  b_string := rfl
                  s_style := rfl
                  st_style := rfl
                  b_style := rfl
                  st_width := rfl
                  s_width := by simp [FANSI_state_init_full]
                  b_width := by simp [FANSI_state_init_full]
                  st_le_b := le_refl _
                  b_le_s := le_refl _
                  s_le := Nat.zero_le _
                  no_ws := by
                    intro _ i hi1 hi2
                    simp only [FANSI_state_init_full] at hi2
                    omega
                  within := by
                    intro hc
                    show (0 : Int) ≤ width_1
                    rcases hc with hc | hc
                    · exact absurd hc (by simp)
                    · exact (hg hc).1
                  tar := rfl }
            · intro l hl
              exact absurd hl (by simp)

/-- The printable case at a concrete input: `"ab cde f"` at width 2 without `wrap_always` is wrapped into
`"ab"`, the token `"cde"` that is wider than the budget, and `"f"`. -/
theorem strwrap_printable_width_witness :
    line_ok [97, 98, 32, 99, 100, 101, 32, 102] 2 empty_pre empty_pre false [] ⟨[97, 98], false⟩ ∧
    line_ok [97, 98, 32, 99, 100, 101, 32, 102] 2 empty_pre empty_pre false []
      ⟨[99, 100, 101], false⟩ ∧
    line_ok [97, 98, 32, 99, 100, 101, 32, 102] 2 empty_pre empty_pre false [] ⟨[102], false⟩ :=
  have h := strwrap_printable_width FANSI_CTL INT_MAX [97, 98, 32, 99, 100, 101, 32, 102] 2
    empty_pre empty_pre false ⟨0, 0⟩ [] true 1 false 31
    [⟨[97, 98], false⟩, ⟨[99, 100, 101], false⟩, ⟨[102], false⟩] ⟨128, 1⟩
    (by unfold printable; decide) (by decide) (by decide) (by decide!)
  ⟨h _ (by simp), h _ (by simp), h _ (by simp)⟩

/-- C9, the code at the failing input: with `wrap_always` true, width 3 and
`strip_spaces` true, the first line of the reflow of `"ab"` U+6F22 `" x"` is
`"ab"` U+6F22, and reflowing that line again splits it into `"ab"` and
U+6F22. -/
theorem strwrap_wide_not_idempotent :
    (lines_of (strwrap FANSI_CTL INT_MAX ([97, 98] ++ wide_char ++ [32, 120]) 3 empty_pre
      empty_pre true ⟨0, 0⟩ [] true 1 false 31)).map List.head? =
      some (some ([97, 98] ++ wide_char)) ∧
    lines_of (strwrap FANSI_CTL INT_MAX ([97, 98] ++ wide_char) 3 empty_pre empty_pre true
      ⟨0, 0⟩ [] true 1 false 31) = some [[97, 98], wide_char] := by
  decide!

/-- C10, counterexample: for a line of zero bytes and the prefix `">"` with an
indent of two spaces, `FANSI_writeline` succeeds and the line is not the
concatenation that holds the first `pre_dat.bytes` bytes of the prefix
string: only `">"` is written. -/
theorem writeline_not_all_pre_bytes :
    ∃ line buff1,
      FANSI_writeline INT_MAX (cursor_at [] 0 0) (cursor_at [] 0 0) ⟨0, 0⟩ quote_pre 10 [] =
        .ok (line, buff1) ∧
      line.chars ≠
        writeline_parts (cursor_at [] 0 0) (cursor_at [] 0 0) quote_pre quote_pre.bytes 10 [] :=
  ⟨⟨[62], false⟩, ⟨128, 1⟩, by decide!, by decide⟩

/-- C10, amended: for every call of `FANSI_writeline` that succeeds (the width
offsets and the target width being non-negative C ints within `INT_MAX`), the
returned line is the concatenation, in this order, of: the serialized style of
`state_start` if it has an active style; the first `pre_dat.bytes` bytes of
the prefix string, or only the first `pre_dat.bytes - pre_dat.indent` bytes
when the line content has zero bytes; the input bytes from
`state_start.pos_byte` up to but excluding `state_bound.pos_byte`;
`max(0, tar_width)` minus the content width copies of the pad character if a
pad character is supplied and the content width does not exceed the budget;
and the four bytes `ESC[0m` if `state_bound` has an active style. -/
theorem writeline_line (int_max : Int) (state_bound state_start : FANSI_state)
    (buff buff1 : FANSI_buff) (pre_dat : FANSI_prefix_dat) (tar_width : Int)
    (pad_chr : List Nat) (line : CHARSXP)
    (hs : 0 ≤ state_start.pos_width) (hb : state_bound.pos_width ≤ INT_MAX)
    (ht : tar_width ≤ INT_MAX)
    (h : FANSI_writeline int_max state_bound state_start buff pre_dat tar_width pad_chr =
      .ok (line, buff1)) :
    line.chars = writeline_parts state_bound state_start pre_dat
      (if state_bound.pos_byte = state_start.pos_byte then pre_dat.bytes - pre_dat.indent
       else pre_dat.bytes) tar_width pad_chr := by
  obtain ⟨hbyte, hwidth, pre1, hpre, hline⟩ :=
    writeline_ok_write int_max state_bound state_start buff buff1 pre_dat tar_width pad_chr line h
  obtain ⟨hstr, hbytes⟩ := writeline_pre_ok _ _ _ _ hbyte hpre
  rw [hline, writeline_write_parts state_bound state_start pre_dat pre1 tar_width pad_chr hs hb
    ht hwidth hstr, hbytes]

/-- Witness of C10: the content `"a"` after the prefix `">"` with an indent of
two spaces, padded with `'-'` to the target width 10. -/
theorem writeline_line_witness :
    FANSI_writeline INT_MAX (cursor_at [97] 1 1) (cursor_at [97] 0 0) ⟨0, 0⟩ quote_pre 10 [45] =
      .ok (⟨[62, 32, 32, 97, 45, 45, 45, 45, 45, 45, 45, 45, 45], false⟩, ⟨128, 1⟩) ∧
    [62, 32, 32, 97, 45, 45, 45, 45, 45, 45, 45, 45, 45] =
      writeline_parts (cursor_at [97] 1 1) (cursor_at [97] 0 0) quote_pre
        (if (cursor_at [97] 1 1).pos_byte = (cursor_at [97] 0 0).pos_byte
          then quote_pre.bytes - quote_pre.indent else quote_pre.bytes) 10 [45] :=
  ⟨by decide!,
   writeline_line INT_MAX (cursor_at [97] 1 1) (cursor_at [97] 0 0) ⟨0, 0⟩ ⟨128, 1⟩ quote_pre 10
     [45] ⟨[62, 32, 32, 97, 45, 45, 45, 45, 45, 45, 45, 45, 45], false⟩
     (by decide) (by decide) (by decide) (by decide!)⟩

/-! ### The escape scanner: plain strings -/

/-- The body of the loop of `FANSI_find_esc` on a plain byte: nothing is
found, `x_track` moves on by one byte, and `break` is taken when a match is
open. -/
theorem find_esc_step_plain (K : FANSI_ctl_masks) (x : List Nat) (ctl : Nat) (i : Nat)
    (v : find_esc_vars) (h : plain_byte (byteAt x i)) :
    find_esc_step K x ctl i v = (v.found, i + 1, v) := by
  unfold find_esc_step
  unfold plain_byte at h
  simp only
  rw [if_pos (by omega)]

/-- A byte within a string is a member of the list. -/
theorem byteAt_mem (x : List Nat) (i : Nat) (h : i < x.length) : byteAt x i ∈ x := by
  rw [byteAt_lt x i h]
  exact List.getElem_mem h

/-- On a string of plain bytes the loop of `FANSI_find_esc` leaves its
variables as they are. -/
theorem find_esc_loop_plain (K : FANSI_ctl_masks) (x : List Nat) (ctl : Nat)
    (hx : ∀ b ∈ x, plain_byte b) (v : find_esc_vars) (hv : v.found = false) :
    ∀ (fuel i : Nat), find_esc_loop K x ctl fuel i v = find_esc_result v := by
  intro fuel
  induction fuel with
  | zero => intro i; rfl
  | succ n ih =>
    intro i
    rw [find_esc_loop.eq_2 K x ctl i v n]
    split
    · rfl
    · rename_i h0
      have hlt := byteAt_ne_zero_lt x i h0
      rw [find_esc_step_plain K x ctl i v (hx _ (byteAt_mem x i hlt)), hv]
      exact ih (i + 1)

/-- C17: for every string all of whose bytes are printable ASCII
(`32 .. 126`) or have the high bit set (`128` and above, negative as a signed
`char`), and for every category mask, `FANSI_find_esc` returns the no-match
result: the start is the scan start (offset 0), the length is 0, `valid` is 1
and no category bit is set. -/
theorem find_esc_plain_no_match (K : FANSI_ctl_masks) (x : List Nat) (ctl : Nat)
    (hx : ∀ b ∈ x, (32 ≤ b ∧ b ≤ 126) ∨ 128 ≤ b) :
    (FANSI_find_esc K x ctl).start = 0 ∧ (FANSI_find_esc K x ctl).len = 0 ∧
    (FANSI_find_esc K x ctl).valid = true ∧ (FANSI_find_esc K x ctl).ctl = 0 := by
  unfold FANSI_find_esc
  rw [find_esc_loop_plain K x ctl hx _ rfl]
  simp [find_esc_result]

/-- Witness of C17: the string `"Hi "` U+6F22 `"~"` scanned with all
categories enabled. -/
theorem find_esc_plain_no_match_witness :
    (FANSI_find_esc FANSI_CTL [72, 105, 32, 230, 188, 162, 126] 31).start = 0 ∧
    (FANSI_find_esc FANSI_CTL [72, 105, 32, 230, 188, 162, 126] 31).len = 0 ∧
    (FANSI_find_esc FANSI_CTL [72, 105, 32, 230, 188, 162, 126] 31).valid = true ∧
    (FANSI_find_esc FANSI_CTL [72, 105, 32, 230, 188, 162, 126] 31).ctl = 0 :=
  find_esc_plain_no_match FANSI_CTL [72, 105, 32, 230, 188, 162, 126] 31 (by decide)

/-! ### The escape scanner: the length of a CSI sequence -/

/-- A run of bytes in the range is skipped as a whole. -/
theorem skip_range_append (lo hi : Nat) (A rest : List Nat) (hA : ∀ b ∈ A, lo ≤ b ∧ b ≤ hi) :
    skip_range lo hi (A ++ rest) = A.length + skip_range lo hi rest := by
  induction A with
  | nil => simp
  | cons a A ih =>
    have ha := hA a (List.mem_cons_self _ _)
    rw [List.cons_append, skip_range, if_pos ha,
      ih (fun b hb => hA b (List.mem_cons_of_mem _ hb)), List.length_cons]
    omega

/-- A byte outside the range stops the run. -/
theorem skip_range_stop (lo hi : Nat) (c : Nat) (rest : List Nat) (hc : ¬ (lo ≤ c ∧ c ≤ hi)) :
    skip_range lo hi (c :: rest) = 0 := by
  simp only [skip_range, if_neg hc]

/-- The byte right after a list of bytes. -/
theorem byteAt_append_length (A : List Nat) (b : Nat) (B : List Nat) :
    byteAt (A ++ b :: B) A.length = b := by
  unfold byteAt
  rw [List.getD_eq_getElem?_getD, List.getElem?_append_right (le_refl _)]
  simp

/-- A byte past a list of bytes is a byte of what follows it. -/
theorem byteAt_append_right (A B : List Nat) (i : Nat) :
    byteAt (A ++ B) (A.length + i) = byteAt B i := by
  unfold byteAt
  simp [List.getD, List.getElem?_append_right]

/-- C12, counterexample: for the string `ESC [ ESC` (no parameter bytes, no
intermediate bytes, and `F` the byte ESC, which is neither NUL nor a parameter
nor an intermediate byte, followed by nothing) scanned with SGR and CSI-other
enabled, the length reported is not `2 + 0 + 0 + 1`: the ESC is not taken
into the sequence. -/
theorem find_esc_csi_length_not_claimed :
    ¬ ((FANSI_find_esc FANSI_CTL ([27, 91] ++ [] ++ [] ++ [27] ++ []) 12).len =
      2 + ([] : List Nat).length + ([] : List Nat).length + 1) := by
  decide

/-- C12, amended: for every string `ESC [ P I F R`, where `P` is a run of
bytes in `0x30 .. 0x3F`, `I` a run of bytes in `0x20 .. 0x2F`, `F` a single
byte that is not NUL, not ESC, and neither a parameter nor an intermediate
byte, and `R` is empty or starts with a printable ASCII byte, `FANSI_find_esc`
with both CSI categories enabled reports the start at the ESC (offset 0) and
the length `2 + |P| + |I| + 1`, and it reports valid if and only if `F` is in
`0x40 .. 0x7E`. -/
theorem find_esc_csi_length (K : FANSI_ctl_masks) (ctl : Nat) (P I R : List Nat) (F : Nat)
    (hS : ctl &&& K.SGR ≠ 0) (hC : ctl &&& K.CSI ≠ 0)
    (hP : ∀ b ∈ P, 0x30 ≤ b ∧ b ≤ 0x3F) (hI : ∀ b ∈ I, 0x20 ≤ b ∧ b ≤ 0x2F)
    (hF0 : F ≠ 0) (hFe : F ≠ 27) (hFp : ¬ (0x30 ≤ F ∧ F ≤ 0x3F)) (hFi : ¬ (0x20 ≤ F ∧ F ≤ 0x2F))
    (hR : R = [] ∨ ∃ b rest, R = b :: rest ∧ 32 ≤ b ∧ b ≤ 126) :
    (FANSI_find_esc K ([27, 91] ++ P ++ I ++ [F] ++ R) ctl).start = 0 ∧
    (FANSI_find_esc K ([27, 91] ++ P ++ I ++ [F] ++ R) ctl).len = 2 + P.length + I.length + 1 ∧
    ((FANSI_find_esc K ([27, 91] ++ P ++ I ++ [F] ++ R) ctl).valid = true ↔
      (0x40 ≤ F ∧ F ≤ 0x7E)) := by
  have hx : [27, 91] ++ P ++ I ++ [F] ++ R = 27 :: 91 :: (P ++ (I ++ F :: R)) := by simp
  rw [hx]
  set x := 27 :: 91 :: (P ++ (I ++ F :: R)) with hxdef
  have hlen : x.length = 2 + P.length + I.length + 1 + R.length := by
    simp [hxdef]; omega
  -- the parameter and intermediate runs
  have hd2 : x.drop 2 = P ++ (I ++ F :: R) := by simp [hxdef]
  have hsp : skip_range 0x30 0x3F (P ++ (I ++ F :: R)) = P.length := by
    rw [skip_range_append _ _ _ _ hP]
    cases I with
    | nil => simp [skip_range_stop _ _ F R hFp]
    | cons a I' =>
      have ha := hI a (List.mem_cons_self _ _)
      rw [List.cons_append, skip_range_stop _ _ a _ (by omega)]
      rfl
  have hd3 : x.drop (2 + P.length) = I ++ F :: R := by
    rw [hxdef, show 2 + P.length = P.length + 1 + 1 by omega, List.drop_succ_cons,
      List.drop_succ_cons, List.drop_left]
  have hsi : skip_range 0x20 0x2F (I ++ F :: R) = I.length := by
    rw [skip_range_append _ _ _ _ hI, skip_range_stop _ _ F R hFi]
    rfl
  have hx4 : x = (27 :: 91 :: (P ++ I)) ++ F :: R := by simp [hxdef]
  have hb4 : byteAt x (2 + P.length + I.length) = F := by
    have := byteAt_append_length (27 :: 91 :: (P ++ I)) F R
    rw [← hx4] at this
    simpa [Nat.add_comm, Nat.add_left_comm, Nat.add_assoc] using this
  have hd4 : x.drop (2 + P.length + I.length) = F :: R := by
    rw [hx4]
    have : 2 + P.length + I.length = (27 :: 91 :: (P ++ I)).length := by simp; omega
    rw [this, List.drop_left]
  have hsk : skip_range 0x20 0x3F (F :: R) = 0 :=
    skip_range_stop _ _ F R (by omega)
  have hb0 : byteAt x 0 = 27 := rfl
  have hb1 : byteAt x 1 = 91 := rfl
  -- the first iteration
  have hstep : find_esc_step K x ctl 0
      { valid := true, found := false, found_ctl := 0, x_found_start := 0, x_found_end := 0 } =
      (false, 2 + P.length + I.length + 1,
        { valid := decide (0x40 ≤ F ∧ F ≤ 0x7E), found := true,
          found_ctl := 0 ||| (if (!decide (0 < I.length) && decide (F = 109)) = true
            then K.SGR &&& ctl else K.CSI &&& ctl),
          x_found_start := 0, x_found_end := 2 + P.length + I.length + 1 }) := by
    unfold find_esc_step
    simp only [hb0, hb1, Nat.zero_add, Nat.reduceAdd, hd2, hsp, hd3, hsi, hb4, hd4, hsk]
    simp [hF0, hFe, hS, hC, hb4]
    intro _ h hI0
    rcases h with h | h
    · simp [hI0] at h
    · exact h
  -- the second iteration ends the loop
  have hloop : ∀ (fuel : Nat) (w : find_esc_vars), w.found = true →
      find_esc_loop K x ctl fuel (2 + P.length + I.length + 1) w = find_esc_result w := by
    intro fuel w hw
    cases fuel with
    | zero => rfl
    | succ n =>
      rw [find_esc_loop.eq_2 K x ctl _ w n]
      split
      · rfl
      · rename_i h0
        rcases hR with hR | ⟨b, rest, hR, hb⟩
        · exact absurd (byteAt_of_le x _ (by rw [hlen, hR]; simp)) h0
        · have hbR : byteAt x (2 + P.length + I.length + 1) = b := by
            have hx5 : x = (27 :: 91 :: (P ++ I ++ [F])) ++ b :: rest := by simp [hxdef, hR]
            have := byteAt_append_length (27 :: 91 :: (P ++ I ++ [F])) b rest
            rw [← hx5] at this
            simpa [Nat.add_comm, Nat.add_left_comm, Nat.add_assoc] using this
          rw [find_esc_step_plain K x ctl _ w (by rw [hbR]; exact Or.inl hb), hw]
  unfold FANSI_find_esc
  rw [show x.length = (1 + P.length + I.length + 1 + R.length) + 1 by omega,
    find_esc_loop.eq_2 K x ctl 0 _ _, if_neg (by rw [hb0]; decide), hstep]
  simp only
  rw [hloop _ _ rfl]
  simp [find_esc_result]

/-- Witness of C12: the sequence `ESC [ 3 8 ; 5 SP q` followed by `a`. -/
theorem find_esc_csi_length_witness :
    (FANSI_find_esc FANSI_CTL ([27, 91] ++ [51, 56, 59, 53] ++ [32] ++ [113] ++ [97]) 12).start = 0 ∧
    (FANSI_find_esc FANSI_CTL ([27, 91] ++ [51, 56, 59, 53] ++ [32] ++ [113] ++ [97]) 12).len =
      2 + [51, 56, 59, 53].length + [32].length + 1 ∧
    ((FANSI_find_esc FANSI_CTL ([27, 91] ++ [51, 56, 59, 53] ++ [32] ++ [113] ++ [97]) 12).valid = true ↔
      (0x40 ≤ 113 ∧ 113 ≤ 0x7E)) :=
  find_esc_csi_length FANSI_CTL 12 [51, 56, 59, 53] [32] [97] 113 (by decide) (by decide)
    (by decide) (by decide) (by decide) (by decide) (by decide) (by decide)
    (Or.inr ⟨97, [], rfl, by decide, by decide⟩)

/-! ### The escape scanner: the matched-category bits -/

/-- Adding bits that are masked with `c` keeps a value within `c`. -/
theorem and_or_mask (a m c : Nat) (h : a &&& c = a) : (a ||| (m &&& c)) &&& c = a ||| (m &&& c) := by
  rw [Nat.and_distrib_right, h, Nat.and_assoc, Nat.and_self]

/-- Adding bits that are masked with `c`, the mask written on the left. -/
theorem and_or_mask_left (a m c : Nat) (h : a &&& c = a) : (a ||| (c &&& m)) &&& c = a ||| (c &&& m) := by
  rw [Nat.and_comm c m]
  exact and_or_mask a m c h

/-- The body of the loop of `FANSI_find_esc` keeps the found categories
within the enabled ones. -/
theorem find_esc_step_ctl (K : FANSI_ctl_masks) (x : List Nat) (ctl : Nat) (i : Nat)
    (v : find_esc_vars) (h : v.found_ctl &&& ctl = v.found_ctl) :
    (find_esc_step K x ctl i v).2.2.found_ctl &&& ctl = (find_esc_step K x ctl i v).2.2.found_ctl := by
  unfold find_esc_step
  simp only
  split_ifs <;>
    first
    | exact h
    | exact and_or_mask _ _ _ h
    | exact and_or_mask_left _ _ _ h

/-- The loop of `FANSI_find_esc` keeps the found categories within the
enabled ones. -/
theorem find_esc_loop_ctl (K : FANSI_ctl_masks) (x : List Nat) (ctl : Nat) :
    ∀ (fuel i : Nat) (v : find_esc_vars), v.found_ctl &&& ctl = v.found_ctl →
      (find_esc_loop K x ctl fuel i v).ctl &&& ctl = (find_esc_loop K x ctl fuel i v).ctl := by
  have hres : ∀ v : find_esc_vars, v.found_ctl &&& ctl = v.found_ctl →
      (find_esc_result v).ctl &&& ctl = (find_esc_result v).ctl := by
    intro v hv
    unfold find_esc_result
    split <;> exact hv
  intro fuel
  induction fuel with
  | zero => intro i v hv; exact hres v hv
  | succ n ih =>
    intro i v hv
    rw [find_esc_loop.eq_2 K x ctl i v n]
    split
    · exact hres v hv
    · have hs := find_esc_step_ctl K x ctl i v hv
      rcases hstep : find_esc_step K x ctl i v with ⟨brk, j, w⟩
      rw [hstep] at hs
      cases brk
      · exact ih j w hs
      · exact hres w hs

/-- C15, counterexample: the string `ESC [ 3 1 m` holds an SGR sequence; when it
is scanned with CSI-other enabled and SGR not, the SGR bit of the returned
`ctl` field is not set. -/
theorem find_esc_excluded_not_reported :
    ¬ ((FANSI_find_esc FANSI_CTL [27, 91, 51, 49, 109] FANSI_CTL.CSI).ctl &&& FANSI_CTL.SGR ≠ 0) := by
  decide

/-- C15, amended: the matched-category bits that `FANSI_find_esc` returns are
bits of the enabled categories only: the `ctl` field is within the `ctl`
argument, so for a category whose mask `M` is not enabled in `ctl` no bit of
`M` is set in the field, whatever the string contains. -/
theorem find_esc_ctl_enabled_only (K : FANSI_ctl_masks) (x : List Nat) (ctl : Nat) :
    (FANSI_find_esc K x ctl).ctl &&& ctl = (FANSI_find_esc K x ctl).ctl ∧
    ∀ M : Nat, ctl &&& M = 0 → (FANSI_find_esc K x ctl).ctl &&& M = 0 := by
  have h : (FANSI_find_esc K x ctl).ctl &&& ctl = (FANSI_find_esc K x ctl).ctl :=
    find_esc_loop_ctl K x ctl _ _ _ (by simp)
  refine ⟨h, fun M hM => ?_⟩
  rw [← h, Nat.and_assoc, hM, Nat.and_zero]

/-- Witness of C15: `ESC[31mHELLO ESC[0m` (without the space) scanned with
CSI-other enabled and SGR not. -/
theorem find_esc_ctl_enabled_only_witness :
    (FANSI_find_esc FANSI_CTL str_red_hello FANSI_CTL.CSI).ctl &&& FANSI_CTL.SGR = 0 :=
  (find_esc_ctl_enabled_only FANSI_CTL str_red_hello FANSI_CTL.CSI).2 FANSI_CTL.SGR (by decide)

/-! ### The escape scanner: the validity flag -/

/-- The validity flag after the body of the loop read an ESC: it stays set
only if the sequence that the ESC introduces is terminated by a final byte,
whatever categories are enabled. -/
theorem find_esc_step_valid (K : FANSI_ctl_masks) (x : List Nat) (ctl : Nat) (i : Nat)
    (v : find_esc_vars) (h27 : byteAt x i = 27) :
    (find_esc_step K x ctl i v).2.2.valid = (v.valid && seq_valid_at x i) := by
  unfold find_esc_step seq_valid_at
  simp only [h27, show i + 1 + 1 = i + 2 from rfl]
  split_ifs <;> simp_all

/-- The body of the loop clears the validity flag on an invalid sequence. -/
theorem find_esc_step_invalid (K : FANSI_ctl_masks) (x : List Nat) (ctl : Nat) (i : Nat)
    (v : find_esc_vars) (h : invalid_esc_at x i) :
    (find_esc_step K x ctl i v).2.2.valid = false := by
  rw [find_esc_step_valid K x ctl i v h.1, h.2, Bool.and_false]

/-- The body of the loop never sets the validity flag again. -/
theorem find_esc_step_valid_false (K : FANSI_ctl_masks) (x : List Nat) (ctl : Nat) (i : Nat)
    (v : find_esc_vars) (h : v.valid = false) :
    (find_esc_step K x ctl i v).2.2.valid = false := by
  unfold find_esc_step
  simp only
  split_ifs <;> simp [h]

/-- The validity flag of the result is the one of the loop. -/
theorem find_esc_result_valid (v : find_esc_vars) : (find_esc_result v).valid = v.valid := by
  unfold find_esc_result
  split <;> rfl

/-- A validity flag that is cleared stays cleared to the end of the scan. -/
theorem find_esc_loop_valid_false (K : FANSI_ctl_masks) (x : List Nat) (ctl : Nat) :
    ∀ (fuel i : Nat) (v : find_esc_vars), v.valid = false →
      (find_esc_loop K x ctl fuel i v).valid = false := by
  intro fuel
  induction fuel with
  | zero => intro i v hv; rw [find_esc_loop, find_esc_result_valid]; exact hv
  | succ n ih =>
    intro i v hv
    rw [find_esc_loop.eq_2 K x ctl i v n]
    split
    · rw [find_esc_result_valid]; exact hv
    · have hs := find_esc_step_valid_false K x ctl i v hv
      rcases hstep : find_esc_step K x ctl i v with ⟨brk, j, w⟩
      rw [hstep] at hs
      cases brk
      · exact ih j w hs
      · simp only; rw [find_esc_result_valid]; exact hs

/-- An invalid sequence at an offset that the loop examines clears the
validity flag of the result. -/
theorem find_esc_loop_invalid (K : FANSI_ctl_masks) (x : List Nat) (ctl : Nat) (p : Nat)
    (hp : invalid_esc_at x p) :
    ∀ (fuel i : Nat) (v : find_esc_vars), p ∈ find_esc_visits K x ctl fuel i v →
      (find_esc_loop K x ctl fuel i v).valid = false := by
  intro fuel
  induction fuel with
  | zero => intro i v hm; simp [find_esc_visits] at hm
  | succ n ih =>
    intro i v hm
    rw [find_esc_visits] at hm
    rw [find_esc_loop.eq_2 K x ctl i v n]
    split at hm
    · simp at hm
    · rename_i h0
      rw [if_neg h0]
      have hinv := fun h : p = i => find_esc_step_invalid K x ctl i v (h ▸ hp)
      rcases hstep : find_esc_step K x ctl i v with ⟨brk, j, w⟩
      rw [hstep] at hm hinv
      cases brk
      · simp only [List.mem_cons] at hm
        rcases hm with hm | hm
        · exact find_esc_loop_valid_false K x ctl n j w (hinv hm)
        · exact ih j w hm
      · simp only [List.mem_singleton] at hm
        simp only
        rw [find_esc_result_valid]
        exact hinv hm

/-- C16: the validity flag that `FANSI_find_esc` returns reflects every escape
sequence that the scan examines: if the ESC of an invalid ESC or CSI sequence
(one that is not terminated by a final byte in `0x40 .. 0x7E`) is read before
the scan stops, `valid` is 0, for every mask of enabled categories, also when
the category of that sequence is not enabled and the result is the
zero-length no-match. -/
theorem find_esc_valid_all_scanned (K : FANSI_ctl_masks) (x : List Nat) (ctl : Nat) (i : Nat)
    (hs : i ∈ find_esc_scanned K x ctl) (hi : invalid_esc_at x i) :
    (FANSI_find_esc K x ctl).valid = false :=
  find_esc_loop_invalid K x ctl i hi _ _ _ hs

/-- Witness of C16: `a ESC [ 3 1` holds an unterminated CSI sequence at offset
1; scanned with no category enabled the result is not valid. -/
theorem find_esc_valid_all_scanned_witness :
    (1 ∈ find_esc_scanned FANSI_CTL [97, 27, 91, 51, 49] 0 ∧ invalid_esc_at [97, 27, 91, 51, 49] 1) ∧
    (FANSI_find_esc FANSI_CTL [97, 27, 91, 51, 49] 0).valid = false :=
  ⟨by decide, find_esc_valid_all_scanned FANSI_CTL [97, 27, 91, 51, 49] 0 1 (by decide) (by decide)⟩

/-! ### The escape scanner: the loop body on a control -/

/-- What the body of the loop does on a CSI sequence at offset `i`: the
sequence counts as found when its category is enabled; the end of the match is
then the new offset of `x_track`; `break` is taken when a match was open and
the sequence is not of an enabled category. -/
theorem find_esc_step_csi (K : FANSI_ctl_masks) (x : List Nat) (ctl : Nat) (i : Nat)
    (v : find_esc_vars) (h27 : byteAt x i = 27) (h91 : byteAt x (i + 1) = 91) :
    (find_esc_step K x ctl i v).2.2.found = (v.found || csi_enabled K x ctl i) ∧
    (find_esc_step K x ctl i v).1 = (v.found && !csi_enabled K x ctl i) ∧
    (find_esc_step K x ctl i v).2.2.x_found_start =
      (if v.found then v.x_found_start else i) ∧
    (find_esc_step K x ctl i v).2.2.x_found_end =
      (if csi_enabled K x ctl i then (find_esc_step K x ctl i v).2.1
       else if v.found then v.x_found_end else i) := by
  unfold find_esc_step csi_enabled csi_is_sgr csi_final_at csi_inters_at
  simp only [h27, h91, show i + 1 + 1 = i + 2 from rfl, show i + 1 - 1 = i from rfl]
  obtain ⟨np, hnp⟩ : ∃ np, skip_range 0x30 0x3F (x.drop (i + 2)) = np := ⟨_, rfl⟩
  simp only [hnp]
  obtain ⟨ni, hni⟩ : ∃ ni, skip_range 0x20 0x2F (x.drop (i + 2 + np)) = ni := ⟨_, rfl⟩
  simp only [hni]
  obtain ⟨nk, hnk⟩ : ∃ nk, skip_range 0x20 0x3F (x.drop (i + 2 + np + ni)) = nk := ⟨_, rfl⟩
  simp only [hnk]
  by_cases hv : 0x40 ≤ byteAt x (i + 2 + np + ni) ∧ byteAt x (i + 2 + np + ni) ≤ 0x7E
  · simp only [hv, and_self, decide_True, if_true]
    obtain ⟨c, hc⟩ : ∃ c, byteAt x (i + 2 + np + ni) = c := ⟨_, rfl⟩
    simp only [hc]
    have h0 : ni = 0 ∨ (0 < ni ∧ ni ≠ 0) := by omega
    rcases h0 with h1 | ⟨h1, h1n⟩
    · subst h1
      cases hf : v.found <;> by_cases h2 : c = 109 <;>
        by_cases h3 : ctl &&& K.SGR = 0 <;> by_cases h4 : ctl &&& K.CSI = 0 <;>
        simp [hf, h2, h3, h4]
    · cases hf : v.found <;> by_cases h2 : c = 109 <;>
        by_cases h3 : ctl &&& K.SGR = 0 <;> by_cases h4 : ctl &&& K.CSI = 0 <;>
        simp [hf, h1, h1n, h2, h3, h4]
  · simp only [hv, decide_False, if_false, Bool.false_eq_true]
    obtain ⟨c, hc⟩ : ∃ c, byteAt x (i + 2 + np + ni + nk) = c := ⟨_, rfl⟩
    simp only [hc]
    have h0 : ni = 0 ∨ (0 < ni ∧ ni ≠ 0) := by omega
    rcases h0 with h1 | ⟨h1, h1n⟩
    · subst h1
      cases hf : v.found <;> by_cases h2 : c = 109 <;>
        by_cases h3 : ctl &&& K.SGR = 0 <;> by_cases h4 : ctl &&& K.CSI = 0 <;>
        simp [hf, h2, h3, h4]
    · cases hf : v.found <;> by_cases h2 : c = 109 <;>
        by_cases h3 : ctl &&& K.SGR = 0 <;> by_cases h4 : ctl &&& K.CSI = 0 <;>
        simp [hf, h1, h1n, h2, h3, h4]

/-- What the body of the loop does on an ESC at offset `i` that is not
followed by `[`. -/
theorem find_esc_step_esc (K : FANSI_ctl_masks) (x : List Nat) (ctl : Nat) (i : Nat)
    (v : find_esc_vars) (h27 : byteAt x i = 27) (h91 : byteAt x (i + 1) ≠ 91) :
    (find_esc_step K x ctl i v).2.2.found = (v.found || decide (ctl &&& K.ESC ≠ 0)) ∧
    (find_esc_step K x ctl i v).1 = (v.found && !decide (ctl &&& K.ESC ≠ 0)) ∧
    (find_esc_step K x ctl i v).2.2.x_found_start =
      (if v.found then v.x_found_start else i) ∧
    (find_esc_step K x ctl i v).2.2.x_found_end =
      (if decide (ctl &&& K.ESC ≠ 0) then (find_esc_step K x ctl i v).2.1
       else if v.found then v.x_found_end else i) ∧
    (find_esc_step K x ctl i v).2.1 =
      (if byteAt x (i + 1) ≠ 0 ∧ byteAt x (i + 1) ≠ 27 then i + 2 else i + 1) := by
  unfold find_esc_step
  simp only [h27, h91, show i + 1 - 1 = i from rfl]
  cases hf : v.found <;> by_cases h3 : ctl &&& K.ESC = 0 <;>
    by_cases h4 : byteAt x (i + 1) ≠ 0 ∧ byteAt x (i + 1) ≠ 27 <;> simp [hf, h3, h4]

/-- What the body of the loop does on a C0 byte other than ESC. -/
theorem find_esc_step_c0 (K : FANSI_ctl_masks) (x : List Nat) (ctl : Nat) (i : Nat)
    (v : find_esc_vars) (hp : ¬ plain_byte (byteAt x i)) (h27 : byteAt x i ≠ 27) :
    (find_esc_step K x ctl i v).2.2.found =
      (v.found || (if byteAt x i = 10 then decide (ctl &&& K.NL ≠ 0)
        else decide (ctl &&& K.C0 ≠ 0))) ∧
    (find_esc_step K x ctl i v).1 =
      (v.found && !(if byteAt x i = 10 then decide (ctl &&& K.NL ≠ 0)
        else decide (ctl &&& K.C0 ≠ 0))) ∧
    (find_esc_step K x ctl i v).2.2.x_found_start =
      (if v.found then v.x_found_start else i) ∧
    (find_esc_step K x ctl i v).2.2.x_found_end =
      (if (if byteAt x i = 10 then decide (ctl &&& K.NL ≠ 0) else decide (ctl &&& K.C0 ≠ 0))
       then i + 1 else if v.found then v.x_found_end else i) ∧
    (find_esc_step K x ctl i v).2.1 = i + 1 := by
  have hp2 : ¬ ((31 < byteAt x i ∧ byteAt x i < 127) ∨ 128 ≤ byteAt x i) := by
    unfold plain_byte at hp; omega
  unfold find_esc_step
  simp only [if_neg hp2, if_neg h27, show i + 1 - 1 = i from rfl]
  cases hf : v.found <;> by_cases h1 : byteAt x i = 10 <;>
    by_cases h3 : ctl &&& K.NL = 0 <;> by_cases h4 : ctl &&& K.C0 = 0 <;>
    simp [hf, h1, h3, h4]

/-- The offset of `x_track` after the body of the loop read a CSI sequence at
offset `i`: past the byte at the final position, unless that is the
terminator or an ESC. -/
theorem find_esc_step_csi_next (K : FANSI_ctl_masks) (x : List Nat) (ctl : Nat) (i : Nat)
    (v : find_esc_vars) (h27 : byteAt x i = 27) (h91 : byteAt x (i + 1) = 91) :
    (find_esc_step K x ctl i v).2.1 =
      (if byteAt x (csi_final_at x i) ≠ 0 ∧ byteAt x (csi_final_at x i) ≠ 27
       then csi_final_at x i + 1 else csi_final_at x i) := by
  unfold find_esc_step csi_final_at
  simp only [h27, h91, show i + 1 + 1 = i + 2 from rfl]
  by_cases hv : 0x40 ≤ byteAt x (i + 2 + skip_range 0x30 0x3F (x.drop (i + 2)) +
        skip_range 0x20 0x2F (x.drop (i + 2 + skip_range 0x30 0x3F (x.drop (i + 2))))) ∧
      byteAt x (i + 2 + skip_range 0x30 0x3F (x.drop (i + 2)) +
        skip_range 0x20 0x2F (x.drop (i + 2 + skip_range 0x30 0x3F (x.drop (i + 2))))) ≤ 0x7E
  · simp [hv]
  · simp [hv]

/-- What the body of the loop does on a byte that is not plain: the control
counts as found when its category is enabled; the end of the match is then the
new offset of `x_track`; `break` is taken when a match was open and the
category is not enabled. -/
theorem find_esc_step_control (K : FANSI_ctl_masks) (x : List Nat) (ctl : Nat) (i : Nat)
    (v : find_esc_vars) (hp : ¬ plain_byte (byteAt x i)) :
    (find_esc_step K x ctl i v).2.2.found = (v.found || ctl_enabled_at K x ctl i) ∧
    (find_esc_step K x ctl i v).1 = (v.found && !ctl_enabled_at K x ctl i) ∧
    (find_esc_step K x ctl i v).2.2.x_found_start =
      (if v.found then v.x_found_start else i) ∧
    (find_esc_step K x ctl i v).2.2.x_found_end =
      (if ctl_enabled_at K x ctl i then (find_esc_step K x ctl i v).2.1
       else if v.found then v.x_found_end else i) := by
  unfold ctl_enabled_at
  by_cases h27 : byteAt x i = 27
  · by_cases h91 : byteAt x (i + 1) = 91
    · rw [if_pos h27, if_pos h91]
      exact find_esc_step_csi K x ctl i v h27 h91
    · rw [if_pos h27, if_neg h91]
      obtain ⟨h1, h2, h3, h4, _⟩ := find_esc_step_esc K x ctl i v h27 h91
      exact ⟨h1, h2, h3, h4⟩
  · rw [if_neg h27]
    obtain ⟨h1, h2, h3, h4, h5⟩ := find_esc_step_c0 K x ctl i v hp h27
    rw [h5]
    exact ⟨h1, h2, h3, h4⟩

/-- A match that is open at some offset and starts before it is reported with
its start, and it is not empty. -/
theorem find_esc_loop_found (K : FANSI_ctl_masks) (x : List Nat) (ctl : Nat) :
    ∀ (fuel i : Nat) (v : find_esc_vars), v.found = true →
      v.x_found_start < v.x_found_end → v.x_found_start < i →
      (find_esc_loop K x ctl fuel i v).start = v.x_found_start ∧
      0 < (find_esc_loop K x ctl fuel i v).len := by
  have hres : ∀ v : find_esc_vars, v.found = true → v.x_found_start < v.x_found_end →
      (find_esc_result v).start = v.x_found_start ∧ 0 < (find_esc_result v).len := by
    intro v hf hlt
    unfold find_esc_result
    rw [if_pos hf]
    exact ⟨rfl, by simp only; omega⟩
  intro fuel
  induction fuel with
  | zero => intro i v hf hlt _; exact hres v hf hlt
  | succ n ih =>
    intro i v hf hlt hi
    rw [find_esc_loop.eq_2 K x ctl i v n]
    split
    · exact hres v hf hlt
    · have hadv := find_esc_step_advances K x ctl i v
      have hw : (find_esc_step K x ctl i v).2.2.found = true ∧
          (find_esc_step K x ctl i v).2.2.x_found_start = v.x_found_start ∧
          ((find_esc_step K x ctl i v).2.2.x_found_end = v.x_found_end ∨
            (find_esc_step K x ctl i v).2.2.x_found_end = (find_esc_step K x ctl i v).2.1) := by
        by_cases hp : plain_byte (byteAt x i)
        · rw [find_esc_step_plain K x ctl i v hp]
          exact ⟨hf, rfl, Or.inl rfl⟩
        · obtain ⟨h1, _, h3, h4⟩ := find_esc_step_control K x ctl i v hp
          rw [h1, h3, h4, hf]
          refine ⟨by simp, by simp, ?_⟩
          cases ctl_enabled_at K x ctl i <;> simp
      rcases hstep : find_esc_step K x ctl i v with ⟨brk, j, w⟩
      rw [hstep] at hadv hw
      simp only at hadv hw
      obtain ⟨hwf, hws, hwe⟩ := hw
      have hlt2 : w.x_found_start < w.x_found_end := by
        rcases hwe with h | h <;> omega
      cases brk
      · have := ih j w hwf hlt2 (by omega)
        rw [hws] at this
        exact this
      · have := hres w hwf hlt2
        rw [hws] at this
        exact this

/-- The bytes of a run are in the range. -/
theorem skip_range_take (lo hi : Nat) (l : List Nat) :
    ∀ b ∈ l.take (skip_range lo hi l), lo ≤ b ∧ b ≤ hi := by
  induction l with
  | nil => intro b hb; simp [skip_range] at hb
  | cons a l ih =>
    intro b hb
    rw [skip_range] at hb
    split at hb
    · rename_i ha
      rw [List.take_succ_cons, List.mem_cons] at hb
      rcases hb with hb | hb
      · rw [hb]; exact ha
      · exact ih b hb
    · simp at hb

/-- A run is not longer than the string. -/
theorem skip_range_le (lo hi : Nat) (l : List Nat) : skip_range lo hi l ≤ l.length := by
  induction l with
  | nil => simp [skip_range]
  | cons a l ih =>
    rw [skip_range]
    split
    · simp only [List.length_cons]; omega
    · omega

/-- The byte after a run is outside the range of the run (the terminator is
outside every range with a positive lower end). -/
theorem skip_range_next (lo hi : Nat) (hlo : 0 < lo) (l : List Nat) :
    ¬ (lo ≤ byteAt l (skip_range lo hi l) ∧ byteAt l (skip_range lo hi l) ≤ hi) := by
  induction l with
  | nil => simp [skip_range, byteAt]; omega
  | cons a l ih =>
    rw [skip_range]
    split
    · simpa [byteAt] using ih
    · rename_i ha
      simpa [byteAt] using ha

/-- A run is empty when the first byte is outside the range. -/
theorem skip_range_zero_of_byte (lo hi : Nat) (l : List Nat)
    (h : ¬ (lo ≤ byteAt l 0 ∧ byteAt l 0 ≤ hi)) : skip_range lo hi l = 0 := by
  cases l with
  | nil => rfl
  | cons a l =>
    rw [skip_range, if_neg (by simpa [byteAt] using h)]

/-- A byte of the rest of a string. -/
theorem byteAt_drop (x : List Nat) (i k : Nat) : byteAt (x.drop i) k = byteAt x (i + k) := by
  unfold byteAt
  simp [List.getD, List.getElem?_drop]

/-- When a run is empty, the first byte is outside the range or the string
is empty. -/
theorem byteAt_zero_of_skip (lo hi : Nat) (l : List Nat) (h : skip_range lo hi l = 0) :
    ¬ (lo ≤ byteAt l 0 ∧ byteAt l 0 ≤ hi) ∨ l = [] := by
  cases l with
  | nil => exact Or.inr rfl
  | cons a l =>
    left
    rw [skip_range] at h
    split at h
    · omega
    · rename_i ha; simpa [byteAt] using ha

/-- The rest of a string from a byte that is not the terminator. -/
theorem drop_of_byteAt (l : List Nat) (n b : Nat) (hb : b ≠ 0) (h : byteAt l n = b) :
    l.drop n = b :: l.drop (n + 1) := by
  have hlt : n < l.length := byteAt_ne_zero_lt l n (by rw [h]; exact hb)
  rw [byteAt_lt l n hlt] at h
  rw [← h]
  exact List.drop_eq_getElem_cons hlt

/-- A CSI sequence with no intermediate bytes whose final position holds `m`
is valid, and parameter bytes only stand between `ESC [` and the `m`. -/
theorem csi_sgr_form (x : List Nat) (h27 : byteAt x 0 = 27) (h91 : byteAt x 1 = 91)
    (hs : csi_is_sgr x 0 = true) :
    seq_valid_at x 0 = true ∧
    ∃ P tail, x = 27 :: 91 :: (P ++ 109 :: tail) ∧ ∀ b ∈ P, 0x30 ≤ b ∧ b ≤ 0x3F := by
  unfold csi_is_sgr csi_inters_at csi_final_at at hs
  simp only [Nat.zero_add, decide_eq_true_eq] at hs
  obtain ⟨hni, hm⟩ := hs
  rw [hni] at hm
  simp only [Nat.add_zero] at hm
  -- the byte after the parameter bytes is neither a parameter nor an intermediate byte
  have hnp := skip_range_next 0x30 0x3F (by decide) (x.drop 2)
  rw [byteAt_drop] at hnp
  have hnot : ¬ (0x20 ≤ byteAt x (2 + skip_range 0x30 0x3F (x.drop 2)) ∧
      byteAt x (2 + skip_range 0x30 0x3F (x.drop 2)) ≤ 0x3F) := by
    rcases byteAt_zero_of_skip _ _ _ hni with h | h
    · rw [byteAt_drop, Nat.add_zero] at h
      omega
    · have h0 : byteAt (x.drop (2 + skip_range 0x30 0x3F (x.drop 2))) 0 = 0 := by rw [h]; rfl
      rw [byteAt_drop, Nat.add_zero] at h0
      omega
  have hk : skip_range 0x20 0x3F (x.drop (2 + skip_range 0x30 0x3F (x.drop 2))) = 0 :=
    skip_range_zero_of_byte _ _ _ (by rw [byteAt_drop, Nat.add_zero]; exact hnot)
  rw [hk] at hm
  simp only [Nat.add_zero, ite_self] at hm
  refine ⟨?_, ?_⟩
  · unfold seq_valid_at
    simp only [Nat.zero_add, h91, if_true, hni, Nat.add_zero, hm]
    decide
  · have h0 : x.drop 0 = 27 :: x.drop 1 := drop_of_byteAt x 0 27 (by decide) h27
    have h1 : x.drop 1 = 91 :: x.drop 2 := drop_of_byteAt x 1 91 (by decide) h91
    have hm2 : byteAt (x.drop 2) (skip_range 0x30 0x3F (x.drop 2)) = 109 := by
      rw [byteAt_drop]; exact hm
    have h2 := drop_of_byteAt (x.drop 2) _ 109 (by decide) hm2
    refine ⟨(x.drop 2).take (skip_range 0x30 0x3F (x.drop 2)),
      (x.drop 2).drop (skip_range 0x30 0x3F (x.drop 2) + 1), ?_, skip_range_take _ _ _⟩
    rw [← h2, List.take_append_drop, ← h1, ← h0, List.drop_zero]

/-! ### The escape scanner: adjacent sequences -/

/-- The rest of a string past a list of bytes. -/
theorem drop_append_right (A y : List Nat) (k : Nat) : (A ++ y).drop (A.length + k) = y.drop k := by
  rw [List.drop_append_eq_append_drop]
  simp [List.drop_eq_nil_of_le]

/-- The intermediate bytes of a CSI sequence do not depend on what precedes
it. -/
theorem csi_inters_at_shift (A y : List Nat) (i : Nat) :
    csi_inters_at (A ++ y) (A.length + i) = csi_inters_at y i := by
  unfold csi_inters_at
  simp only [Nat.add_assoc, drop_append_right]

/-- The final position of a CSI sequence moves with what precedes it. -/
theorem csi_final_at_shift (A y : List Nat) (i : Nat) :
    csi_final_at (A ++ y) (A.length + i) = A.length + csi_final_at y i := by
  unfold csi_final_at
  simp only [Nat.add_assoc, drop_append_right, byteAt_append_right]
  split <;> rfl

/-- Whether a CSI sequence is enabled does not depend on what precedes it. -/
theorem csi_enabled_shift (K : FANSI_ctl_masks) (ctl : Nat) (A y : List Nat) (i : Nat) :
    csi_enabled K (A ++ y) ctl (A.length + i) = csi_enabled K y ctl i := by
  unfold csi_enabled csi_is_sgr
  rw [csi_inters_at_shift, csi_final_at_shift, byteAt_append_right]

/-- Whether a control is enabled does not depend on what precedes it. -/
theorem ctl_enabled_at_shift (K : FANSI_ctl_masks) (ctl : Nat) (A y : List Nat) (i : Nat) :
    ctl_enabled_at K (A ++ y) ctl (A.length + i) = ctl_enabled_at K y ctl i := by
  unfold ctl_enabled_at
  rw [csi_enabled_shift, Nat.add_assoc, byteAt_append_right, byteAt_append_right]

/-- The offset of `x_track` after the body of the loop read a control. -/
theorem find_esc_step_next (K : FANSI_ctl_masks) (x : List Nat) (ctl : Nat) (i : Nat)
    (v : find_esc_vars) (hp : ¬ plain_byte (byteAt x i)) :
    (find_esc_step K x ctl i v).2.1 = ctl_next x i := by
  unfold ctl_next
  by_cases h27 : byteAt x i = 27
  · by_cases h91 : byteAt x (i + 1) = 91
    · rw [if_pos h27, if_pos h91]
      exact find_esc_step_csi_next K x ctl i v h27 h91
    · rw [if_pos h27, if_neg h91]
      exact (find_esc_step_esc K x ctl i v h27 h91).2.2.2.2
  · rw [if_neg h27]
    exact (find_esc_step_c0 K x ctl i v hp h27).2.2.2.2

/-- The end of a control moves with what precedes it. -/
theorem ctl_next_shift (A y : List Nat) (i : Nat) :
    ctl_next (A ++ y) (A.length + i) = A.length + ctl_next y i := by
  unfold ctl_next
  simp only [csi_final_at_shift, Nat.add_assoc, byteAt_append_right]
  split_ifs <;> rfl

/-- The parse of a well-formed CSI sequence `ESC [ P I F` at the head of a
string. -/
theorem csi_parse (P I B : List Nat) (F : Nat)
    (hP : ∀ b ∈ P, 0x30 ≤ b ∧ b ≤ 0x3F) (hI : ∀ b ∈ I, 0x20 ≤ b ∧ b ≤ 0x2F)
    (hF : 0x40 ≤ F ∧ F ≤ 0x7E) :
    csi_inters_at (27 :: 91 :: (P ++ I ++ F :: B)) 0 = I.length ∧
    csi_final_at (27 :: 91 :: (P ++ I ++ F :: B)) 0 = 2 + P.length + I.length ∧
    byteAt (27 :: 91 :: (P ++ I ++ F :: B)) (2 + P.length + I.length) = F := by
  have hsp : skip_range 0x30 0x3F (P ++ I ++ F :: B) = P.length := by
    rw [List.append_assoc, skip_range_append _ _ _ _ hP]
    cases I with
    | nil => rw [List.nil_append, skip_range_stop _ _ F B (by omega)]; rfl
    | cons a I' =>
      have ha := hI a (List.mem_cons_self _ _)
      rw [List.cons_append, skip_range_stop _ _ a _ (by omega)]
      rfl
  have hd3 : (27 :: 91 :: (P ++ I ++ F :: B)).drop (2 + P.length) = I ++ F :: B := by
    rw [show 2 + P.length = P.length + 1 + 1 by omega, List.drop_succ_cons,
      List.drop_succ_cons, List.append_assoc, List.drop_left]
  have hsi : skip_range 0x20 0x2F (I ++ F :: B) = I.length := by
    rw [skip_range_append _ _ _ _ hI, skip_range_stop _ _ F B (by omega)]
    rfl
  have hb4 : byteAt (27 :: 91 :: (P ++ I ++ F :: B)) (2 + P.length + I.length) = F := by
    have := byteAt_append_length (27 :: 91 :: (P ++ I)) F B
    simpa [Nat.add_comm, Nat.add_left_comm, Nat.add_assoc] using this
  refine ⟨?_, ?_, hb4⟩
  · unfold csi_inters_at
    simp only [Nat.zero_add, List.drop_succ_cons, List.drop_zero, hsp, hd3, hsi]
  · unfold csi_final_at
    simp only [Nat.zero_add, List.drop_succ_cons, List.drop_zero, hsp, hd3, hsi, hb4]
    rw [if_pos hF]

/-- A well-formed control sequence at the head of a string: its first byte is
a control byte, its category is enabled exactly when its mask is, and the loop
body moves `x_track` to its end. -/
theorem ctl_seq_head (K : FANSI_ctl_masks) (ctl M : Nat) (s B : List Nat)
    (hs : ctl_seq K M s) :
    ¬ plain_byte (byteAt (s ++ B) 0) ∧ byteAt (s ++ B) 0 ≠ 0 ∧
    ctl_enabled_at K (s ++ B) ctl 0 = decide (ctl &&& M ≠ 0) ∧
    ctl_next (s ++ B) 0 = s.length := by
  rcases hs with ⟨hs, hM⟩ | ⟨b, hs, hb, hb10, hb27, hM⟩ | ⟨F, hs, hF, hF91, hM⟩ |
    ⟨P, hs, hP, hM⟩ | ⟨P, I, F, hs, hP, hI, hF, hnot, hM⟩
  · subst hs hM
    refine ⟨by unfold plain_byte; simp [byteAt], by simp [byteAt], ?_, ?_⟩
    · simp [ctl_enabled_at, byteAt]
    · simp [ctl_next, byteAt]
  · subst hs hM
    have h0 : byteAt ([b] ++ B) 0 = b := by simp [byteAt]
    refine ⟨by rw [h0]; unfold plain_byte; omega, by rw [h0]; omega, ?_, ?_⟩
    · unfold ctl_enabled_at
      rw [h0, if_neg hb27, if_neg hb10]
    · unfold ctl_next
      rw [h0, if_neg hb27]
      rfl
  · subst hs hM
    have h0 : byteAt ([27, F] ++ B) 0 = 27 := rfl
    have h1 : byteAt ([27, F] ++ B) (0 + 1) = F := rfl
    refine ⟨by rw [h0]; unfold plain_byte; omega, by rw [h0]; omega, ?_, ?_⟩
    · unfold ctl_enabled_at
      rw [h0, if_pos rfl, h1, if_neg hF91]
    · unfold ctl_next
      rw [h0, if_pos rfl, h1, if_neg hF91, if_pos (by omega)]
      rfl
  · subst hs hM
    have hx : 27 :: 91 :: (P ++ [109]) ++ B = 27 :: 91 :: (P ++ [] ++ 109 :: B) := by simp
    rw [hx]
    obtain ⟨h1, h2, h3⟩ := csi_parse P [] B 109 hP (by simp) (by decide)
    simp only [List.length_nil, Nat.add_zero] at h1 h2 h3
    have h0 : byteAt (27 :: 91 :: (P ++ [] ++ 109 :: B)) 0 = 27 := rfl
    have h91 : byteAt (27 :: 91 :: (P ++ [] ++ 109 :: B)) (0 + 1) = 91 := rfl
    refine ⟨by rw [h0]; unfold plain_byte; omega, by rw [h0]; omega, ?_, ?_⟩
    · unfold ctl_enabled_at csi_enabled csi_is_sgr
      rw [h0, if_pos rfl, h91, if_pos rfl, h1, h2, h3]
      simp
    · unfold ctl_next
      rw [h0, if_pos rfl, h91, if_pos rfl, h2, h3, if_pos (by decide)]
      simp
      omega
  · subst hs hM
    have hx : 27 :: 91 :: (P ++ I ++ [F]) ++ B = 27 :: 91 :: (P ++ I ++ F :: B) := by simp
    rw [hx]
    obtain ⟨h1, h2, h3⟩ := csi_parse P I B F hP hI hF
    have h0 : byteAt (27 :: 91 :: (P ++ I ++ F :: B)) 0 = 27 := rfl
    have h91 : byteAt (27 :: 91 :: (P ++ I ++ F :: B)) (0 + 1) = 91 := rfl
    refine ⟨by rw [h0]; unfold plain_byte; omega, by rw [h0]; omega, ?_, ?_⟩
    · unfold ctl_enabled_at csi_enabled csi_is_sgr
      rw [h0, if_pos rfl, h91, if_pos rfl, h1, h2, h3]
      have : ¬ (I.length = 0 ∧ F = 109) := by
        intro h
        exact hnot ⟨List.length_eq_zero.mp h.1, h.2⟩
      rw [decide_eq_false this]
      simp
    · unfold ctl_next
      rw [h0, if_pos rfl, h91, if_pos rfl, h2, h3, if_pos (by omega)]
      simp
      omega

/-- The loop of `FANSI_find_esc` passes over plain bytes while no match is
open. -/
theorem find_esc_loop_skip_plain (K : FANSI_ctl_masks) (ctl : Nat) (Y : List Nat) :
    ∀ (Pre A : List Nat) (v : find_esc_vars) (fuel : Nat), v.found = false →
      (∀ b ∈ Pre, plain_byte b) → Pre.length ≤ fuel →
      find_esc_loop K (A ++ (Pre ++ Y)) ctl fuel A.length v =
        find_esc_loop K (A ++ (Pre ++ Y)) ctl (fuel - Pre.length) (A.length + Pre.length) v := by
  intro Pre
  induction Pre with
  | nil => intro A v fuel _ _ _; simp
  | cons b Pre ih =>
    intro A v fuel hv hP hf
    obtain ⟨n, rfl⟩ : ∃ n, fuel = n + 1 := ⟨fuel - 1, by simp only [List.length_cons] at hf; omega⟩
    have hb := hP b (List.mem_cons_self _ _)
    have hbyte : byteAt (A ++ (b :: Pre ++ Y)) A.length = b := byteAt_append_length A b (Pre ++ Y)
    rw [find_esc_loop.eq_2 K _ ctl A.length v n, hbyte,
      if_neg (by unfold plain_byte at hb; omega),
      find_esc_step_plain K _ ctl A.length v (by rw [hbyte]; exact hb), hv]
    simp only
    have hx : A ++ (b :: Pre ++ Y) = (A ++ [b]) ++ (Pre ++ Y) := by simp
    have := ih (A ++ [b]) v n hv (fun c hc => hP c (List.mem_cons_of_mem _ hc))
      (by simp only [List.length_cons] at hf; omega)
    rw [← hx] at this
    simp only [List.length_append, List.length_singleton] at this
    rw [this]
    simp only [List.length_cons]
    congr 1
    · omega
    · omega

/-- The loop of `FANSI_find_esc` over a run of well-formed control sequences
of enabled categories: the match starts where it was open, or at the first
sequence, and ends with the last sequence. -/
theorem find_esc_loop_seqs (K : FANSI_ctl_masks) (ctl : Nat) (R : List Nat)
    (hR : run_stops K ctl R) :
    ∀ (seqs : List (List Nat)) (A : List Nat) (v : find_esc_vars) (fuel : Nat),
      (∀ s ∈ seqs, ∃ M, ctl_seq K M s ∧ ctl &&& M ≠ 0) → (v.found = true ∨ seqs ≠ []) →
      (seqs.flatten ++ R).length ≤ fuel →
      (find_esc_loop K (A ++ (seqs.flatten ++ R)) ctl fuel A.length v).start =
        (if v.found then v.x_found_start else A.length) ∧
      (find_esc_loop K (A ++ (seqs.flatten ++ R)) ctl fuel A.length v).len =
        (if seqs = [] then v.x_found_end else A.length + seqs.flatten.length) -
          (if v.found then v.x_found_start else A.length) := by
  intro seqs
  induction seqs with
  | nil =>
    intro A v fuel _ hv _
    have hf : v.found = true := by rcases hv with h | h; exact h; exact absurd rfl h
    have hres : (find_esc_result v).start = v.x_found_start ∧
        (find_esc_result v).len = v.x_found_end - v.x_found_start := by
      unfold find_esc_result; rw [if_pos hf]; exact ⟨rfl, rfl⟩
    simp only [List.flatten_nil, List.nil_append, hf, if_true]
    cases fuel with
    | zero => exact hres
    | succ n =>
      rw [find_esc_loop.eq_2 K _ ctl A.length v n]
      split
      · exact hres
      · rename_i h0
        rcases hR with hR | ⟨b, rest, hR, hb⟩ | ⟨s, M, rest, hR, hs, hM⟩
        · subst hR
          exact absurd (byteAt_of_le _ _ (by simp)) h0
        · subst hR
          have hbyte : byteAt (A ++ b :: rest) A.length = b := byteAt_append_length A b rest
          rw [find_esc_step_plain K _ ctl A.length v (by rw [hbyte]; exact hb), hf]
          exact hres
        · subst hR
          obtain ⟨h1, _, h3, _⟩ := ctl_seq_head K ctl M s rest hs
          have hp : ¬ plain_byte (byteAt (A ++ (s ++ rest)) A.length) := by
            have := byteAt_append_right A (s ++ rest) 0
            rw [Nat.add_zero] at this
            rw [this]; exact h1
          have hen : ctl_enabled_at K (A ++ (s ++ rest)) ctl A.length = false := by
            have := ctl_enabled_at_shift K ctl A (s ++ rest) 0
            rw [Nat.add_zero] at this
            rw [this, h3]
            simp [hM]
          obtain ⟨c1, c2, c3, c4⟩ := find_esc_step_control K _ ctl A.length v hp
          simp only [hen, hf] at c1 c2 c3 c4
          rcases hstep : find_esc_step K (A ++ (s ++ rest)) ctl A.length v with ⟨brk, j, w⟩
          rw [hstep] at c1 c2 c3 c4
          simp only [Bool.or_false, Bool.not_false, Bool.and_true, if_true, Bool.false_eq_true,
            if_false] at c1 c2 c3 c4
          subst c2
          simp only
          unfold find_esc_result
          rw [if_pos c1, c3, c4]
          exact ⟨rfl, rfl⟩
  | cons s seqs ih =>
    intro A v fuel hs _ hfuel
    obtain ⟨M, hsM, hMen⟩ := hs s (List.mem_cons_self _ _)
    have hx : A ++ ((s :: seqs).flatten ++ R) = A ++ (s ++ (seqs.flatten ++ R)) := by simp
    rw [hx]
    obtain ⟨h1, h2, h3, h4⟩ := ctl_seq_head K ctl M s (seqs.flatten ++ R) hsM
    have hs0 : 0 < s.length := by
      obtain ⟨_, h2', _, _⟩ := ctl_seq_head K ctl M s [] hsM
      have := byteAt_ne_zero_lt _ _ h2'
      simpa using this
    have hb := byteAt_append_right A (s ++ (seqs.flatten ++ R)) 0
    rw [Nat.add_zero] at hb
    have hp : ¬ plain_byte (byteAt (A ++ (s ++ (seqs.flatten ++ R))) A.length) := by
      rw [hb]; exact h1
    have hen : ctl_enabled_at K (A ++ (s ++ (seqs.flatten ++ R))) ctl A.length = true := by
      have := ctl_enabled_at_shift K ctl A (s ++ (seqs.flatten ++ R)) 0
      rw [Nat.add_zero] at this
      rw [this, h3]
      simp [hMen]
    have hnext : ctl_next (A ++ (s ++ (seqs.flatten ++ R))) A.length = A.length + s.length := by
      have := ctl_next_shift A (s ++ (seqs.flatten ++ R)) 0
      rw [Nat.add_zero] at this
      rw [this, h4]
    obtain ⟨n, rfl⟩ : ∃ n, fuel = n + 1 := ⟨fuel - 1, by
      simp only [List.flatten_cons, List.length_append] at hfuel; omega⟩
    rw [find_esc_loop.eq_2 K _ ctl A.length v n, if_neg (by rw [hb]; exact h2)]
    obtain ⟨c1, c2, c3, c4⟩ := find_esc_step_control K _ ctl A.length v hp
    have c5 := find_esc_step_next K _ ctl A.length v hp
    simp only [hen] at c1 c2 c3 c4
    rw [hnext] at c5
    rcases hstep : find_esc_step K (A ++ (s ++ (seqs.flatten ++ R))) ctl A.length v with ⟨brk, j, w⟩
    rw [hstep] at c1 c2 c3 c4 c5
    simp only [Bool.or_true, Bool.not_true, Bool.and_false, if_true] at c1 c2 c3 c4 c5
    subst c2 c5
    simp only
    have hx2 : A ++ (s ++ (seqs.flatten ++ R)) = (A ++ s) ++ (seqs.flatten ++ R) := by simp
    have := ih (A ++ s) w n (fun t ht => hs t (List.mem_cons_of_mem _ ht)) (Or.inl c1)
      (by simp only [List.flatten_cons, List.length_append] at hfuel ⊢; omega)
    rw [← hx2, List.length_append, c1, c3, c4] at this
    simp only [if_true] at this
    obtain ⟨t1, t2⟩ := this
    refine ⟨t1, ?_⟩
    rw [t2]
    simp only [List.cons_ne_nil, if_false, List.flatten_cons, List.length_append]
    by_cases hq : seqs = []
    · subst hq
      simp
    · rw [if_neg hq]
      congr 1
      omega

/-- C14: for every string in which control sequences of enabled categories are
directly adjacent (plain bytes, then one or more well-formed control
sequences with no byte between them, then the end of the string, a plain
byte, or a control sequence of a category that is not enabled),
`FANSI_find_esc` reports a single match that starts at the first sequence and
whose length is the sum of the lengths of the adjacent sequences; the match
stops at the first byte that is not part of an enabled control sequence. -/
theorem find_esc_adjacent_merge (K : FANSI_ctl_masks) (ctl : Nat) (Pre R : List Nat)
    (seqs : List (List Nat)) (hPre : ∀ b ∈ Pre, plain_byte b) (hne : seqs ≠ [])
    (hs : ∀ s ∈ seqs, ∃ M, ctl_seq K M s ∧ ctl &&& M ≠ 0) (hR : run_stops K ctl R) :
    (FANSI_find_esc K (Pre ++ seqs.flatten ++ R) ctl).start = Pre.length ∧
    (FANSI_find_esc K (Pre ++ seqs.flatten ++ R) ctl).len = seqs.flatten.length := by
  unfold FANSI_find_esc
  have hx : Pre ++ seqs.flatten ++ R = [] ++ (Pre ++ (seqs.flatten ++ R)) := by simp
  rw [hx]
  have h1 := find_esc_loop_skip_plain K ctl (seqs.flatten ++ R) Pre []
    { valid := true, found := false, found_ctl := 0, x_found_start := 0, x_found_end := 0 }
    ([] ++ (Pre ++ (seqs.flatten ++ R))).length rfl hPre (by simp)
  simp only [List.length_nil, Nat.zero_add] at h1
  rw [h1]
  have h2 := find_esc_loop_seqs K ctl R hR seqs Pre
    { valid := true, found := false, found_ctl := 0, x_found_start := 0, x_found_end := 0 }
    (([] ++ (Pre ++ (seqs.flatten ++ R))).length - Pre.length) hs (Or.inr hne) (by simp)
  simp only [List.nil_append] at h2 ⊢
  obtain ⟨t1, t2⟩ := h2
  rw [t1, t2]
  simp [hne]

/-- Witness of C14: `ESC[31m ESC[1m X` (without the spaces) with SGR enabled
gives start 0 and length 9. -/
theorem find_esc_adjacent_merge_witness :
    (FANSI_find_esc FANSI_CTL str_red_bold_x FANSI_CTL.SGR).start = 0 ∧
    (FANSI_find_esc FANSI_CTL str_red_bold_x FANSI_CTL.SGR).len = 9 :=
  find_esc_adjacent_merge FANSI_CTL FANSI_CTL.SGR [] [88]
    [[27, 91, 51, 49, 109], [27, 91, 49, 109]] (by simp) (by simp)
    (by
      intro s hs
      simp only [List.mem_cons, List.mem_singleton, List.not_mem_nil, or_false] at hs
      rcases hs with rfl | rfl
      · exact ⟨4, Or.inr (Or.inr (Or.inr (Or.inl ⟨[51, 49], rfl, by decide, rfl⟩))), by decide⟩
      · exact ⟨4, Or.inr (Or.inr (Or.inr (Or.inl ⟨[49], rfl, by decide, rfl⟩))), by decide⟩)
    (Or.inr (Or.inl ⟨88, [], rfl, by decide⟩))

/-! ### The escape scanner: the classification of a CSI sequence -/

/-- While no match is open that starts at or before offset `s`, and the scan
is past `s`, no match that starts at `s` is reported. -/
theorem find_esc_loop_past (K : FANSI_ctl_masks) (x : List Nat) (ctl : Nat) (s : Nat) :
    ∀ (fuel i : Nat) (v : find_esc_vars),
      (v.found = false ∧ s < i) ∨ (v.found = true ∧ s < v.x_found_start) →
      ¬ ((find_esc_loop K x ctl fuel i v).start = s ∧ 0 < (find_esc_loop K x ctl fuel i v).len) := by
  have hres : ∀ v : find_esc_vars, (v.found = false ∨ (v.found = true ∧ s < v.x_found_start)) →
      ¬ ((find_esc_result v).start = s ∧ 0 < (find_esc_result v).len) := by
    intro v hv
    unfold find_esc_result
    rcases hv with hv | ⟨hv, hs⟩
    · simp [hv]
    · rw [if_pos hv]
      simp only
      omega
  intro fuel
  induction fuel with
  | zero =>
    intro i v hv
    exact hres v (by rcases hv with h | h; exact Or.inl h.1; exact Or.inr h)
  | succ n ih =>
    intro i v hv
    rw [find_esc_loop.eq_2 K x ctl i v n]
    split
    · exact hres v (by rcases hv with h | h; exact Or.inl h.1; exact Or.inr h)
    · have hadv := find_esc_step_advances K x ctl i v
      have hw : ((find_esc_step K x ctl i v).2.2.found = false ∧ s < i) ∨
          ((find_esc_step K x ctl i v).2.2.found = true ∧
            s < (find_esc_step K x ctl i v).2.2.x_found_start) := by
        by_cases hp : plain_byte (byteAt x i)
        · rw [find_esc_step_plain K x ctl i v hp]
          exact hv
        · obtain ⟨h1, _, h3, _⟩ := find_esc_step_control K x ctl i v hp
          rw [h1, h3]
          rcases hv with ⟨hf, hi⟩ | ⟨hf, hs⟩
          · rw [hf]
            cases ctl_enabled_at K x ctl i
            · exact Or.inl ⟨rfl, hi⟩
            · exact Or.inr ⟨rfl, by simpa using hi⟩
          · rw [hf]
            exact Or.inr ⟨rfl, by simpa using hs⟩
      rcases hstep : find_esc_step K x ctl i v with ⟨brk, j, w⟩
      rw [hstep] at hadv hw
      simp only at hadv hw
      cases brk
      · refine ih j w ?_
        rcases hw with h | h
        · exact Or.inl ⟨h.1, by omega⟩
        · exact Or.inr h
      · exact hres w (by rcases hw with h | h; exact Or.inl h.1; exact Or.inr h)

/-- A CSI sequence with no intermediate bytes whose final position holds `m`
is valid, and parameter bytes only stand between `ESC [` and the `m`. -/
theorem csi_sgr_form_at (Pre rest : List Nat)
    (hs : csi_is_sgr (Pre ++ 27 :: 91 :: rest) Pre.length = true) :
    seq_valid_at (Pre ++ 27 :: 91 :: rest) Pre.length = true ∧
    ∃ P tail, rest = P ++ 109 :: tail ∧ ∀ b ∈ P, 0x30 ≤ b ∧ b ≤ 0x3F := by
  have hs0 : csi_is_sgr (27 :: 91 :: rest) 0 = true := by
    have h := csi_inters_at_shift Pre (27 :: 91 :: rest) 0
    have h2 := csi_final_at_shift Pre (27 :: 91 :: rest) 0
    have h3 := byteAt_append_right Pre (27 :: 91 :: rest) (csi_final_at (27 :: 91 :: rest) 0)
    rw [Nat.add_zero] at h h2
    unfold csi_is_sgr at hs ⊢
    rw [h, h2, h3] at hs
    exact hs
  obtain ⟨hv, P, tail, hx, hP⟩ := csi_sgr_form (27 :: 91 :: rest) rfl rfl hs0
  refine ⟨?_, P, tail, ?_, hP⟩
  · unfold seq_valid_at at hv ⊢
    have hb1 := byteAt_append_right Pre (27 :: 91 :: rest) 1
    simp only [Nat.zero_add, Nat.add_assoc] at hv
    simp only [hb1, Nat.add_assoc, drop_append_right, byteAt_append_right]
    exact hv
  · simpa using hx

/-- C13: a CSI sequence that the scan reaches after plain bytes is classified
as SGR, and not as CSI-other, if and only if it has no intermediate bytes and
the byte at its final position is `m`: `FANSI_find_esc` reports it as a match
(start at its ESC, positive length) exactly when the category so decided is
enabled, SGR in the one case and CSI-other in the other. Consequently a
sequence classified as SGR is a valid CSI sequence, and parameter bytes
`0x30 .. 0x3F` only stand between `ESC [` and the `m`; the final position is
the one after the greedy recovery of an invalid sequence. -/
theorem find_esc_sgr_iff (K : FANSI_ctl_masks) (ctl : Nat) (Pre rest : List Nat)
    (hPre : ∀ b ∈ Pre, plain_byte b) :
    (((FANSI_find_esc K (Pre ++ 27 :: 91 :: rest) ctl).start = Pre.length ∧
        0 < (FANSI_find_esc K (Pre ++ 27 :: 91 :: rest) ctl).len) ↔
      (if csi_inters_at (Pre ++ 27 :: 91 :: rest) Pre.length = 0 ∧
          byteAt (Pre ++ 27 :: 91 :: rest)
            (csi_final_at (Pre ++ 27 :: 91 :: rest) Pre.length) = 109
       then ctl &&& K.SGR ≠ 0 else ctl &&& K.CSI ≠ 0)) ∧
    ((csi_inters_at (Pre ++ 27 :: 91 :: rest) Pre.length = 0 ∧
        byteAt (Pre ++ 27 :: 91 :: rest)
          (csi_final_at (Pre ++ 27 :: 91 :: rest) Pre.length) = 109) →
      seq_valid_at (Pre ++ 27 :: 91 :: rest) Pre.length = true ∧
      ∃ P tail, rest = P ++ 109 :: tail ∧ ∀ b ∈ P, 0x30 ≤ b ∧ b ≤ 0x3F) := by
  refine ⟨?_, fun hs => csi_sgr_form_at Pre rest (by unfold csi_is_sgr; exact decide_eq_true hs)⟩
  set x := Pre ++ 27 :: 91 :: rest with hxdef
  have hen : ((if csi_inters_at x Pre.length = 0 ∧ byteAt x (csi_final_at x Pre.length) = 109
      then ctl &&& K.SGR ≠ 0 else ctl &&& K.CSI ≠ 0)) ↔ csi_enabled K x ctl Pre.length = true := by
    unfold csi_enabled csi_is_sgr
    by_cases h : csi_inters_at x Pre.length = 0 ∧ byteAt x (csi_final_at x Pre.length) = 109
    · simp [h]
    · simp [h]
  rw [hen]
  have h27 : byteAt x Pre.length = 27 := byteAt_append_length Pre 27 (91 :: rest)
  have h91 : byteAt x (Pre.length + 1) = 91 := by
    rw [hxdef, byteAt_append_right]; rfl
  unfold FANSI_find_esc
  have hskip := find_esc_loop_skip_plain K ctl (27 :: 91 :: rest) Pre []
    { valid := true, found := false, found_ctl := 0, x_found_start := 0, x_found_end := 0 }
    x.length rfl hPre (by rw [hxdef]; simp)
  simp only [List.nil_append, List.length_nil, Nat.zero_add] at hskip
  rw [← hxdef] at hskip
  rw [hskip]
  obtain ⟨n, hn⟩ : ∃ n, x.length - Pre.length = n + 1 :=
    ⟨x.length - Pre.length - 1, by rw [hxdef]; simp⟩
  rw [hn, find_esc_loop.eq_2 K x ctl Pre.length _ n, if_neg (by rw [h27]; decide)]
  obtain ⟨h1, h2, h3, h4⟩ := find_esc_step_csi K x ctl Pre.length
    { valid := true, found := false, found_ctl := 0, x_found_start := 0, x_found_end := 0 }
    h27 h91
  have hadv := find_esc_step_advances K x ctl Pre.length
    { valid := true, found := false, found_ctl := 0, x_found_start := 0, x_found_end := 0 }
  rcases hstep : find_esc_step K x ctl Pre.length
    { valid := true, found := false, found_ctl := 0, x_found_start := 0, x_found_end := 0 }
    with ⟨brk, j, w⟩
  rw [hstep] at h1 h2 h3 h4 hadv
  simp only [Bool.false_or, Bool.false_and, Bool.false_eq_true, if_false] at h1 h2 h3 h4 hadv
  subst h2
  simp only
  cases hE : csi_enabled K x ctl Pre.length
  · rw [hE] at h1
    have := find_esc_loop_past K x ctl Pre.length n j w (Or.inl ⟨h1, hadv⟩)
    simpa using this
  · rw [hE] at h1 h4
    simp only [if_true] at h4
    have := find_esc_loop_found K x ctl n j w h1 (by omega) (by omega)
    rw [h3] at this
    simpa using this

/-- Witness of C13: `Hi ESC[31m !` (without the spaces) scanned with SGR
enabled: the sequence is reported at offset 2 exactly when the category
decided for it is enabled. -/
theorem find_esc_sgr_iff_witness :
    ((FANSI_find_esc FANSI_CTL ([72, 105] ++ 27 :: 91 :: [51, 49, 109, 33]) 4).start = 2 ∧
      0 < (FANSI_find_esc FANSI_CTL ([72, 105] ++ 27 :: 91 :: [51, 49, 109, 33]) 4).len) ↔
    (if csi_inters_at ([72, 105] ++ 27 :: 91 :: [51, 49, 109, 33]) 2 = 0 ∧
        byteAt ([72, 105] ++ 27 :: 91 :: [51, 49, 109, 33])
          (csi_final_at ([72, 105] ++ 27 :: 91 :: [51, 49, 109, 33]) 2) = 109
     then 4 &&& FANSI_CTL.SGR ≠ 0 else 4 &&& FANSI_CTL.CSI ≠ 0) :=
  (find_esc_sgr_iff FANSI_CTL 4 [72, 105] [51, 49, 109, 33] (by decide)).1

/-! ### The reflow engine: a style across a break -/

/-- C11: reflowing `ESC[31m redredred text ESC[0m` (without the spaces around
the sequences) at a width from 9 to 13, which forces the break between
`redredred` and `text`, gives two lines. The first is the source up to
`redredred` followed by the reset sequence `ESC[0m`; the second starts with
the serialized red style `ESC[31m`, followed by `text` and the closing
sequence of the source, the only one it has, at its very end. -/
theorem strwrap_red_text (width : Int) (h1 : 9 ≤ width) (h2 : width ≤ 13) :
    lines_of (strwrap FANSI_CTL INT_MAX str_red_text width empty_pre empty_pre false ⟨0, 0⟩ []
        true 0 false 31) =
      some [[27, 91, 51, 49, 109] ++ [114, 101, 100, 114, 101, 100, 114, 101, 100] ++
              [27, 91, 48, 109],
            [27, 91, 51, 49, 109] ++ [116, 101, 120, 116] ++ [27, 91, 48, 109]] ∧
    [27, 91, 51, 49, 109] ++ [114, 101, 100, 114, 101, 100, 114, 101, 100] =
      str_red_text.take 14 ∧
    [116, 101, 120, 116] ++ [27, 91, 48, 109] = str_red_text.drop 15 ∧
    FANSI_csi_write { FANSI_state_init_full str_red_text 0 31 with style := [31] } =
      [27, 91, 51, 49, 109] := by
  refine ⟨?_, by decide, by decide, by decide⟩
  interval_cases width <;> decide!

/-- Witness of C11: the reflow at width 10. -/
theorem strwrap_red_text_witness :
    lines_of (strwrap FANSI_CTL INT_MAX str_red_text 10 empty_pre empty_pre false ⟨0, 0⟩ []
        true 0 false 31) =
      some [[27, 91, 51, 49, 109] ++ [114, 101, 100, 114, 101, 100, 114, 101, 100] ++
              [27, 91, 48, 109],
            [27, 91, 51, 49, 109] ++ [116, 101, 120, 116] ++ [27, 91, 48, 109]] :=
  (strwrap_red_text 10 (by decide) (by decide)).1

/-! ### The reflow engine: newlines and the budget of the next line -/

/-- The call of `strwrap` is its argument checks followed by the loop from
`strwrap_start`. -/
theorem strwrap_eq_loop (K : FANSI_ctl_masks) (int_max : Int) (x : List Nat) (width : Int)
    (pre_first pre_next : FANSI_prefix_dat) (wrap_always : Bool) (buff : FANSI_buff)
    (pad_chr : List Nat) (strip_spaces : Bool) (warn : Int) (first_only : Bool) (ctl : Nat) :
    strwrap K int_max x width pre_first pre_next wrap_always buff pad_chr strip_spaces warn
        first_only ctl =
      match FANSI_add_int width (-pre_first.width) with
      | .error e => .error e
      | .ok width_1 =>
        match FANSI_add_int width (-pre_next.width) with
        | .error e => .error e
        | .ok width_2 =>
          if width < 1 ∧ wrap_always = true then .error .invalid_width
          else if wrap_always = true ∧ (width_1 < 0 ∨ width_2 < 0) then .error .incompatible_width
          else
            match strwrap_loop K int_max width_1 width_2 pre_first pre_next wrap_always pad_chr
                strip_spaces first_only ((x.length + 2) * (x.length + 2))
                (strwrap_start x warn ctl width_1 buff) with
            | .error e => .error e
            | .ok v => .ok (v.char_list, v.buff) := rfl

/-- A newline under the cursor makes the loop of `strwrap` write a line,
whatever the widths. -/
theorem must_write_newline (K : FANSI_ctl_masks) (wrap_always strip_spaces : Bool)
    (width_tar : Int) (v : strwrap_vars)
    (h : byteAt v.state.string v.state.pos_byte = 10) :
    strwrap_must_write wrap_always false width_tar (strwrap_detect K strip_spaces v) = true := by
  unfold strwrap_must_write strwrap_detect
  simp [h]

/-- An iteration that writes no line keeps the paragraph flag and the
budget. -/
theorem strwrap_step_keep (K : FANSI_ctl_masks) (int_max : Int) (width_1 width_2 : Int)
    (pre_first pre_next : FANSI_prefix_dat) (wrap_always : Bool) (pad_chr : List Nat)
    (strip_spaces first_only : Bool) (v w : strwrap_vars) (b : Bool)
    (hf : strwrap_flushing K wrap_always strip_spaces first_only v = false)
    (h : strwrap_step K int_max width_1 width_2 pre_first pre_next wrap_always pad_chr
      strip_spaces first_only v = .ok (b, w)) :
    b = false ∧ w.para_start = v.para_start ∧ w.width_tar = v.width_tar ∧
      w.char_list = v.char_list := by
  unfold strwrap_flushing at hf
  unfold strwrap_step at h
  simp only [hf, Bool.false_eq_true, if_false, Except.ok.injEq, Prod.mk.injEq] at h
  obtain ⟨hb, hw⟩ := h
  subst hw
  exact ⟨hb.symm, rfl, rfl, rfl⟩

/-- An iteration that writes a line calls `FANSI_writeline` with the prefix
that the paragraph flag selects and with the budget in force, and appends the
line; when the loop goes on, the paragraph flag tells whether the break was at
a newline and selects the next budget. -/
theorem strwrap_step_flush (K : FANSI_ctl_masks) (int_max : Int) (width_1 width_2 : Int)
    (pre_first pre_next : FANSI_prefix_dat) (wrap_always : Bool) (pad_chr : List Nat)
    (strip_spaces : Bool) (v w : strwrap_vars) (b : Bool)
    (hf : strwrap_flushing K wrap_always strip_spaces false v = true)
    (h : strwrap_step K int_max width_1 width_2 pre_first pre_next wrap_always pad_chr
      strip_spaces false v = .ok (b, w)) :
    (∃ bound line, FANSI_writeline int_max bound v.state_start v.buff
        (if v.para_start then pre_first else pre_next) v.width_tar pad_chr = .ok (line, w.buff) ∧
      w.char_list = v.char_list ++ [line]) ∧
    (b = false → w.para_start = strwrap_nl_break K wrap_always strip_spaces false v ∧
      w.width_tar = if w.para_start then width_1 else width_2) := by
  unfold strwrap_flushing at hf
  unfold strwrap_step at h
  simp only [hf, if_true] at h
  unfold strwrap_write at h
  simp only at h
  split at h
  · exact absurd h (by simp)
  · split at h
    · exact absurd h (by simp)
    · rename_i res buff1 hwl
      simp only [Bool.false_eq_true, if_false] at h
      split at h
      · simp only [Except.ok.injEq, Prod.mk.injEq] at h
        obtain ⟨hb, hw⟩ := h
        subst hw
        exact ⟨⟨_, res, hwl, rfl⟩, fun hc => absurd hb.symm (by simp [hc])⟩
      · split at h
        · exact absurd h (by simp)
        · simp only [Except.ok.injEq, Prod.mk.injEq] at h
          obtain ⟨_, hw⟩ := h
          subst hw
          refine ⟨⟨_, res, hwl, rfl⟩, fun _ => ⟨rfl, rfl⟩⟩

/-- Along the loop of `strwrap` outside trim mode: the first line written
from `v` on has the paragraph flag of `v`, the paragraph flag of every later
line tells whether the line before it ended at a newline, and the budget is
the one that the paragraph flag selects. -/
theorem strwrap_flushes_chain (K : FANSI_ctl_masks) (int_max : Int) (width_1 width_2 : Int)
    (pre_first pre_next : FANSI_prefix_dat) (wrap_always : Bool) (pad_chr : List Nat)
    (strip_spaces : Bool) :
    ∀ (fuel : Nat) (v : strwrap_vars),
      v.width_tar = (if v.para_start then width_1 else width_2) →
      (∀ u ∈ (strwrap_flushes K int_max width_1 width_2 pre_first pre_next wrap_always pad_chr
          strip_spaces false fuel v).head?, u.para_start = v.para_start) ∧
      List.Chain' (fun p u => u.para_start = strwrap_nl_break K wrap_always strip_spaces false p)
        (strwrap_flushes K int_max width_1 width_2 pre_first pre_next wrap_always pad_chr
          strip_spaces false fuel v) ∧
      ∀ u ∈ strwrap_flushes K int_max width_1 width_2 pre_first pre_next wrap_always pad_chr
          strip_spaces false fuel v,
        u.width_tar = if u.para_start then width_1 else width_2 := by
  intro fuel
  induction fuel with
  | zero => intro v _; simp [strwrap_flushes]
  | succ n ih =>
    intro v hv
    rw [strwrap_flushes]
    cases hf : strwrap_flushing K wrap_always strip_spaces false v
    · -- no line is written: the loop goes on with the same flag and budget
      simp only [Bool.false_eq_true, if_false, List.nil_append]
      rcases hstep : strwrap_step K int_max width_1 width_2 pre_first pre_next wrap_always
          pad_chr strip_spaces false v with e | ⟨b, w⟩
      · simp
      · obtain ⟨hb, hp, hw, _⟩ := strwrap_step_keep K int_max width_1 width_2 pre_first pre_next
          wrap_always pad_chr strip_spaces false v w b hf hstep
        subst hb
        simp only
        have := ih w (by rw [hw, hp]; exact hv)
        rw [hp] at this
        exact this
    · simp only [if_true, List.singleton_append]
      rcases hstep : strwrap_step K int_max width_1 width_2 pre_first pre_next wrap_always
          pad_chr strip_spaces false v with e | ⟨b, w⟩
      · simp [hv]
      · obtain ⟨_, hnext⟩ := strwrap_step_flush K int_max width_1 width_2 pre_first pre_next
          wrap_always pad_chr strip_spaces v w b hf hstep
        cases b
        · obtain ⟨hp, hw⟩ := hnext rfl
          simp only
          obtain ⟨i1, i2, i3⟩ := ih w hw
          refine ⟨by simp, ?_, ?_⟩
          · rw [List.chain'_cons']
            refine ⟨fun u hu => ?_, i2⟩
            rw [i1 u hu, hp]
          · intro u hu
            rw [List.mem_cons] at hu
            rcases hu with hu | hu
            · rw [hu]; exact hv
            · exact i3 u hu
        · simp [hv]

/-- C18: in `strwrap` outside trim mode a newline under the cursor always
makes the loop write the line, whatever the accumulated width and the budget;
every line is written by `FANSI_writeline` with the leading string that the
paragraph flag selects (`pre_first` or `pre_next`) and with the budget in
force; and along the call the first line is written with the paragraph flag
set, the paragraph flag of a later line is set if and only if the line before
it ended in a break at a newline, and the budget is `width - pre_first.width`
when the paragraph flag is set and `width - pre_next.width` otherwise. -/
theorem strwrap_newline_budget (K : FANSI_ctl_masks) (int_max : Int) (x : List Nat)
    (width : Int) (pre_first pre_next : FANSI_prefix_dat) (wrap_always : Bool)
    (buff : FANSI_buff) (pad_chr : List Nat) (strip_spaces : Bool) (warn : Int) (ctl : Nat) :
    (∀ (v : strwrap_vars) (width_tar : Int), byteAt v.state.string v.state.pos_byte = 10 →
      strwrap_must_write wrap_always false width_tar (strwrap_detect K strip_spaces v) = true) ∧
    (∀ (v w : strwrap_vars) (b : Bool),
      strwrap_flushing K wrap_always strip_spaces false v = true →
      strwrap_step K int_max (width - pre_first.width) (width - pre_next.width) pre_first
        pre_next wrap_always pad_chr strip_spaces false v = .ok (b, w) →
      ∃ bound line, FANSI_writeline int_max bound v.state_start v.buff
          (if v.para_start then pre_first else pre_next) v.width_tar pad_chr =
            .ok (line, w.buff) ∧
        w.char_list = v.char_list ++ [line]) ∧
    (∀ u ∈ (strwrap_flushes K int_max (width - pre_first.width) (width - pre_next.width)
        pre_first pre_next wrap_always pad_chr strip_spaces false
        ((x.length + 2) * (x.length + 2))
        (strwrap_start x warn ctl (width - pre_first.width) buff)).head?,
      u.para_start = true) ∧
    List.Chain' (fun p u => u.para_start = strwrap_nl_break K wrap_always strip_spaces false p)
      (strwrap_flushes K int_max (width - pre_first.width) (width - pre_next.width)
        pre_first pre_next wrap_always pad_chr strip_spaces false
        ((x.length + 2) * (x.length + 2))
        (strwrap_start x warn ctl (width - pre_first.width) buff)) ∧
    (∀ u ∈ strwrap_flushes K int_max (width - pre_first.width) (width - pre_next.width)
        pre_first pre_next wrap_always pad_chr strip_spaces false
        ((x.length + 2) * (x.length + 2))
        (strwrap_start x warn ctl (width - pre_first.width) buff),
      u.width_tar = if u.para_start then width - pre_first.width else width - pre_next.width) := by
  refine ⟨fun v width_tar h => must_write_newline K wrap_always strip_spaces width_tar v h,
    fun v w b hf h => (strwrap_step_flush K int_max _ _ pre_first pre_next wrap_always pad_chr
      strip_spaces v w b hf h).1, ?_⟩
  exact strwrap_flushes_chain K int_max _ _ pre_first pre_next wrap_always pad_chr strip_spaces
    _ (strwrap_start x warn ctl (width - pre_first.width) buff) rfl

/-- Outside trim mode the loop of `strwrap` appends one line for every
iteration that writes. -/
theorem strwrap_lines_flushes (K : FANSI_ctl_masks) (int_max : Int) (width_1 width_2 : Int)
    (pre_first pre_next : FANSI_prefix_dat) (wrap_always : Bool) (pad_chr : List Nat)
    (strip_spaces : Bool) :
    ∀ (fuel : Nat) (v w : strwrap_vars),
      strwrap_loop K int_max width_1 width_2 pre_first pre_next wrap_always pad_chr strip_spaces
        false fuel v = .ok w →
      w.char_list.length = v.char_list.length +
        (strwrap_flushes K int_max width_1 width_2 pre_first pre_next wrap_always pad_chr
          strip_spaces false fuel v).length := by
  intro fuel
  induction fuel with
  | zero => intro v w h; simp [strwrap_loop] at h
  | succ n ih =>
    intro v w h
    rw [strwrap_loop] at h
    rw [strwrap_flushes]
    rcases hstep : strwrap_step K int_max width_1 width_2 pre_first pre_next wrap_always
        pad_chr strip_spaces false v with e | ⟨b, w1⟩
    · rw [hstep] at h
      exact absurd h (by simp)
    · rw [hstep] at h
      cases hf : strwrap_flushing K wrap_always strip_spaces false v
      · obtain ⟨hb, _, _, hc⟩ := strwrap_step_keep K int_max width_1 width_2 pre_first pre_next
          wrap_always pad_chr strip_spaces false v w1 b hf hstep
        subst hb
        simp only at h ⊢
        rw [ih w1 w h, hc]
        simp
      · obtain ⟨⟨_, line, _, hc⟩, _⟩ := strwrap_step_flush K int_max width_1 width_2 pre_first
          pre_next wrap_always pad_chr strip_spaces v w1 b hf hstep
        cases b
        · simp only at h ⊢
          rw [ih w1 w h, hc]
          simp
          omega
        · simp only [Except.ok.injEq] at h
          subst h
          rw [hc]
          simp

/-- Witness of C18: on `"\na"` the first iteration of the loop finds the
newline and writes the line, at a budget of 100. -/
theorem strwrap_newline_budget_witness :
    strwrap_must_write false false 100
      (strwrap_detect FANSI_CTL true (strwrap_start [10, 97] 0 31 100 ⟨0, 0⟩)) = true :=
  (strwrap_newline_budget FANSI_CTL INT_MAX [10, 97] 100 empty_pre empty_pre false ⟨0, 0⟩ []
    true 0 31).1 (strwrap_start [10, 97] 0 31 100 ⟨0, 0⟩) 100 (by decide)

/-- Two paragraphs `"aa bb"` and `"cc dd"`, the leading string `">"` on the first
line of a paragraph and none on the others. At width 4 the lines after a
break at a newline have `">"` and 3 columns, the other lines 4 columns; at
width 100 the newline alone ends the first line. -/
theorem strwrap_two_paras :
    lines_of (strwrap FANSI_CTL INT_MAX str_two_paras 4 gt_pre empty_pre false ⟨0, 0⟩ [] true 0
      false 31) = some [[62, 97, 97], [98, 98], [62, 99, 99], [100, 100]] ∧
    lines_of (strwrap FANSI_CTL INT_MAX str_two_paras 100 gt_pre empty_pre false ⟨0, 0⟩ [] true
      0 false 31) = some [[62] ++ [97, 97, 32, 98, 98], [62] ++ [99, 99, 32, 100, 100]] := by
  constructor <;> decide!

/-! ### The reflow engine: a unit wider than the budget -/

/-- A step over a byte above 127 keeps the string and the warning level and
moves on. -/
theorem read_utf8_facts (s : FANSI_state) :
    (read_utf8 s).string = s.string ∧ (read_utf8 s).warn = s.warn ∧
      s.pos_byte < (read_utf8 s).pos_byte := by
  unfold read_utf8
  simp only
  split
  · rename_i h
    refine ⟨rfl, rfl, ?_⟩
    simp only
    omega
  · exact ⟨rfl, rfl, Nat.lt_succ_self _⟩

/-- The cursor keeps the string and the warning level, and it moves on unless
it is at the end of the string. -/
theorem read_next_facts (K : FANSI_ctl_masks) (s : FANSI_state) :
    (FANSI_read_next K s).string = s.string ∧ (FANSI_read_next K s).warn = s.warn ∧
      (byteAt s.string s.pos_byte ≠ 0 → s.pos_byte < (FANSI_read_next K s).pos_byte) := by
  unfold FANSI_read_next
  simp only
  split
  · rename_i h
    exact ⟨rfl, rfl, fun hc => absurd h hc⟩
  · split
    · exact ⟨rfl, rfl, fun _ => Nat.lt_succ_self _⟩
    · split
      · obtain ⟨h1, h2, h3⟩ := read_utf8_facts s
        exact ⟨h1, h2, fun _ => h3⟩
      · split
        · split
          · rename_i h
            exact ⟨rfl, rfl, fun _ => by simp only; omega⟩
          · exact ⟨rfl, rfl, fun _ => Nat.lt_succ_self _⟩
        · split
          · exact ⟨rfl, rfl, fun _ => Nat.lt_succ_self _⟩
          · exact ⟨rfl, rfl, fun _ => Nat.lt_succ_self _⟩

/-- The first part of the loop body leaves the cursor as it is, but for the
warning level, which the cursor keeps. -/
theorem detect_state (K : FANSI_ctl_masks) (strip_spaces : Bool) (v : strwrap_vars) :
    (strwrap_detect K strip_spaces v).state = v.state ∧
    (strwrap_detect K strip_spaces v).state_next =
      (if byteAt v.state.string v.state.pos_byte = 0 then v.state
       else FANSI_read_next K v.state) := by
  unfold strwrap_detect
  simp only
  have hw : (if byteAt v.state.string v.state.pos_byte = 0 then v.state
      else FANSI_read_next K v.state).warn = v.state.warn := by
    split
    · rfl
    · exact (read_next_facts K v.state).2.1
  rw [hw]
  exact ⟨rfl, trivial⟩

/-- A line that starts where the line before it started cannot be written:
from such variables the loop of `strwrap` ends in the wrap error, at the first
iteration that writes. -/
theorem strwrap_loop_no_progress (K : FANSI_ctl_masks) (int_max : Int) (width_1 width_2 : Int)
    (pre_first pre_next : FANSI_prefix_dat) (wrap_always : Bool) (pad_chr : List Nat)
    (strip_spaces first_only : Bool) :
    ∀ (n : Nat) (v : strwrap_vars), v.first_line = false →
      v.last_start ≥ v.state_start.pos_byte → v.state.string.length ≤ v.state.pos_byte + n →
      strwrap_loop K int_max width_1 width_2 pre_first pre_next wrap_always pad_chr strip_spaces
        first_only (n + 1) v = .error .wrap_too_narrow := by
  intro n
  induction n with
  | zero =>
    intro v h1 h2 h3
    have h0 : byteAt v.state.string v.state.pos_byte = 0 := byteAt_of_le _ _ (by omega)
    have hd := (detect_state K strip_spaces v).1
    rw [strwrap_loop]
    have : strwrap_step K int_max width_1 width_2 pre_first pre_next wrap_always pad_chr
        strip_spaces first_only v = .error .wrap_too_narrow := by
      unfold strwrap_step
      simp only
      have hm : strwrap_must_write wrap_always first_only v.width_tar
          (strwrap_detect K strip_spaces v) = true := by
        unfold strwrap_must_write
        simp only [hd, h0, true_or, decide_True]
      rw [if_pos hm]
      unfold strwrap_write
      simp only [h1, h2, ge_iff_le, and_self, if_true]
    rw [this]
  | succ m ih =>
    intro v h1 h2 h3
    obtain ⟨hd, hdn⟩ := detect_state K strip_spaces v
    rw [strwrap_loop]
    cases hm : strwrap_must_write wrap_always first_only v.width_tar
        (strwrap_detect K strip_spaces v)
    · have hc : byteAt v.state.string v.state.pos_byte ≠ 0 := by
        intro h0
        unfold strwrap_must_write at hm
        simp [hd, h0] at hm
      have hstep : strwrap_step K int_max width_1 width_2 pre_first pre_next wrap_always pad_chr
          strip_spaces first_only v = .ok (false,
            { v with state_prev := (strwrap_detect K strip_spaces v).state,
                     state := (strwrap_detect K strip_spaces v).state_next,
                     state_bound := (strwrap_detect K strip_spaces v).state_bound,
                     prev_boundary := (strwrap_detect K strip_spaces v).prev_boundary,
                     has_boundary := (strwrap_detect K strip_spaces v).has_boundary }) := by
        unfold strwrap_step
        simp only [hm, Bool.false_eq_true, if_false]
      rw [hstep]
      simp only
      obtain ⟨r1, _, r3⟩ := read_next_facts K v.state
      apply ih
      · exact h1
      · exact h2
      · simp only [hdn, if_neg hc, r1]
        have := r3 hc
        omega
    · have : strwrap_step K int_max width_1 width_2 pre_first pre_next wrap_always pad_chr
          strip_spaces first_only v = .error .wrap_too_narrow := by
        unfold strwrap_step
        simp only
        rw [if_pos hm]
        unfold strwrap_write
        simp only [h1, h2, ge_iff_le, and_self, if_true]
      rw [this]

/-- On a byte that is no whitespace the first part of the loop body records
no boundary. -/
theorem detect_no_boundary (K : FANSI_ctl_masks) (strip_spaces : Bool) (v : strwrap_vars)
    (h32 : byteAt v.state.string v.state.pos_byte ≠ 32)
    (h9 : byteAt v.state.string v.state.pos_byte ≠ 9)
    (h10 : byteAt v.state.string v.state.pos_byte ≠ 10) :
    (strwrap_detect K strip_spaces v).has_boundary = v.has_boundary := by
  unfold strwrap_detect
  simp [h32, h9, h10]

/-- The iteration that finds the cursor beyond the budget with no boundary on
the line, under `wrap_always` and outside trim mode: the line ends at the
previous state. When that is where the line started, either the wrap error is
raised, or (on a line that starts further on than the one before) the empty
line is written and the next line starts at the same byte again. -/
theorem strwrap_step_overshoot (K : FANSI_ctl_masks) (int_max : Int) (width_1 width_2 : Int)
    (pre_first pre_next : FANSI_prefix_dat) (pad_chr : List Nat) (strip_spaces : Bool)
    (u : strwrap_vars)
    (hb : u.has_boundary = false)
    (h32 : byteAt u.state.string u.state.pos_byte ≠ 32)
    (h9 : byteAt u.state.string u.state.pos_byte ≠ 9)
    (h10 : byteAt u.state.string u.state.pos_byte ≠ 10)
    (hover : u.state.pos_width > u.width_tar)
    (hp0 : byteAt u.state_prev.string u.state_prev.pos_byte ≠ 0)
    (hp32 : byteAt u.state_prev.string u.state_prev.pos_byte ≠ 32)
    (hp : u.state_prev.pos_byte ≤ u.state_start.pos_byte)
    (hw : (u.first_line = true ∨ u.last_start < u.state_start.pos_byte) →
      ∃ r, FANSI_writeline int_max u.state_prev u.state_start u.buff
        (if u.para_start then pre_first else pre_next) u.width_tar pad_chr = .ok r) :
    strwrap_step K int_max width_1 width_2 pre_first pre_next true pad_chr strip_spaces false u =
        .error .wrap_too_narrow ∨
    ∃ w, strwrap_step K int_max width_1 width_2 pre_first pre_next true pad_chr strip_spaces
        false u = .ok (false, w) ∧ w.first_line = false ∧
      w.last_start ≥ w.state_start.pos_byte ∧ w.state.string = u.state_prev.string ∧
      w.state.pos_byte = u.state_prev.pos_byte := by
  obtain ⟨hd, _⟩ := detect_state K strip_spaces u
  have hdb := detect_no_boundary K strip_spaces u h32 h9 h10
  rw [hb] at hdb
  have hm : strwrap_must_write true false u.width_tar (strwrap_detect K strip_spaces u) = true := by
    unfold strwrap_must_write
    simp only [hd, hover, true_or, or_true, true_and, and_true, decide_True]
  have hle : strwrap_line_end true false u (strwrap_detect K strip_spaces u) =
      (u.state_prev, u.state_prev) := by
    unfold strwrap_line_end
    simp only [hd, hdb, hover, and_self, true_or, or_true, if_true]
  unfold strwrap_step
  simp only [hm, if_true]
  unfold strwrap_write
  simp only [hle]
  by_cases hz : u.first_line = false ∧ u.last_start ≥ u.state_start.pos_byte
  · left
    rw [if_pos hz]
  · right
    rw [if_neg hz]
    have hkb : strwrap_keep_boundary K strip_spaces (strwrap_detect K strip_spaces u).has_boundary
        u.state_prev u.state_prev = u.state_prev := by
      unfold strwrap_keep_boundary
      simp [hdb]
    rw [hkb]
    obtain ⟨⟨res, buff1⟩, hr⟩ := hw (by
      by_cases hf : u.first_line = true
      · exact Or.inl hf
      · right
        have hff : u.first_line = false := by simpa using hf
        by_contra hlt
        exact hz ⟨hff, by omega⟩)
    rw [hr]
    simp only [Bool.false_eq_true, if_false, if_neg hp0]
    have hns : strwrap_next_start K strip_spaces (strwrap_detect K strip_spaces u).has_boundary
        (decide (byteAt u.state_prev.string u.state_prev.pos_byte = 10)) u.state_prev
        u.state_prev = .ok { u.state_prev with pos_width := 0 } := by
      unfold strwrap_next_start
      simp only [hdb, Bool.false_eq_true, false_and, if_false, if_true]
      cases strip_spaces
      · simp
      · simp only [if_true]
        unfold skip_spaces
        rw [if_neg hp32]
    rw [hns]
    exact ⟨_, rfl, rfl, hp, rfl, rfl⟩

/-- The loop of `strwrap` under `wrap_always` and outside trim mode, from a
line start with no boundary where the unit under the cursor takes the width
beyond the budget and is not followed by whitespace: the loop ends in the
wrap error, provided that the empty line can be written where one is
written. -/
theorem strwrap_loop_unit_too_wide (K : FANSI_ctl_masks) (int_max : Int) (width_1 width_2 : Int)
    (pre_first pre_next : FANSI_prefix_dat) (pad_chr : List Nat) (strip_spaces : Bool)
    (v : strwrap_vars) (fuel : Nat)
    (hs : v.state.pos_byte = v.state_start.pos_byte)
    (hb : v.has_boundary = false)
    (hc0 : byteAt v.state.string v.state.pos_byte ≠ 0)
    (hc32 : byteAt v.state.string v.state.pos_byte ≠ 32)
    (hc9 : byteAt v.state.string v.state.pos_byte ≠ 9)
    (hc10 : byteAt v.state.string v.state.pos_byte ≠ 10)
    (hwt : v.state.pos_width < v.width_tar)
    (hover : (FANSI_read_next K v.state).pos_width > v.width_tar)
    (hn32 : byteAt v.state.string (FANSI_read_next K v.state).pos_byte ≠ 32)
    (hn9 : byteAt v.state.string (FANSI_read_next K v.state).pos_byte ≠ 9)
    (hn10 : byteAt v.state.string (FANSI_read_next K v.state).pos_byte ≠ 10)
    (hw : (v.first_line = true ∨ v.last_start < v.state_start.pos_byte) →
      ∃ r, FANSI_writeline int_max v.state v.state_start v.buff
        (if v.para_start then pre_first else pre_next) v.width_tar pad_chr = .ok r)
    (hfuel : v.state.string.length + 3 ≤ fuel) :
    strwrap_loop K int_max width_1 width_2 pre_first pre_next true pad_chr strip_spaces false
      fuel v = .error .wrap_too_narrow := by
  obtain ⟨n, rfl⟩ : ∃ n, fuel = n + 1 + 1 + 1 := ⟨fuel - 3, by omega⟩
  obtain ⟨hd, hdn⟩ := detect_state K strip_spaces v
  obtain ⟨r1, _, _⟩ := read_next_facts K v.state
  rw [if_neg hc0] at hdn
  have hdb := detect_no_boundary K strip_spaces v hc32 hc9 hc10
  -- the first iteration reads the unit and writes nothing
  have hm : strwrap_must_write true false v.width_tar (strwrap_detect K strip_spaces v) =
      false := by
    unfold strwrap_must_write
    simp only [hd, hc0, hc10, false_and, false_or, decide_eq_false_iff_not, not_and, not_or]
    intro hq
    omega
  have hstep : strwrap_step K int_max width_1 width_2 pre_first pre_next true pad_chr
      strip_spaces false v = .ok (false,
        { v with state_prev := (strwrap_detect K strip_spaces v).state,
                 state := (strwrap_detect K strip_spaces v).state_next,
                 state_bound := (strwrap_detect K strip_spaces v).state_bound,
                 prev_boundary := (strwrap_detect K strip_spaces v).prev_boundary,
                 has_boundary := (strwrap_detect K strip_spaces v).has_boundary }) := by
    unfold strwrap_step
    simp only [hm, Bool.false_eq_true, if_false]
  rw [strwrap_loop, hstep]
  simp only
  -- the second iteration finds the overshoot
  have h2 := strwrap_step_overshoot K int_max width_1 width_2 pre_first pre_next pad_chr
    strip_spaces
    { v with state_prev := (strwrap_detect K strip_spaces v).state,
             state := (strwrap_detect K strip_spaces v).state_next,
             state_bound := (strwrap_detect K strip_spaces v).state_bound,
             prev_boundary := (strwrap_detect K strip_spaces v).prev_boundary,
             has_boundary := (strwrap_detect K strip_spaces v).has_boundary }
    (by rw [hdb]; exact hb)
    (by simp only [hdn, r1]; exact hn32) (by simp only [hdn, r1]; exact hn9)
    (by simp only [hdn, r1]; exact hn10) (by simp only [hdn]; exact hover)
    (by simp only [hd]; exact hc0) (by simp only [hd]; exact hc32)
    (by simp only [hd]; omega) (by simp only [hd]; exact hw)
  rw [strwrap_loop]
  rcases h2 with h2 | ⟨w, h2, w1, w2, w3, w4⟩
  · rw [h2]
  · rw [h2]
    simp only
    refine strwrap_loop_no_progress K int_max width_1 width_2 pre_first pre_next true pad_chr
      strip_spaces false n w w1 w2 ?_
    rw [w3]
    simp only [hd]
    omega

/-- C19: with `wrap_always` true and outside trim mode, let the cursor be at
the start of a line with no boundary, on a visual unit that is no whitespace,
that takes the width beyond the budget of the line, and that is not followed
by whitespace, so that no word boundary is available. Then, provided that the
empty line can be written where one is written (on the first line, or on a
line that starts further on than the line before it), `strwrap` ends in the
error of a width narrower than the character width: it backs off to the line
start, makes no progress relative to the previous line start, and neither
loops nor emits the unit. This holds of the loop from any such line start,
and so of the call on a string that starts with such a unit. -/
theorem strwrap_unit_too_wide (K : FANSI_ctl_masks) (int_max : Int) (width_1 width_2 : Int)
    (pre_first pre_next : FANSI_prefix_dat) (pad_chr : List Nat) (strip_spaces : Bool) :
    (∀ (v : strwrap_vars) (fuel : Nat),
      v.state.pos_byte = v.state_start.pos_byte → v.has_boundary = false →
      byteAt v.state.string v.state.pos_byte ≠ 0 →
      byteAt v.state.string v.state.pos_byte ≠ 32 →
      byteAt v.state.string v.state.pos_byte ≠ 9 →
      byteAt v.state.string v.state.pos_byte ≠ 10 →
      v.state.pos_width < v.width_tar →
      (FANSI_read_next K v.state).pos_width > v.width_tar →
      byteAt v.state.string (FANSI_read_next K v.state).pos_byte ≠ 32 →
      byteAt v.state.string (FANSI_read_next K v.state).pos_byte ≠ 9 →
      byteAt v.state.string (FANSI_read_next K v.state).pos_byte ≠ 10 →
      ((v.first_line = true ∨ v.last_start < v.state_start.pos_byte) →
        ∃ r, FANSI_writeline int_max v.state v.state_start v.buff
          (if v.para_start then pre_first else pre_next) v.width_tar pad_chr = .ok r) →
      v.state.string.length + 3 ≤ fuel →
      strwrap_loop K int_max width_1 width_2 pre_first pre_next true pad_chr strip_spaces false
        fuel v = .error .wrap_too_narrow) ∧
    (∀ (x : List Nat) (width : Int) (buff : FANSI_buff) (warn : Int) (ctl : Nat),
      FANSI_add_int width (-pre_first.width) = .ok width_1 →
      FANSI_add_int width (-pre_next.width) = .ok width_2 →
      1 ≤ width → 0 < width_1 → 0 ≤ width_2 →
      byteAt x 0 ≠ 0 → byteAt x 0 ≠ 32 → byteAt x 0 ≠ 9 → byteAt x 0 ≠ 10 →
      (FANSI_read_next K (FANSI_state_init_full x warn ctl)).pos_width > width_1 →
      byteAt x (FANSI_read_next K (FANSI_state_init_full x warn ctl)).pos_byte ≠ 32 →
      byteAt x (FANSI_read_next K (FANSI_state_init_full x warn ctl)).pos_byte ≠ 9 →
      byteAt x (FANSI_read_next K (FANSI_state_init_full x warn ctl)).pos_byte ≠ 10 →
      (∃ r, FANSI_writeline int_max (FANSI_state_init_full x warn ctl)
        (FANSI_state_init_full x warn ctl) buff pre_first width_1 pad_chr = .ok r) →
      strwrap K int_max x width pre_first pre_next true buff pad_chr strip_spaces warn false
        ctl = .error .wrap_too_narrow) := by
  have hloop := strwrap_loop_unit_too_wide K int_max width_1 width_2 pre_first pre_next pad_chr
    strip_spaces
  refine ⟨fun v fuel a1 a2 a3 a4 a5 a6 a7 a8 a9 a10 a11 a12 a13 =>
    hloop v fuel a1 a2 a3 a4 a5 a6 a7 a8 a9 a10 a11 a12 a13, ?_⟩
  intro x width buff warn ctl h1 h2 hwd hw1 hw2 c0 c32 c9 c10 hover n32 n9 n10 hw
  rw [strwrap_eq_loop, h1, h2]
  simp only
  rw [if_neg (by omega), if_neg (by intro hc; rcases hc.2 with h | h <;> omega)]
  have := hloop (strwrap_start x warn ctl width_1 buff) ((x.length + 2) * (x.length + 2))
    rfl rfl c0 c32 c9 c10 hw1 hover n32 n9 n10 (fun _ => hw) (by
      show x.length + 3 ≤ (x.length + 2) * (x.length + 2)
      nlinarith)
  rw [this]

/-- Witness of C19: the call on U+6F22, two columns wide, at width 1 with no
leading string. -/
theorem strwrap_unit_too_wide_witness :
    strwrap FANSI_CTL INT_MAX wide_char 1 empty_pre empty_pre true ⟨0, 0⟩ [] true 0 false 31 =
      .error .wrap_too_narrow :=
  (strwrap_unit_too_wide FANSI_CTL INT_MAX 1 1 empty_pre empty_pre [] true).2 wide_char 1
    ⟨0, 0⟩ 0 31 (by decide) (by decide) (by decide) (by decide) (by decide) (by decide)
    (by decide) (by decide) (by decide) (by decide) (by decide) (by decide) (by decide)
    ⟨(⟨[], false⟩, ⟨128, 1⟩), by decide!⟩

/-- The call of `strwrap` at width 1 with `wrap_always` on a string with a
character that is two columns wide after another character ends in the wrap
error as well, once the first character is written. -/
theorem strwrap_wide_char_too_narrow :
    strwrap FANSI_CTL INT_MAX ([97] ++ wide_char ++ [98]) 1 empty_pre empty_pre true ⟨0, 0⟩ []
      true 0 false 31 = .error .wrap_too_narrow := by
  decide!

/-! ### The batch entry point: the check of the widths -/

/-- The checked addition does not raise the width error. -/
theorem add_int_not_width (a b : Int) : FANSI_add_int a b ≠ .error .width_error := by
  unfold FANSI_add_int
  split <;> simp

/-- The buffer does not raise the width error. -/
theorem size_buff_not_width (int_max : Int) (buff : FANSI_buff) (size : Nat) :
    FANSI_size_buff int_max buff size ≠ .error .width_error := by
  intro hc
  unfold FANSI_size_buff at hc
  simp only at hc
  split_ifs at hc
  all_goals simp only at hc
  all_goals try split_ifs at hc
  all_goals exact absurd hc (by simp)

/-- Dropping the indent does not raise the width error. -/
theorem drop_pre_indent_not_width (dat : FANSI_prefix_dat) :
    drop_pre_indent dat ≠ .error .width_error := by
  intro h
  unfold drop_pre_indent at h
  split at h
  · rename_i e he
    simp only [Except.error.injEq] at h
    subst h
    exact add_int_not_width _ _ he
  · split at h
    · rename_i e he
      simp only [Except.error.injEq] at h
      subst h
      exact add_int_not_width _ _ he
    · split at h
      · rename_i e he
        simp only [Except.error.injEq] at h
        subst h
        exact add_int_not_width _ _ he
      · split at h <;> exact absurd h (by simp)

/-- The size computation of a line does not raise the width error. -/
theorem writeline_size_not_width (int_max : Int) (target_size : Nat) (pads : Bool)
    (target_pad pre_bytes start_close : Int) :
    writeline_size int_max target_size pads target_pad pre_bytes start_close ≠
      .error .width_error := by
  intro h
  unfold writeline_size at h
  simp only at h
  split_ifs at h <;> exact absurd h (by simp)

/-- Writing a line does not raise the width error. -/
theorem writeline_not_width (int_max : Int) (state_bound state_start : FANSI_state)
    (buff : FANSI_buff) (pre_dat : FANSI_prefix_dat) (tar_width : Int) (pad_chr : List Nat) :
    FANSI_writeline int_max state_bound state_start buff pre_dat tar_width pad_chr ≠
      .error .width_error := by
  intro h
  unfold FANSI_writeline at h
  simp only at h
  split at h
  · exact absurd h (by simp)
  · split at h
    · rename_i e he
      simp only [Except.error.injEq] at h
      subst h
      unfold writeline_pre at he
      simp only at he
      split at he
      · exact drop_pre_indent_not_width _ he
      · exact absurd he (by simp)
    · split at h
      · exact absurd h (by simp)
      · split at h
        · rename_i e he
          simp only [Except.error.injEq] at h
          subst h
          exact writeline_size_not_width _ _ _ _ _ _ he
        · split at h
          · rename_i e he
            simp only [Except.error.injEq] at h
            subst h
            exact size_buff_not_width _ _ _ he
          · split at h <;> exact absurd h (by simp)

/-- Skipping spaces does not raise the width error. -/
theorem skip_spaces_not_width (K : FANSI_ctl_masks) :
    ∀ (fuel : Nat) (s : FANSI_state), skip_spaces K fuel s ≠ .error .width_error := by
  intro fuel
  induction fuel with
  | zero =>
    intro s
    unfold skip_spaces
    split <;> simp
  | succ n ih =>
    intro s
    unfold skip_spaces
    split
    · exact ih _
    · simp

/-- The start of the next line does not raise the width error. -/
theorem next_start_not_width (K : FANSI_ctl_masks) (strip_spaces has_boundary para_start : Bool)
    (state state_bound : FANSI_state) :
    strwrap_next_start K strip_spaces has_boundary para_start state state_bound ≠
      .error .width_error := by
  intro h
  unfold strwrap_next_start at h
  simp only at h
  split at h
  · rename_i e he
    simp only [Except.error.injEq] at h
    subst h
    split at he
    · exact skip_spaces_not_width K _ _ he
    · exact absurd he (by simp)
  · exact absurd h (by simp)

/-- The part of the loop body that writes a line does not raise the width
error. -/
theorem strwrap_write_not_width (K : FANSI_ctl_masks) (int_max : Int) (width_1 width_2 : Int)
    (pre_first pre_next : FANSI_prefix_dat) (wrap_always : Bool) (pad_chr : List Nat)
    (strip_spaces first_only : Bool) (v : strwrap_vars) (d : strwrap_scan) :
    strwrap_write K int_max width_1 width_2 pre_first pre_next wrap_always pad_chr strip_spaces
      first_only v d ≠ .error .width_error := by
  intro h
  unfold strwrap_write at h
  simp only at h
  split at h
  · exact absurd h (by simp)
  · split at h
    · rename_i e he
      simp only [Except.error.injEq] at h
      subst h
      exact writeline_not_width _ _ _ _ _ _ _ he
    · split at h
      · exact absurd h (by simp)
      · split at h
        · exact absurd h (by simp)
        · split at h
          · rename_i e he
            simp only [Except.error.injEq] at h
            subst h
            exact next_start_not_width K _ _ _ _ _ he
          · exact absurd h (by simp)

/-- The loop of `strwrap` does not raise the width error. -/
theorem strwrap_loop_not_width (K : FANSI_ctl_masks) (int_max : Int) (width_1 width_2 : Int)
    (pre_first pre_next : FANSI_prefix_dat) (wrap_always : Bool) (pad_chr : List Nat)
    (strip_spaces first_only : Bool) :
    ∀ (fuel : Nat) (v : strwrap_vars),
      strwrap_loop K int_max width_1 width_2 pre_first pre_next wrap_always pad_chr strip_spaces
        first_only fuel v ≠ .error .width_error := by
  intro fuel
  induction fuel with
  | zero => intro v; simp [strwrap_loop]
  | succ n ih =>
    intro v h
    rw [strwrap_loop] at h
    split at h
    · rename_i e he
      simp only [Except.error.injEq] at h
      subst h
      unfold strwrap_step at he
      simp only at he
      split at he
      · exact strwrap_write_not_width _ _ _ _ _ _ _ _ _ _ _ _ he
      · exact absurd he (by simp)
    · exact absurd h (by simp)
    · exact ih _ h

/-- The call of `strwrap` does not raise the width error. -/
theorem strwrap_not_width (K : FANSI_ctl_masks) (int_max : Int) (x : List Nat) (width : Int)
    (pre_first pre_next : FANSI_prefix_dat) (wrap_always : Bool) (buff : FANSI_buff)
    (pad_chr : List Nat) (strip_spaces : Bool) (warn : Int) (first_only : Bool) (ctl : Nat) :
    strwrap K int_max x width pre_first pre_next wrap_always buff pad_chr strip_spaces warn
      first_only ctl ≠ .error .width_error := by
  intro h
  rw [strwrap_eq_loop] at h
  split at h
  · rename_i e he
    simp only [Except.error.injEq] at h
    subst h
    exact add_int_not_width _ _ he
  · split at h
    · rename_i e he
      simp only [Except.error.injEq] at h
      subst h
      exact add_int_not_width _ _ he
    · split at h
      · exact absurd h (by simp)
      · split at h
        · exact absurd h (by simp)
        · split at h
          · rename_i e he
            simp only [Except.error.injEq] at h
            subst h
            exact strwrap_loop_not_width _ _ _ _ _ _ _ _ _ _ _ _ he
          · exact absurd h (by simp)

/-- Wrapping the elements does not raise the width error. -/
theorem strwrap_ext_elems_not_width (K : FANSI_ctl_masks) (int_max : Int) (width : Int)
    (ini_first_dat pre_first_dat pre_next_dat : FANSI_prefix_dat) (wrap_always : Bool)
    (pad_end : List Nat) (strip_spaces : Bool) (warn : Int) (first_only : Bool) (ctl : Nat) :
    ∀ (x : List (Option CHARSXP)) (i : Nat) (buff : FANSI_buff),
      strwrap_ext_elems K int_max width ini_first_dat pre_first_dat pre_next_dat wrap_always
        pad_end strip_spaces warn first_only ctl x i buff ≠ .error .width_error := by
  intro x
  induction x with
  | nil => intro i buff; simp [strwrap_ext_elems]
  | cons a rest ih =>
    intro i buff h
    cases a with
    | none =>
      rw [strwrap_ext_elems] at h
      split at h
      · rename_i e he
        simp only [Except.error.injEq] at h
        subst h
        exact ih _ _ he
      · exact absurd h (by simp)
    | some chr =>
      rw [strwrap_ext_elems] at h
      split at h
      · rename_i e he
        simp only [Except.error.injEq] at h
        subst h
        unfold FANSI_check_chrsxp at he
        split at he <;> exact absurd he (by simp)
      · split at h
        · rename_i e he
          simp only [Except.error.injEq] at h
          subst h
          exact strwrap_not_width _ _ _ _ _ _ _ _ _ _ _ _ _ he
        · split at h
          · rename_i e he
            simp only [Except.error.injEq] at h
            subst h
            exact ih _ _ he
          · exact absurd h (by simp)

/-- C20: in a call of `FANSI_strwrap_ext` that gets as far as the check of the
widths, with the three leading strings built (initial with indent, prefix
with indent, prefix with exdent), the width error is raised if and only if
`wrap_always` is true and at least one of the three has a display width
greater than or equal to `width`. The check precedes the loop over the
elements, which never raises this error, so the error is raised before any
element is wrapped, and with `wrap_always` false it is not raised at all. -/
theorem strwrap_ext_width_error (E : wrap_env) (K : FANSI_ctl_masks) (int_max : Int)
    (x : List (Option CHARSXP)) (width indent exdent : Int) (pre_sxp ini_sxp : CHARSXP)
    (wrap_always : Bool) (pad_end : List Nat) (strip_spaces tabs_as_spaces : Bool)
    (tab_stops : List Int) (warn : Int) (first_only : Bool) (ctl : Nat) (d : strwrap_ext_dat)
    (hpre : strwrap_ext_pre E K int_max x indent exdent pre_sxp ini_sxp pad_end strip_spaces
      tabs_as_spaces tab_stops warn ctl = .ok d) :
    FANSI_strwrap_ext E K int_max x width indent exdent pre_sxp ini_sxp wrap_always pad_end
        strip_spaces tabs_as_spaces tab_stops warn first_only ctl = .error .width_error ↔
      (wrap_always = true ∧ (d.ini_first_dat.width ≥ width ∨ d.pre_first_dat.width ≥ width ∨
        d.pre_next_dat.width ≥ width)) := by
  unfold FANSI_strwrap_ext
  rw [hpre]
  simp only
  constructor
  · intro h
    by_contra hc
    rw [if_neg hc] at h
    exact strwrap_ext_elems_not_width _ _ _ _ _ _ _ _ _ _ _ _ _ _ _ h
  · intro hc
    rw [if_pos hc]

/-- Witness of C20: width 4, prefix and initial `"> "`, indent 2 and exdent 0
with `wrap_always`: the leading string of the first lines is 4 columns
wide. -/
theorem strwrap_ext_width_error_witness :
    FANSI_strwrap_ext ascii_env FANSI_CTL INT_MAX [some ⟨quick_fox, false⟩] 4 2 0 gt_sxp gt_sxp
      true [] true false [8] 0 false 31 = .error .width_error :=
  (strwrap_ext_width_error ascii_env FANSI_CTL INT_MAX [some ⟨quick_fox, false⟩] 4 2 0 gt_sxp
    gt_sxp true [] true false [8] 0 false 31
    { x := [some ⟨quick_fox, false⟩], buff := ⟨0, 0⟩, ini_first_dat := gt_indent_pre,
      pre_first_dat := gt_indent_pre, pre_next_dat := gt_exdent_pre }
    (by decide)).mpr ⟨rfl, Or.inl (by decide)⟩

/-! ### The written line: the bytes of the prefix -/

/-- C21: for a call of `FANSI_writeline` that succeeds, with prefix data whose
indent is between 0 and its byte count and whose string holds that many bytes,
the line is the serialized start style, then a leading part `P` of the prefix
string, then the content, the padding and the closing sequence. When the
content has zero bytes (`state_bound.pos_byte` equals `state_start.pos_byte`)
`P` has exactly `pre_dat.bytes - pre_dat.indent` bytes, so the indent or
exdent spaces are left out; when the content has at least one byte `P` has all
`pre_dat.bytes` bytes, whatever the visual width of the content is. -/
theorem writeline_pre_bytes (int_max : Int) (state_bound state_start : FANSI_state)
    (buff buff1 : FANSI_buff) (pre_dat : FANSI_prefix_dat) (tar_width : Int)
    (pad_chr : List Nat) (line : CHARSXP)
    (hind : 0 ≤ pre_dat.indent) (hbytes : pre_dat.indent ≤ pre_dat.bytes)
    (hlen : pre_dat.bytes ≤ pre_dat.string.length)
    (h : FANSI_writeline int_max state_bound state_start buff pre_dat tar_width pad_chr =
      .ok (line, buff1)) :
    ∃ P : List Nat, P <+: pre_dat.string ∧
      (P.length : Int) = (if state_bound.pos_byte = state_start.pos_byte
        then pre_dat.bytes - pre_dat.indent else pre_dat.bytes) ∧
      line.chars =
        (if FANSI_state_has_style state_start then FANSI_csi_write state_start else []) ++ P ++
        ((state_start.string.drop state_start.pos_byte).take
            (state_bound.pos_byte - state_start.pos_byte) ++
          List.replicate (writeline_pad state_bound state_start tar_width pad_chr).toNat
            (byteAt pad_chr 0) ++
          (if FANSI_state_has_style state_bound then [27, 91, 48, 109] else [])) := by
  obtain ⟨hbyte, _, pre1, hpre, hline⟩ :=
    writeline_ok_write int_max state_bound state_start buff buff1 pre_dat tar_width pad_chr line h
  obtain ⟨hstr, hb1⟩ := writeline_pre_ok _ _ _ _ hbyte hpre
  refine ⟨pre_dat.string.take pre1.bytes.toNat, List.take_prefix _ _, ?_, ?_⟩
  · rw [List.length_take, hb1]
    split <;> omega
  · rw [hline]
    unfold writeline_write
    simp only [hstr, List.nil_append]
    by_cases hz : pre1.bytes = 0
    · simp only [hz, ne_eq, not_true_eq_false, if_false, Int.toNat_zero, List.take_zero,
        List.append_nil]
      split <;> split <;> simp
    · simp only [hz, ne_eq, not_false_eq_true, if_true]
      split <;> split <;> simp

/-- Witness of C21: with the prefix `">"` and an indent of two spaces, the
content `ESC[31m` of five bytes and no column is written after all three
bytes of the prefix, and the empty content after the byte `">"` alone. -/
theorem writeline_pre_bytes_witness :
    FANSI_writeline INT_MAX (FANSI_read_next FANSI_CTL (FANSI_state_init_full str_red_on 1 31))
        (FANSI_state_init_full str_red_on 1 31) ⟨0, 0⟩ quote_pre 10 [] =
      .ok (⟨[62, 32, 32] ++ str_red_on ++ [27, 91, 48, 109], false⟩, ⟨128, 1⟩) ∧
    (FANSI_read_next FANSI_CTL (FANSI_state_init_full str_red_on 1 31)).pos_width = 0 ∧
    FANSI_writeline INT_MAX (cursor_at [] 0 0) (cursor_at [] 0 0) ⟨0, 0⟩ quote_pre 10 [] =
      .ok (⟨[62], false⟩, ⟨128, 1⟩) ∧
    ∃ P : List Nat, P <+: quote_pre.string ∧ (P.length : Int) = 3 ∧
      [62, 32, 32] ++ str_red_on ++ [27, 91, 48, 109] = P ++ (str_red_on ++ [27, 91, 48, 109]) :=
  ⟨by decide!, by decide!, by decide!,
   writeline_pre_bytes INT_MAX (FANSI_read_next FANSI_CTL (FANSI_state_init_full str_red_on 1 31))
     (FANSI_state_init_full str_red_on 1 31) ⟨0, 0⟩ ⟨128, 1⟩ quote_pre 10 []
     ⟨[62, 32, 32] ++ str_red_on ++ [27, 91, 48, 109], false⟩
     (by decide) (by decide) (by decide) (by decide!)⟩

/-! ### The scratch buffer -/

/-- The call of `FANSI_size_buff` returns the struct that the in-place run
leaves, or raises the error of that run. -/
theorem size_buff_inplace_spec (int_max : Int) (buff : FANSI_buff) (size : Nat) :
    FANSI_size_buff int_max buff size =
      match FANSI_size_buff_inplace int_max buff size with
      | (b, none) => .ok b
      | (_, some e) => .error e := by
  unfold FANSI_size_buff FANSI_size_buff_inplace
  simp only
  split_ifs
  all_goals simp only
  all_goals try split_ifs
  all_goals rfl

/-- The in-place run of `FANSI_size_buff` case by case, for a capacity within
the ceiling `FANSI_int_max + 1`. -/
theorem size_buff_inplace_cases (int_max : Int) (buff : FANSI_buff) (n : Nat)
    (h1 : 1 ≤ int_max) (h2 : int_max ≤ INT_MAX) (hold : buff.len ≤ int_max.toNat + 1) :
    FANSI_size_buff_inplace int_max buff n =
      if n ≤ buff.len then (buff, none)
      else if buff.len = 0 then
        if n < 128 ∧ int_max > 128 then (⟨128, buff.buff + 1⟩, none)
        else if n > int_max.toNat + 1 then (buff, some .buff_size_initial)
        else (⟨n, buff.buff + 1⟩, none)
      else if max (min (2 * buff.len) (int_max.toNat + 1)) n > int_max.toNat + 1 then
        (buff, some .buff_size_max)
      else (⟨max (min (2 * buff.len) (int_max.toNat + 1)) n, buff.buff + 1⟩, none) := by
  have hM : to_size_t int_max = int_max.toNat :=
    to_size_t_of_nonneg _ (by omega) (by unfold INT_MAX at *; omega)
  have hsub : ∀ l : Nat, l ≤ int_max.toNat + 1 →
      to_size_t (((int_max.toNat : Nat) : Int) + 1 - l) = int_max.toNat + 1 - l := by
    intro l hl
    rw [to_size_t_of_nonneg _ (by omega) (by unfold INT_MAX at *; omega)]
    omega
  have h128 : int_max > 128 → 128 < int_max.toNat := by intro h; omega
  unfold FANSI_size_buff_inplace
  simp only [hM]
  by_cases hn : n ≤ buff.len
  · rw [if_neg (by omega), if_pos hn]
  · rw [if_pos (by omega), if_neg hn]
    by_cases h0 : buff.len = 0
    · rw [if_pos h0, if_pos h0]
      by_cases hs : n < 128 ∧ int_max > 128
      · have := h128 hs.2
        rw [if_pos hs, if_pos hs]
        simp only
        rw [hsub buff.len hold]
        have hd : (if buff.len > int_max.toNat + 1 - buff.len then int_max.toNat + 1
            else buff.len + buff.len) = 0 := by
          rw [if_neg (by omega)]
          omega
        simp only [hd, show (128 : Nat) > 0 by omega, if_true]
        rw [if_pos (by omega), if_neg (by omega)]
      · rw [if_neg hs, if_neg hs]
        by_cases hb : n > int_max.toNat + 1
        · rw [if_pos hb, if_pos hb]
        · rw [if_neg hb, if_neg hb]
          simp only [gt_iff_lt, lt_self_iff_false, if_false]
    · rw [if_neg h0, if_neg h0]
      simp only
      rw [hsub buff.len hold]
      have hd : (if buff.len > int_max.toNat + 1 - buff.len then int_max.toNat + 1
          else buff.len + buff.len) = min (2 * buff.len) (int_max.toNat + 1) := by
        split <;> omega
      rw [hd]
      have hm : (if n > min (2 * buff.len) (int_max.toNat + 1) then n
          else min (2 * buff.len) (int_max.toNat + 1)) =
          max (min (2 * buff.len) (int_max.toNat + 1)) n := by
        split <;> omega
      rw [hm, if_pos (by omega)]
      split_ifs <;> rfl

/-- The call of `FANSI_size_buff` case by case, for a capacity within the
ceiling `FANSI_int_max + 1`. -/
theorem size_buff_cases (int_max : Int) (buff : FANSI_buff) (n : Nat)
    (h1 : 1 ≤ int_max) (h2 : int_max ≤ INT_MAX) (hold : buff.len ≤ int_max.toNat + 1) :
    FANSI_size_buff int_max buff n =
      if n ≤ buff.len then .ok buff
      else if buff.len = 0 then
        if n < 128 ∧ int_max > 128 then .ok ⟨128, buff.buff + 1⟩
        else if n > int_max.toNat + 1 then .error .buff_size_initial
        else .ok ⟨n, buff.buff + 1⟩
      else if max (min (2 * buff.len) (int_max.toNat + 1)) n > int_max.toNat + 1 then
        .error .buff_size_max
      else .ok ⟨max (min (2 * buff.len) (int_max.toNat + 1)) n, buff.buff + 1⟩ := by
  rw [size_buff_inplace_spec, size_buff_inplace_cases int_max buff n h1 h2 hold]
  split_ifs <;> rfl

/-- C24: for a buffer whose capacity is at most `FANSI_int_max + 1` and a
request `n` for which `FANSI_size_buff` returns, the new capacity is at least
`n` and at least the old capacity; if `n` is at most the old capacity the
buffer, capacity and storage, is unchanged; and if `n` exceeds an old capacity
above 0 the new capacity is `max(min(2*old, FANSI_int_max + 1), n)`, which is
`max(2*old, n)` when the doubling stays within the ceiling. -/
theorem size_buff_grows (int_max : Int) (buff buff1 : FANSI_buff) (n : Nat)
    (h1 : 1 ≤ int_max) (h2 : int_max ≤ INT_MAX) (hold : (buff.len : Int) ≤ int_max + 1)
    (h : FANSI_size_buff int_max buff n = .ok buff1) :
    n ≤ buff1.len ∧ buff.len ≤ buff1.len ∧
    (n ≤ buff.len → buff1 = buff) ∧
    (buff.len < n → 0 < buff.len →
      (buff1.len : Int) = max (min (2 * (buff.len : Int)) (int_max + 1)) (n : Int) ∧
      ((2 * (buff.len : Int)) ≤ int_max + 1 → buff1.len = max (2 * buff.len) n)) := by
  rw [size_buff_cases int_max buff n h1 h2 (by omega)] at h
  split_ifs at h with c1 c2 c3 c4 c5
  all_goals simp only [Except.ok.injEq] at h
  all_goals try subst h
  · exact ⟨c1, le_refl _, fun _ => rfl, fun hc => absurd hc (by omega)⟩
  · exact ⟨by show n ≤ 128; omega, by show buff.len ≤ 128; omega,
      fun hc => absurd hc c1, fun _ hc => absurd c2 (by omega)⟩
  · exact ⟨le_refl _, by show buff.len ≤ n; omega, fun hc => absurd hc c1,
      fun _ hc => absurd c2 (by omega)⟩
  · refine ⟨by show n ≤ max _ n; omega, by show buff.len ≤ max _ n; omega,
      fun hc => absurd hc c1, fun _ _ => ⟨?_, fun hd => ?_⟩⟩
    · show ((max (min (2 * buff.len) (int_max.toNat + 1)) n : Nat) : Int) = _
      omega
    · show max (min (2 * buff.len) (int_max.toNat + 1)) n = _
      omega

/-- Witness of C24: a buffer of 128 bytes asked for 200 bytes under the
default ceiling grows to 256 bytes. -/
theorem size_buff_grows_witness :
    FANSI_size_buff INT_MAX ⟨128, 1⟩ 200 = .ok ⟨256, 2⟩ ∧ 200 ≤ 256 ∧ 128 ≤ 256 ∧
    ((256 : Nat) : Int) = max (min (2 * ((128 : Nat) : Int)) (INT_MAX + 1)) ((200 : Nat) : Int) :=
  have h := size_buff_grows INT_MAX ⟨128, 1⟩ ⟨256, 2⟩ 200 (by decide) (by decide) (by decide)
    (by decide)
  ⟨by decide, h.1, h.2.1, (h.2.2.2 (by decide) (by decide)).1⟩

/-- C25, counterexample: under `FANSI_int_max = 100` the first allocation of a
buffer with the request 5 is accepted and the capacity is 5, below 128. -/
theorem size_buff_first_below_floor :
    FANSI_size_buff 100 ⟨0, 0⟩ 5 = .ok ⟨5, 1⟩ ∧ ¬ (128 ≤ (⟨5, 1⟩ : FANSI_buff).len) := by
  decide

/-- C25, amended: on the first allocation of a buffer (capacity 0) with a
request `n ≥ 1` that `FANSI_size_buff` accepts, when `FANSI_int_max` is above
128, the resulting capacity is `max(n, 128)`, so at least 128. -/
theorem size_buff_first_floor (int_max : Int) (buff buff1 : FANSI_buff) (n : Nat)
    (h128 : 128 < int_max) (h2 : int_max ≤ INT_MAX) (hlen : buff.len = 0) (hn : 1 ≤ n)
    (h : FANSI_size_buff int_max buff n = .ok buff1) :
    buff1.len = max n 128 ∧ 128 ≤ buff1.len := by
  rw [size_buff_cases int_max buff n (by omega) h2 (by omega)] at h
  rw [if_neg (by omega), if_pos hlen] at h
  split_ifs at h with c1 c2
  · simp only [Except.ok.injEq] at h
    subst h
    exact ⟨by show 128 = max n 128; omega, le_refl _⟩
  · simp only [Except.ok.injEq] at h
    subst h
    have : 128 ≤ n := by
      by_contra hc
      exact c1 ⟨by omega, h128⟩
    exact ⟨by show n = max n 128; omega, this⟩

/-- Witness of C25: the first allocation with the request 5 under the default
ceiling has the capacity 128. -/
theorem size_buff_first_floor_witness :
    FANSI_size_buff INT_MAX ⟨0, 0⟩ 5 = .ok ⟨128, 1⟩ ∧ 128 = max 5 128 ∧ 128 ≤ 128 :=
  have h := size_buff_first_floor INT_MAX ⟨0, 0⟩ ⟨128, 1⟩ 5 (by decide) (by decide) rfl
    (by decide) (by decide)
  ⟨by decide, h.1, h.2⟩

/-- A call of `FANSI_size_buff` on a capacity within the ceiling leaves a
capacity within the ceiling, whether it returns or raises. -/
theorem size_buff_inplace_ceiling (int_max : Int) (buff : FANSI_buff) (n : Nat)
    (h1 : 1 ≤ int_max) (h2 : int_max ≤ INT_MAX) (hold : buff.len ≤ int_max.toNat + 1) :
    (FANSI_size_buff_inplace int_max buff n).1.len ≤ int_max.toNat + 1 := by
  rw [size_buff_inplace_cases int_max buff n h1 h2 hold]
  split_ifs with c1 c2 c3 c4 c5
  · exact hold
  · show 128 ≤ int_max.toNat + 1
    omega
  · exact hold
  · show n ≤ int_max.toNat + 1
    omega
  · exact hold
  · show max (min (2 * buff.len) (int_max.toNat + 1)) n ≤ int_max.toNat + 1
    omega

/-- Every sequence of calls of `FANSI_size_buff` from a capacity within the
ceiling ends on a capacity within the ceiling. -/
theorem size_buff_seq_ceiling (int_max : Int) (h1 : 1 ≤ int_max) (h2 : int_max ≤ INT_MAX) :
    ∀ (reqs : List Nat) (buff : FANSI_buff), buff.len ≤ int_max.toNat + 1 →
      (size_buff_seq int_max buff reqs).len ≤ int_max.toNat + 1 := by
  intro reqs
  induction reqs with
  | nil => intro buff hb; exact hb
  | cons n rest ih =>
    intro buff hb
    exact ih _ (size_buff_inplace_ceiling int_max buff n h1 h2 hb)

/-- C26: starting from an empty buffer, after any sequence of requests to
`FANSI_size_buff` under a fixed `FANSI_int_max` the capacity is at most
`FANSI_int_max + 1` (so it is after every successful call), and a further
request above `FANSI_int_max + 1` raises an internal error and leaves the
struct, and so the capacity, unchanged. -/
theorem size_buff_ceiling (int_max : Int) (storage : Nat) (reqs : List Nat)
    (h1 : 1 ≤ int_max) (h2 : int_max ≤ INT_MAX) :
    ((size_buff_seq int_max ⟨0, storage⟩ reqs).len : Int) ≤ int_max + 1 ∧
    ∀ n : Nat, int_max + 1 < n →
      ∃ e, (e = .buff_size_initial ∨ e = .buff_size_max) ∧
        FANSI_size_buff int_max (size_buff_seq int_max ⟨0, storage⟩ reqs) n = .error e ∧
        FANSI_size_buff_inplace int_max (size_buff_seq int_max ⟨0, storage⟩ reqs) n =
          (size_buff_seq int_max ⟨0, storage⟩ reqs, some e) := by
  have hc := size_buff_seq_ceiling int_max h1 h2 reqs ⟨0, storage⟩ (Nat.zero_le _)
  refine ⟨by omega, fun n hn => ?_⟩
  generalize size_buff_seq int_max ⟨0, storage⟩ reqs = b at hc
  rw [size_buff_cases int_max b n h1 h2 hc, size_buff_inplace_cases int_max b n h1 h2 hc]
  have hn1 : ¬ n ≤ b.len := by omega
  have hn2 : ¬ (n < 128 ∧ int_max > 128) := by omega
  have hn3 : n > int_max.toNat + 1 := by omega
  have hn4 : max (min (2 * b.len) (int_max.toNat + 1)) n > int_max.toNat + 1 := by omega
  simp only [hn1, hn2, hn3, hn4, if_true, if_false]
  by_cases h0 : b.len = 0
  · simp only [h0, if_true]
    exact ⟨_, Or.inl rfl, rfl, rfl⟩
  · simp only [h0, if_false]
    exact ⟨_, Or.inr rfl, rfl, rfl⟩

/-- Witness of C26: under `FANSI_int_max = 200`, after the requests 5, 150 and
300 the capacity is 201, and the request 300 is refused. -/
theorem size_buff_ceiling_witness :
    size_buff_seq 200 ⟨0, 0⟩ [5, 150, 300] = ⟨201, 2⟩ ∧
    (((size_buff_seq 200 ⟨0, 0⟩ [5, 150, 300]).len : Int) ≤ 200 + 1 ∧
    ∀ n : Nat, (200 : Int) + 1 < n →
      ∃ e, (e = .buff_size_initial ∨ e = .buff_size_max) ∧
        FANSI_size_buff 200 (size_buff_seq 200 ⟨0, 0⟩ [5, 150, 300]) n = .error e ∧
        FANSI_size_buff_inplace 200 (size_buff_seq 200 ⟨0, 0⟩ [5, 150, 300]) n =
          (size_buff_seq 200 ⟨0, 0⟩ [5, 150, 300], some e)) :=
  ⟨by decide, size_buff_ceiling 200 0 [5, 150, 300] (by decide) (by decide)⟩

/-! ### The reflow engine: trim mode -/

/-- A request within the ceiling is accepted by `FANSI_size_buff`. -/
theorem size_buff_ok (int_max : Int) (buff : FANSI_buff) (n : Nat)
    (h1 : 1 ≤ int_max) (h2 : int_max ≤ INT_MAX) (hn : (n : Int) ≤ int_max + 1) :
    ∃ buff1, FANSI_size_buff int_max buff n = .ok buff1 := by
  by_cases hle : n ≤ buff.len
  · refine ⟨buff, ?_⟩
    unfold FANSI_size_buff
    rw [if_neg (by omega)]
  · rw [size_buff_cases int_max buff n h1 h2 (by omega), if_neg hle]
    by_cases h0 : buff.len = 0
    · rw [if_pos h0]
      by_cases hs : n < 128 ∧ int_max > 128
      · rw [if_pos hs]
        exact ⟨_, rfl⟩
      · rw [if_neg hs, if_neg (by omega)]
        exact ⟨_, rfl⟩
    · rw [if_neg h0, if_neg (by omega)]
      exact ⟨_, rfl⟩

/-- The line that `FANSI_writeline` returns for a piece of a printable string
without a prefix and without a pad character: the call succeeds and the line
is the piece. -/
theorem writeline_plain (int_max : Int) (x : List Nat) (b st : FANSI_state) (buff : FANSI_buff)
    (tar_width : Int) (h1 : 1 ≤ int_max) (h2 : int_max ≤ INT_MAX)
    (hxl : (x.length : Int) ≤ int_max)
    (hb : b.string = x ∧ b.style = [] ∧ b.has_utf8 = false ∧ b.pos_byte ≤ x.length ∧
      b.pos_width = (b.pos_byte : Int) - st.pos_byte)
    (hs : st.string = x ∧ st.style = [] ∧ st.pos_byte ≤ b.pos_byte ∧ st.pos_width = 0) :
    ∃ buff1, FANSI_writeline int_max b st buff empty_pre tar_width [] =
      .ok (⟨slice x st.pos_byte b.pos_byte, false⟩, buff1) := by
  obtain ⟨b1, b2, b3, b4, b5⟩ := hb
  obtain ⟨s1, s2, s3, s4⟩ := hs
  have hM : to_size_t int_max = int_max.toNat :=
    to_size_t_of_nonneg _ (by omega) (by unfold INT_MAX at *; omega)
  have hpre : writeline_pre b st empty_pre = .ok empty_pre := by
    unfold writeline_pre
    simp only
    split
    · decide
    · rfl
  have hpads : writeline_pads b st tar_width [] = false := by
    unfold writeline_pads
    simp [byteAt]
  have hpad : writeline_pad b st tar_width [] = 0 := by
    unfold writeline_pad
    simp only [hpads, Bool.false_eq_true, if_false]
  have hsize : writeline_size int_max (b.pos_byte - st.pos_byte) false 0 empty_pre.bytes 0 =
      .ok (b.pos_byte - st.pos_byte + 1) := by
    have hz : to_size_t 0 = 0 := by decide
    have he : empty_pre.bytes = 0 := rfl
    unfold writeline_size
    simp only [he, Bool.false_eq_true, false_and, if_false, sub_zero, hM, hz, Nat.add_zero]
    have hlt : b.pos_byte - st.pos_byte < SIZE_MOD := by
      unfold SIZE_MOD
      unfold INT_MAX at h2
      omega
    have hlt1 : b.pos_byte - st.pos_byte + 1 < SIZE_MOD := by
      unfold SIZE_MOD
      unfold INT_MAX at h2
      omega
    simp only [Nat.mod_eq_of_lt hlt, Nat.mod_eq_of_lt hlt1]
    rw [if_neg (by omega), if_neg (by omega)]
  obtain ⟨buff1, hbuff⟩ := size_buff_ok int_max buff (b.pos_byte - st.pos_byte + 1) h1 h2
    (by omega)
  have hwrite : writeline_write b st empty_pre 0 [] = slice x st.pos_byte b.pos_byte := by
    have he : empty_pre.bytes = 0 := rfl
    unfold writeline_write slice
    simp [has_style_nil b b2, has_style_nil st s2, he, s1]
  have hlen : (slice x st.pos_byte b.pos_byte).length ≤ x.length := by
    unfold slice
    simp only [List.length_take, List.length_drop]
    omega
  refine ⟨buff1, ?_⟩
  unfold FANSI_writeline
  simp only [hpre, hpads, hpad, has_style_nil b b2, has_style_nil st s2, Bool.false_eq_true,
    if_false, add_zero, hsize, hbuff, hwrite, hM, b3]
  rw [if_neg (by omega), if_neg (by omega), if_neg (by omega)]
  rfl

/-- In trim mode an iteration of `strwrap` that leaves the loop has written
exactly one line. -/
theorem strwrap_step_trim_one (K : FANSI_ctl_masks) (int_max : Int) (width_1 width_2 : Int)
    (pre_first pre_next : FANSI_prefix_dat) (wrap_always : Bool) (pad_chr : List Nat)
    (strip_spaces : Bool) (v w : strwrap_vars) (b : Bool)
    (h : strwrap_step K int_max width_1 width_2 pre_first pre_next wrap_always pad_chr
      strip_spaces true v = .ok (b, w)) (hb : b = true) : w.char_list.length = 1 := by
  unfold strwrap_step at h
  simp only at h
  split at h
  · unfold strwrap_write at h
    simp only at h
    split at h
    · exact absurd h (by simp)
    · split at h
      · exact absurd h (by simp)
      · simp only [if_true, Except.ok.injEq, Prod.mk.injEq] at h
        obtain ⟨_, hw⟩ := h
        subst hw
        rfl
  · simp only [Except.ok.injEq, Prod.mk.injEq] at h
    rw [hb] at h
    exact absurd h.1 (by simp)

/-- In trim mode the loop of `strwrap` ends with exactly one line. -/
theorem strwrap_loop_trim_one (K : FANSI_ctl_masks) (int_max : Int) (width_1 width_2 : Int)
    (pre_first pre_next : FANSI_prefix_dat) (wrap_always : Bool) (pad_chr : List Nat)
    (strip_spaces : Bool) :
    ∀ (fuel : Nat) (v w : strwrap_vars),
      strwrap_loop K int_max width_1 width_2 pre_first pre_next wrap_always pad_chr
        strip_spaces true fuel v = .ok w → w.char_list.length = 1 := by
  intro fuel
  induction fuel with
  | zero =>
    intro v w h
    exact absurd h (by simp [strwrap_loop])
  | succ n ih =>
    intro v w h
    unfold strwrap_loop at h
    split at h
    · exact absurd h (by simp)
    · rename_i w1 hstep
      simp only [Except.ok.injEq] at h
      subst h
      exact strwrap_step_trim_one K int_max width_1 width_2 pre_first pre_next wrap_always
        pad_chr strip_spaces v _ true hstep rfl
    · exact ih _ w h

/-- An iteration of `strwrap` in trim mode with `wrap_always`, no prefix and no
pad character over a printable string, on the first line: either no line is
written and the cursor moves on by one byte, or the line written is the first
`min(length(x), width)` bytes of the string. -/
theorem strwrap_step_trim (K : FANSI_ctl_masks) (int_max : Int) (x : List Nat) (width : Int)
    (strip_spaces : Bool) (v : strwrap_vars)
    (hx : printable x) (h1 : 1 ≤ int_max) (h2 : int_max ≤ INT_MAX)
    (hxl : (x.length : Int) ≤ int_max) (hw : 0 ≤ width)
    (hinv : wrap_inv x width width true v) (hst : v.state_start.pos_byte = 0)
    (hfl : v.first_line = true) (hu : v.state.has_utf8 = false) :
    (∃ w, strwrap_step K int_max width width empty_pre empty_pre true [] strip_spaces true v =
        .ok (false, w) ∧
      wrap_inv x width width true w ∧ w.state_start.pos_byte = 0 ∧ w.first_line = true ∧
      w.state.has_utf8 = false ∧ w.state.pos_byte = v.state.pos_byte + 1 ∧
      v.state.pos_byte < x.length) ∨
    (∃ w, strwrap_step K int_max width width empty_pre empty_pre true [] strip_spaces true v =
        .ok (true, w) ∧
      w.char_list = [⟨x.take (min x.length width.toNat), false⟩]) := by
  obtain ⟨d1, d2, d3, d4, d5, d6, d7, d8, d9, d10, d11⟩ :=
    detect_printable K x hx width width true strip_spaces v hinv
  have htar : v.width_tar = width := by
    rw [hinv.tar]
    split <;> rfl
  have hwithin : v.state.pos_width ≤ width := by
    rw [← htar]
    exact hinv.within (Or.inr rfl)
  have hsw : v.state.pos_width = (v.state.pos_byte : Int) := by
    rw [hinv.s_width, hst]
    simp
  have hdu : (strwrap_detect K strip_spaces v).state.has_utf8 = false := by
    rw [← hu]
    rfl
  by_cases hmw : strwrap_must_write true true v.width_tar (strwrap_detect K strip_spaces v) = true
  · right
    -- the position of the cursor
    have hk : v.state.pos_byte = min x.length width.toNat := by
      have hsle := hinv.s_le
      unfold strwrap_must_write at hmw
      simp only [d1, d2, d3, decide_eq_true_eq] at hmw
      rcases hmw with hc | hc | hc
      · have hge : x.length ≤ v.state.pos_byte := by
          by_contra hlt
          have := byteAt_printable x hx v.state.pos_byte (by omega)
          omega
        omega
      · exact absurd hc.2 (by simp)
      · have : v.state.pos_width = v.width_tar := by
          rcases hc.1 with hgt | heq
          · omega
          · exact heq.1
        omega
    have hle : (strwrap_line_end true true v (strwrap_detect K strip_spaces v)) =
        ((strwrap_detect K strip_spaces v).state, (strwrap_detect K strip_spaces v).state) := by
      unfold strwrap_line_end
      simp only [or_true, if_true, d3, and_true]
      rw [if_neg (by omega)]
    have hkeep : strwrap_keep_boundary K strip_spaces
        (strwrap_detect K strip_spaces v).has_boundary (strwrap_detect K strip_spaces v).state
        (strwrap_detect K strip_spaces v).state = (strwrap_detect K strip_spaces v).state := by
      unfold strwrap_keep_boundary
      simp only [lt_self_iff_false, and_false, if_false]
    obtain ⟨buff1, hwl⟩ := writeline_plain int_max x (strwrap_detect K strip_spaces v).state
      v.state_start v.buff v.width_tar h1 h2 hxl
      ⟨d1, d4, hdu, by rw [d2]; exact hinv.s_le, by rw [d3, d2, hinv.s_width]⟩
      ⟨hinv.st_string, hinv.st_style, by rw [d2, hst]; exact Nat.zero_le _, hinv.st_width⟩
    have hsl : slice x v.state_start.pos_byte (strwrap_detect K strip_spaces v).state.pos_byte =
        x.take (min x.length width.toNat) := by
      rw [d2, hst, hk]
      unfold slice
      simp
    rw [hsl] at hwl
    unfold strwrap_step
    simp only [hmw, if_true]
    unfold strwrap_write
    simp only [hle, hkeep, hfl, Bool.true_eq_false, false_and, if_false, ite_self, hwl, if_true]
    exact ⟨_, rfl, rfl⟩
  · left
    have hmw' : strwrap_must_write true true v.width_tar (strwrap_detect K strip_spaces v) =
        false := by simpa using hmw
    have hc : byteAt x v.state.pos_byte ≠ 0 := by
      intro hc
      apply hmw
      unfold strwrap_must_write
      simp only [d1, d2, hc, true_or, decide_True]
    have hnext := detect_next_printable K x hx width width true strip_spaces v hinv hc
    unfold strwrap_step
    simp only [hmw', Bool.false_eq_true, if_false]
    refine ⟨_, rfl, step_continue_printable K x hx width width true strip_spaces true v hinv hmw',
      hst, hfl, ?_, ?_, byteAt_ne_zero_lt x _ hc⟩
    · show (strwrap_detect K strip_spaces v).state_next.has_utf8 = false
      rw [hnext]
      exact hu
    · show (strwrap_detect K strip_spaces v).state_next.pos_byte = v.state.pos_byte + 1
      rw [hnext]

/-- The loop of `strwrap` in trim mode with `wrap_always`, no prefix and no pad
character over a printable string returns, and its one line is the first
`min(length(x), width)` bytes of the string. -/
theorem strwrap_loop_trim (K : FANSI_ctl_masks) (int_max : Int) (x : List Nat) (width : Int)
    (strip_spaces : Bool)
    (hx : printable x) (h1 : 1 ≤ int_max) (h2 : int_max ≤ INT_MAX)
    (hxl : (x.length : Int) ≤ int_max) (hw : 0 ≤ width) :
    ∀ (fuel : Nat) (v : strwrap_vars), wrap_inv x width width true v →
      v.state_start.pos_byte = 0 → v.first_line = true → v.state.has_utf8 = false →
      x.length + 1 - v.state.pos_byte ≤ fuel →
      ∃ w, strwrap_loop K int_max width width empty_pre empty_pre true [] strip_spaces true
          fuel v = .ok w ∧
        w.char_list = [⟨x.take (min x.length width.toNat), false⟩] := by
  intro fuel
  induction fuel with
  | zero =>
    intro v hinv _ _ _ hf
    have := hinv.s_le
    omega
  | succ n ih =>
    intro v hinv hst hfl hu hf
    unfold strwrap_loop
    rcases strwrap_step_trim K int_max x width strip_spaces v hx h1 h2 hxl hw hinv hst hfl hu
      with ⟨w, hstep, i1, i2, i3, i4, i5, i6⟩ | ⟨w, hstep, hline⟩
    · rw [hstep]
      exact ih w i1 i2 i3 i4 (by omega)
    · rw [hstep]
      exact ⟨w, rfl, hline⟩

/-- C22: in trim mode (`first_only` true) a call of `strwrap` that returns
yields exactly one line; and with `wrap_always` true, no prefix and no pad
character, for every printable ASCII string `x` (spaces allowed) and every
width `w >= 1` the call returns and that line is the first
`min(length(x), w)` bytes of `x`. The string is within `FANSI_int_max` bytes,
which `FANSI_check_chrsxp` checks before `strwrap` is called. -/
theorem strwrap_trim (K : FANSI_ctl_masks) (int_max : Int) (x : List Nat) (width : Int)
    (buff : FANSI_buff) (strip_spaces : Bool) (warn : Int) (ctl : Nat)
    (hx : printable x) (hw1 : 1 ≤ width) (hw : width ≤ INT_MAX)
    (h1 : 1 ≤ int_max) (h2 : int_max ≤ INT_MAX) (hxl : (x.length : Int) ≤ int_max) :
    (∀ (int_max0 : Int) (y : List Nat) (width0 : Int) (pre_first pre_next : FANSI_prefix_dat)
        (wrap_always : Bool) (buff0 : FANSI_buff) (pad_chr : List Nat) (strip0 : Bool)
        (warn0 : Int) (ctl0 : Nat) (lines : List CHARSXP) (buff1 : FANSI_buff),
      strwrap K int_max0 y width0 pre_first pre_next wrap_always buff0 pad_chr strip0 warn0
        true ctl0 = .ok (lines, buff1) → lines.length = 1) ∧
    ∃ buff1, strwrap K int_max x width empty_pre empty_pre true buff [] strip_spaces warn true
        ctl = .ok ([⟨x.take (min x.length width.toNat), false⟩], buff1) := by
  constructor
  · intro int_max0 y width0 pre_first pre_next wrap_always buff0 pad_chr strip0 warn0 ctl0 lines
      buff1 h
    rw [strwrap_eq_loop] at h
    split at h
    · exact absurd h (by simp)
    · split at h
      · exact absurd h (by simp)
      · split at h
        · exact absurd h (by simp)
        · split at h
          · exact absurd h (by simp)
          · split at h
            · exact absurd h (by simp)
            · rename_i w hloop
              simp only [Except.ok.injEq, Prod.mk.injEq] at h
              rw [← h.1]
              exact strwrap_loop_trim_one K int_max0 _ _ pre_first pre_next wrap_always pad_chr
                strip0 _ _ w hloop
  · have hadd : FANSI_add_int width (-empty_pre.width) = .ok width := by
      have he : -empty_pre.width = 0 := by decide
      rw [he]
      unfold FANSI_add_int
      rw [if_neg (by unfold INT_MIN; omega)]
      simp
    obtain ⟨w, hloop, hline⟩ := strwrap_loop_trim K int_max x width strip_spaces hx h1 h2 hxl
      (by omega) ((x.length + 2) * (x.length + 2)) (strwrap_start x warn ctl width buff)
      { s_string := rfl
        st_string := rfl
        b_string := rfl
        s_style := rfl
        st_style := rfl
        b_style := rfl
        st_width := rfl
        s_width := by simp [strwrap_start, FANSI_state_init_full]
        b_width := by simp [strwrap_start, FANSI_state_init_full]
        st_le_b := le_refl _
        b_le_s := le_refl _
        s_le := Nat.zero_le _
        no_ws := by
          intro _ i hi1 hi2
          simp only [strwrap_start, FANSI_state_init_full] at hi2
          omega
        within := by
          intro _
          show (0 : Int) ≤ width
          omega
        tar := rfl }
      rfl rfl rfl
      (by
        show x.length + 1 - 0 ≤ (x.length + 2) * (x.length + 2)
        have := Nat.le_mul_self (x.length + 2)
        omega)
    refine ⟨w.buff, ?_⟩
    rw [strwrap_eq_loop, hadd]
    simp only
    rw [if_neg (by omega), if_neg (by omega), hloop]
    simp only [hline]

/-- Witness of C22: `"ab cd ef"` trimmed to width 5 is `"ab cd"`. -/
theorem strwrap_trim_witness :
    strwrap FANSI_CTL INT_MAX str_ab_cd_ef 5 empty_pre empty_pre true ⟨0, 0⟩ [] true 1 true 31 =
      .ok ([⟨[97, 98, 32, 99, 100], false⟩], ⟨128, 1⟩) ∧
    ∃ buff1, strwrap FANSI_CTL INT_MAX str_ab_cd_ef 5 empty_pre empty_pre true ⟨0, 0⟩ [] true 1
        true 31 =
      .ok ([⟨str_ab_cd_ef.take (min str_ab_cd_ef.length (5 : Int).toNat), false⟩], buff1) :=
  ⟨by decide!,
   (strwrap_trim FANSI_CTL INT_MAX str_ab_cd_ef 5 ⟨0, 0⟩ true 1 31 (by unfold printable; decide)
     (by decide) (by decide) (by decide) (by decide) (by decide)).2⟩

/-! ### The reflow engine: the spaces after a break -/

/-- The bytes that the loop over the spaces after a break skips are spaces. -/
theorem skip_spaces_gap (K : FANSI_ctl_masks) (x : List Nat) (hx : printable x) :
    ∀ (fuel : Nat) (st st1 : FANSI_state), st.string = x → st.pos_byte ≤ x.length →
      skip_spaces K fuel st = .ok st1 →
      ∀ j, st.pos_byte ≤ j → j < st1.pos_byte → byteAt x j = 32 := by
  intro fuel
  induction fuel with
  | zero =>
    intro st st1 hs hle h j hj1 hj2
    unfold skip_spaces at h
    rw [hs] at h
    split at h
    · exact absurd h (by simp)
    · simp only [Except.ok.injEq] at h
      subst h
      omega
  | succ n ih =>
    intro st st1 hs hle h j hj1 hj2
    unfold skip_spaces at h
    rw [hs] at h
    split at h
    · rename_i h32
      have hlt : st.pos_byte < x.length := by
        by_contra hge
        rw [byteAt_of_le x _ (by omega)] at h32
        omega
      rw [read_next_printable K x hx st hs hlt] at h
      by_cases hj : j = st.pos_byte
      · rw [hj]
        exact h32
      · exact ih { st with pos_byte := st.pos_byte + 1, pos_width := st.pos_width + 1 } st1 hs
          (by show st.pos_byte + 1 ≤ x.length; omega) h j
          (by show st.pos_byte + 1 ≤ j; omega) hj2
    · simp only [Except.ok.injEq] at h
      subst h
      omega

/-- The start of the next line in strip-spaces mode, after a break that is not
a newline: it lies after the spaces that follow the point of the break, and it
is not on a space. -/
theorem next_start_strip (K : FANSI_ctl_masks) (x : List Nat) (hx : printable x)
    (has_boundary : Bool) (st b nb : FANSI_state)
    (hst : st.string = x ∧ st.pos_byte ≤ x.length)
    (hb : b.string = x ∧ b.pos_byte ≤ x.length)
    (h : strwrap_next_start K true has_boundary false st b = .ok nb) :
    (if has_boundary = false then st else b).pos_byte ≤ nb.pos_byte ∧
    (∀ j, (if has_boundary = false then st else b).pos_byte ≤ j → j < nb.pos_byte →
      byteAt x j = 32) ∧
    byteAt x nb.pos_byte ≠ 32 := by
  unfold strwrap_next_start at h
  simp only [Bool.false_eq_true, and_false, if_false, if_true] at h
  have hsel : ∀ s : FANSI_state, s = (if has_boundary = false then st else b) →
      s.string = x ∧ s.pos_byte ≤ x.length := by
    intro s hs
    subst hs
    split
    · exact hst
    · exact hb
  generalize (if has_boundary = false then st else b) = s at h hsel ⊢
  obtain ⟨s1, s3⟩ := hsel s rfl
  split at h
  · exact absurd h (by simp)
  · rename_i s' hs'
    simp only [Except.ok.injEq] at h
    subst h
    obtain ⟨_, _, t3, _, t5⟩ := skip_spaces_printable K x hx _ s s' s1 s3 hs'
    exact ⟨t3, skip_spaces_gap K x hx _ s s' s1 s3 hs', t5⟩

/-- The line that `FANSI_writeline` returns for a boundary on the current line
of a printable string: the prefix, the slice from the line start to the
boundary, and the padding. -/
theorem writeline_span (x : List Nat) (int_max : Int) (st b : FANSI_state)
    (buff buff1 : FANSI_buff) (pre : FANSI_prefix_dat) (tar_width : Int) (pad_chr : List Nat)
    (res : CHARSXP)
    (hxl : (x.length : Int) ≤ INT_MAX) (ht : tar_width ≤ INT_MAX)
    (hs : st.string = x ∧ st.style = [] ∧ st.pos_width = 0)
    (hb : b.style = [] ∧ b.pos_byte ≤ x.length ∧
      b.pos_width = (b.pos_byte : Int) - st.pos_byte)
    (h : FANSI_writeline int_max b st buff pre tar_width pad_chr = .ok (res, buff1)) :
    line_of_span x pre pad_chr res (st.pos_byte, b.pos_byte) := by
  obtain ⟨s1, s2, s3⟩ := hs
  obtain ⟨b2, b3, b4⟩ := hb
  obtain ⟨hbyte, hwidth, pre1, hpre, hline⟩ :=
    writeline_ok_write int_max b st buff buff1 pre tar_width pad_chr res h
  obtain ⟨hstr, hbytes⟩ := writeline_pre_ok _ _ _ _ hbyte hpre
  rw [writeline_write_parts b st pre pre1 tar_width pad_chr (by rw [s3]) (by rw [b4]; omega) ht
    hwidth hstr, hbytes] at hline
  simp only [writeline_parts, has_style_nil b b2, has_style_nil st s2, Bool.false_eq_true,
    if_false, List.nil_append, List.append_nil, s1] at hline
  refine ⟨hbyte, b3,
    if byteAt pad_chr 0 ≠ 0 ∧ b.pos_width - st.pos_width ≤ max 0 tar_width then
      (max 0 tar_width - (b.pos_width - st.pos_width)).toNat else 0, ?_, ?_⟩
  · intro h0
    rw [if_neg (fun hc => hc.1 h0)]
  · rw [hline]
    unfold slice
    congr 1
    split <;> simp

/-- The last element of a list that is not empty. -/
theorem getLast_of_ne_nil {α : Type} (l : List α) (h : l ≠ []) : ∃ a, l.getLast? = some a := by
  rcases List.eq_nil_or_concat l with h0 | ⟨init, a, h1⟩
  · exact absurd h0 h
  · exact ⟨a, by rw [h1]; simp⟩

/-- The last element of a list with one more element at its end. -/
theorem getLast_concat_eq {α : Type} (l : List α) (a : α) : (l ++ [a]).getLast? = some a := by
  simp

/-- One more line and its content keep the description of the lines by their
contents. -/
theorem spans_ok_append (x : List Nat) (pre_first pre_next : FANSI_prefix_dat)
    (pad_chr : List Nat) (lines : List CHARSXP) (spans : List (Nat × Nat)) (l : CHARSXP)
    (sp : Nat × Nat) (hok : spans_ok x pre_first pre_next pad_chr lines spans)
    (hl : line_of_span x (if lines.length = 0 then pre_first else pre_next) pad_chr l sp)
    (hlast : ∀ a ∈ spans.getLast?, break_skipped x a sp) :
    spans_ok x pre_first pre_next pad_chr (lines ++ [l]) (spans ++ [sp]) := by
  have hlen := hok.len
  refine ⟨by simp [hlen], ?_, ?_, ?_⟩
  · intro i l1 sp1 h1 h2
    by_cases hi : i < lines.length
    · rw [List.getElem?_append_left hi] at h1
      rw [List.getElem?_append_left (by omega)] at h2
      exact hok.line i l1 sp1 h1 h2
    · rw [List.getElem?_append_right (by omega)] at h1
      rw [List.getElem?_append_right (by omega)] at h2
      by_cases hi0 : i - lines.length = 0
      · rw [hi0] at h1
        rw [hlen, hi0] at h2
        simp only [List.getElem?_cons_zero, Option.some.injEq] at h1 h2
        subst h1
        subst h2
        have hil : i = lines.length := by omega
        rw [hil]
        exact hl
      · have h3 : ([l] : List CHARSXP)[i - lines.length]? = none := by
          rw [List.getElem?_eq_none]
          simp only [List.length_singleton]
          omega
        rw [h3] at h1
        exact absurd h1 (by simp)
  · exact List.Chain'.append hok.chain (List.chain'_singleton _) (by
      intro a ha b hb
      simp only [List.head?_cons, Option.mem_def, Option.some.injEq] at hb
      subst hb
      exact hlast a ha)
  · intro i sp1 hi1 h2
    by_cases hi : i < spans.length
    · rw [List.getElem?_append_left hi] at h2
      exact hok.starts i sp1 hi1 h2
    · rw [List.getElem?_append_right (by omega)] at h2
      by_cases hi0 : i - spans.length = 0
      · rw [hi0] at h2
        simp only [List.getElem?_cons_zero, Option.some.injEq] at h2
        subst h2
        have hne : spans ≠ [] := by
          intro hc
          rw [hc] at hi0
          simp only [List.length_nil, Nat.sub_zero] at hi0
          omega
        obtain ⟨a, ha⟩ := getLast_of_ne_nil spans hne
        exact (hlast a ha).2.2
      · have h3 : ([sp] : List (Nat × Nat))[i - spans.length]? = none := by
          rw [List.getElem?_eq_none]
          simp only [List.length_singleton]
          omega
        rw [h3] at h2
        exact absurd h2 (by simp)

/-- An iteration of `strwrap` in strip-spaces mode on a printable string keeps
the description of the lines by their contents: a line that is written has the
slice from the line start to the boundary as its content, and the next line
starts after the spaces that follow the boundary. -/
theorem strwrap_step_strip (K : FANSI_ctl_masks) (int_max : Int) (x : List Nat)
    (pre_first pre_next : FANSI_prefix_dat) (width_1 width_2 : Int)
    (wrap_always : Bool) (pad_chr : List Nat) (first_only : Bool)
    (v w : strwrap_vars) (brk : Bool) (spans : List (Nat × Nat))
    (hx : printable x) (hxl : (x.length : Int) ≤ INT_MAX)
    (hb1 : width_1 ≤ INT_MAX) (hb2 : width_2 ≤ INT_MAX)
    (hinv : wrap_inv x width_1 width_2 wrap_always v)
    (hJ : strip_inv x pre_first pre_next pad_chr first_only v spans)
    (h : strwrap_step K int_max width_1 width_2 pre_first pre_next wrap_always pad_chr
      true first_only v = .ok (brk, w)) :
    ∃ spans1, spans_ok x pre_first pre_next pad_chr w.char_list spans1 ∧
      (brk = false → strip_inv x pre_first pre_next pad_chr first_only w spans1) := by
  unfold strwrap_step at h
  simp only at h
  split at h
  · -- a line is written
    rename_i hmw
    obtain ⟨d1, d2, d3, d4, d5, d6, d7, d8, d9, d10, d11⟩ :=
      detect_printable K x hx width_1 width_2 wrap_always true v hinv
    obtain ⟨he1, he2⟩ :=
      line_end_printable K x hx width_1 width_2 wrap_always true first_only v hinv
    have hkeep : ∀ st b : FANSI_state,
        strwrap_keep_boundary K true (strwrap_detect K true v).has_boundary st b = b := by
      intro st b
      unfold strwrap_keep_boundary
      simp only [Bool.true_eq_false, false_and, if_false]
    have htar : v.width_tar ≤ INT_MAX := by
      rw [hinv.tar]
      split <;> assumption
    have hsle := hinv.s_le
    -- the prefix in force
    have hpre : (if v.para_start then pre_first else pre_next) =
        (if v.char_list.length = 0 then pre_first else pre_next) := by
      by_cases hf : v.first_line = true
      · obtain ⟨f1, f2⟩ := hJ.first hf
        have hl := hJ.ok.len
        rw [f1] at hl
        simp only [List.length_nil] at hl
        rw [f2, ← hl]
        simp
      · obtain ⟨f1, f2⟩ := hJ.later (by simpa using hf)
        have hl := hJ.ok.len
        have hne : ¬ v.char_list.length = 0 := fun hc =>
          f1 (List.length_eq_zero.mp (by rw [hl]; exact hc))
        rw [f2, if_neg hne]
        simp
    unfold strwrap_write at h
    simp only [he1, hkeep] at h
    split at h
    · exact absurd h (by simp)
    · split at h
      · exact absurd h (by simp)
      · rename_i res buff1 hres
        obtain ⟨e1, e2, e3, e4, e5⟩ := he2
        have hspan := writeline_span x int_max v.state_start _ v.buff buff1 _ v.width_tar pad_chr
          res hxl htar ⟨hinv.st_string, hinv.st_style, hinv.st_width⟩
          ⟨e2, Nat.le_trans e4 hsle, e5⟩ hres
        rw [hpre] at hspan
        have hnew := spans_ok_append x pre_first pre_next pad_chr v.char_list spans res _
          hJ.ok hspan (fun a ha => hJ.last a ha)
        split at h
        · -- trim mode: the loop is left
          rename_i hfo
          simp only [Except.ok.injEq, Prod.mk.injEq] at h
          obtain ⟨hbrk, hw⟩ := h
          subst hw
          subst hbrk
          have hf := hJ.trim hfo
          obtain ⟨f1, _⟩ := hJ.first hf
          have hl := hJ.ok.len
          rw [f1] at hl
          have hnil : v.char_list = [] := List.length_eq_zero.mp (by simpa using hl.symm)
          rw [hnil] at hnew
          exact ⟨_, hnew, fun hc => absurd hc (by simp)⟩
        · rename_i hfo
          split at h
          · simp only [Except.ok.injEq, Prod.mk.injEq] at h
            obtain ⟨hbrk, hw⟩ := h
            subst hw
            subst hbrk
            exact ⟨_, hnew, fun hc => absurd hc (by simp)⟩
          · rename_i hc0
            have h10 : decide (byteAt (strwrap_detect K true v).state.string
                (strwrap_detect K true v).state.pos_byte = 10) = false := by
              rw [d1, d2]
              exact decide_eq_false (byteAt_not_ctl x hx _).2
            rw [h10] at h
            split at h
            · exact absurd h (by simp)
            · rename_i nb hnb
              simp only [Except.ok.injEq, Prod.mk.injEq] at h
              obtain ⟨hbrk, hw⟩ := h
              subst hw
              subst hbrk
              obtain ⟨n1, n2, n3⟩ := next_start_strip K x hx _ _ _ nb
                ⟨d1, by rw [d2]; exact hsle⟩ ⟨e1, Nat.le_trans e4 hsle⟩ hnb
              -- the point of the break is the end of the line
              have hsel : (if (strwrap_detect K true v).has_boundary = false
                  then (strwrap_detect K true v).state
                  else (strwrap_line_end wrap_always first_only v
                    (strwrap_detect K true v)).2).pos_byte =
                  (strwrap_line_end wrap_always first_only v
                    (strwrap_detect K true v)).2.pos_byte := by
                by_cases hb : (strwrap_detect K true v).has_boundary = false
                · rw [if_pos hb]
                  have hwa : wrap_always = true := by
                    unfold strwrap_must_write at hmw
                    simp only [decide_eq_true_eq] at hmw
                    rcases hmw with hc | hc | hc
                    · exact absurd hc hc0
                    · rw [d1, d2] at hc
                      exact absurd hc.1 (byteAt_not_ctl x hx _).2
                    · rcases hc.2 with hc2 | hc2
                      · rw [hb] at hc2
                        exact absurd hc2 (by simp)
                      · exact hc2
                  have : (strwrap_line_end wrap_always first_only v
                      (strwrap_detect K true v)).2 =
                      (strwrap_line_end wrap_always first_only v
                        (strwrap_detect K true v)).1 := by
                    unfold strwrap_line_end
                    simp only [hwa, hb, and_self, true_or, or_true, if_true]
                  rw [this, he1]
                · rw [if_neg hb]
              rw [hsel] at n1 n2
              refine ⟨_, hnew, fun _ => ?_⟩
              exact
                { ok := hnew
                  trim := fun hc => absurd hc hfo
                  last := by
                    intro a ha
                    rw [getLast_concat_eq] at ha
                    simp only [Option.mem_def, Option.some.injEq] at ha
                    subst ha
                    exact ⟨n1, n2, n3⟩
                  first := fun hc => absurd hc (by simp)
                  later := fun _ => ⟨by simp, rfl⟩ }
  · -- no line is written
    simp only [Except.ok.injEq, Prod.mk.injEq] at h
    obtain ⟨hbrk, hw⟩ := h
    subst hw
    exact ⟨spans, hJ.ok, fun _ =>
      { ok := hJ.ok, trim := hJ.trim, last := hJ.last, first := hJ.first, later := hJ.later }⟩

/-- The loop of `strwrap` in strip-spaces mode on a printable string ends with
lines that are described by their contents. -/
theorem strwrap_loop_strip (K : FANSI_ctl_masks) (int_max : Int) (x : List Nat)
    (width : Int) (pre_first pre_next : FANSI_prefix_dat) (width_1 width_2 : Int)
    (wrap_always : Bool) (pad_chr : List Nat) (first_only : Bool)
    (hx : printable x) (hxl : (x.length : Int) ≤ INT_MAX)
    (hw1 : width_1 = width - pre_first.width) (hw2 : width_2 = width - pre_next.width)
    (hb1 : width_1 ≤ INT_MAX) (hb2 : width_2 ≤ INT_MAX)
    (hwa : wrap_always = true → 0 ≤ width_2) :
    ∀ (fuel : Nat) (v w : strwrap_vars) (spans : List (Nat × Nat)),
      wrap_inv x width_1 width_2 wrap_always v →
      (∀ l ∈ v.char_list, line_ok x width pre_first pre_next wrap_always pad_chr l) →
      strip_inv x pre_first pre_next pad_chr first_only v spans →
      strwrap_loop K int_max width_1 width_2 pre_first pre_next wrap_always pad_chr
        true first_only fuel v = .ok w →
      ∃ spans1, spans_ok x pre_first pre_next pad_chr w.char_list spans1 := by
  intro fuel
  induction fuel with
  | zero =>
    intro v w spans _ _ _ h
    exact absurd h (by simp [strwrap_loop])
  | succ n ih =>
    intro v w spans hinv hall hJ h
    unfold strwrap_loop at h
    split at h
    · exact absurd h (by simp)
    · rename_i w1 hstep
      simp only [Except.ok.injEq] at h
      subst h
      obtain ⟨spans1, hok, _⟩ := strwrap_step_strip K int_max x pre_first pre_next width_1
        width_2 wrap_always pad_chr first_only v _ true spans hx hxl hb1 hb2 hinv hJ hstep
      exact ⟨spans1, hok⟩
    · rename_i w1 hstep
      obtain ⟨hall1, hinv1⟩ := strwrap_step_printable K int_max x width pre_first pre_next
        width_1 width_2 wrap_always pad_chr true first_only v _ false hx hxl hw1 hw2
        hb1 hb2 hwa hinv hall hstep
      obtain ⟨spans1, _, hJ1⟩ := strwrap_step_strip K int_max x pre_first pre_next width_1
        width_2 wrap_always pad_chr first_only v _ false spans hx hxl hb1 hb2 hinv hJ hstep
      exact ih w1 w spans1 (hinv1 rfl) hall1 (hJ1 rfl) h

/-- The first byte of a slice is the byte of the string at its start. -/
theorem slice_head (x : List Nat) (s e : Nat) (h : byteAt x s ≠ 32) :
    (slice x s e).head? ≠ some 32 := by
  unfold slice
  intro hc
  rw [List.head?_take] at hc
  split at hc
  · exact absurd hc (by simp)
  · rw [List.head?_drop] at hc
    apply h
    unfold byteAt
    simp [List.getD, hc]

/-- C23: in strip-spaces mode, for every printable ASCII input (spaces
allowed, so no newlines), the lines that `strwrap` emits have as contents
slices of the input, one after the other: the first line after the prefix
`pre_first`, the later lines after the prefix `pre_next`. The bytes of the
input between the contents of two consecutive lines are spaces, which are in
no line, and the content of each line after the first does not begin with a
space. With an empty prefix string and no pad character the line is its
content, so that no line after the first begins with a space. -/
theorem strwrap_strip_spaces (K : FANSI_ctl_masks) (int_max : Int) (x : List Nat)
    (width : Int) (pre_first pre_next : FANSI_prefix_dat) (wrap_always : Bool)
    (buff : FANSI_buff) (pad_chr : List Nat) (warn : Int)
    (first_only : Bool) (ctl : Nat) (lines : List CHARSXP) (buff1 : FANSI_buff)
    (hx : printable x) (hxl : (x.length : Int) ≤ INT_MAX) (hw : width ≤ INT_MAX)
    (h : strwrap K int_max x width pre_first pre_next wrap_always buff pad_chr true
      warn first_only ctl = .ok (lines, buff1)) :
    ∃ spans : List (Nat × Nat), spans.length = lines.length ∧
      (∀ (i : Nat) (l : CHARSXP) (sp : Nat × Nat), lines[i]? = some l → spans[i]? = some sp →
        line_of_span x (if i = 0 then pre_first else pre_next) pad_chr l sp) ∧
      List.Chain' (break_skipped x) spans ∧
      (∀ (i : Nat) (sp : Nat × Nat), 1 ≤ i → spans[i]? = some sp →
        (slice x sp.1 sp.2).head? ≠ some 32) ∧
      (pre_next.string = [] → byteAt pad_chr 0 = 0 →
        ∀ (i : Nat) (l : CHARSXP), 1 ≤ i → lines[i]? = some l → l.chars.head? ≠ some 32) := by
  rw [strwrap_eq_loop] at h
  split at h
  · exact absurd h (by simp)
  · rename_i width_1 h1
    split at h
    · exact absurd h (by simp)
    · rename_i width_2 h2
      obtain ⟨e1, r1⟩ := add_int_ok _ _ _ h1
      obtain ⟨e2, r2⟩ := add_int_ok _ _ _ h2
      have hb1 : width_1 ≤ INT_MAX := by
        by_cases hp : 0 ≤ -pre_first.width
        · rw [e1]; exact r1 hp
        · omega
      have hb2 : width_2 ≤ INT_MAX := by
        by_cases hp : 0 ≤ -pre_next.width
        · rw [e2]; exact r2 hp
        · omega
      split at h
      · exact absurd h (by simp)
      · split at h
        · exact absurd h (by simp)
        · rename_i hg
          simp only [not_and, not_or, not_lt] at hg
          split at h
          · exact absurd h (by simp)
          · rename_i w hloop
            simp only [Except.ok.injEq, Prod.mk.injEq] at h
            obtain ⟨hl, _⟩ := h
            subst hl
            obtain ⟨spans, hok⟩ := strwrap_loop_strip K int_max x width pre_first pre_next
              width_1 width_2 wrap_always pad_chr first_only hx hxl (by omega) (by omega) hb1 hb2
              (fun hwa => (hg hwa).2) _ (strwrap_start x warn ctl width_1 buff) w []
              { s_string := rfl
                st_string := rfl
                b_string := rfl
                s_style := rfl
                st_style := rfl
                b_style := rfl
                st_width := rfl
                s_width := by simp [strwrap_start, FANSI_state_init_full]
                b_width := by simp [strwrap_start, FANSI_state_init_full]
                st_le_b := le_refl _
                b_le_s := le_refl _
                s_le := Nat.zero_le _
                no_ws := by
                  intro _ i hi1 hi2
                  simp only [strwrap_start, FANSI_state_init_full] at hi2
                  omega
                within := by
                  intro hc
                  show (0 : Int) ≤ width_1
                  rcases hc with hc | hc
                  · exact absurd hc (by simp [strwrap_start])
                  · exact (hg hc).1
                tar := rfl }
              (fun l hl => absurd hl (by simp [strwrap_start]))
              { ok :=
                  { len := rfl
                    line := fun i l sp hl _ => absurd hl (by simp [strwrap_start])
                    chain := List.chain'_nil
                    starts := fun i sp _ hs => absurd hs (by simp) }
                trim := fun _ => rfl
                last := fun sp hs => absurd hs (by simp)
                first := fun _ => ⟨rfl, rfl⟩
                later := fun hc => absurd hc (by simp [strwrap_start]) }
              hloop
            refine ⟨spans, hok.len, hok.line, hok.chain,
              fun i sp hi hs => slice_head x _ _ (hok.starts i sp hi hs), ?_⟩
            intro hstr hpad i l hi hl
            have hlt : i < spans.length := by
              rw [hok.len]
              by_contra hc
              rw [List.getElem?_eq_none (by omega)] at hl
              exact absurd hl (by simp)
            have hsp : spans[i]? = some spans[i] := List.getElem?_eq_getElem hlt
            obtain ⟨_, _, pad, hp0, hchars⟩ := hok.line i l _ hl hsp
            have hi0 : ¬ i = 0 := by omega
            simp only [hi0, if_false, hstr, hp0 hpad, List.take_nil, List.nil_append,
              List.replicate_zero, List.append_nil] at hchars
            rw [hchars]
            exact slice_head x _ _ (hok.starts i _ hi hsp)

/-- Witness of C23: `"ab   cd"` at width 3 in strip-spaces mode is wrapped
into the lines `"ab"` and `"cd"`; the three spaces after the break are in no
line. -/
theorem strwrap_strip_spaces_witness :
    strwrap FANSI_CTL INT_MAX str_ab_cd 3 empty_pre empty_pre false ⟨0, 0⟩ [] true 1 false 31 =
      .ok ([⟨[97, 98], false⟩, ⟨[99, 100], false⟩], ⟨128, 1⟩) ∧
    ∃ spans : List (Nat × Nat), spans.length = 2 ∧
      (∀ (i : Nat) (l : CHARSXP) (sp : Nat × Nat),
        ([⟨[97, 98], false⟩, ⟨[99, 100], false⟩] : List CHARSXP)[i]? = some l →
        spans[i]? = some sp →
        line_of_span str_ab_cd (if i = 0 then empty_pre else empty_pre) [] l sp) ∧
      List.Chain' (break_skipped str_ab_cd) spans ∧
      (∀ (i : Nat) (sp : Nat × Nat), 1 ≤ i → spans[i]? = some sp →
        (slice str_ab_cd sp.1 sp.2).head? ≠ some 32) ∧
      (empty_pre.string = [] → byteAt [] 0 = 0 →
        ∀ (i : Nat) (l : CHARSXP), 1 ≤ i →
          ([⟨[97, 98], false⟩, ⟨[99, 100], false⟩] : List CHARSXP)[i]? = some l →
          l.chars.head? ≠ some 32) :=
  ⟨by decide!,
   strwrap_strip_spaces FANSI_CTL INT_MAX str_ab_cd 3 empty_pre empty_pre false ⟨0, 0⟩ [] 1 false
     31 [⟨[97, 98], false⟩, ⟨[99, 100], false⟩] ⟨128, 1⟩ (by unfold printable; decide) (by decide)
     (by decide) (by decide!)⟩

/-! ### Checked addition -/

/-- A value within the range of a 32-bit `int` is not changed by the
wrap-around. -/
theorem int_wrap_of_range (z : Int) (h1 : INT_MIN ≤ z) (h2 : z ≤ INT_MAX) : int_wrap z = z := by
  unfold int_wrap
  unfold INT_MIN at h1
  unfold INT_MAX at h2
  omega

/-- C27: for all 32-bit signed integers `x` and `y`, `FANSI_add_int` raises
the overflow error if and only if `y >= 0` and `x + y > INT_MAX`, or `y < 0`
and `x + y <= INT_MIN`, over the mathematical integers; otherwise it returns
the mathematical sum `x + y`, which the addition of C yields without
wrap-around. The differences `INT_MAX - y` and `INT_MIN - y` of the test do
not wrap either where they are evaluated. -/
theorem add_int_spec (x y : Int) (hx : INT_MIN ≤ x ∧ x ≤ INT_MAX)
    (hy : INT_MIN ≤ y ∧ y ≤ INT_MAX) :
    (FANSI_add_int x y = .error .add_int_overflow ↔
      (y ≥ 0 ∧ x + y > INT_MAX) ∨ (y < 0 ∧ x + y ≤ INT_MIN)) ∧
    (¬ ((y ≥ 0 ∧ x + y > INT_MAX) ∨ (y < 0 ∧ x + y ≤ INT_MIN)) →
      FANSI_add_int x y = .ok (x + y) ∧ int_wrap (x + y) = x + y) ∧
    (y ≥ 0 → int_wrap (INT_MAX - y) = INT_MAX - y) ∧
    (y < 0 → int_wrap (INT_MIN - y) = INT_MIN - y) := by
  obtain ⟨hx1, hx2⟩ := hx
  obtain ⟨hy1, hy2⟩ := hy
  have hiff : ((y ≥ 0 ∧ x > INT_MAX - y) ∨ (y < 0 ∧ x ≤ INT_MIN - y)) ↔
      ((y ≥ 0 ∧ x + y > INT_MAX) ∨ (y < 0 ∧ x + y ≤ INT_MIN)) := by
    constructor <;> intro h <;> rcases h with h | h
    · exact Or.inl ⟨h.1, by omega⟩
    · exact Or.inr ⟨h.1, by omega⟩
    · exact Or.inl ⟨h.1, by omega⟩
    · exact Or.inr ⟨h.1, by omega⟩
  refine ⟨?_, ?_, ?_, ?_⟩
  · unfold FANSI_add_int
    constructor
    · intro h
      split at h
      · rename_i hc
        exact hiff.mp hc
      · exact absurd h (by simp)
    · intro h
      rw [if_pos (hiff.mpr h)]
  · intro h
    unfold FANSI_add_int
    rw [if_neg (fun hc => h (hiff.mp hc))]
    refine ⟨rfl, int_wrap_of_range _ ?_ ?_⟩
    · simp only [not_or, not_and, not_lt, not_le, ge_iff_le, gt_iff_lt] at h
      by_cases hy0 : 0 ≤ y
      · omega
      · have := h.2 (by omega)
        omega
    · simp only [not_or, not_and, not_lt, not_le, ge_iff_le, gt_iff_lt] at h
      by_cases hy0 : 0 ≤ y
      · exact h.1 hy0
      · omega
  · intro h
    exact int_wrap_of_range _ (by unfold INT_MIN INT_MAX at *; omega) (by omega)
  · intro h
    exact int_wrap_of_range _ (by omega) (by unfold INT_MIN INT_MAX at *; omega)

/-- Witness of C27: `INT_MAX + 1` and `-1 + INT_MIN` overflow, and
`2147483000 + 647` is returned as `INT_MAX`. -/
theorem add_int_spec_witness :
    FANSI_add_int INT_MAX 1 = .error .add_int_overflow ∧
    FANSI_add_int (-1) INT_MIN = .error .add_int_overflow ∧
    FANSI_add_int 2147483000 647 = .ok INT_MAX :=
  ⟨(add_int_spec INT_MAX 1 (by decide) (by decide)).1.mpr (Or.inl (by decide)),
   (add_int_spec (-1) INT_MIN (by decide) (by decide)).1.mpr (Or.inr (by decide)),
   ((add_int_spec 2147483000 647 (by decide) (by decide)).2.1 (by decide)).1⟩

/-- C28, counterexample: `FANSI_add_int(INT_MIN, 0)` returns normally, and its
result is `INT_MIN`. -/
theorem add_int_returns_int_min : FANSI_add_int INT_MIN 0 = .ok INT_MIN := by
  decide

/-- C28, amended: for all 32-bit signed integers `x` and `y` other than the
pair `x = INT_MIN`, `y = 0`, whenever `FANSI_add_int` returns normally its
result is different from `INT_MIN`. -/
theorem add_int_not_int_min (x y r : Int) (hx : INT_MIN ≤ x)
    (hxy : ¬ (x = INT_MIN ∧ y = 0)) (h : FANSI_add_int x y = .ok r) : r ≠ INT_MIN := by
  unfold FANSI_add_int at h
  split at h
  · exact absurd h (by simp)
  · rename_i hc
    simp only [Except.ok.injEq] at h
    subst h
    simp only [not_or, not_and, not_lt, not_le, ge_iff_le, gt_iff_lt] at hc
    intro he
    by_cases hy0 : 0 ≤ y
    · apply hxy
      constructor <;> omega
    · have := hc.2 (by omega)
      omega

/-- Witness of C28: `INT_MIN + 1` returns `-2147483647`, and `-2147483647 - 1`,
which would be `INT_MIN`, is not returned. -/
theorem add_int_not_int_min_witness :
    FANSI_add_int INT_MIN 1 = .ok (-2147483647) ∧ (-2147483647 : Int) ≠ INT_MIN ∧
    FANSI_add_int (-2147483647) (-1) = .error .add_int_overflow :=
  ⟨by decide,
   add_int_not_int_min INT_MIN 1 (-2147483647) (by decide) (by decide) (by decide),
   by decide⟩

/-! ### The control categories as a bit mask -/

/-- The body of the loop of `FANSI_ctl_as_int` on a value from 2 to 6 sets the
bit of the value. -/
theorem ctl_as_int_step_bit (acc : Nat) (flip : Bool) (v : Int) (h2 : 2 ≤ v) (h6 : v ≤ 6) :
    ctl_as_int_step (acc, flip) v = .ok (acc ||| (1 <<< (v - 2).toNat), flip) := by
  unfold ctl_as_int_step
  have hw : int_wrap (v - 2) = v - 2 := by unfold int_wrap; omega
  simp only [hw]
  rw [if_neg (by omega), if_neg (by omega)]

/-- The body of the loop of `FANSI_ctl_as_int` on the value 1 sets the flag
to flip the bits. -/
theorem ctl_as_int_step_all (acc : Nat) (flip : Bool) :
    ctl_as_int_step (acc, flip) 1 = .ok (acc, true) := by
  unfold ctl_as_int_step
  have hw : int_wrap (1 - 2) = -1 := by unfold int_wrap; omega
  simp only [hw]
  rw [if_neg (by omega), if_pos (by omega)]

/-- The body of the loop of `FANSI_ctl_as_int` raises no error but the one
about the largest value. -/
theorem ctl_as_int_step_error (acc : Nat × Bool) (v : Int) (e : FANSI_error)
    (h : ctl_as_int_step acc v = .error e) : e = .ctl_value := by
  unfold ctl_as_int_step at h
  simp only at h
  split_ifs at h
  simp only [Except.error.injEq] at h
  exact h.symm

/-- The loop of `FANSI_ctl_as_int` over values from 1 to 6: the bit `k` of the
mask is set when it was set before or the value `k + 2` occurs, and the flag
to flip is set when it was set before or the value 1 occurs. -/
theorem ctl_as_int_loop_spec :
    ∀ (ctl : List Int) (acc : Nat) (flip : Bool), (∀ v ∈ ctl, 1 ≤ v ∧ v ≤ 6) →
      ∃ m, ctl_as_int_loop ctl (acc, flip) = .ok (m, flip || decide ((1 : Int) ∈ ctl)) ∧
        ∀ k : Nat, m.testBit k = (acc.testBit k || decide (((k : Int) + 2) ∈ ctl)) := by
  intro ctl
  induction ctl with
  | nil =>
    intro acc flip _
    exact ⟨acc, by simp [ctl_as_int_loop], by simp⟩
  | cons v rest ih =>
    intro acc flip hv
    have hrest : ∀ u ∈ rest, 1 ≤ u ∧ u ≤ 6 := fun u hu => hv u (List.mem_cons_of_mem _ hu)
    obtain ⟨hv1, hv6⟩ := hv v (List.mem_cons_self _ _)
    by_cases h1 : v = 1
    · subst h1
      obtain ⟨m, hm, hbits⟩ := ih acc true hrest
      refine ⟨m, ?_, ?_⟩
      · unfold ctl_as_int_loop
        rw [ctl_as_int_step_all]
        simp only [hm]
        simp
      · intro k
        rw [hbits k]
        have : ¬ ((k : Int) + 2 = 1) := by omega
        simp [this]
    · obtain ⟨m, hm, hbits⟩ := ih (acc ||| (1 <<< (v - 2).toNat)) flip hrest
      refine ⟨m, ?_, ?_⟩
      · unfold ctl_as_int_loop
        rw [ctl_as_int_step_bit acc flip v (by omega) hv6]
        simp only [hm]
        have : ¬ ((1 : Int) = v) := fun hc => h1 hc.symm
        simp [this]
      · intro k
        rw [hbits k, Nat.testBit_or, Nat.one_shiftLeft, Nat.testBit_two_pow]
        by_cases hk : (k : Int) + 2 = v
        · have : (v - 2).toNat = k := by omega
          simp [hk, this]
        · have : ¬ ((v - 2).toNat = k) := by omega
          simp [hk, this]

/-- The loop of `FANSI_ctl_as_int` over 32-bit values of which one is above 6
raises the error. -/
theorem ctl_as_int_loop_large :
    ∀ (ctl : List Int) (acc : Nat × Bool), (∀ v ∈ ctl, INT_MIN ≤ v ∧ v ≤ INT_MAX) →
      (∃ v ∈ ctl, 6 < v) → ctl_as_int_loop ctl acc = .error .ctl_value := by
  intro ctl
  induction ctl with
  | nil =>
    intro acc _ h
    obtain ⟨v, hv, _⟩ := h
    exact absurd hv (by simp)
  | cons u rest ih =>
    intro acc hr h
    unfold ctl_as_int_loop
    split
    · rename_i e he
      rw [ctl_as_int_step_error acc u e he]
    · rename_i acc1 hacc
      have hu : ¬ 6 < u := by
        intro hc
        obtain ⟨hu1, hu2⟩ := hr u (List.mem_cons_self _ _)
        unfold ctl_as_int_step at hacc
        have hw : int_wrap (u - 2) = u - 2 := by
          unfold int_wrap
          unfold INT_MAX at hu2
          omega
        simp only [hw] at hacc
        rw [if_pos (by omega)] at hacc
        exact absurd hacc (by simp)
      obtain ⟨v, hv, hv6⟩ := h
      rcases List.mem_cons.mp hv with hvu | hvr
      · subst hvu
        exact absurd hv6 hu
      · exact ih acc1 (fun w hw => hr w (List.mem_cons_of_mem _ hw)) ⟨v, hvr, hv6⟩

/-- C29: `FANSI_ctl_as_int` encodes a vector of 1-based category codes as a
mask of five bits. For a vector of values in 2..6 the result has the bit
`v - 2` set exactly for the values `v` present, whatever their order and
multiplicity. If the values are in 1..6 and the value 1 is present, the result
is that mask XOR-ed with the all-categories mask, which for the mask of the
five category bits is the complement within those bits. A value above 6 raises
the error. -/
theorem ctl_as_int_mask (all : Nat) (ctl : List Int)
    (hr : ∀ v ∈ ctl, INT_MIN ≤ v ∧ v ≤ INT_MAX) :
    ((∀ v ∈ ctl, 2 ≤ v ∧ v ≤ 6) →
      ∃ m, FANSI_ctl_as_int all ctl = .ok m ∧
        ∀ k : Nat, m.testBit k = decide (((k : Int) + 2) ∈ ctl)) ∧
    ((∀ v ∈ ctl, 1 ≤ v ∧ v ≤ 6) → (1 : Int) ∈ ctl →
      ∃ m, FANSI_ctl_as_int all ctl = .ok (m ^^^ all) ∧
        (∀ k : Nat, m.testBit k = decide (((k : Int) + 2) ∈ ctl)) ∧
        (all = 31 →
          ∀ k : Nat, (m ^^^ all).testBit k = decide (k < 5 ∧ ((k : Int) + 2) ∉ ctl))) ∧
    ((∃ v ∈ ctl, 6 < v) → FANSI_ctl_as_int all ctl = .error .ctl_value) := by
  refine ⟨fun hv => ?_, fun hv h1 => ?_, fun hv => ?_⟩
  · obtain ⟨m, hm, hbits⟩ := ctl_as_int_loop_spec ctl 0 false
      (fun v h => ⟨by have := (hv v h).1; omega, (hv v h).2⟩)
    have hno : ¬ ((1 : Int) ∈ ctl) := fun hc => by
      have := (hv 1 hc).1
      omega
    refine ⟨m, ?_, fun k => by rw [hbits k]; simp⟩
    unfold FANSI_ctl_as_int
    rw [hm]
    simp [hno]
  · obtain ⟨m, hm, hbits⟩ := ctl_as_int_loop_spec ctl 0 false hv
    have hb : ∀ k : Nat, m.testBit k = decide (((k : Int) + 2) ∈ ctl) := fun k => by
      rw [hbits k]; simp
    refine ⟨m, ?_, hb, fun hall k => ?_⟩
    · unfold FANSI_ctl_as_int
      rw [hm]
      simp [h1]
    · subst hall
      rw [Nat.testBit_xor, hb k]
      have h31 : (31 : Nat).testBit k = decide (k < 5) := by
        have := Nat.testBit_two_pow_sub_one 5 k
        simpa using this
      rw [h31]
      by_cases hk : k < 5
      · by_cases hm : ((k : Int) + 2) ∈ ctl <;> simp [hk, hm]
      · have hm : ¬ (((k : Int) + 2) ∈ ctl) := fun hc => by
          have := (hv _ hc).2
          omega
        simp [hk, hm]
  · unfold FANSI_ctl_as_int
    rw [ctl_as_int_loop_large ctl (0, false) hr hv]

/-- Witness of C29: the values 4, 2, 4 give the mask 5 (bits 0 and 2), the
values 1, 3 give the mask 29 (all bits but bit 1), and a vector with the value
7 is refused. -/
theorem ctl_as_int_mask_witness :
    FANSI_ctl_as_int FANSI_CTL_ALL [4, 2, 4] = .ok 5 ∧
    FANSI_ctl_as_int FANSI_CTL_ALL [1, 3] = .ok 29 ∧
    FANSI_ctl_as_int FANSI_CTL_ALL [2, 7] = .error .ctl_value :=
  ⟨by decide, by decide,
   (ctl_as_int_mask FANSI_CTL_ALL [2, 7] (by decide)).2.2 ⟨7, by decide, by decide⟩⟩

/-! ### The number of characters of an integer -/

/-- A number up to `2 ^ 31` has at most 11 decimal digits. -/
theorem digits_length_le (n : Nat) (h : n ≤ 2147483648) : (Nat.digits 10 n).length ≤ 11 := by
  by_cases h0 : n = 0
  · subst h0
    simp
  · have h1 := Nat.base_pow_length_digits_le 10 n (by omega) h0
    by_contra hc
    have h2 : 10 ^ 12 ≤ 10 ^ (Nat.digits 10 n).length :=
      Nat.pow_le_pow_right (by omega) (by omega)
    have h3 : (10 : Nat) ^ 12 = 1000000000000 := by norm_num
    omega

/-- The loop of `FANSI_digits_in_int` adds to `num` the number of decimal
digits of `|x|` beyond the first, when the iteration bound is not below that
number of digits. -/
theorem digits_loop_spec :
    ∀ (fuel : Nat) (x num : Int), (Nat.digits 10 x.natAbs).length ≤ fuel → 1 ≤ fuel →
      digits_loop fuel x num =
        .ok (num + ((if x = 0 then 1 else (Nat.digits 10 x.natAbs).length : Nat) : Int) - 1) := by
  intro fuel
  induction fuel with
  | zero => intro x num _ h; omega
  | succ f ih =>
    intro x num hlen _
    have hq : (x.tdiv 10).natAbs = x.natAbs / 10 := Int.natAbs_tdiv x 10
    unfold digits_loop
    by_cases hz : x.tdiv 10 = 0
    · rw [if_neg (by simpa using hz)]
      have hlt : x.natAbs / 10 = 0 := by rw [← hq, hz]; rfl
      by_cases hx : x = 0
      · simp [hx]
      · have hpos : 0 < x.natAbs := Int.natAbs_pos.mpr hx
        have hd : Nat.digits 10 x.natAbs = [x.natAbs % 10] := by
          rw [Nat.digits_def' (by omega) hpos, hlt]
          simp
        rw [if_neg hx, hd]
        simp
    · rw [if_pos hz]
      have hqn : x.natAbs / 10 ≠ 0 := by
        rw [← hq]
        exact Int.natAbs_ne_zero.mpr hz
      have hx : x ≠ 0 := by
        intro hc
        subst hc
        exact hz rfl
      have hpos : 0 < x.natAbs := Int.natAbs_pos.mpr hx
      have hd : Nat.digits 10 x.natAbs = (x.natAbs % 10) :: Nat.digits 10 (x.natAbs / 10) :=
        Nat.digits_def' (by omega) hpos
      have hne : Nat.digits 10 (x.natAbs / 10) ≠ [] := Nat.digits_ne_nil_iff_ne_zero.mpr hqn
      have hl1 : 1 ≤ (Nat.digits 10 (x.natAbs / 10)).length := by
        rcases hdl : Nat.digits 10 (x.natAbs / 10) with _ | ⟨a, l⟩
        · exact absurd hdl hne
        · simp
      rw [hd, List.length_cons] at hlen
      rw [ih (x.tdiv 10) (num + 1) (by rw [hq]; omega) (by omega)]
      rw [if_neg hz, if_neg hx, hq, hd, List.length_cons]
      congr 1
      push_cast
      omega

/-- C30: for every 32-bit signed integer `x`, `INT_MIN` included with `-x`
evaluated in two's-complement wrap-around, `FANSI_digits_in_int(x)` returns
the number of characters of the decimal representation of `x`: the number of
decimal digits of `|x|`, which is 1 for `x = 0`, plus one character when `x`
is negative. -/
theorem digits_in_int_spec (x : Int) (hx : INT_MIN ≤ x ∧ x ≤ INT_MAX) :
    FANSI_digits_in_int x =
      .ok (((if x = 0 then 1 else (Nat.digits 10 x.natAbs).length : Nat) : Int) +
        (if x < 0 then 1 else 0)) := by
  obtain ⟨h1, h2⟩ := hx
  unfold INT_MIN at h1
  unfold INT_MAX at h2
  have hb : (Nat.digits 10 x.natAbs).length ≤ 32 := by
    have := digits_length_le x.natAbs (by omega)
    omega
  unfold FANSI_digits_in_int
  simp only
  by_cases hneg : x < 0
  · have hw : (int_wrap (-x)).natAbs = x.natAbs := by
      unfold int_wrap
      omega
    have hw0 : int_wrap (-x) ≠ 0 := by
      unfold int_wrap
      omega
    have hx0 : x ≠ 0 := by omega
    rw [if_pos hneg, digits_loop_spec 32 _ (1 + 1) (by rw [hw]; exact hb) (by omega)]
    rw [if_neg hw0, hw, if_neg hx0, if_pos hneg]
    congr 1
    omega
  · rw [if_neg hneg, digits_loop_spec 32 x 1 hb (by omega), if_neg hneg]
    congr 1
    omega

/-- Witness of C30: `INT_MIN` is written with 11 characters, 0 with one, and
-10 with three. -/
theorem digits_in_int_spec_witness :
    FANSI_digits_in_int INT_MIN = .ok 11 ∧ FANSI_digits_in_int 0 = .ok 1 ∧
    FANSI_digits_in_int (-10) = .ok 3 ∧
    FANSI_digits_in_int INT_MIN =
      .ok (((if INT_MIN = 0 then 1 else (Nat.digits 10 INT_MIN.natAbs).length : Nat) : Int) +
        (if INT_MIN < 0 then 1 else 0)) :=
  ⟨by decide, by decide, by decide, digits_in_int_spec INT_MIN (by decide)⟩

/-! ### Checked addition within its range -/

/-- The checked addition returns the sum when the sum is within the range that
it accepts. -/
theorem add_int_of_range (x y : Int) (h0 : 0 ≤ y → x + y ≤ INT_MAX)
    (h1 : y < 0 → INT_MIN < x + y) : FANSI_add_int x y = .ok (x + y) := by
  unfold FANSI_add_int
  rw [if_neg]
  intro hc
  rcases hc with hc | hc
  · have := h0 hc.1
    omega
  · have := h1 hc.1
    omega

/-! ### The tab expander: the size of the expansion -/

/-- Every stop of the table is at most the running maximum of the fold that
computes the largest stop. -/
theorem foldl_max_mem (tab_stops : List Int) :
    ∀ (m s : Int), s ∈ tab_stops → s ≤ tab_stops.foldl (fun m s => if s > m then s else m) m := by
  induction tab_stops with
  | nil => intro m s hs; exact absurd hs (by simp)
  | cons a rest ih =>
    intro m s hs
    simp only [List.foldl_cons]
    rcases List.mem_cons.mp hs with h | h
    · subst h
      split
      · exact foldl_max_ge rest s
      · exact le_trans (by omega) (foldl_max_ge rest m)
    · exact ih _ s h

/-- Every stop of the table is at most the largest stop. -/
theorem le_max_stop (tab_stops : List Int) (s : Int) (hs : s ∈ tab_stops) :
    s ≤ max_stop tab_stops :=
  foldl_max_mem tab_stops 1 s hs

/-- The loop of `FANSI_tab_width` over stops that are at most `M`: when it
returns, the cumulative stop it returns is beyond the column `c` by at most
`M`. -/
theorem tab_width_loop_bound (int_max c M : Int) (tab_stops : List Int)
    (hM : ∀ s ∈ tab_stops, s ≤ M) :
    ∀ (fuel : Nat) (tw : Int) (idx : Nat) (r : Int), idx < tab_stops.length → tw ≤ c + M →
      tab_width_loop int_max c tab_stops fuel tw idx = .ok r → c < r ∧ r ≤ c + M := by
  intro fuel
  induction fuel with
  | zero =>
    intro tw idx r _ htw h
    unfold tab_width_loop at h
    split at h
    · exact absurd h (by simp)
    · simp only [Except.ok.injEq] at h
      subst h
      exact ⟨by omega, htw⟩
  | succ n ih =>
    intro tw idx r hidx htw h
    unfold tab_width_loop at h
    split at h
    · rename_i hge
      simp only at h
      split at h
      · exact absurd h (by simp)
      · split at h
        · exact absurd h (by simp)
        · have hs : tab_stops.getD idx 0 ≤ M := by
            rw [List.getD_eq_getElem _ _ hidx]
            exact hM _ (List.getElem_mem _)
          refine ih _ _ r ?_ (by omega) h
          split <;> omega
    · simp only [Except.ok.injEq] at h
      subst h
      exact ⟨by omega, htw⟩

/-- The loop of `FANSI_tab_width` over stops from 1 to `M` returns when the
column plus `M` is within `FANSI_int_max`. -/
theorem tab_width_loop_total (int_max c M : Int) (tab_stops : List Int)
    (hpos : ∀ s ∈ tab_stops, 1 ≤ s) (hM : ∀ s ∈ tab_stops, s ≤ M) (hov : c + M ≤ int_max) :
    ∀ (fuel : Nat) (tw : Int) (idx : Nat), idx < tab_stops.length → tw ≤ c + M →
      (c + 1 - tw).toNat ≤ fuel →
      ∃ r, tab_width_loop int_max c tab_stops fuel tw idx = .ok r := by
  intro fuel
  induction fuel with
  | zero =>
    intro tw idx _ _ hf
    unfold tab_width_loop
    rw [if_neg (by omega)]
    exact ⟨_, rfl⟩
  | succ n ih =>
    intro tw idx hidx htw hf
    have hmem : tab_stops.getD idx 0 ∈ tab_stops := by
      rw [List.getD_eq_getElem _ _ hidx]
      exact List.getElem_mem _
    have hs1 := hpos _ hmem
    have hs2 := hM _ hmem
    unfold tab_width_loop
    by_cases hge : c ≥ tw
    · rw [if_pos hge]
      simp only
      rw [if_neg (by omega), if_neg (by omega)]
      exact ih _ _ (by split <;> omega) (by omega) (by omega)
    · rw [if_neg hge]
      exact ⟨_, rfl⟩

/-- The width of a tab at a column that is not negative is between 1 and the
largest stop, and `FANSI_tab_width` returns it when the column plus the
largest stop is within `FANSI_int_max`. -/
theorem tab_width_bound (int_max : Int) (state : FANSI_state) (tab_stops : List Int)
    (hc : 0 ≤ state.pos_width) :
    (∀ w, FANSI_tab_width int_max state tab_stops = .ok w →
      1 ≤ w ∧ w ≤ max_stop tab_stops) ∧
    (tab_stops ≠ [] → (∀ s ∈ tab_stops, 1 ≤ s) → byteAt state.string state.pos_byte = 9 →
      state.pos_width + max_stop tab_stops ≤ int_max →
      ∃ w, FANSI_tab_width int_max state tab_stops = .ok w) := by
  have hge : (1 : Int) ≤ max_stop tab_stops := foldl_max_ge tab_stops 1
  constructor
  · intro w h
    unfold FANSI_tab_width at h
    split at h
    · exact absurd h (by simp)
    · rename_i hlen
      split at h
      · exact absurd h (by simp)
      · split at h
        · exact absurd h (by simp)
        · rename_i r hr
          simp only [Except.ok.injEq] at h
          subst h
          have := tab_width_loop_bound int_max state.pos_width (max_stop tab_stops) tab_stops
            (le_max_stop tab_stops) _ 0 0 r (by omega) (by omega) hr
          omega
  · intro hne hpos htab hov
    have hlen : tab_stops.length ≠ 0 := fun h => hne (List.length_eq_zero.mp h)
    obtain ⟨r, hr⟩ := tab_width_loop_total int_max state.pos_width (max_stop tab_stops) tab_stops
      hpos (le_max_stop tab_stops) hov (state.pos_width + 1).toNat 0 0 (by omega) (by omega)
      (by omega)
    unfold FANSI_tab_width
    rw [if_neg hlen, if_neg (by rw [htab]; simp), hr]
    exact ⟨_, rfl⟩

/-- The cursor does not move backwards. -/
theorem read_next_mono (K : FANSI_ctl_masks) (s : FANSI_state) :
    s.pos_byte ≤ (FANSI_read_next K s).pos_byte := by
  by_cases h : byteAt s.string s.pos_byte = 0
  · unfold FANSI_read_next
    simp only [h, if_true]
    exact le_refl _
  · exact Nat.le_of_lt ((read_next_facts K s).2.2 h)

/-- The width of a code point is not negative. -/
theorem cp_width_nonneg (cp : Nat) : 0 ≤ cp_width cp := by
  unfold cp_width
  split_ifs <;> omega

/-- The cursor keeps its column at or above 0. -/
theorem read_next_width_nonneg (K : FANSI_ctl_masks) (s : FANSI_state) (h : 0 ≤ s.pos_width) :
    0 ≤ (FANSI_read_next K s).pos_width := by
  unfold FANSI_read_next
  simp only
  split_ifs
  · exact h
  · show 0 ≤ s.pos_width + 1
    omega
  · unfold read_utf8
    simp only
    split_ifs
    · show 0 ≤ s.pos_width + cp_width _
      have := cp_width_nonneg (utf8_decode (byteAt s.string s.pos_byte)
        (List.take (utf8_len (byteAt s.string s.pos_byte) - 1)
          (List.drop (s.pos_byte + 1) s.string)))
      omega
    · show 0 ≤ s.pos_width + 1
      omega
  · exact h
  · exact h
  · exact le_refl _
  · exact h

/-- The cursor steps over a tab: one byte, no column. -/
theorem read_next_tab (K : FANSI_ctl_masks) (s : FANSI_state)
    (h : byteAt s.string s.pos_byte = 9) :
    FANSI_read_next K s = { s with pos_byte := s.pos_byte + 1 } := by
  unfold FANSI_read_next
  simp [h]

/-- The cursor stays at the end of the string. -/
theorem read_next_end (K : FANSI_ctl_masks) (s : FANSI_state)
    (h : byteAt s.string s.pos_byte = 0) : FANSI_read_next K s = s := by
  unfold FANSI_read_next
  simp [h]

/-- The tabs among the first bytes of a string are tabs of the string. -/
theorem count_take_le (x : List Nat) (n : Nat) : (x.take n).count 9 ≤ x.count 9 :=
  List.Sublist.count_le (List.take_sublist n x) 9

/-- A tab at offset `pos` is one more tab among the first `pos + 1` bytes than
among the first `last` bytes, for `last` up to `pos`. -/
theorem count_take_tab (x : List Nat) (last pos : Nat) (hl : last ≤ pos)
    (h : byteAt x pos = 9) : (x.take last).count 9 + 1 ≤ (x.take (pos + 1)).count 9 := by
  have hlt : pos < x.length := byteAt_ne_zero_lt x pos (by omega)
  have h1 : (x.take last).count 9 ≤ (x.take pos).count 9 := by
    have : x.take last = (x.take pos).take last := by
      rw [List.take_take]
      congr 1
      omega
    rw [this]
    exact List.Sublist.count_le (List.take_sublist _ _) 9
  have h2 : x.take (pos + 1) = x.take pos ++ [9] := by
    rw [List.take_succ, List.getElem?_eq_getElem hlt]
    rw [byteAt_lt x pos hlt] at h
    simp [h]
  rw [h2, List.count_append]
  simp only [List.count_singleton_self]
  omega

/-- A widening of the column that succeeds adds the increment. -/
theorem inc_width_ok (state st : FANSI_state) (inc : Int)
    (h : FANSI_inc_width state inc = .ok st) :
    st = { state with pos_width := state.pos_width + inc } := by
  unfold FANSI_inc_width at h
  split at h
  · exact absurd h (by simp)
  · rename_i w hw
    simp only [Except.ok.injEq] at h
    rw [← h, (add_int_ok _ _ _ hw).1]

/-- An iteration of the expansion loop keeps the invariant, and the iteration
that leaves the loop has written at most `M - 1` bytes more than the input for
each tab. -/
theorem tabs_step_bound (K : FANSI_ctl_masks) (int_max : Int) (tab_stops : List Int)
    (warn_old : Int) (x : List Nat) (v w : tabs_loop_vars) (brk : Bool)
    (hinv : tabs_loop_inv x (max_stop tab_stops) v)
    (h : tabs_step K int_max tab_stops warn_old v = .ok (brk, w)) :
    (brk = false → tabs_loop_inv x (max_stop tab_stops) w) ∧
    (brk = true →
      (w.out.length : Int) ≤ x.length + (x.count 9 : Nat) * (max_stop tab_stops - 1)) := by
  have hge : (1 : Int) ≤ max_stop tab_stops := foldl_max_ge tab_stops 1
  have hM0 : (0 : Int) ≤ max_stop tab_stops - 1 := by omega
  obtain ⟨i1, i2, i3, i4, i5⟩ := hinv
  have hcnt : (((x.take v.last_byte).count 9 : Nat) : Int) * (max_stop tab_stops - 1) ≤
      ((x.count 9 : Nat) : Int) * (max_stop tab_stops - 1) :=
    mul_le_mul_of_nonneg_right (by exact_mod_cast count_take_le x v.last_byte) hM0
  have hslice : ((x.drop v.last_byte).take (v.state.pos_byte - v.last_byte)).length ≤
      x.length - v.last_byte := by
    simp only [List.length_take, List.length_drop]
    omega
  unfold tabs_step at h
  simp only at h
  split at h
  · exact absurd h (by simp)
  · rename_i extra hextra
    by_cases h9' : byteAt v.state.string v.state.pos_byte = 9
    · -- a tab
      have h9 : byteAt x v.state.pos_byte = 9 := by rw [← i1]; exact h9'
      simp only [h9', if_true] at hextra
      obtain ⟨e1, e2⟩ := (tab_width_bound int_max v.state tab_stops i4).1 extra hextra
      have hlt : v.state.pos_byte < x.length := byteAt_ne_zero_lt x _ (by omega)
      have hrn : FANSI_read_next K { v.state with warn := 0 } =
          { v.state with warn := 0, pos_byte := v.state.pos_byte + 1 } :=
        read_next_tab K { v.state with warn := 0 } h9'
      simp only [h9', ne_eq, not_true_eq_false, false_and, if_false, true_or, if_true, hrn] at h
      split at h
      · exact absurd h (by simp)
      · rename_i st hst
        have hst' := inc_width_ok _ _ _ hst
        have hlen : ((v.out ++ (x.drop v.last_byte).take (v.state.pos_byte - v.last_byte) ++
            List.replicate extra.toNat 32).length : Int) ≤
            (v.state.pos_byte + 1 : Nat) +
              (((x.take (v.state.pos_byte + 1)).count 9 : Nat) : Int) *
                (max_stop tab_stops - 1) := by
          have hc := count_take_tab x v.last_byte v.state.pos_byte i3 h9
          have hc' : ((((x.take v.last_byte).count 9 + 1 : Nat) : Int)) *
              (max_stop tab_stops - 1) ≤
              (((x.take (v.state.pos_byte + 1)).count 9 : Nat) : Int) *
                (max_stop tab_stops - 1) :=
            mul_le_mul_of_nonneg_right (by exact_mod_cast hc) hM0
          have hexp : ((((x.take v.last_byte).count 9 + 1 : Nat) : Int)) *
              (max_stop tab_stops - 1) =
              (((x.take v.last_byte).count 9 : Nat) : Int) * (max_stop tab_stops - 1) +
                (max_stop tab_stops - 1) := by
            push_cast
            ring
          have hsl : ((x.drop v.last_byte).take (v.state.pos_byte - v.last_byte)).length =
              v.state.pos_byte - v.last_byte := by
            simp only [List.length_take, List.length_drop]
            omega
          simp only [List.length_append, List.length_replicate, hsl]
          push_cast
          omega
        split at h
        · -- the string ends after the tab
          simp only [Except.ok.injEq, Prod.mk.injEq] at h
          obtain ⟨hb, hw⟩ := h
          subst hw
          subst hb
          refine ⟨fun hc => absurd hc (by simp), fun _ => ?_⟩
          have hc2 : (((x.take (v.state.pos_byte + 1)).count 9 : Nat) : Int) *
              (max_stop tab_stops - 1) ≤
              ((x.count 9 : Nat) : Int) * (max_stop tab_stops - 1) :=
            mul_le_mul_of_nonneg_right (by exact_mod_cast count_take_le x _) hM0
          have := hlen
          simp only [i1]
          push_cast at this ⊢
          omega
        · simp only [Except.ok.injEq, Prod.mk.injEq] at h
          obtain ⟨hb, hw⟩ := h
          subst hw
          subst hb
          refine ⟨fun _ => ?_, fun hc => absurd hc (by simp)⟩
          have hs1 : st.string = x := by rw [hst']; exact i1
          have hs2 : st.pos_byte = v.state.pos_byte + 1 := by rw [hst']
          have hs3 : 0 ≤ st.pos_width := by
            rw [hst']
            show 0 ≤ v.state.pos_width + extra
            omega
          exact
            { string := by rw [(read_next_facts K st).1]; exact hs1
              last_le := by
                show st.pos_byte ≤ x.length
                omega
              last_pos := read_next_mono K st
              width := read_next_width_nonneg K st hs3
              out := by
                show ((v.out ++ (v.state.string.drop v.last_byte).take
                    (v.state.pos_byte - v.last_byte) ++
                  List.replicate extra.toNat 32).length : Int) ≤
                  (st.pos_byte : Nat) + (((x.take st.pos_byte).count 9 : Nat) : Int) *
                    (max_stop tab_stops - 1)
                rw [hs2, i1]
                exact hlen }
    · by_cases h0' : byteAt v.state.string v.state.pos_byte = 0
      · -- the end of the string
        simp only [h9', if_false, Except.ok.injEq] at hextra
        subst hextra
        have hrn : FANSI_read_next K { v.state with warn := 0 } = { v.state with warn := 0 } :=
          read_next_end K { v.state with warn := 0 } h0'
        have hz : ¬ ((0 : Nat) ≠ 9 ∧ (0 : Nat) = 10) := by omega
        simp only [h0', hz, if_false, or_true, if_true, hrn] at h
        split at h
        · exact absurd h (by simp)
        · simp only [if_true, Except.ok.injEq, Prod.mk.injEq] at h
          obtain ⟨hb, hw⟩ := h
          subst hw
          subst hb
          refine ⟨fun hc => absurd hc (by simp), fun _ => ?_⟩
          simp only [List.length_append, List.length_replicate, Int.toNat_zero, Nat.add_zero, i1]
          push_cast
          omega
      · -- another byte
        simp only [h9', h0', or_self, if_false, Except.ok.injEq, Prod.mk.injEq] at h
        obtain ⟨hb, hw⟩ := h
        subst hw
        subst hb
        refine ⟨fun _ => ?_, fun hc => absurd hc (by simp)⟩
        have hsel : ∀ s : FANSI_state,
            s = (if ¬byteAt v.state.string v.state.pos_byte = 9 ∧
                byteAt v.state.string v.state.pos_byte = 10
              then FANSI_reset_width v.state else v.state) →
            s.string = x ∧ v.last_byte ≤ s.pos_byte ∧ 0 ≤ s.pos_width := by
          intro s hs
          subst hs
          split
          · exact ⟨i1, i3, le_refl _⟩
          · exact ⟨i1, i3, i4⟩
        generalize (if ¬byteAt v.state.string v.state.pos_byte = 9 ∧
            byteAt v.state.string v.state.pos_byte = 10
          then FANSI_reset_width v.state else v.state) = s at hsel ⊢
        obtain ⟨s1, s2, s3⟩ := hsel s rfl
        exact
          { string := by rw [(read_next_facts K s).1]; exact s1
            last_le := i2
            last_pos := le_trans s2 (read_next_mono K s)
            width := read_next_width_nonneg K s s3
            out := i5 }

/-- The expansion loop returns at most `M - 1` bytes more than the input for
each tab. -/
theorem tabs_loop_bound (K : FANSI_ctl_masks) (int_max : Int) (tab_stops : List Int)
    (warn_old : Int) (x : List Nat) :
    ∀ (fuel : Nat) (v w : tabs_loop_vars), tabs_loop_inv x (max_stop tab_stops) v →
      tabs_loop K int_max tab_stops warn_old fuel v = .ok w →
      (w.out.length : Int) ≤ x.length + (x.count 9 : Nat) * (max_stop tab_stops - 1) := by
  intro fuel
  induction fuel with
  | zero =>
    intro v w _ h
    exact absurd h (by simp [tabs_loop])
  | succ n ih =>
    intro v w hinv h
    unfold tabs_loop at h
    split at h
    · exact absurd h (by simp)
    · rename_i w1 hstep
      simp only [Except.ok.injEq] at h
      subst h
      exact (tabs_step_bound K int_max tab_stops warn_old x v _ true hinv hstep).2 rfl
    · rename_i w1 hstep
      exact ih w1 w ((tabs_step_bound K int_max tab_stops warn_old x v _ false hinv hstep).1 rfl) h

/-- The tabs that the sizing pass counts in a string without a NUL byte are
the tab bytes of the string. -/
theorem count_tabs_eq_count (x : List Nat) (h : 0 ∉ x) : count_tabs x = x.count 9 := by
  induction x with
  | nil => rfl
  | cons b rest ih =>
    have hb : b ≠ 0 := fun hc => h (by rw [hc]; exact List.mem_cons_self _ _)
    have hr : 0 ∉ rest := fun hc => h (List.mem_cons_of_mem _ hc)
    unfold count_tabs
    rw [if_neg hb, ih hr]
    by_cases h9 : b = 9
    · rw [if_pos h9, h9, List.count_cons_self]
    · rw [if_neg h9, List.count_cons_of_ne (Ne.symm h9)]

/-- The sizing loop of `FANSI_tabs_as_spaces` yields the length plus the
allowance of every tab, when that sum is within a `size_t`. -/
theorem tabs_buff_size_exact (int_max e : Int) (he : 0 ≤ e) (he2 : e ≤ 2 * INT_MAX) :
    ∀ (k n s : Nat), tabs_buff_size int_max e k n = .ok s → n + k * e.toNat < SIZE_MOD →
      s = n + k * e.toNat := by
  have hs2 : to_size_t e = e.toNat := to_size_t_of_nonneg _ he he2
  intro k
  induction k with
  | zero =>
    intro n s h _
    simp only [tabs_buff_size, Except.ok.injEq] at h
    omega
  | succ k ih =>
    intro n s h hlt
    have hexp : n + (k + 1) * e.toNat = n + e.toNat + k * e.toNat := by
      rw [Nat.add_mul]
      omega
    unfold tabs_buff_size at h
    split at h
    · exact absurd h (by simp)
    · rw [hs2, Nat.mod_eq_of_lt (by omega)] at h
      rw [ih (n + e.toNat) s h (by omega)]
      omega

/-- A request that `FANSI_size_buff` accepts is within the capacity after the
call, and the capacity does not shrink. -/
theorem size_buff_ge (int_max : Int) (buff buff1 : FANSI_buff) (n : Nat)
    (h : FANSI_size_buff int_max buff n = .ok buff1) : n ≤ buff1.len ∧ buff.len ≤ buff1.len := by
  unfold FANSI_size_buff at h
  simp only at h
  split_ifs at h
  all_goals try simp only at h
  all_goals try split_ifs at h
  all_goals simp only [Except.ok.injEq] at h
  all_goals subst h
  all_goals constructor
  all_goals try simp only
  all_goals omega

/-- The expansion of an element with tabs, once the largest stop is computed:
the output has at most `M - 1` bytes more than the input for each tab, and the
buffer holds the bytes requested for it. -/
theorem tabs_elem_bound (K : FANSI_ctl_masks) (int_max : Int) (vec : List (Option CHARSXP))
    (tab_stops : List Int) (warn : Int) (ctl : Nat) (i : Nat) (chr : CHARSXP)
    (v w : tabs_vars) (hM : max_stop tab_stops ≤ INT_MAX) (him : int_max ≤ INT_MAX)
    (hnul : 0 ∉ chr.chars)
    (hv : v.max_tab_stop = if v.tabs_in_str then max_stop tab_stops else 1)
    (ht : 0 < count_tabs chr.chars)
    (h : tabs_elem K int_max vec tab_stops warn ctl i chr v = .ok w) :
    w.tabs_in_str = true ∧ w.max_tab_stop = max_stop tab_stops ∧ v.buff.len ≤ w.buff.len ∧
    ∃ out, w.res_sxp = (if v.tabs_in_str = false then vec else v.res_sxp).set i (some out) ∧
      tabs_expanded tab_stops chr out w.buff := by
  have hge : (1 : Int) ≤ max_stop tab_stops := foldl_max_ge tab_stops 1
  have hstop : (if 0 < count_tabs chr.chars ∧ v.tabs_in_str = false then
      ({ v with tabs_in_str := true, res_sxp := vec, duplicated := true,
                max_tab_stop := tab_stops.foldl (fun m s => if s > m then s else m)
                  v.max_tab_stop } : tabs_vars)
      else v).max_tab_stop = max_stop tab_stops := by
    by_cases hf : v.tabs_in_str = false
    · rw [if_pos ⟨ht, hf⟩]
      rw [hf] at hv
      simp only [Bool.false_eq_true, if_false] at hv
      show tab_stops.foldl (fun m s => if s > m then s else m) v.max_tab_stop = _
      rw [hv]
      rfl
    · rw [if_neg (fun hc => hf hc.2)]
      simp only [Bool.not_eq_false] at hf
      rw [hv, hf]
      simp
  have htabs : (if 0 < count_tabs chr.chars ∧ v.tabs_in_str = false then
      ({ v with tabs_in_str := true, res_sxp := vec, duplicated := true,
                max_tab_stop := tab_stops.foldl (fun m s => if s > m then s else m)
                  v.max_tab_stop } : tabs_vars)
      else v).tabs_in_str = true := by
    by_cases hf : v.tabs_in_str = false
    · rw [if_pos ⟨ht, hf⟩]
    · rw [if_neg (fun hc => hf hc.2)]
      simpa using hf
  have hbuff : (if 0 < count_tabs chr.chars ∧ v.tabs_in_str = false then
      ({ v with tabs_in_str := true, res_sxp := vec, duplicated := true,
                max_tab_stop := tab_stops.foldl (fun m s => if s > m then s else m)
                  v.max_tab_stop } : tabs_vars)
      else v).buff = v.buff := by
    split <;> rfl
  have hres : (if 0 < count_tabs chr.chars ∧ v.tabs_in_str = false then
      ({ v with tabs_in_str := true, res_sxp := vec, duplicated := true,
                max_tab_stop := tab_stops.foldl (fun m s => if s > m then s else m)
                  v.max_tab_stop } : tabs_vars)
      else v).res_sxp = (if v.tabs_in_str = false then vec else v.res_sxp) := by
    by_cases hf : v.tabs_in_str = false
    · rw [if_pos ⟨ht, hf⟩, if_pos hf]
    · rw [if_neg (fun hc => hf hc.2), if_neg hf]
  unfold tabs_elem at h
  simp only at h
  generalize (if 0 < count_tabs chr.chars ∧ v.tabs_in_str = false then
      ({ v with tabs_in_str := true, res_sxp := vec, duplicated := true,
                max_tab_stop := tab_stops.foldl (fun m s => if s > m then s else m)
                  v.max_tab_stop } : tabs_vars)
      else v) = v1 at h hstop hbuff hres htabs
  split at h
  · exact absurd h (by simp)
  · rename_i hchk
    have hL : (chr.chars.length : Int) ≤ int_max := by
      unfold FANSI_check_chrsxp at hchk
      split at hchk
      · exact absurd hchk (by simp)
      · omega
    rw [if_pos ht, hstop] at h
    split at h
    · exact absurd h (by simp)
    · rename_i s hs
      split at h
      · exact absurd h (by simp)
      · rename_i buff1 hb
        split at h
        · exact absurd h (by simp)
        · rename_i w0 hloop
          split at h
          · exact absurd h (by simp)
          · simp only [Except.ok.injEq] at h
            subst h
            -- the size requested
            have htl : count_tabs chr.chars ≤ chr.chars.length := by
              rw [count_tabs_eq_count _ hnul]
              exact List.count_le_length _ _
            have hmul : count_tabs chr.chars * (max_stop tab_stops - 1).toNat ≤
                2147483647 * 2147483647 :=
              Nat.mul_le_mul (by unfold INT_MAX at him; omega) (by unfold INT_MAX at hM; omega)
            have hsz := tabs_buff_size_exact int_max (max_stop tab_stops - 1) (by omega)
              (by unfold INT_MAX at *; omega) _ _ s hs
              (by unfold SIZE_MOD; unfold INT_MAX at him; omega)
            have hmod : (s + 1) % SIZE_MOD = s + 1 := by
              apply Nat.mod_eq_of_lt
              unfold SIZE_MOD
              unfold INT_MAX at him
              omega
            rw [hmod] at hb
            obtain ⟨g1, g2⟩ := size_buff_ge int_max _ _ _ hb
            have hcast : ((count_tabs chr.chars * (max_stop tab_stops - 1).toNat : Nat) : Int) =
                (count_tabs chr.chars : Nat) * (max_stop tab_stops - 1) := by
              push_cast
              rw [Int.toNat_of_nonneg (by omega)]
            -- the bytes written
            have hout := tabs_loop_bound K int_max tab_stops _ chr.chars _ _ w0
              { string := rfl
                last_le := Nat.zero_le _
                last_pos := le_refl _
                width := le_refl _
                out := by simp [FANSI_state_init_full] } hloop
            rw [← count_tabs_eq_count _ hnul] at hout
            refine ⟨htabs, rfl, by rw [← hbuff]; exact g2, ⟨w0.out, w0.state.has_utf8⟩, ?_, hout, ?_⟩
            · show v1.res_sxp.set i _ = _
              rw [hres]
            · show (chr.chars.length : Int) + _ + 1 ≤ (buff1.len : Int)
              have : ((s + 1 : Nat) : Int) ≤ buff1.len := by exact_mod_cast g1
              rw [hsz] at this
              push_cast at this hcast
              omega

/-- An element without a tab leaves the variables of the batch loop as they
are. -/
theorem tabs_elem_no_tab (K : FANSI_ctl_masks) (int_max : Int) (vec : List (Option CHARSXP))
    (tab_stops : List Int) (warn : Int) (ctl : Nat) (i : Nat) (chr : CHARSXP)
    (v w : tabs_vars) (ht : count_tabs chr.chars = 0)
    (h : tabs_elem K int_max vec tab_stops warn ctl i chr v = .ok w) : w = v := by
  unfold tabs_elem at h
  simp only [ht, Nat.lt_irrefl, false_and, if_false] at h
  split at h
  · exact absurd h (by simp)
  · simp only [Except.ok.injEq] at h
    exact h.symm

/-- The batch loop of `FANSI_tabs_as_spaces` keeps its invariant: when it
returns, every element with tabs is expanded within the bound and within the
buffer. -/
theorem tabs_elems_bound (K : FANSI_ctl_masks) (int_max : Int) (vec : List (Option CHARSXP))
    (tab_stops : List Int) (warn : Int) (ctl : Nat)
    (hM : max_stop tab_stops ≤ INT_MAX) (him : int_max ≤ INT_MAX)
    (hnul : ∀ chr : CHARSXP, some chr ∈ vec → 0 ∉ chr.chars) :
    ∀ (rest : List (Option CHARSXP)) (i : Nat) (v w : tabs_vars), vec.drop i = rest →
      tabs_batch_inv vec tab_stops i v →
      tabs_elems K int_max vec tab_stops warn ctl rest i v = .ok w →
      tabs_batch_inv vec tab_stops vec.length w := by
  intro rest
  induction rest with
  | nil =>
    intro i v w hd hinv h
    simp only [tabs_elems, Except.ok.injEq] at h
    subst h
    have hi : vec.length ≤ i := by
      have hl := congrArg List.length hd
      simp only [List.length_drop, List.length_nil] at hl
      omega
    exact ⟨hinv.len, hinv.stop,
      fun hf j chr hj hc => hinv.fresh hf j chr
        (by have := (List.getElem?_eq_some_iff.mp hc).1; omega) hc,
      fun j chr hj hc => hinv.done j chr
        (by have := (List.getElem?_eq_some_iff.mp hc).1; omega) hc⟩
  | cons e rest ih =>
    intro i v w hd hinv h
    have hi : i < vec.length := by
      by_contra hc
      rw [List.drop_eq_nil_of_le (by omega)] at hd
      exact absurd hd (by simp)
    have hei : vec[i]? = some e := by
      rw [← List.head?_drop, hd]
      rfl
    have hd1 : vec.drop (i + 1) = rest := by
      rw [← List.tail_drop, hd]
      rfl
    cases e with
    | none =>
      simp only [tabs_elems] at h
      refine ih (i + 1) v w hd1 ⟨hinv.len, hinv.stop, ?_, ?_⟩ h
      · intro hf j chr hj hc
        by_cases hji : j = i
        · rw [hji, hei] at hc
          exact absurd hc (by simp)
        · exact hinv.fresh hf j chr (by omega) hc
      · intro j chr hj hc
        by_cases hji : j = i
        · rw [hji, hei] at hc
          exact absurd hc (by simp)
        · exact hinv.done j chr (by omega) hc
    | some chr0 =>
      simp only [tabs_elems] at h
      split at h
      · exact absurd h (by simp)
      · rename_i v1 hel
        by_cases ht : count_tabs chr0.chars = 0
        · have hv1 := tabs_elem_no_tab K int_max vec tab_stops warn ctl i chr0 v v1 ht hel
          subst hv1
          refine ih (i + 1) v1 w hd1 ⟨hinv.len, hinv.stop, ?_, ?_⟩ h
          · intro hf j chr hj hc
            by_cases hji : j = i
            · rw [hji, hei] at hc
              simp only [Option.some.injEq] at hc
              rw [← hc]
              exact ht
            · exact hinv.fresh hf j chr (by omega) hc
          · intro j chr hj hc hpos
            by_cases hji : j = i
            · rw [hji, hei] at hc
              simp only [Option.some.injEq] at hc
              rw [← hc] at hpos
              omega
            · exact hinv.done j chr (by omega) hc hpos
        · have hmem : some chr0 ∈ vec := List.getElem?_mem hei
          obtain ⟨g1, g2, g3, out, g4, g5⟩ := tabs_elem_bound K int_max vec tab_stops warn ctl
            i chr0 v v1 hM him (hnul chr0 hmem) hinv.stop (by omega) hel
          have hlen1 : v1.res_sxp.length = vec.length := by
            rw [g4, List.length_set]
            split
            · rfl
            · exact hinv.len
          refine ih (i + 1) v1 w hd1 ⟨hlen1, ?_, ?_, ?_⟩ h
          · rw [g1, g2]
            rfl
          · intro hf
            rw [g1] at hf
            exact absurd hf (by simp)
          · intro j chr hj hc hpos
            by_cases hji : j = i
            · subst hji
              rw [hei] at hc
              simp only [Option.some.injEq] at hc
              subst hc
              refine ⟨out, ?_, g5⟩
              rw [g4]
              apply List.getElem?_set_self
              split
              · exact hi
              · rw [hinv.len]
                exact hi
            · by_cases hf : v.tabs_in_str = false
              · exact absurd (hinv.fresh hf j chr (by omega) hc) (by omega)
              · obtain ⟨o, ho1, ho2, ho3⟩ := hinv.done j chr (by omega) hc hpos
                refine ⟨o, ?_, ho2, by omega⟩
                rw [g4, if_neg hf, List.getElem?_set_ne (Ne.symm hji)]
                exact ho1

/-- The width of a code point is at most 2. -/
theorem cp_width_le_two (cp : Nat) : cp_width cp ≤ 2 := by
  unfold cp_width
  split_ifs <;> omega

/-- A step over a byte above 127 gains at most one column for each byte of
the string that it steps over. -/
theorem read_utf8_col (s : FANSI_state) (h0 : byteAt s.string s.pos_byte ≠ 0) :
    (read_utf8 s).pos_width + (min s.pos_byte s.string.length : Nat) ≤
      s.pos_width + (min (read_utf8 s).pos_byte s.string.length : Nat) := by
  have hlt := byteAt_ne_zero_lt s.string s.pos_byte h0
  unfold read_utf8
  simp only
  split
  · rename_i hv
    obtain ⟨v1, v2, _⟩ := hv
    simp only [List.length_take, List.length_drop] at v2
    have hn : 2 ≤ utf8_len (byteAt s.string s.pos_byte) := by
      unfold utf8_len at v1 ⊢
      split_ifs at v1 ⊢ <;> omega
    have hw := cp_width_le_two (utf8_decode (byteAt s.string s.pos_byte)
      (List.take (utf8_len (byteAt s.string s.pos_byte) - 1)
        (List.drop (s.pos_byte + 1) s.string)))
    show s.pos_width + cp_width _ + _ ≤
      s.pos_width + (min (s.pos_byte + utf8_len (byteAt s.string s.pos_byte))
        s.string.length : Nat)
    omega
  · show s.pos_width + 1 + _ ≤ s.pos_width + (min (s.pos_byte + 1) s.string.length : Nat)
    omega

/-- The cursor gains at most one column for each byte of the string that it
steps over. -/
theorem read_next_col (K : FANSI_ctl_masks) (s : FANSI_state) (h : 0 ≤ s.pos_width) :
    (FANSI_read_next K s).pos_width + (min s.pos_byte s.string.length : Nat) ≤
      s.pos_width + (min (FANSI_read_next K s).pos_byte s.string.length : Nat) := by
  by_cases h0 : byteAt s.string s.pos_byte = 0
  · rw [read_next_end K s h0]
  · have hlt := byteAt_ne_zero_lt s.string s.pos_byte h0
    unfold FANSI_read_next
    simp only [h0, if_false]
    split
    · show s.pos_width + 1 + _ ≤ s.pos_width + (min (s.pos_byte + 1) s.string.length : Nat)
      omega
    · split
      · exact read_utf8_col s h0
      · split
        · split
          · show s.pos_width + _ ≤ s.pos_width + (min (s.pos_byte + _) s.string.length : Nat)
            omega
          · show s.pos_width + _ ≤ s.pos_width + (min (s.pos_byte + 1) s.string.length : Nat)
            omega
        · split
          · show (0 : Int) + _ ≤ s.pos_width + (min (s.pos_byte + 1) s.string.length : Nat)
            omega
          · show s.pos_width + _ ≤ s.pos_width + (min (s.pos_byte + 1) s.string.length : Nat)
            omega

/-- A widening of the column within the range of an `int` succeeds. -/
theorem inc_width_total (state : FANSI_state) (inc : Int) (h0 : 0 ≤ inc)
    (h1 : state.pos_width + inc ≤ INT_MAX) :
    FANSI_inc_width state inc = .ok { state with pos_width := state.pos_width + inc } := by
  unfold FANSI_inc_width
  rw [add_int_of_range _ _ (fun _ => h1) (fun hc => absurd hc (by omega))]

/-- An iteration of the expansion loop on a string whose worst-case expansion
is within `FANSI_int_max`: it raises no error, and when the loop goes on the
cursor has moved on within the string, with its column within the bytes
written. -/
theorem tabs_step_total (K : FANSI_ctl_masks) (int_max : Int) (tab_stops : List Int)
    (warn_old : Int) (x : List Nat) (v : tabs_loop_vars)
    (hne : tab_stops ≠ []) (hpos : ∀ s ∈ tab_stops, 1 ≤ s) (him : int_max ≤ INT_MAX)
    (hov : (x.length : Int) + (x.count 9 : Nat) * (max_stop tab_stops - 1) ≤ int_max)
    (hinv : tabs_loop_inv x (max_stop tab_stops) v) (hcol : tabs_col_ok x v) :
    ∀ r, tabs_step K int_max tab_stops warn_old v = r →
      (∀ e, r ≠ .error e) ∧
      (∀ w, r = .ok (false, w) →
        v.state.pos_byte < w.state.pos_byte ∧ v.state.pos_byte < x.length ∧ tabs_col_ok x w) := by
  have hge : (1 : Int) ≤ max_stop tab_stops := foldl_max_ge tab_stops 1
  have hM0 : (0 : Int) ≤ max_stop tab_stops - 1 := by omega
  obtain ⟨i1, i2, i3, i4, i5⟩ := hinv
  unfold tabs_col_ok at hcol
  have hcnt : (((x.take v.last_byte).count 9 : Nat) : Int) * (max_stop tab_stops - 1) ≤
      ((x.count 9 : Nat) : Int) * (max_stop tab_stops - 1) :=
    mul_le_mul_of_nonneg_right (by exact_mod_cast count_take_le x v.last_byte) hM0
  have hA0 : (0 : Int) ≤ (((x.take v.last_byte).count 9 : Nat) : Int) *
      (max_stop tab_stops - 1) := mul_nonneg (Int.natCast_nonneg _) hM0
  intro r h
  unfold tabs_step at h
  simp only at h
  by_cases h9' : byteAt v.state.string v.state.pos_byte = 9
  · -- a tab
    have h9 : byteAt x v.state.pos_byte = 9 := by rw [← i1]; exact h9'
    have hlt : v.state.pos_byte < x.length := byteAt_ne_zero_lt x _ (by omega)
    have hc := count_take_tab x v.last_byte v.state.pos_byte i3 h9
    have hc1 : ((((x.take v.last_byte).count 9 + 1 : Nat) : Int)) *
        (max_stop tab_stops - 1) ≤ ((x.count 9 : Nat) : Int) * (max_stop tab_stops - 1) :=
      mul_le_mul_of_nonneg_right
        (by exact_mod_cast Nat.le_trans hc (count_take_le x _)) hM0
    have hexp : ((((x.take v.last_byte).count 9 + 1 : Nat) : Int)) *
        (max_stop tab_stops - 1) =
        (((x.take v.last_byte).count 9 : Nat) : Int) * (max_stop tab_stops - 1) +
          (max_stop tab_stops - 1) := by
      push_cast
      ring
    have hroom : v.state.pos_width + max_stop tab_stops ≤ int_max := by omega
    obtain ⟨extra, hextra⟩ := (tab_width_bound int_max v.state tab_stops i4).2 hne hpos h9'
      hroom
    obtain ⟨e1, e2⟩ := (tab_width_bound int_max v.state tab_stops i4).1 extra hextra
    have hrn : FANSI_read_next K { v.state with warn := 0 } =
        { v.state with warn := 0, pos_byte := v.state.pos_byte + 1 } :=
      read_next_tab K { v.state with warn := 0 } h9'
    simp only [h9', if_true, hextra, ne_eq, not_true_eq_false, false_and, if_false, true_or,
      hrn] at h
    rw [inc_width_total _ extra (by omega)
      (by show v.state.pos_width + extra ≤ INT_MAX; omega)] at h
    simp only at h
    have hsl : ((v.state.string.drop v.last_byte).take
        (v.state.pos_byte - v.last_byte)).length = v.state.pos_byte - v.last_byte := by
      simp only [List.length_take, List.length_drop, i1]
      omega
    split at h
    · subst h
      exact ⟨fun e hc => absurd hc (by simp), fun w hc => absurd hc (by simp)⟩
    · subst h
      refine ⟨fun e hc => absurd hc (by simp), fun w hw => ?_⟩
      simp only [Except.ok.injEq, Prod.mk.injEq, true_and] at hw
      subst hw
      have hcolr := read_next_col K
        { v.state with warn := warn_old, pos_byte := v.state.pos_byte + 1,
                       pos_width := v.state.pos_width + extra }
        (by show 0 ≤ v.state.pos_width + extra; omega)
      have hmono := read_next_mono K
        { v.state with warn := warn_old, pos_byte := v.state.pos_byte + 1,
                       pos_width := v.state.pos_width + extra }
      have hL : v.state.string.length = x.length := by rw [i1]
      simp only at hcolr hmono
      rw [hL] at hcolr
      refine ⟨?_, hlt, ?_⟩
      · show v.state.pos_byte < (FANSI_read_next K _).pos_byte
        exact hmono
      · unfold tabs_col_ok
        show (FANSI_read_next K _).pos_width + ((v.state.pos_byte + 1 : Nat) : Int) ≤
          ((v.out ++ (v.state.string.drop v.last_byte).take
              (v.state.pos_byte - v.last_byte) ++
            List.replicate extra.toNat 32).length : Int) +
            (min (FANSI_read_next K _).pos_byte x.length : Nat)
        simp only [List.length_append, List.length_replicate, hsl]
        push_cast at hcolr hcol ⊢
        omega
  · by_cases h0' : byteAt v.state.string v.state.pos_byte = 0
    · -- the end of the string
      have hrn : FANSI_read_next K { v.state with warn := 0 } = { v.state with warn := 0 } :=
        read_next_end K { v.state with warn := 0 } h0'
      have hz : ¬ ((0 : Nat) ≠ 9 ∧ (0 : Nat) = 10) := by omega
      have h09 : ¬ ((0 : Nat) = 9) := by omega
      simp only [h0', h09, hz, if_false, or_true, if_true, hrn] at h
      rw [inc_width_total _ 0 (le_refl _)
        (by show v.state.pos_width + 0 ≤ INT_MAX; omega)] at h
      simp only [h0', if_true] at h
      subst h
      exact ⟨fun e hc => absurd hc (by simp), fun w hc => absurd hc (by simp)⟩
    · -- another byte
      simp only [h9', h0', or_self, if_false] at h
      subst h
      refine ⟨fun e hc => absurd hc (by simp), fun w hw => ?_⟩
      simp only [Except.ok.injEq, Prod.mk.injEq, true_and] at hw
      subst hw
      have hlt : v.state.pos_byte < x.length := by
        rw [← i1]
        exact byteAt_ne_zero_lt _ _ h0'
      have hsel : ∀ s : FANSI_state,
          s = (if ¬byteAt v.state.string v.state.pos_byte = 9 ∧
              byteAt v.state.string v.state.pos_byte = 10
            then FANSI_reset_width v.state else v.state) →
          s.string = x ∧ s.pos_byte = v.state.pos_byte ∧ 0 ≤ s.pos_width ∧
            s.pos_width ≤ v.state.pos_width := by
        intro s hs
        subst hs
        split
        · exact ⟨i1, rfl, le_refl _, i4⟩
        · exact ⟨i1, rfl, i4, le_refl _⟩
      generalize (if ¬byteAt v.state.string v.state.pos_byte = 9 ∧
          byteAt v.state.string v.state.pos_byte = 10
        then FANSI_reset_width v.state else v.state) = s at hsel ⊢
      obtain ⟨s1, s2, s3, s4⟩ := hsel s rfl
      have hcolr := read_next_col K s s3
      have hadv := (read_next_facts K s).2.2 (by rw [s1, s2, ← i1]; exact h0')
      rw [s1, s2] at hcolr
      rw [s2] at hadv
      refine ⟨hadv, hlt, ?_⟩
      unfold tabs_col_ok
      show (FANSI_read_next K s).pos_width + (v.last_byte : Int) ≤
        (v.out.length : Int) + (min (FANSI_read_next K s).pos_byte x.length : Nat)
      omega

/-- The expansion loop on a string whose worst-case expansion is within
`FANSI_int_max` returns within the iteration bound. -/
theorem tabs_loop_total (K : FANSI_ctl_masks) (int_max : Int) (tab_stops : List Int)
    (warn_old : Int) (x : List Nat)
    (hne : tab_stops ≠ []) (hpos : ∀ s ∈ tab_stops, 1 ≤ s) (him : int_max ≤ INT_MAX)
    (hov : (x.length : Int) + (x.count 9 : Nat) * (max_stop tab_stops - 1) ≤ int_max) :
    ∀ (fuel : Nat) (v : tabs_loop_vars), tabs_loop_inv x (max_stop tab_stops) v →
      tabs_col_ok x v → x.length - v.state.pos_byte < fuel →
      ∃ w, tabs_loop K int_max tab_stops warn_old fuel v = .ok w := by
  intro fuel
  induction fuel with
  | zero =>
    intro v _ _ hf
    exact absurd hf (by omega)
  | succ n ih =>
    intro v hinv hcol hf
    obtain ⟨t1, t2⟩ := tabs_step_total K int_max tab_stops warn_old x v hne hpos him hov hinv
      hcol _ rfl
    unfold tabs_loop
    rcases hstep : tabs_step K int_max tab_stops warn_old v with e | ⟨b, w⟩
    · exact absurd hstep (t1 e)
    · cases b
      · simp only
        obtain ⟨p1, p2, p3⟩ := t2 w hstep
        exact ih w ((tabs_step_bound K int_max tab_stops warn_old x v w false hinv hstep).1 rfl)
          p3 (by omega)
      · exact ⟨w, rfl⟩

/-- The largest stop is in force once an element with tabs is reached. -/
theorem tabs_elem_vars_stop (vec : List (Option CHARSXP)) (tab_stops : List Int)
    (chr : CHARSXP) (v : tabs_vars)
    (hv : v.max_tab_stop = if v.tabs_in_str then max_stop tab_stops else 1)
    (ht : 0 < count_tabs chr.chars) :
    (if 0 < count_tabs chr.chars ∧ v.tabs_in_str = false then
      ({ v with tabs_in_str := true, res_sxp := vec, duplicated := true,
                max_tab_stop := tab_stops.foldl (fun m s => if s > m then s else m)
                  v.max_tab_stop } : tabs_vars)
      else v).max_tab_stop = max_stop tab_stops := by
  by_cases hf : v.tabs_in_str = false
  · rw [if_pos ⟨ht, hf⟩]
    rw [hf] at hv
    simp only [Bool.false_eq_true, if_false] at hv
    show tab_stops.foldl (fun m s => if s > m then s else m) v.max_tab_stop = _
    rw [hv]
    rfl
  · rw [if_neg (fun hc => hf hc.2)]
    simp only [Bool.not_eq_false] at hf
    rw [hv, hf]
    simp

/-- The body of the batch loop of `FANSI_tabs_as_spaces` returns for an element
without a NUL byte whose worst-case expansion is within `FANSI_int_max`. -/
theorem tabs_elem_total (K : FANSI_ctl_masks) (int_max : Int) (vec : List (Option CHARSXP))
    (tab_stops : List Int) (warn : Int) (ctl : Nat) (i : Nat) (chr : CHARSXP) (v : tabs_vars)
    (hne : tab_stops ≠ []) (hpos : ∀ s ∈ tab_stops, 1 ≤ s)
    (h1 : 1 ≤ int_max) (him : int_max ≤ INT_MAX) (hnul : 0 ∉ chr.chars)
    (hv : v.max_tab_stop = if v.tabs_in_str then max_stop tab_stops else 1)
    (hov : (chr.chars.length : Int) +
      (count_tabs chr.chars : Nat) * (max_stop tab_stops - 1) ≤ int_max) :
    ∃ w, tabs_elem K int_max vec tab_stops warn ctl i chr v = .ok w := by
  have hge : (1 : Int) ≤ max_stop tab_stops := foldl_max_ge tab_stops 1
  have hM0 : (0 : Int) ≤ max_stop tab_stops - 1 := by omega
  have hprod : (0 : Int) ≤ (count_tabs chr.chars : Nat) * (max_stop tab_stops - 1) :=
    mul_nonneg (Int.natCast_nonneg _) hM0
  have hL : (chr.chars.length : Int) ≤ int_max := by omega
  rcases h : tabs_elem K int_max vec tab_stops warn ctl i chr v with e | w
  · exfalso
    unfold tabs_elem at h
    simp only at h
    split at h
    · rename_i e1 hchk
      unfold FANSI_check_chrsxp at hchk
      rw [if_neg (by omega)] at hchk
      exact absurd hchk (by simp)
    · by_cases ht : 0 < count_tabs chr.chars
      · have hstop := tabs_elem_vars_stop vec tab_stops chr v hv ht
        generalize (if 0 < count_tabs chr.chars ∧ v.tabs_in_str = false then
            ({ v with tabs_in_str := true, res_sxp := vec, duplicated := true,
                      max_tab_stop := tab_stops.foldl (fun m s => if s > m then s else m)
                        v.max_tab_stop } : tabs_vars)
            else v) = v1 at h hstop
        rw [if_pos ht, hstop] at h
        have hMi : max_stop tab_stops - 1 ≤ int_max := by
          have : (1 : Int) * (max_stop tab_stops - 1) ≤
              (count_tabs chr.chars : Nat) * (max_stop tab_stops - 1) :=
            mul_le_mul_of_nonneg_right (by exact_mod_cast ht) hM0
          omega
        have hsz := (tabs_buff_size_spec int_max (max_stop tab_stops - 1) hM0 hMi him
          (count_tabs chr.chars) chr.chars.length hL).2 hov
        have hcast : ((chr.chars.length + count_tabs chr.chars *
            (max_stop tab_stops - 1).toNat : Nat) : Int) =
            (chr.chars.length : Int) +
              (count_tabs chr.chars : Nat) * (max_stop tab_stops - 1) := by
          push_cast
          rw [Int.toNat_of_nonneg hM0]
        have hmod : (chr.chars.length + count_tabs chr.chars *
            (max_stop tab_stops - 1).toNat + 1) % SIZE_MOD =
            chr.chars.length + count_tabs chr.chars * (max_stop tab_stops - 1).toNat + 1 := by
          apply Nat.mod_eq_of_lt
          unfold SIZE_MOD
          unfold INT_MAX at him
          omega
        obtain ⟨buff1, hb⟩ := size_buff_ok int_max v1.buff
          (chr.chars.length + count_tabs chr.chars * (max_stop tab_stops - 1).toNat + 1) h1 him
          (by push_cast at hcast ⊢; omega)
        have hinv : tabs_loop_inv chr.chars (max_stop tab_stops)
            { state := FANSI_state_init_full chr.chars warn ctl,
              last_byte := (FANSI_state_init_full chr.chars warn ctl).pos_byte, out := [] } :=
          { string := rfl
            last_le := Nat.zero_le _
            last_pos := le_refl _
            width := le_refl _
            out := by simp [FANSI_state_init_full] }
        have hov1 : (chr.chars.length : Int) +
            (chr.chars.count 9 : Nat) * (max_stop tab_stops - 1) ≤ int_max := by
          rw [← count_tabs_eq_count _ hnul]
          exact hov
        obtain ⟨w0, hloop⟩ := tabs_loop_total K int_max tab_stops
          (FANSI_state_init_full chr.chars warn ctl).warn chr.chars hne hpos him hov1
          (chr.chars.length + 1) _ hinv
          (by unfold tabs_col_ok; simp [FANSI_state_init_full])
          (by show chr.chars.length - 0 < chr.chars.length + 1; omega)
        have hout := tabs_loop_bound K int_max tab_stops _ chr.chars _ _ w0 hinv hloop
        split at h
        · rename_i e1 he
          exact absurd (hsz.symm.trans he) (by simp)
        · rename_i s hs
          have hs1 := hsz.symm.trans hs
          simp only [Except.ok.injEq] at hs1
          subst hs1
          rw [hmod] at h
          split at h
          · rename_i e1 he
            exact absurd (hb.symm.trans he) (by simp)
          · split at h
            · rename_i e1 he
              exact absurd (hloop.symm.trans he) (by simp)
            · rename_i w1 hw1
              have hw := hloop.symm.trans hw1
              simp only [Except.ok.injEq] at hw
              subst hw
              split at h
              · rename_i e1 he
                unfold FANSI_check_chr_size at he
                rw [if_neg (by omega)] at he
                exact absurd he (by simp)
              · exact absurd h (by simp)
      · rw [if_neg ht] at h
        exact absurd h (by simp)
  · exact ⟨w, rfl⟩

/-- The batch loop of `FANSI_tabs_as_spaces` returns when the worst-case
expansion of every element is within `FANSI_int_max`. -/
theorem tabs_elems_total (K : FANSI_ctl_masks) (int_max : Int) (vec : List (Option CHARSXP))
    (tab_stops : List Int) (warn : Int) (ctl : Nat)
    (hne : tab_stops ≠ []) (hpos : ∀ s ∈ tab_stops, 1 ≤ s)
    (hM : max_stop tab_stops ≤ INT_MAX) (h1 : 1 ≤ int_max) (him : int_max ≤ INT_MAX) :
    ∀ (rest : List (Option CHARSXP)) (i : Nat) (v : tabs_vars),
      v.max_tab_stop = (if v.tabs_in_str then max_stop tab_stops else 1) →
      (∀ chr : CHARSXP, some chr ∈ rest → 0 ∉ chr.chars ∧
        (chr.chars.length : Int) +
          (count_tabs chr.chars : Nat) * (max_stop tab_stops - 1) ≤ int_max) →
      ∃ w, tabs_elems K int_max vec tab_stops warn ctl rest i v = .ok w := by
  intro rest
  induction rest with
  | nil =>
    intro i v _ _
    exact ⟨v, by simp [tabs_elems]⟩
  | cons e rest ih =>
    intro i v hv hall
    have hrest : ∀ chr : CHARSXP, some chr ∈ rest → 0 ∉ chr.chars ∧
        (chr.chars.length : Int) +
          (count_tabs chr.chars : Nat) * (max_stop tab_stops - 1) ≤ int_max :=
      fun chr hc => hall chr (List.mem_cons_of_mem _ hc)
    cases e with
    | none =>
      simp only [tabs_elems]
      exact ih (i + 1) v hv hrest
    | some chr0 =>
      obtain ⟨n0, o0⟩ := hall chr0 (List.mem_cons_self _ _)
      obtain ⟨v1, hel⟩ := tabs_elem_total K int_max vec tab_stops warn ctl i chr0 v hne hpos
        h1 him n0 hv o0
      simp only [tabs_elems, hel]
      refine ih (i + 1) v1 ?_ hrest
      by_cases ht : count_tabs chr0.chars = 0
      · rw [tabs_elem_no_tab K int_max vec tab_stops warn ctl i chr0 v v1 ht hel]
        exact hv
      · obtain ⟨g1, g2, _⟩ := tabs_elem_bound K int_max vec tab_stops warn ctl i chr0 v v1 hM
          him n0 hv (by omega) hel
        rw [g1, g2]
        rfl

/-- C31, counterexample: under `FANSI_int_max = 10`, at a tab in column 8
with the tab stops `[8]`, the next stop 16 is beyond `FANSI_int_max`, and
`FANSI_tab_width` raises its overflow error and returns no width. -/
theorem tab_width_raises_at_column_8 :
    (∀ s ∈ ([8] : List Int), 1 ≤ s) ∧ 0 ≤ (cursor_at str_a8_tab 8 8).pos_width ∧
    byteAt (cursor_at str_a8_tab 8 8).string (cursor_at str_a8_tab 8 8).pos_byte = 9 ∧
    FANSI_tab_width 10 (cursor_at str_a8_tab 8 8) [8] = .error .tab_width_overflow := by
  decide

/-- C31, amended: for every tab-stop table with all stops `>= 1` and every
cursor at a column `c >= 0`, a value returned by `FANSI_tab_width` is between
1 and the largest tab stop `M` inclusive, and the function does return a value
at a tab when `c + M <= FANSI_int_max`. For every batch of strings without a
NUL byte that `FANSI_tabs_as_spaces` returns a result for, an element of byte
length `L` with `t >= 1` tabs is expanded to at most `L + t * (M - 1)` bytes,
and the buffer holds at least the `L + t * (M - 1) + 1` bytes requested for
it. The function does return a result when `FANSI_int_max >= 1` and
`L + t * (M - 1) <= FANSI_int_max` for every element. -/
theorem tabs_as_spaces_within_buffer (K : FANSI_ctl_masks) (int_max : Int)
    (vec : List (Option CHARSXP)) (tab_stops : List Int) (buff : FANSI_buff) (warn : Int)
    (ctl : Nat) (hne : tab_stops ≠ []) (hpos : ∀ s ∈ tab_stops, 1 ≤ s)
    (hM : max_stop tab_stops ≤ INT_MAX) (him : int_max ≤ INT_MAX)
    (hnul : ∀ chr : CHARSXP, some chr ∈ vec → 0 ∉ chr.chars) :
    (∀ state : FANSI_state, 0 ≤ state.pos_width →
      (∀ w, FANSI_tab_width int_max state tab_stops = .ok w →
        1 ≤ w ∧ w ≤ max_stop tab_stops) ∧
      (byteAt state.string state.pos_byte = 9 →
        state.pos_width + max_stop tab_stops ≤ int_max →
        ∃ w, FANSI_tab_width int_max state tab_stops = .ok w)) ∧
    (∀ r, FANSI_tabs_as_spaces K int_max vec tab_stops buff warn ctl = .ok r →
      ∀ (i : Nat) (chr : CHARSXP), vec[i]? = some (some chr) → 0 < count_tabs chr.chars →
        ∃ out, r.res_sxp[i]? = some (some out) ∧
          (out.chars.length : Int) ≤
            chr.chars.length + (count_tabs chr.chars : Nat) * (max_stop tab_stops - 1) ∧
          (chr.chars.length : Int) + (count_tabs chr.chars : Nat) * (max_stop tab_stops - 1) + 1
            ≤ r.buff.len) ∧
    (1 ≤ int_max →
      (∀ chr : CHARSXP, some chr ∈ vec →
        (chr.chars.length : Int) +
          (count_tabs chr.chars : Nat) * (max_stop tab_stops - 1) ≤ int_max) →
      ∃ r, FANSI_tabs_as_spaces K int_max vec tab_stops buff warn ctl = .ok r) := by
  refine ⟨?_, ?_, ?_⟩
  · intro state hc
    have h := tab_width_bound int_max state tab_stops hc
    exact ⟨h.1, fun h9 hov => h.2 hne hpos h9 hov⟩
  · intro r hr i chr hi ht
    unfold FANSI_tabs_as_spaces at hr
    have hinv := tabs_elems_bound K int_max vec tab_stops warn ctl hM him hnul vec 0 _ r rfl
      ⟨rfl, rfl, fun _ j chr hj _ => absurd hj (by omega),
        fun j chr hj _ _ => absurd hj (by omega)⟩ hr
    exact hinv.done i chr (List.getElem?_eq_some_iff.mp hi).1 hi ht
  · intro h1 hall
    unfold FANSI_tabs_as_spaces
    exact tabs_elems_total K int_max vec tab_stops warn ctl hne hpos hM h1 him vec 0 _ rfl
      (fun chr hc => ⟨hnul chr hc, hall chr hc⟩)

/-- Witness of C31: the batch `["a\tb"]` under the tab stops `[4]`; the tab in
column 1 has width 3, and the element of 3 bytes with one tab is expanded to 5
bytes, at most `3 + 1 * 3`, in a buffer of 128 bytes, at least 7. -/
theorem tabs_as_spaces_within_buffer_witness :
    (1 ≤ (3 : Int) ∧ (3 : Int) ≤ max_stop [4]) ∧
    (∃ w, FANSI_tab_width INT_MAX (cursor_at [97, 9, 98] 1 1) [4] = .ok w) ∧
    (∃ out, (some (some (⟨[97, 32, 32, 32, 98], false⟩ : CHARSXP)) = some (some out)) ∧
      (out.chars.length : Int) ≤ (3 : Nat) + (1 : Nat) * (max_stop [4] - 1) ∧
      ((3 : Nat) : Int) + (1 : Nat) * (max_stop [4] - 1) + 1 ≤ (128 : Nat)) ∧
    ∃ r, FANSI_tabs_as_spaces FANSI_CTL INT_MAX [some ⟨[97, 9, 98], false⟩] [4] ⟨0, 0⟩ 1 31 =
      .ok r :=
  have h := tabs_as_spaces_within_buffer FANSI_CTL INT_MAX [some ⟨[97, 9, 98], false⟩] [4]
    ⟨0, 0⟩ 1 31 (by decide) (by decide) (by decide) (by decide)
    (by intro chr hc; simp at hc; subst hc; decide)
  ⟨(h.1 (cursor_at [97, 9, 98] 1 1) (by decide)).1 3 (by decide),
   (h.1 (cursor_at [97, 9, 98] 1 1) (by decide)).2 (by decide) (by decide),
   h.2.1 { tabs_in_str := true, max_tab_stop := 4,
           res_sxp := [some ⟨[97, 32, 32, 32, 98], false⟩], duplicated := true,
           buff := ⟨128, 1⟩ } (by decide) 0 ⟨[97, 9, 98], false⟩ rfl (by decide),
   h.2.2 (by decide) (by intro chr hc; simp at hc; subst hc; decide)⟩

/-! ### The prefix record: appended spaces -/

/-- C32: for every prefix record `d` with `d.indent = 0` whose byte count is
the length of its string, and every `n >= 0` for which the sums `d.bytes + n
+ 1` and `d.width + n` do not overflow, `pad_pre(d, n)` returns a record whose
string is the string of `d` followed by `n` spaces and whose bytes, width and
indent are those of `d` increased by exactly `n`; and `drop_pre_indent` of
that record returns a record whose bytes, width and indent are those of `d`,
with the string left as it is. -/
theorem pad_pre_drop (d : FANSI_prefix_dat) (n : Int) (hind : d.indent = 0) (hn : 0 ≤ n)
    (hlen : d.bytes = d.string.length) (hw : INT_MIN < d.width)
    (hov1 : d.bytes + n + 1 ≤ INT_MAX) (hov2 : d.width + n ≤ INT_MAX) :
    ∃ d1, pad_pre d n = .ok d1 ∧
      d1.string = d.string ++ List.replicate n.toNat 32 ∧
      d1.bytes = d.bytes + n ∧ d1.width = d.width + n ∧ d1.indent = d.indent + n ∧
      d1.has_utf8 = d.has_utf8 ∧ d1.warn = d.warn ∧
      ∃ d2, drop_pre_indent d1 = .ok d2 ∧
        d2.bytes = d.bytes ∧ d2.width = d.width ∧ d2.indent = d.indent ∧
        d2.string = d1.string := by
  have hb0 : (0 : Int) ≤ d.bytes := by rw [hlen]; exact Int.natCast_nonneg _
  have hmin : INT_MIN < 0 := by decide
  have a1 : FANSI_add_int d.bytes n = .ok (d.bytes + n) :=
    add_int_of_range _ _ (fun _ => by omega) (fun h => by omega)
  have a2 : FANSI_add_int (d.bytes + n) 1 = .ok (d.bytes + n + 1) :=
    add_int_of_range _ _ (fun _ => hov1) (fun h => by omega)
  have a3 : FANSI_add_int d.width n = .ok (d.width + n) :=
    add_int_of_range _ _ (fun _ => hov2) (fun h => by omega)
  have a4 : FANSI_add_int d.indent n = .ok (d.indent + n) :=
    add_int_of_range _ _ (fun _ => by rw [hind]; omega) (fun h => by omega)
  have hstr : (if d.bytes + n + 1 > 1 then
      d.string.take d.bytes.toNat ++ List.replicate n.toNat 32 else []) =
      d.string ++ List.replicate n.toNat 32 := by
    have htake : d.string.take d.bytes.toNat = d.string := by
      rw [hlen]
      simp
    split
    · rw [htake]
    · rename_i hc
      have hb : d.string.length = 0 := by omega
      have hn0 : n.toNat = 0 := by omega
      rw [List.length_eq_zero.mp hb, hn0]
      rfl
  have d1 : FANSI_add_int (d.bytes + n) (-(d.indent + n)) = .ok d.bytes := by
    rw [add_int_of_range _ _ (fun _ => by rw [hind]; omega) (fun h => by rw [hind]; omega)]
    congr 1
    rw [hind]
    omega
  have d2 : FANSI_add_int (d.width + n) (-(d.indent + n)) = .ok d.width := by
    rw [add_int_of_range _ _ (fun _ => by rw [hind]; omega) (fun h => by rw [hind]; omega)]
    congr 1
    rw [hind]
    omega
  have d3 : FANSI_add_int (d.indent + n) (-(d.indent + n)) = .ok 0 := by
    rw [add_int_of_range _ _ (fun _ => by rw [hind]; omega) (fun h => by rw [hind]; omega)]
    congr 1
    omega
  refine ⟨{ d with string := d.string ++ List.replicate n.toNat 32, bytes := d.bytes + n,
                   width := d.width + n, indent := d.indent + n }, ?_, rfl, rfl, rfl, rfl, rfl,
    rfl, { d with string := d.string ++ List.replicate n.toNat 32 }, ?_, rfl, rfl, hind.symm ▸ rfl,
    rfl⟩
  · unfold pad_pre
    simp only [a1, a2, a3, a4, hstr]
  · unfold drop_pre_indent
    simp only [d1, d2, d3, lt_self_iff_false, if_false]
    congr 1
    rw [hind]

/-- Witness of C32: the prefix `"> "` padded with two spaces is `">   "` with 4
bytes, 4 columns and an indent of 2, and dropping the indent gives 2 bytes, 2
columns and no indent. -/
theorem pad_pre_drop_witness :
    pad_pre gt_exdent_pre 2 = .ok gt_indent_pre ∧
    drop_pre_indent gt_indent_pre = .ok { gt_indent_pre with bytes := 2, width := 2, indent := 0 } ∧
    ∃ d1, pad_pre gt_exdent_pre 2 = .ok d1 ∧
      d1.string = gt_exdent_pre.string ++ List.replicate (2 : Int).toNat 32 ∧
      d1.bytes = gt_exdent_pre.bytes + 2 ∧ d1.width = gt_exdent_pre.width + 2 ∧
      d1.indent = gt_exdent_pre.indent + 2 ∧
      d1.has_utf8 = gt_exdent_pre.has_utf8 ∧ d1.warn = gt_exdent_pre.warn ∧
      ∃ d2, drop_pre_indent d1 = .ok d2 ∧
        d2.bytes = gt_exdent_pre.bytes ∧ d2.width = gt_exdent_pre.width ∧
        d2.indent = gt_exdent_pre.indent ∧ d2.string = d1.string :=
  ⟨by decide, by decide,
   pad_pre_drop gt_exdent_pre 2 (by decide) (by decide) (by decide) (by decide) (by decide)
     (by decide)⟩

/-! ### The reflow engine over printable ASCII: every line starts further on -/

/-- The checked addition raises neither the error of a too narrow wrap nor the
iteration bound. -/
theorem add_int_error_kind (a b : Int) (e : FANSI_error) (h : FANSI_add_int a b = .error e) :
    e ≠ .wrap_too_narrow ∧ e ≠ .fuel := by
  unfold FANSI_add_int at h
  split at h
  · simp only [Except.error.injEq] at h
    subst h
    exact ⟨by decide, by decide⟩
  · exact absurd h (by simp)

/-- The buffer raises neither the error of a too narrow wrap nor the iteration
bound. -/
theorem size_buff_error_kind (int_max : Int) (buff : FANSI_buff) (size : Nat) (e : FANSI_error)
    (h : FANSI_size_buff int_max buff size = .error e) : e ≠ .wrap_too_narrow ∧ e ≠ .fuel := by
  unfold FANSI_size_buff at h
  simp only at h
  split_ifs at h
  all_goals try simp only at h
  all_goals try split_ifs at h
  all_goals simp only [Except.error.injEq] at h
  all_goals subst h
  all_goals exact ⟨by decide, by decide⟩

/-- Dropping the indent raises neither the error of a too narrow wrap nor the
iteration bound. -/
theorem drop_pre_indent_error_kind (dat : FANSI_prefix_dat) (e : FANSI_error)
    (h : drop_pre_indent dat = .error e) : e ≠ .wrap_too_narrow ∧ e ≠ .fuel := by
  unfold drop_pre_indent at h
  split at h
  · rename_i e1 he
    simp only [Except.error.injEq] at h
    subst h
    exact add_int_error_kind _ _ _ he
  · split at h
    · rename_i e1 he
      simp only [Except.error.injEq] at h
      subst h
      exact add_int_error_kind _ _ _ he
    · split at h
      · rename_i e1 he
        simp only [Except.error.injEq] at h
        subst h
        exact add_int_error_kind _ _ _ he
      · split at h
        · simp only [Except.error.injEq] at h
          subst h
          exact ⟨by decide, by decide⟩
        · exact absurd h (by simp)

/-- The size computation of a line raises neither the error of a too narrow
wrap nor the iteration bound. -/
theorem writeline_size_error_kind (int_max : Int) (target_size : Nat) (pads : Bool)
    (target_pad pre_bytes start_close : Int) (e : FANSI_error)
    (h : writeline_size int_max target_size pads target_pad pre_bytes start_close = .error e) :
    e ≠ .wrap_too_narrow ∧ e ≠ .fuel := by
  unfold writeline_size at h
  simp only at h
  split_ifs at h
  all_goals simp only [Except.error.injEq] at h
  all_goals subst h
  all_goals exact ⟨by decide, by decide⟩

/-- Writing a line raises neither the error of a too narrow wrap nor the
iteration bound. -/
theorem writeline_error_kind (int_max : Int) (state_bound state_start : FANSI_state)
    (buff : FANSI_buff) (pre_dat : FANSI_prefix_dat) (tar_width : Int) (pad_chr : List Nat)
    (e : FANSI_error)
    (h : FANSI_writeline int_max state_bound state_start buff pre_dat tar_width pad_chr =
      .error e) : e ≠ .wrap_too_narrow ∧ e ≠ .fuel := by
  unfold FANSI_writeline at h
  simp only at h
  split at h
  · simp only [Except.error.injEq] at h
    subst h
    exact ⟨by decide, by decide⟩
  · split at h
    · rename_i e1 he
      simp only [Except.error.injEq] at h
      subst h
      unfold writeline_pre at he
      simp only at he
      split at he
      · exact drop_pre_indent_error_kind _ _ he
      · exact absurd he (by simp)
    · split at h
      · simp only [Except.error.injEq] at h
        subst h
        exact ⟨by decide, by decide⟩
      · split at h
        · rename_i e1 he
          simp only [Except.error.injEq] at h
          subst h
          exact writeline_size_error_kind _ _ _ _ _ _ _ he
        · split at h
          · rename_i e1 he
            simp only [Except.error.injEq] at h
            subst h
            exact size_buff_error_kind _ _ _ _ he
          · split at h
            · simp only [Except.error.injEq] at h
              subst h
              exact ⟨by decide, by decide⟩
            · exact absurd h (by simp)

/-- Skipping the spaces of a printable string returns within the iteration
bound. -/
theorem skip_spaces_total (K : FANSI_ctl_masks) (x : List Nat) (hx : printable x) :
    ∀ (fuel : Nat) (st : FANSI_state), st.string = x → st.pos_byte ≤ x.length →
      x.length - st.pos_byte ≤ fuel → ∃ st1, skip_spaces K fuel st = .ok st1 := by
  intro fuel
  induction fuel with
  | zero =>
    intro st hs hle hf
    unfold skip_spaces
    rw [hs]
    have hne : byteAt x st.pos_byte ≠ 32 := by
      rw [byteAt_of_le x _ (by omega)]
      omega
    rw [if_neg hne]
    exact ⟨_, rfl⟩
  | succ n ih =>
    intro st hs hle hf
    unfold skip_spaces
    rw [hs]
    by_cases h32 : byteAt x st.pos_byte = 32
    · rw [if_pos h32]
      have hlt : st.pos_byte < x.length := by
        by_contra hge
        rw [byteAt_of_le x _ (by omega)] at h32
        omega
      rw [read_next_printable K x hx st hs hlt]
      exact ih _ hs (by show st.pos_byte + 1 ≤ x.length; omega)
        (by show x.length - (st.pos_byte + 1) ≤ n; omega)
    · rw [if_neg h32]
      exact ⟨_, rfl⟩

/-- The line that `FANSI_writeline` returns for a piece of a printable string
without a prefix and without a pad character has the bytes of the piece. -/
theorem writeline_plain_chars (int_max : Int) (x : List Nat) (b st : FANSI_state)
    (buff : FANSI_buff) (tar_width : Int) (h1 : 1 ≤ int_max) (h2 : int_max ≤ INT_MAX)
    (hxl : (x.length : Int) ≤ int_max)
    (hb : b.string = x ∧ b.style = [] ∧ b.pos_byte ≤ x.length ∧
      b.pos_width = (b.pos_byte : Int) - st.pos_byte)
    (hs : st.string = x ∧ st.style = [] ∧ st.pos_byte ≤ b.pos_byte ∧ st.pos_width = 0) :
    ∃ res buff1, FANSI_writeline int_max b st buff empty_pre tar_width [] = .ok (res, buff1) ∧
      res.chars = slice x st.pos_byte b.pos_byte := by
  obtain ⟨b1, b2, b4, b5⟩ := hb
  obtain ⟨s1, s2, s3, s4⟩ := hs
  have hM : to_size_t int_max = int_max.toNat :=
    to_size_t_of_nonneg _ (by omega) (by unfold INT_MAX at *; omega)
  have hpre : writeline_pre b st empty_pre = .ok empty_pre := by
    unfold writeline_pre
    simp only
    split
    · decide
    · rfl
  have hpads : writeline_pads b st tar_width [] = false := by
    unfold writeline_pads
    simp [byteAt]
  have hpad : writeline_pad b st tar_width [] = 0 := by
    unfold writeline_pad
    simp only [hpads, Bool.false_eq_true, if_false]
  have hsize : writeline_size int_max (b.pos_byte - st.pos_byte) false 0 empty_pre.bytes 0 =
      .ok (b.pos_byte - st.pos_byte + 1) := by
    have hz : to_size_t 0 = 0 := by decide
    have he : empty_pre.bytes = 0 := rfl
    unfold writeline_size
    simp only [he, Bool.false_eq_true, false_and, if_false, sub_zero, hM, hz, Nat.add_zero]
    have hlt : b.pos_byte - st.pos_byte < SIZE_MOD := by
      unfold SIZE_MOD
      unfold INT_MAX at h2
      omega
    have hlt1 : b.pos_byte - st.pos_byte + 1 < SIZE_MOD := by
      unfold SIZE_MOD
      unfold INT_MAX at h2
      omega
    simp only [Nat.mod_eq_of_lt hlt, Nat.mod_eq_of_lt hlt1]
    rw [if_neg (by omega), if_neg (by omega)]
  obtain ⟨buff1, hbuff⟩ := size_buff_ok int_max buff (b.pos_byte - st.pos_byte + 1) h1 h2
    (by omega)
  have hwrite : writeline_write b st empty_pre 0 [] = slice x st.pos_byte b.pos_byte := by
    have he : empty_pre.bytes = 0 := rfl
    unfold writeline_write slice
    simp [has_style_nil b b2, has_style_nil st s2, he, s1]
  have hlen : (slice x st.pos_byte b.pos_byte).length ≤ x.length := by
    unfold slice
    simp only [List.length_take, List.length_drop]
    omega
  unfold FANSI_writeline
  simp only [hpre, hpads, hpad, has_style_nil b b2, has_style_nil st s2, Bool.false_eq_true,
    if_false, add_zero, hsize, hbuff, hwrite, hM]
  rw [if_neg (by omega), if_neg (by omega), if_neg (by omega)]
  exact ⟨_, _, rfl, rfl⟩

/-- The invariant of the loop of `strwrap` holds on entry. -/
theorem wrap_inv_start (x : List Nat) (warn : Int) (ctl : Nat) (width_1 width_2 : Int)
    (wrap_always : Bool) (buff : FANSI_buff) (hwa : wrap_always = true → 0 ≤ width_1) :
    wrap_inv x width_1 width_2 wrap_always (strwrap_start x warn ctl width_1 buff) :=
  { s_string := rfl
    st_string := rfl
    b_string := rfl
    s_style := rfl
    st_style := rfl
    b_style := rfl
    st_width := rfl
    s_width := by simp [strwrap_start, FANSI_state_init_full]
    b_width := by simp [strwrap_start, FANSI_state_init_full]
    st_le_b := le_refl _
    b_le_s := le_refl _
    s_le := Nat.zero_le _
    no_ws := by
      intro _ i hi1 hi2
      simp only [strwrap_start, FANSI_state_init_full] at hi2
      omega
    within := by
      intro hc
      show (0 : Int) ≤ width_1
      rcases hc with hc | hc
      · exact absurd hc (by simp [strwrap_start])
      · exact hwa hc
    tar := rfl }

/-- The progress invariant of the loop of `strwrap` holds on entry. -/
theorem progress_inv_start (x : List Nat) (warn : Int) (ctl : Nat) (width_1 : Int)
    (strip_spaces : Bool) (buff : FANSI_buff) :
    progress_inv x strip_spaces (strwrap_start x warn ctl width_1 buff) :=
  { bound_space := fun h => absurd h (by simp [strwrap_start])
    prev_space := fun _ h => absurd h (by simp [strwrap_start])
    last := fun h => absurd h (by simp [strwrap_start])
    none_yet := fun _ => rfl
    count := fun h => absurd h (by simp [strwrap_start]) }

/-- The boundary that one iteration of `strwrap` detects on a printable
string: it is on a space, and a space under the cursor is a boundary. -/
theorem detect_bound_space (K : FANSI_ctl_masks) (x : List Nat) (hx : printable x)
    (width_1 width_2 : Int) (wrap_always strip_spaces : Bool) (v : strwrap_vars)
    (hinv : wrap_inv x width_1 width_2 wrap_always v) (hP : progress_inv x strip_spaces v) :
    ((strwrap_detect K strip_spaces v).has_boundary = true →
      byteAt x (strwrap_detect K strip_spaces v).state_bound.pos_byte = 32) ∧
    ((strwrap_detect K strip_spaces v).prev_boundary = true ↔
      byteAt x v.state.pos_byte = 32) ∧
    (byteAt x v.state.pos_byte = 32 → (strwrap_detect K strip_spaces v).has_boundary = true) ∧
    (byteAt x v.state.pos_byte ≠ 32 →
      (strwrap_detect K strip_spaces v).has_boundary = v.has_boundary ∧
      (strwrap_detect K strip_spaces v).state_bound.pos_byte = v.state_bound.pos_byte) ∧
    (strip_spaces = false → byteAt x v.state.pos_byte = 32 →
      (strwrap_detect K strip_spaces v).state_bound.pos_byte = v.state.pos_byte) := by
  have hs := hinv.s_string
  obtain ⟨n9, n10⟩ := byteAt_not_ctl x hx v.state.pos_byte
  have hb := hP.bound_space
  have hp := hP.prev_space
  unfold strwrap_detect
  simp only [hs]
  by_cases h32 : byteAt x v.state.pos_byte = 32
  · simp only [h32, true_or, decide_True, if_true]
    cases strip_spaces
    · simp [h32]
    · cases hpb : v.prev_boundary
      · simp [h32]
      · simp only [Bool.true_and, Bool.not_true, Bool.false_eq_true, if_false, Bool.not_false]
        rcases hp rfl hpb with hc | hc
        · simp [hb hc]
        · exact absurd h32 hc
  · simp only [h32, n9, n10, or_self, decide_False, Bool.false_eq_true, if_false]
    simpa using hb

/-- The boundary at the end of the line to write: the state itself at the end
of the string, without a boundary under `wrap_always`, and in trim mode. -/
theorem line_end_second (wrap_always first_only : Bool) (v : strwrap_vars) (d : strwrap_scan) :
    (strwrap_line_end wrap_always first_only v d).2 =
      if byteAt d.state.string d.state.pos_byte = 0 ∨
          (wrap_always = true ∧ d.has_boundary = false) ∨ first_only = true then
        (strwrap_line_end wrap_always first_only v d).1
      else d.state_bound := by
  unfold strwrap_line_end
  simp only
  by_cases hc : byteAt d.state.string d.state.pos_byte = 0 ∨
      (wrap_always = true ∧ d.has_boundary = false) ∨ first_only = true
  · simp only [if_pos hc]
  · simp only [if_neg hc]

/-- Without stripping, the next line starts at the boundary, or at the state
when there is no boundary. -/
theorem next_start_keep (K : FANSI_ctl_masks) (has_boundary : Bool) (st b nb : FANSI_state)
    (h : strwrap_next_start K false has_boundary false st b = .ok nb) :
    nb.pos_byte = (if has_boundary = false then st else b).pos_byte := by
  unfold strwrap_next_start at h
  simp only [Bool.false_eq_true, and_false, if_false, Except.ok.injEq] at h
  rw [← h]

/-- The start of the next line is computed within the iteration bound on a
printable string. -/
theorem next_start_total (K : FANSI_ctl_masks) (x : List Nat) (hx : printable x)
    (strip_spaces has_boundary : Bool) (st b : FANSI_state)
    (hst : st.string = x ∧ st.pos_byte ≤ x.length) (hb : b.string = x ∧ b.pos_byte ≤ x.length) :
    ∃ nb, strwrap_next_start K strip_spaces has_boundary false st b = .ok nb := by
  unfold strwrap_next_start
  simp only [Bool.false_eq_true, and_false, if_false]
  have hsb : (if has_boundary = false then st else b).string = x ∧
      (if has_boundary = false then st else b).pos_byte ≤ x.length := by
    split
    · exact hst
    · exact hb
  cases strip_spaces
  · simp only [Bool.false_eq_true, if_false]
    exact ⟨_, rfl⟩
  · simp only [if_true]
    obtain ⟨st1, h1⟩ := skip_spaces_total K x hx
      (if has_boundary = false then st else b).string.length _ hsb.1 hsb.2
      (by rw [hsb.1]; omega)
    rw [h1]
    exact ⟨_, rfl⟩

/-- An iteration of the loop of `strwrap` on a printable string with budgets of
at least one column: an iteration that writes no line moves the cursor on by
one byte; an iteration that writes a line writes the piece from the line start
to a boundary on the line, and when the loop goes on the next line starts
strictly further on, at that boundary when spaces are not stripped. -/
theorem strwrap_step_progress (K : FANSI_ctl_masks) (int_max : Int) (x : List Nat)
    (pre_first pre_next : FANSI_prefix_dat) (width_1 width_2 : Int)
    (wrap_always : Bool) (pad_chr : List Nat) (strip_spaces first_only : Bool)
    (v w : strwrap_vars) (brk : Bool)
    (hx : printable x) (hg1 : 1 ≤ width_1) (hg2 : 1 ≤ width_2)
    (hinv : wrap_inv x width_1 width_2 wrap_always v) (hP : progress_inv x strip_spaces v)
    (h : strwrap_step K int_max width_1 width_2 pre_first pre_next wrap_always pad_chr
      strip_spaces first_only v = .ok (brk, w)) :
    (strwrap_flushing K wrap_always strip_spaces first_only v = false →
      brk = false ∧ w.state_start = v.state_start ∧ w.state.pos_byte = v.state.pos_byte + 1 ∧
        v.state.pos_byte < x.length ∧ w.char_list = v.char_list) ∧
    (strwrap_flushing K wrap_always strip_spaces first_only v = true →
      ∃ kb res, on_line x v kb ∧
        FANSI_writeline int_max kb v.state_start v.buff
          (if v.para_start then pre_first else pre_next) v.width_tar pad_chr =
            .ok (res, w.buff) ∧
        (first_only = false → w.char_list = v.char_list ++ [res]) ∧
        (brk = true → w.char_list.length ≤ x.length + 1 ∧
          (first_only = false → kb.pos_byte = x.length)) ∧
        (brk = false → v.state_start.pos_byte < w.state_start.pos_byte ∧
          w.state.pos_byte = w.state_start.pos_byte ∧
          (strip_spaces = false → w.state_start.pos_byte = kb.pos_byte))) ∧
    (brk = false → wrap_inv x width_1 width_2 wrap_always w ∧ progress_inv x strip_spaces w) := by
  obtain ⟨d1, d2, d3, d4, d5, d6, d7, d8, d9, d10, d11⟩ :=
    detect_printable K x hx width_1 width_2 wrap_always strip_spaces v hinv
  obtain ⟨b1, b2, b3, b4, b5⟩ :=
    detect_bound_space K x hx width_1 width_2 wrap_always strip_spaces v hinv hP
  have hsle := hinv.s_le
  have hstl : v.state_start.pos_byte ≤ v.state.pos_byte := Nat.le_trans hinv.st_le_b hinv.b_le_s
  have htar1 : 1 ≤ v.width_tar := by
    rw [hinv.tar]
    split <;> assumption
  obtain ⟨n9, n10⟩ := byteAt_not_ctl x hx v.state.pos_byte
  unfold strwrap_step at h
  simp only at h
  split at h
  · -- a line is written
    rename_i hmw
    have hfl : strwrap_flushing K wrap_always strip_spaces first_only v = true := hmw
    obtain ⟨he1, he2⟩ :=
      line_end_printable K x hx width_1 width_2 wrap_always strip_spaces first_only v hinv
    have hk := keep_boundary_printable K x hx width_1 width_2 wrap_always strip_spaces
      (strwrap_detect K strip_spaces v).has_boundary v hinv
      (strwrap_detect K strip_spaces v).state _ d2 he2
    have hle2 := line_end_second wrap_always first_only v (strwrap_detect K strip_spaces v)
    rw [he1, d1, d2] at hle2
    have hcnt : v.char_list.length ≤ v.state_start.pos_byte := by
      by_cases hf : v.first_line = true
      · rw [hP.none_yet hf]
        exact Nat.zero_le _
      · have hf1 : v.first_line = false := by simpa using hf
        have c1 := hP.count hf1
        have c2 := hP.last hf1
        omega
    unfold strwrap_write at h
    simp only [he1] at h
    split at h
    · exact absurd h (by simp)
    · split at h
      · exact absurd h (by simp)
      · rename_i res buff1 hres
        split at h
        · -- trim mode: the loop is left
          rename_i hfo
          simp only [Except.ok.injEq, Prod.mk.injEq] at h
          obtain ⟨hbrk, hw⟩ := h
          subst hw
          subst hbrk
          refine ⟨fun hc => absurd hfl (by rw [hc]; simp), fun _ => ⟨_, res, hk, hres,
            fun hc => absurd hfo (by rw [hc]; simp),
            fun _ => ⟨?_, fun hc => absurd hfo (by rw [hc]; simp)⟩,
            fun hc => absurd hc (by simp)⟩, fun hc => absurd hc (by simp)⟩
          show [res].length ≤ x.length + 1
          simp
        · rename_i hfo
          split at h
          · -- the end of the string
            rename_i hc0
            simp only [Except.ok.injEq, Prod.mk.injEq] at h
            obtain ⟨hbrk, hw⟩ := h
            subst hw
            subst hbrk
            rw [d1, d2] at hc0
            have hpos : v.state.pos_byte = x.length := by
              by_contra hne
              have := byteAt_printable x hx v.state.pos_byte (by omega)
              omega
            refine ⟨fun hc => absurd hfl (by rw [hc]; simp), fun _ => ⟨_, res, hk, hres,
              fun _ => rfl, fun _ => ⟨?_, fun _ => ?_⟩, fun hc => absurd hc (by simp)⟩,
              fun hc => absurd hc (by simp)⟩
            · show (v.char_list ++ [res]).length ≤ x.length + 1
              rw [List.length_append, List.length_singleton]
              omega
            · rw [if_pos (Or.inl hc0)] at hle2
              unfold strwrap_keep_boundary
              rw [hle2]
              simp only [lt_self_iff_false, and_false, if_false]
              rw [d2, hpos]
          · rename_i hc0
            have h10 : decide (byteAt (strwrap_detect K strip_spaces v).state.string
                (strwrap_detect K strip_spaces v).state.pos_byte = 10) = false := by
              rw [d1, d2]
              exact decide_eq_false n10
            rw [h10] at h
            split at h
            · exact absurd h (by simp)
            · rename_i nb hnb
              simp only [Except.ok.injEq, Prod.mk.injEq] at h
              obtain ⟨hbrk, hw⟩ := h
              subst hw
              subst hbrk
              rw [d1, d2] at hc0
              have hfo1 : first_only = false := by simpa using hfo
              obtain ⟨n1, n2, n3, n4⟩ := next_start_printable K x hx strip_spaces _ _ _ nb
                ⟨d1, d4, by rw [d2]; exact hsle⟩
                ⟨hk.1, hk.2.1, Nat.le_trans hk.2.2.2.1 hsle⟩ hnb
              -- the budget is used up
              have hwd : v.width_tar ≤ v.state.pos_width ∧
                  ((strwrap_detect K strip_spaces v).has_boundary = true ∨
                    wrap_always = true) := by
                unfold strwrap_must_write at hmw
                simp only [decide_eq_true_eq] at hmw
                rw [d1, d2, d3] at hmw
                rcases hmw with hc | hc | hc
                · exact absurd hc hc0
                · exact absurd hc.1 n10
                · refine ⟨?_, hc.2⟩
                  rcases hc.1 with hc1 | hc1
                  · omega
                  · omega
              have hposw := hinv.s_width
              have hpos : v.state_start.pos_byte < v.state.pos_byte := by omega
              -- where the next line starts
              have hprog : v.state_start.pos_byte < nb.pos_byte ∧
                  (strip_spaces = false → nb.pos_byte =
                    (strwrap_keep_boundary K strip_spaces
                      (strwrap_detect K strip_spaces v).has_boundary
                      (strwrap_detect K strip_spaces v).state
                      (strwrap_line_end wrap_always first_only v
                        (strwrap_detect K strip_spaces v)).2).pos_byte) ∧
                  (strip_spaces = true → byteAt x nb.pos_byte ≠ 32) := by
                cases hbd : (strwrap_detect K strip_spaces v).has_boundary
                · -- no boundary: the line is cut at the state
                  have hwa : wrap_always = true := by
                    rcases hwd.2 with hc | hc
                    · rw [hbd] at hc
                      exact absurd hc (by simp)
                    · exact hc
                  rw [if_pos (Or.inr (Or.inl ⟨hwa, hbd⟩))] at hle2
                  have hkb : strwrap_keep_boundary K strip_spaces false
                      (strwrap_detect K strip_spaces v).state
                      (strwrap_line_end wrap_always first_only v
                        (strwrap_detect K strip_spaces v)).2 =
                      (strwrap_detect K strip_spaces v).state := by
                    unfold strwrap_keep_boundary
                    simp only [Bool.false_eq_true, false_and, and_false, if_false]
                    exact hle2
                  rw [hbd] at hnb
                  rw [hkb] at hnb ⊢
                  cases strip_spaces
                  · have := next_start_keep K false _ _ nb hnb
                    simp only [if_true] at this
                    rw [this, d2]
                    exact ⟨hpos, fun _ => rfl, fun hc => absurd hc (by simp)⟩
                  · obtain ⟨m1, _, m3⟩ := next_start_strip K x hx false _ _ nb
                      ⟨d1, by rw [d2]; exact hsle⟩ ⟨d1, by rw [d2]; exact hsle⟩ hnb
                    simp only [if_true] at m1
                    rw [d2] at m1
                    exact ⟨by omega, fun hc => absurd hc (by simp), fun _ => m3⟩
                · -- a boundary, which is on a space
                  have hnc : ¬ (byteAt x v.state.pos_byte = 0 ∨
                      (wrap_always = true ∧
                        (strwrap_detect K strip_spaces v).has_boundary = false) ∨
                      first_only = true) := by
                    rw [hbd, hfo1]
                    simp [hc0]
                  rw [if_neg hnc] at hle2
                  have hsp := b1 hbd
                  rw [hbd] at hnb
                  cases strip_spaces
                  · have hnbp := next_start_keep K true _ _ nb hnb
                    simp only [Bool.true_eq_false, if_false] at hnbp
                    refine ⟨?_, fun _ => hnbp, fun hc => absurd hc (by simp)⟩
                    rw [hnbp]
                    unfold strwrap_keep_boundary
                    rw [hle2, d5, hsp, d2]
                    simp only [true_and, true_or]
                    by_cases hlt : (strwrap_detect K false v).state_bound.pos_byte <
                        v.state.pos_byte
                    · rw [if_pos hlt, read_next_printable K x hx _ d5 (by omega)]
                      show v.state_start.pos_byte <
                        (strwrap_detect K false v).state_bound.pos_byte + 1
                      omega
                    · rw [if_neg hlt]
                      omega
                  · have hkb : strwrap_keep_boundary K true true
                        (strwrap_detect K true v).state
                        (strwrap_line_end wrap_always first_only v
                          (strwrap_detect K true v)).2 =
                        (strwrap_detect K true v).state_bound := by
                      unfold strwrap_keep_boundary
                      simp only [Bool.true_eq_false, false_and, if_false]
                      exact hle2
                    rw [hkb] at hnb
                    obtain ⟨m1, _, m3⟩ := next_start_strip K x hx true _ _ nb
                      ⟨d1, by rw [d2]; exact hsle⟩ ⟨d5, Nat.le_trans d8 hsle⟩ hnb
                    simp only [Bool.true_eq_false, if_false] at m1
                    have hne : (strwrap_detect K true v).state_bound.pos_byte ≠ nb.pos_byte := by
                      intro hc
                      rw [hc] at hsp
                      exact m3 hsp
                    exact ⟨by omega, fun hc => absurd hc (by simp), fun _ => m3⟩
              obtain ⟨p1, p2, p3⟩ := hprog
              refine ⟨fun hc => absurd hfl (by rw [hc]; simp), fun _ => ⟨_, res, hk, hres,
                fun _ => rfl, fun hc => absurd hc (by simp), fun _ => ⟨p1, rfl, p2⟩⟩,
                fun _ => ⟨?_, ?_⟩⟩
              · exact
                  { s_string := n1
                    st_string := n1
                    b_string := n1
                    s_style := n2
                    st_style := n2
                    b_style := n2
                    st_width := n4
                    s_width := by
                      show nb.pos_width = (nb.pos_byte : Int) - nb.pos_byte
                      rw [n4]; omega
                    b_width := by
                      show nb.pos_width = (nb.pos_byte : Int) - nb.pos_byte
                      rw [n4]; omega
                    st_le_b := le_refl _
                    b_le_s := le_refl _
                    s_le := n3
                    no_ws := by
                      intro _ i hi1 hi2
                      have hi1' : nb.pos_byte ≤ i := hi1
                      have hi2' : i < nb.pos_byte := hi2
                      omega
                    within := by
                      intro _
                      show nb.pos_width ≤ (if false = true then width_1 else width_2)
                      rw [n4]
                      simp only [Bool.false_eq_true, if_false]
                      omega
                    tar := rfl }
              · exact
                  { bound_space := fun hc => absurd hc (by simp)
                    prev_space := fun hs _ => Or.inr (p3 hs)
                    last := fun _ => p1
                    none_yet := fun hc => absurd hc (by simp)
                    count := by
                      intro _
                      show (v.char_list ++ [res]).length ≤ v.state_start.pos_byte + 1
                      rw [List.length_append, List.length_singleton]
                      omega }
  · -- no line is written
    rename_i hmw
    have hmw1 : strwrap_must_write wrap_always first_only v.width_tar
        (strwrap_detect K strip_spaces v) = false := by simpa using hmw
    simp only [Except.ok.injEq, Prod.mk.injEq] at h
    obtain ⟨hbrk, hw⟩ := h
    subst hw
    subst hbrk
    have hc0 : byteAt x v.state.pos_byte ≠ 0 := by
      intro hc
      unfold strwrap_must_write at hmw1
      rw [d1, d2] at hmw1
      simp [hc] at hmw1
    have hlt := byteAt_ne_zero_lt x _ hc0
    have hnext := detect_next_printable K x hx width_1 width_2 wrap_always strip_spaces v
      hinv hc0
    refine ⟨fun _ => ⟨rfl, rfl, ?_, hlt, rfl⟩,
      fun hc => absurd hc (by unfold strwrap_flushing; rw [hmw1]; simp), fun _ => ⟨?_, ?_⟩⟩
    · show (strwrap_detect K strip_spaces v).state_next.pos_byte = v.state.pos_byte + 1
      rw [hnext]
    · exact step_continue_printable K x hx width_1 width_2 wrap_always strip_spaces first_only
        v hinv hmw1
    · exact
        { bound_space := b1
          prev_space := by
            intro _ hp
            exact Or.inl (b3 (b2.mp hp))
          last := hP.last
          none_yet := hP.none_yet
          count := hP.count }

/-- An error of an iteration of the loop of `strwrap` on a printable string
with budgets of at least one column is an error of `FANSI_writeline` on a
boundary on the line: the error of a too narrow wrap is not raised, and the
spaces are skipped within the iteration bound. -/
theorem strwrap_step_error (K : FANSI_ctl_masks) (int_max : Int) (x : List Nat)
    (pre_first pre_next : FANSI_prefix_dat) (width_1 width_2 : Int)
    (wrap_always : Bool) (pad_chr : List Nat) (strip_spaces first_only : Bool)
    (v : strwrap_vars) (e : FANSI_error)
    (hx : printable x)
    (hinv : wrap_inv x width_1 width_2 wrap_always v) (hP : progress_inv x strip_spaces v)
    (h : strwrap_step K int_max width_1 width_2 pre_first pre_next wrap_always pad_chr
      strip_spaces first_only v = .error e) :
    ∃ kb, on_line x v kb ∧
      FANSI_writeline int_max kb v.state_start v.buff
        (if v.para_start then pre_first else pre_next) v.width_tar pad_chr = .error e := by
  obtain ⟨d1, d2, d3, d4, d5, d6, d7, d8, d9, d10, d11⟩ :=
    detect_printable K x hx width_1 width_2 wrap_always strip_spaces v hinv
  have hsle := hinv.s_le
  unfold strwrap_step at h
  simp only at h
  split at h
  · obtain ⟨he1, he2⟩ :=
      line_end_printable K x hx width_1 width_2 wrap_always strip_spaces first_only v hinv
    have hk := keep_boundary_printable K x hx width_1 width_2 wrap_always strip_spaces
      (strwrap_detect K strip_spaces v).has_boundary v hinv
      (strwrap_detect K strip_spaces v).state _ d2 he2
    unfold strwrap_write at h
    simp only [he1] at h
    split at h
    · rename_i hn
      have := hP.last hn.1
      have := hn.2
      omega
    · split at h
      · rename_i e1 he
        simp only [Except.error.injEq] at h
        subst h
        exact ⟨_, hk, he⟩
      · split at h
        · exact absurd h (by simp)
        · split at h
          · exact absurd h (by simp)
          · have h10 : decide (byteAt (strwrap_detect K strip_spaces v).state.string
                (strwrap_detect K strip_spaces v).state.pos_byte = 10) = false := by
              rw [d1, d2]
              exact decide_eq_false (byteAt_not_ctl x hx _).2
            rw [h10] at h
            split at h
            · rename_i e1 he
              obtain ⟨nb, hnb⟩ := next_start_total K x hx strip_spaces
                (strwrap_detect K strip_spaces v).has_boundary
                (strwrap_detect K strip_spaces v).state
                (strwrap_keep_boundary K strip_spaces
                  (strwrap_detect K strip_spaces v).has_boundary
                  (strwrap_detect K strip_spaces v).state
                  (strwrap_line_end wrap_always first_only v
                    (strwrap_detect K strip_spaces v)).2)
                ⟨d1, by rw [d2]; exact hsle⟩ ⟨hk.1, Nat.le_trans hk.2.2.2.1 hsle⟩
              rw [hnb] at he
              exact absurd he (by simp)
            · exact absurd h (by simp)
  · exact absurd h (by simp)

/-- An iteration of the loop of `strwrap` that does not leave the loop brings
the loop closer to its end. -/
theorem strwrap_step_potential (K : FANSI_ctl_masks) (int_max : Int) (x : List Nat)
    (pre_first pre_next : FANSI_prefix_dat) (width_1 width_2 : Int)
    (wrap_always : Bool) (pad_chr : List Nat) (strip_spaces first_only : Bool)
    (v w : strwrap_vars)
    (hx : printable x) (hg1 : 1 ≤ width_1) (hg2 : 1 ≤ width_2)
    (hinv : wrap_inv x width_1 width_2 wrap_always v) (hP : progress_inv x strip_spaces v)
    (h : strwrap_step K int_max width_1 width_2 pre_first pre_next wrap_always pad_chr
      strip_spaces first_only v = .ok (false, w)) :
    wrap_potential x w < wrap_potential x v := by
  obtain ⟨s1, s2, s3⟩ := strwrap_step_progress K int_max x pre_first pre_next width_1 width_2
    wrap_always pad_chr strip_spaces first_only v w false hx hg1 hg2 hinv hP h
  have hsle := hinv.s_le
  have hwle := (s3 rfl).1.s_le
  unfold wrap_potential
  cases hf : strwrap_flushing K wrap_always strip_spaces first_only v
  · obtain ⟨_, k2, k3, k4, _⟩ := s1 hf
    rw [k2, k3]
    omega
  · obtain ⟨kb, res, _, _, _, _, k5⟩ := s2 hf
    obtain ⟨p1, p2, _⟩ := k5 rfl
    rw [p2] at hwle ⊢
    have m1 : (x.length + 1 - w.state_start.pos_byte) * (x.length + 2) ≤
        (x.length - v.state_start.pos_byte) * (x.length + 2) :=
      Nat.mul_le_mul_right _ (by omega)
    have m2 : (x.length + 1 - v.state_start.pos_byte) * (x.length + 2) =
        (x.length - v.state_start.pos_byte) * (x.length + 2) + (x.length + 2) := by
      have : x.length + 1 - v.state_start.pos_byte = (x.length - v.state_start.pos_byte) + 1 := by
        omega
      rw [this, Nat.add_mul, Nat.one_mul]
    omega

/-- The loop of `strwrap` on a printable string with budgets of at least one
column, run for more iterations than the bound `wrap_potential`: it raises
neither the error of a too narrow wrap nor the iteration bound, and it ends
with at most `length + 1` lines. -/
theorem strwrap_loop_progress (K : FANSI_ctl_masks) (int_max : Int) (x : List Nat)
    (pre_first pre_next : FANSI_prefix_dat) (width_1 width_2 : Int)
    (wrap_always : Bool) (pad_chr : List Nat) (strip_spaces first_only : Bool)
    (hx : printable x) (hg1 : 1 ≤ width_1) (hg2 : 1 ≤ width_2) :
    ∀ (fuel : Nat) (v : strwrap_vars), wrap_inv x width_1 width_2 wrap_always v →
      progress_inv x strip_spaces v → wrap_potential x v < fuel →
      (∀ e, strwrap_loop K int_max width_1 width_2 pre_first pre_next wrap_always pad_chr
          strip_spaces first_only fuel v = .error e → e ≠ .wrap_too_narrow ∧ e ≠ .fuel) ∧
      (∀ w, strwrap_loop K int_max width_1 width_2 pre_first pre_next wrap_always pad_chr
          strip_spaces first_only fuel v = .ok w → w.char_list.length ≤ x.length + 1) := by
  intro fuel
  induction fuel with
  | zero =>
    intro v _ _ hpot
    exact absurd hpot (by omega)
  | succ n ih =>
    intro v hinv hP hpot
    unfold strwrap_loop
    rcases hstep : strwrap_step K int_max width_1 width_2 pre_first pre_next wrap_always
        pad_chr strip_spaces first_only v with e | ⟨b, w⟩
    · simp only
      refine ⟨fun e1 he1 => ?_, fun w hw => absurd hw (by simp)⟩
      simp only [Except.error.injEq] at he1
      subst he1
      obtain ⟨kb, _, hk⟩ := strwrap_step_error K int_max x pre_first pre_next width_1 width_2
        wrap_always pad_chr strip_spaces first_only v e hx hinv hP hstep
      exact writeline_error_kind _ _ _ _ _ _ _ _ hk
    · obtain ⟨s1, s2, s3⟩ := strwrap_step_progress K int_max x pre_first pre_next width_1
        width_2 wrap_always pad_chr strip_spaces first_only v w b hx hg1 hg2 hinv hP hstep
      cases b
      · simp only
        have hdec := strwrap_step_potential K int_max x pre_first pre_next width_1 width_2
          wrap_always pad_chr strip_spaces first_only v w hx hg1 hg2 hinv hP hstep
        exact ih w (s3 rfl).1 (s3 rfl).2 (by omega)
      · simp only
        refine ⟨fun e1 he1 => absurd he1 (by simp), fun w1 hw1 => ?_⟩
        simp only [Except.ok.injEq] at hw1
        subst hw1
        cases hf : strwrap_flushing K wrap_always strip_spaces first_only v
        · exact absurd (s1 hf).1 (by simp)
        · obtain ⟨kb, res, _, _, _, k4, _⟩ := s2 hf
          exact (k4 rfl).1

/-- The iterations of the loop of `strwrap` on a printable string that write a
line, with budgets of at least one column: the lines start at strictly
increasing byte offsets, from the current line start on, and with the current
line start they are at most `length + 1`. -/
theorem strwrap_flushes_increase (K : FANSI_ctl_masks) (int_max : Int) (x : List Nat)
    (pre_first pre_next : FANSI_prefix_dat) (width_1 width_2 : Int)
    (wrap_always : Bool) (pad_chr : List Nat) (strip_spaces first_only : Bool)
    (hx : printable x) (hg1 : 1 ≤ width_1) (hg2 : 1 ≤ width_2) :
    ∀ (fuel : Nat) (v : strwrap_vars), wrap_inv x width_1 width_2 wrap_always v →
      progress_inv x strip_spaces v →
      (∀ u ∈ (strwrap_flushes K int_max width_1 width_2 pre_first pre_next wrap_always pad_chr
          strip_spaces first_only fuel v).head?,
        v.state_start.pos_byte ≤ u.state_start.pos_byte) ∧
      List.Chain' (fun p u => p.state_start.pos_byte < u.state_start.pos_byte)
        (strwrap_flushes K int_max width_1 width_2 pre_first pre_next wrap_always pad_chr
          strip_spaces first_only fuel v) ∧
      (strwrap_flushes K int_max width_1 width_2 pre_first pre_next wrap_always pad_chr
          strip_spaces first_only fuel v).length + v.state_start.pos_byte ≤ x.length + 1 := by
  intro fuel
  induction fuel with
  | zero =>
    intro v hinv _
    have hstl : v.state_start.pos_byte ≤ x.length :=
      Nat.le_trans (Nat.le_trans hinv.st_le_b hinv.b_le_s) hinv.s_le
    simp only [strwrap_flushes, List.head?_nil, Option.mem_def, List.chain'_nil,
      List.length_nil, true_and]
    exact ⟨fun u hu => absurd hu (by simp), by omega⟩
  | succ n ih =>
    intro v hinv hP
    have hstl : v.state_start.pos_byte ≤ x.length :=
      Nat.le_trans (Nat.le_trans hinv.st_le_b hinv.b_le_s) hinv.s_le
    rw [strwrap_flushes]
    rcases hstep : strwrap_step K int_max width_1 width_2 pre_first pre_next wrap_always
        pad_chr strip_spaces first_only v with e | ⟨b, w⟩
    · simp only [List.append_nil]
      split
      · simp only [List.head?_cons, Option.mem_def, Option.some.injEq, List.chain'_singleton,
          List.length_singleton, forall_eq', le_refl, true_and]
        omega
      · simp only [List.head?_nil, Option.mem_def, List.chain'_nil, List.length_nil, true_and]
        exact ⟨fun u hu => absurd hu (by simp), by omega⟩
    · obtain ⟨s1, s2, s3⟩ := strwrap_step_progress K int_max x pre_first pre_next width_1
        width_2 wrap_always pad_chr strip_spaces first_only v w b hx hg1 hg2 hinv hP hstep
      cases b
      · simp only
        obtain ⟨i1, i2, i3⟩ := ih w (s3 rfl).1 (s3 rfl).2
        cases hf : strwrap_flushing K wrap_always strip_spaces first_only v
        · obtain ⟨_, k2, _⟩ := s1 hf
          simp only [Bool.false_eq_true, if_false, List.nil_append]
          rw [← k2]
          exact ⟨i1, i2, i3⟩
        · obtain ⟨kb, res, _, _, _, _, k5⟩ := s2 hf
          obtain ⟨p1, _, _⟩ := k5 rfl
          simp only [if_true, List.singleton_append]
          refine ⟨by simp, ?_, ?_⟩
          · rw [List.chain'_cons']
            refine ⟨fun u hu => ?_, i2⟩
            have := i1 u hu
            omega
          · rw [List.length_cons]
            omega
      · simp only [List.append_nil]
        split
        · simp only [List.head?_cons, Option.mem_def, Option.some.injEq, List.chain'_singleton,
            List.length_singleton, forall_eq', le_refl, true_and]
          omega
        · simp only [List.head?_nil, Option.mem_def, List.chain'_nil, List.length_nil, true_and]
          exact ⟨fun u hu => absurd hu (by simp), by omega⟩

/-- The iteration bound of `strwrap` is beyond the bound `wrap_potential` on
entry of the loop. -/
theorem wrap_potential_start (x : List Nat) (warn : Int) (ctl : Nat) (width_1 : Int)
    (buff : FANSI_buff) :
    wrap_potential x (strwrap_start x warn ctl width_1 buff) <
      (x.length + 2) * (x.length + 2) := by
  have h : (x.length + 2) * (x.length + 2) =
      (x.length + 1) * (x.length + 2) + (x.length + 2) := by ring
  unfold wrap_potential
  show (x.length + 1 - 0) * (x.length + 2) + (x.length + 1 - 0) < _
  rw [Nat.sub_zero, h]
  omega

/-- The loop of `strwrap` without a prefix and without a pad character on a
printable string that passes the size check, with a budget of at least one
column, run for more iterations than the bound `wrap_potential`: the loop
returns. -/
theorem strwrap_loop_plain_total (K : FANSI_ctl_masks) (int_max : Int) (x : List Nat)
    (width : Int) (wrap_always strip_spaces first_only : Bool)
    (hx : printable x) (h1 : 1 ≤ int_max) (h2 : int_max ≤ INT_MAX)
    (hxl : (x.length : Int) ≤ int_max) (hw : 1 ≤ width) :
    ∀ (fuel : Nat) (v : strwrap_vars), wrap_inv x width width wrap_always v →
      progress_inv x strip_spaces v → wrap_potential x v < fuel →
      ∃ w, strwrap_loop K int_max width width empty_pre empty_pre wrap_always [] strip_spaces
          first_only fuel v = .ok w := by
  intro fuel
  induction fuel with
  | zero =>
    intro v _ _ hpot
    exact absurd hpot (by omega)
  | succ n ih =>
    intro v hinv hP hpot
    have hsle := hinv.s_le
    unfold strwrap_loop
    rcases hstep : strwrap_step K int_max width width empty_pre empty_pre wrap_always []
        strip_spaces first_only v with e | ⟨b, w⟩
    · obtain ⟨kb, hk, herr⟩ := strwrap_step_error K int_max x empty_pre empty_pre width width
        wrap_always [] strip_spaces first_only v e hx hinv hP hstep
      rw [ite_self] at herr
      obtain ⟨res, buff1, hres, _⟩ := writeline_plain_chars int_max x kb v.state_start v.buff
        v.width_tar h1 h2 hxl ⟨hk.1, hk.2.1, Nat.le_trans hk.2.2.2.1 hsle, hk.2.2.2.2⟩
        ⟨hinv.st_string, hinv.st_style, hk.2.2.1, hinv.st_width⟩
      rw [hres] at herr
      exact absurd herr (by simp)
    · cases b
      · simp only
        obtain ⟨_, _, s3⟩ := strwrap_step_progress K int_max x empty_pre empty_pre width
          width wrap_always [] strip_spaces first_only v w false hx hw hw hinv hP hstep
        have hdec := strwrap_step_potential K int_max x empty_pre empty_pre width width
          wrap_always [] strip_spaces first_only v w hx hw hw hinv hP hstep
        exact ih w (s3 rfl).1 (s3 rfl).2 (by omega)
      · exact ⟨w, rfl⟩

/-! ### The reflow engine without stripping: the lines are the input -/

/-- A piece of a string after the bytes before it. -/
theorem take_append_slice (x : List Nat) (s e : Nat) (h : s ≤ e) :
    x.take s ++ slice x s e = x.take e := by
  unfold slice
  have he : e = s + (e - s) := by omega
  conv_rhs => rw [he]
  rw [List.take_add]

/-- The loop of `strwrap` without stripping, without a prefix and without a pad
character on a printable string with a budget of at least one column, run for
more iterations than the bound `wrap_potential`: when the lines written so far
are the bytes before the line start, the loop returns and the lines are the
input. -/
theorem strwrap_loop_concat (K : FANSI_ctl_masks) (int_max : Int) (x : List Nat) (width : Int)
    (wrap_always : Bool)
    (hx : printable x) (h1 : 1 ≤ int_max) (h2 : int_max ≤ INT_MAX)
    (hxl : (x.length : Int) ≤ int_max) (hw : 1 ≤ width) :
    ∀ (fuel : Nat) (v : strwrap_vars), wrap_inv x width width wrap_always v →
      progress_inv x false v →
      (v.char_list.map CHARSXP.chars).flatten = x.take v.state_start.pos_byte →
      wrap_potential x v < fuel →
      ∃ w, strwrap_loop K int_max width width empty_pre empty_pre wrap_always [] false false
          fuel v = .ok w ∧ (w.char_list.map CHARSXP.chars).flatten = x := by
  intro fuel
  induction fuel with
  | zero =>
    intro v _ _ _ hpot
    exact absurd hpot (by omega)
  | succ n ih =>
    intro v hinv hP hcat hpot
    have hsle := hinv.s_le
    -- a line of the loop is written without an error
    have hline : ∀ kb : FANSI_state, on_line x v kb →
        ∃ res buff1, FANSI_writeline int_max kb v.state_start v.buff
            (if v.para_start then empty_pre else empty_pre) v.width_tar [] = .ok (res, buff1) ∧
          res.chars = slice x v.state_start.pos_byte kb.pos_byte := by
      intro kb hk
      rw [ite_self]
      exact writeline_plain_chars int_max x kb v.state_start v.buff v.width_tar h1 h2 hxl
        ⟨hk.1, hk.2.1, Nat.le_trans hk.2.2.2.1 hsle, hk.2.2.2.2⟩
        ⟨hinv.st_string, hinv.st_style, hk.2.2.1, hinv.st_width⟩
    unfold strwrap_loop
    rcases hstep : strwrap_step K int_max width width empty_pre empty_pre wrap_always []
        false false v with e | ⟨b, w⟩
    · obtain ⟨kb, hk, herr⟩ := strwrap_step_error K int_max x empty_pre empty_pre width width
        wrap_always [] false false v e hx hinv hP hstep
      obtain ⟨res, buff1, hres, _⟩ := hline kb hk
      rw [hres] at herr
      exact absurd herr (by simp)
    · obtain ⟨s1, s2, s3⟩ := strwrap_step_progress K int_max x empty_pre empty_pre width
        width wrap_always [] false false v w b hx hw hw hinv hP hstep
      have hflush : strwrap_flushing K wrap_always false false v = true →
          ∃ kb, on_line x v kb ∧
            (w.char_list.map CHARSXP.chars).flatten = x.take kb.pos_byte ∧
            (b = true → kb.pos_byte = x.length) ∧
            (b = false → w.state_start.pos_byte = kb.pos_byte) := by
        intro hf
        obtain ⟨kb, res, k1, k2, k3, k4, k5⟩ := s2 hf
        obtain ⟨res1, buff1, hres, hchars⟩ := hline kb k1
        rw [hres] at k2
        simp only [Except.ok.injEq, Prod.mk.injEq] at k2
        refine ⟨kb, k1, ?_, fun hb => (k4 hb).2 rfl, fun hb => (k5 hb).2.2 rfl⟩
        rw [k3 rfl, List.map_append, List.flatten_append, hcat, ← k2.1, List.map_singleton,
          List.flatten_singleton, hchars]
        exact take_append_slice x _ _ k1.2.2.1
      cases b
      · simp only
        have hdec := strwrap_step_potential K int_max x empty_pre empty_pre width width
          wrap_always [] false false v w hx hw hw hinv hP hstep
        refine ih w (s3 rfl).1 (s3 rfl).2 ?_ (by omega)
        cases hf : strwrap_flushing K wrap_always false false v
        · obtain ⟨_, k2, _, _, k5⟩ := s1 hf
          rw [k5, k2]
          exact hcat
        · obtain ⟨kb, _, k3, _, k5⟩ := hflush hf
          rw [k3, k5 rfl]
      · simp only
        refine ⟨w, rfl, ?_⟩
        cases hf : strwrap_flushing K wrap_always false false v
        · exact absurd (s1 hf).1 (by simp)
        · obtain ⟨kb, _, k3, k4, _⟩ := hflush hf
          rw [k3, k4 rfl, List.take_length]

/-- C33: with `strip_spaces` false, no prefix, no indent or exdent, no pad
character and `first_only` false, for every printable ASCII input string
(spaces allowed, so no newlines, tabs or control sequences) that passes the
size check and every width `>= 1`, with or without `wrap_always`: `strwrap`
returns, and the concatenation of its lines in order is the input string. -/
theorem strwrap_concat (K : FANSI_ctl_masks) (int_max : Int) (x : List Nat) (width : Int)
    (wrap_always : Bool) (buff : FANSI_buff) (warn : Int) (ctl : Nat)
    (hx : printable x) (h1 : 1 ≤ int_max) (h2 : int_max ≤ INT_MAX)
    (hxl : (x.length : Int) ≤ int_max) (hw1 : 1 ≤ width) (hw2 : width ≤ INT_MAX) :
    ∃ lines buff1,
      strwrap K int_max x width empty_pre empty_pre wrap_always buff [] false warn false ctl =
        .ok (lines, buff1) ∧
      (lines.map CHARSXP.chars).flatten = x := by
  have hadd : FANSI_add_int width (-empty_pre.width) = .ok width := by
    have := add_int_of_range width (-empty_pre.width)
      (fun _ => by show width + -0 ≤ INT_MAX; omega)
      (fun hc => absurd hc (by show ¬ (-(0 : Int) < 0); omega))
    rw [this]
    show Except.ok (width + -0) = _
    rw [neg_zero, add_zero]
  obtain ⟨w, hloop, hcat⟩ := strwrap_loop_concat K int_max x width wrap_always hx h1 h2 hxl hw1
    ((x.length + 2) * (x.length + 2)) (strwrap_start x warn ctl width buff)
    (wrap_inv_start x warn ctl width width wrap_always buff (fun _ => by omega))
    (progress_inv_start x warn ctl width false buff)
    (by show ([] : List (List Nat)).flatten = x.take 0; simp)
    (wrap_potential_start x warn ctl width buff)
  refine ⟨w.char_list, w.buff, ?_, hcat⟩
  rw [strwrap_eq_loop]
  simp only [hadd]
  rw [if_neg (by omega), if_neg (by omega), hloop]

/-- Witness of C33: `"ab  cd e"` at width 3 without stripping is wrapped into
the lines `"ab "`, `" cd "` and `"e"`, whose concatenation is the input. -/
theorem strwrap_concat_witness :
    printable [97, 98, 32, 32, 99, 100, 32, 101] ∧
    ∃ lines buff1,
      strwrap FANSI_CTL INT_MAX [97, 98, 32, 32, 99, 100, 32, 101] 3 empty_pre empty_pre false
        ⟨0, 0⟩ [] false 1 false 31 = .ok (lines, buff1) ∧
      (lines.map CHARSXP.chars).flatten = [97, 98, 32, 32, 99, 100, 32, 101] :=
  ⟨by unfold printable; decide,
   strwrap_concat FANSI_CTL INT_MAX [97, 98, 32, 32, 99, 100, 32, 101] 3 false ⟨0, 0⟩ 1 31
     (by unfold printable; decide) (by decide) (by decide) (by decide) (by decide) (by decide)⟩

/-! ### The reflow engine: the lines advance -/

/-- C34: for every printable ASCII input string (spaces allowed, so no tabs,
newlines or control sequences) and budgets `width - pre_first.width` and
`width - pre_next.width` of at least one column, in every combination of
`wrap_always`, `strip_spaces` and `first_only`: along the loop of `strwrap`
the lines that are written start at strictly increasing byte offsets, so that
at most `length + 1` lines are written; the loop is left within its iteration
bound; the error of a width narrower than a character is not raised; and a
result has at most `length + 1` lines. Without a prefix and without a pad
character the call does return a result for a string that passes the size
check. -/
theorem strwrap_lines_advance (K : FANSI_ctl_masks) (int_max : Int) (x : List Nat)
    (width : Int) (pre_first pre_next : FANSI_prefix_dat) (wrap_always : Bool)
    (buff : FANSI_buff) (pad_chr : List Nat) (strip_spaces : Bool) (warn : Int)
    (first_only : Bool) (ctl : Nat)
    (hx : printable x) (hb1 : 1 ≤ width - pre_first.width)
    (hb2 : 1 ≤ width - pre_next.width) :
    List.Chain' (fun p u => p.state_start.pos_byte < u.state_start.pos_byte)
      (strwrap_flushes K int_max (width - pre_first.width) (width - pre_next.width)
        pre_first pre_next wrap_always pad_chr strip_spaces first_only
        ((x.length + 2) * (x.length + 2))
        (strwrap_start x warn ctl (width - pre_first.width) buff)) ∧
    (strwrap_flushes K int_max (width - pre_first.width) (width - pre_next.width)
        pre_first pre_next wrap_always pad_chr strip_spaces first_only
        ((x.length + 2) * (x.length + 2))
        (strwrap_start x warn ctl (width - pre_first.width) buff)).length ≤ x.length + 1 ∧
    strwrap K int_max x width pre_first pre_next wrap_always buff pad_chr strip_spaces warn
      first_only ctl ≠ .error .wrap_too_narrow ∧
    strwrap K int_max x width pre_first pre_next wrap_always buff pad_chr strip_spaces warn
      first_only ctl ≠ .error .fuel ∧
    (∀ lines buff1,
      strwrap K int_max x width pre_first pre_next wrap_always buff pad_chr strip_spaces warn
        first_only ctl = .ok (lines, buff1) → lines.length ≤ x.length + 1) ∧
    (pre_first = empty_pre → pre_next = empty_pre → pad_chr = [] → 1 ≤ int_max →
      int_max ≤ INT_MAX → (x.length : Int) ≤ int_max → width ≤ INT_MAX →
      ∃ lines buff1,
        strwrap K int_max x width pre_first pre_next wrap_always buff pad_chr strip_spaces warn
          first_only ctl = .ok (lines, buff1)) := by
  have hstart := wrap_inv_start x warn ctl (width - pre_first.width) (width - pre_next.width)
    wrap_always buff (fun _ => by omega)
  have hpstart := progress_inv_start x warn ctl (width - pre_first.width) strip_spaces buff
  obtain ⟨_, c2, c3⟩ := strwrap_flushes_increase K int_max x pre_first pre_next
    (width - pre_first.width) (width - pre_next.width) wrap_always pad_chr strip_spaces
    first_only hx hb1 hb2 ((x.length + 2) * (x.length + 2)) _ hstart hpstart
  have key : ∀ r, strwrap K int_max x width pre_first pre_next wrap_always buff pad_chr
      strip_spaces warn first_only ctl = r →
      (∀ e, r = .error e → e ≠ .wrap_too_narrow ∧ e ≠ .fuel) ∧
      (∀ lines buff1, r = .ok (lines, buff1) → lines.length ≤ x.length + 1) := by
    intro r hr
    rw [strwrap_eq_loop] at hr
    split at hr
    · rename_i e1 he1
      subst hr
      refine ⟨fun e he => ?_, fun _ _ hc => absurd hc (by simp)⟩
      simp only [Except.error.injEq] at he
      subst he
      exact add_int_error_kind _ _ _ he1
    · rename_i width_1 h1
      split at hr
      · rename_i e2 he2
        subst hr
        refine ⟨fun e he => ?_, fun _ _ hc => absurd hc (by simp)⟩
        simp only [Except.error.injEq] at he
        subst he
        exact add_int_error_kind _ _ _ he2
      · rename_i width_2 h2
        obtain ⟨e1, _⟩ := add_int_ok _ _ _ h1
        obtain ⟨e2, _⟩ := add_int_ok _ _ _ h2
        have hw1 : width_1 = width - pre_first.width := by omega
        have hw2 : width_2 = width - pre_next.width := by omega
        subst hw1
        subst hw2
        split at hr
        · subst hr
          refine ⟨fun e he => ?_, fun _ _ hc => absurd hc (by simp)⟩
          simp only [Except.error.injEq] at he
          subst he
          exact ⟨by decide, by decide⟩
        · split at hr
          · subst hr
            refine ⟨fun e he => ?_, fun _ _ hc => absurd hc (by simp)⟩
            simp only [Except.error.injEq] at he
            subst he
            exact ⟨by decide, by decide⟩
          · obtain ⟨l1, l2⟩ := strwrap_loop_progress K int_max x pre_first pre_next
              (width - pre_first.width) (width - pre_next.width) wrap_always pad_chr
              strip_spaces first_only hx hb1 hb2 ((x.length + 2) * (x.length + 2)) _ hstart
              hpstart (wrap_potential_start x warn ctl _ buff)
            split at hr
            · rename_i e3 he3
              subst hr
              refine ⟨fun e he => ?_, fun _ _ hc => absurd hc (by simp)⟩
              simp only [Except.error.injEq] at he
              subst he
              exact l1 _ he3
            · rename_i w hw
              subst hr
              refine ⟨fun e he => absurd he (by simp), fun lines buff1 hc => ?_⟩
              simp only [Except.ok.injEq, Prod.mk.injEq] at hc
              rw [← hc.1]
              exact l2 w hw
  refine ⟨c2, by omega, fun hc => ((key _ rfl).1 _ hc).1 rfl,
    fun hc => ((key _ rfl).1 _ hc).2 rfl, fun lines buff1 h => (key _ rfl).2 lines buff1 h,
    ?_⟩
  intro hp1 hp2 hpad i1 i2 hxl hwm
  subst hp1
  subst hp2
  subst hpad
  have hwd : (1 : Int) ≤ width := by
    have he : empty_pre.width = 0 := rfl
    rw [he] at hb1
    omega
  have hadd : FANSI_add_int width (-empty_pre.width) = .ok width := by
    have := add_int_of_range width (-empty_pre.width)
      (fun _ => by show width + -0 ≤ INT_MAX; omega)
      (fun hc => absurd hc (by show ¬ (-(0 : Int) < 0); omega))
    rw [this]
    show Except.ok (width + -0) = _
    rw [neg_zero, add_zero]
  obtain ⟨w, hloop⟩ := strwrap_loop_plain_total K int_max x width wrap_always strip_spaces
    first_only hx i1 i2 hxl hwd ((x.length + 2) * (x.length + 2))
    (strwrap_start x warn ctl width buff)
    (wrap_inv_start x warn ctl width width wrap_always buff (fun _ => by omega))
    (progress_inv_start x warn ctl width strip_spaces buff)
    (wrap_potential_start x warn ctl width buff)
  refine ⟨w.char_list, w.buff, ?_⟩
  rw [strwrap_eq_loop]
  simp only [hadd]
  rw [if_neg (by omega), if_neg (by omega), hloop]

/-- Witness of C34: `"ab cd"` under the prefix `"> "` at width 4, a budget of 2
columns, in strip-spaces mode with `wrap_always`: neither the error of a too
narrow wrap nor the iteration bound is met. -/
theorem strwrap_lines_advance_witness :
    printable [97, 98, 32, 99, 100] ∧ (1 : Int) ≤ 4 - gt_exdent_pre.width ∧
    strwrap FANSI_CTL INT_MAX [97, 98, 32, 99, 100] 4 gt_exdent_pre gt_exdent_pre true ⟨0, 0⟩
      [] true 1 false 31 ≠ .error .wrap_too_narrow ∧
    strwrap FANSI_CTL INT_MAX [97, 98, 32, 99, 100] 4 gt_exdent_pre gt_exdent_pre true ⟨0, 0⟩
      [] true 1 false 31 ≠ .error .fuel :=
  have h := strwrap_lines_advance FANSI_CTL INT_MAX [97, 98, 32, 99, 100] 4 gt_exdent_pre
    gt_exdent_pre true ⟨0, 0⟩ [] true 1 false 31 (by unfold printable; decide) (by decide)
    (by decide)
  ⟨by unfold printable; decide, by decide, h.2.2.1, h.2.2.2.1⟩

/-! ### The reflow engine over every input without a wide character -/

/-- A step over a byte above 127 of a string without a wide character adds at
most one column. -/
theorem read_utf8_narrow (x : List Nat) (hn : no_wide x) (s : FANSI_state) (hs : s.string = x)
    (hb : 128 ≤ byteAt s.string s.pos_byte) :
    (read_utf8 s).pos_width ≤ s.pos_width + 1 := by
  have hlt : s.pos_byte < x.length := by
    rw [← hs]
    exact byteAt_ne_zero_lt _ _ (by omega)
  have hw := hn s.pos_byte hlt
  unfold read_utf8
  simp only
  split
  · rename_i hv
    obtain ⟨v1, v2, v3⟩ := hv
    show s.pos_width + cp_width _ ≤ s.pos_width + 1
    unfold wide_at at hw
    simp only [decide_eq_false_iff_not, not_and, not_lt] at hw
    rw [← hs] at hw
    have := hw hb v1 v2 v3
    omega
  · show s.pos_width + 1 ≤ s.pos_width + 1
    exact le_refl _

/-- A step of the cursor on a string without a wide character adds at most one
column. -/
theorem read_next_narrow (K : FANSI_ctl_masks) (x : List Nat) (hn : no_wide x)
    (s : FANSI_state) (hs : s.string = x) (h0 : 0 ≤ s.pos_width) :
    (FANSI_read_next K s).pos_width ≤ s.pos_width + 1 := by
  unfold FANSI_read_next
  simp only
  split
  · omega
  · split
    · show s.pos_width + 1 ≤ s.pos_width + 1
      exact le_refl _
    · split
      · rename_i hb
        exact read_utf8_narrow x hn s hs hb
      · split
        · split
          · show s.pos_width ≤ s.pos_width + 1
            omega
          · show s.pos_width ≤ s.pos_width + 1
            omega
        · split
          · show (0 : Int) ≤ s.pos_width + 1
            omega
          · show s.pos_width ≤ s.pos_width + 1
            omega

/-- A step of the cursor over a byte that is not a newline does not lower the
column. -/
theorem read_next_width_mono (K : FANSI_ctl_masks) (s : FANSI_state)
    (h : byteAt s.string s.pos_byte ≠ 10) :
    s.pos_width ≤ (FANSI_read_next K s).pos_width := by
  unfold FANSI_read_next
  simp only
  split
  · exact le_refl _
  · split
    · show s.pos_width ≤ s.pos_width + 1
      omega
    · split
      · unfold read_utf8
        simp only
        split
        · show s.pos_width ≤ s.pos_width + cp_width _
          have := cp_width_nonneg (utf8_decode (byteAt s.string s.pos_byte)
            (List.take (utf8_len (byteAt s.string s.pos_byte) - 1)
              (List.drop (s.pos_byte + 1) s.string)))
          omega
        · show s.pos_width ≤ s.pos_width + 1
          omega
      · split
        · split
          · exact le_refl _
          · exact le_refl _
        · exact le_refl _

/-- The steps of the cursor keep the string and the warning level. -/
theorem read_steps_facts (K : FANSI_ctl_masks) (s : FANSI_state) :
    ∀ n, (read_steps K s n).string = s.string ∧ (read_steps K s n).warn = s.warn := by
  intro n
  induction n with
  | zero => exact ⟨rfl, rfl⟩
  | succ n ih =>
    unfold read_steps
    obtain ⟨f1, f2, _⟩ := read_next_facts K (read_steps K s n)
    exact ⟨by rw [f1, ih.1], by rw [f2, ih.2]⟩

/-- The steps of the cursor keep the column at or above 0. -/
theorem read_steps_nonneg (K : FANSI_ctl_masks) (s : FANSI_state) (h : 0 ≤ s.pos_width) :
    ∀ n, 0 ≤ (read_steps K s n).pos_width := by
  intro n
  induction n with
  | zero => exact h
  | succ n ih =>
    unfold read_steps
    exact read_next_width_nonneg K _ ih

/-- The steps of the cursor do not move backwards. -/
theorem read_steps_mono (K : FANSI_ctl_masks) (s : FANSI_state) :
    ∀ n m, n ≤ m → (read_steps K s n).pos_byte ≤ (read_steps K s m).pos_byte := by
  intro n m h
  induction m with
  | zero =>
    have : n = 0 := by omega
    rw [this]
  | succ m ih =>
    by_cases hc : n = m + 1
    · rw [hc]
    · have h1 := ih (by omega)
      have h2 : (read_steps K s m).pos_byte ≤ (read_steps K s (m + 1)).pos_byte := by
        show _ ≤ (FANSI_read_next K (read_steps K s m)).pos_byte
        exact read_next_mono K _
      omega

/-- Skipping spaces keeps the string and the warning level. -/
theorem skip_spaces_facts (K : FANSI_ctl_masks) :
    ∀ (fuel : Nat) (st st1 : FANSI_state), skip_spaces K fuel st = .ok st1 →
      st1.string = st.string ∧ st1.warn = st.warn := by
  intro fuel
  induction fuel with
  | zero =>
    intro st st1 h
    unfold skip_spaces at h
    split at h
    · exact absurd h (by simp)
    · simp only [Except.ok.injEq] at h
      rw [← h]
      exact ⟨rfl, rfl⟩
  | succ n ih =>
    intro st st1 h
    unfold skip_spaces at h
    split at h
    · obtain ⟨f1, f2, _⟩ := read_next_facts K st
      obtain ⟨g1, g2⟩ := ih _ st1 h
      exact ⟨by rw [g1, f1], by rw [g2, f2]⟩
    · simp only [Except.ok.injEq] at h
      rw [← h]
      exact ⟨rfl, rfl⟩

/-- The state from which the next line starts is on the string of the state
and of the boundary, at column 0. -/
theorem next_start_facts (K : FANSI_ctl_masks) (x : List Nat)
    (strip_spaces has_boundary para_start : Bool) (st b nb : FANSI_state)
    (hst : st.string = x) (hb : b.string = x)
    (h : strwrap_next_start K strip_spaces has_boundary para_start st b = .ok nb) :
    nb.string = x ∧ nb.pos_width = 0 := by
  unfold strwrap_next_start at h
  simp only at h
  have hsel : (if has_boundary = true ∧ para_start = true then FANSI_read_next K b
      else if has_boundary = false then st else b).string = x := by
    split
    · rw [(read_next_facts K b).1]
      exact hb
    · split
      · exact hst
      · exact hb
  generalize (if has_boundary = true ∧ para_start = true then FANSI_read_next K b
      else if has_boundary = false then st else b) = sb at h hsel
  split at h
  · exact absurd h (by simp)
  · rename_i sb1 hsb
    simp only [Except.ok.injEq] at h
    rw [← h]
    refine ⟨?_, rfl⟩
    show sb1.string = x
    split at hsb
    · rw [(skip_spaces_facts K _ sb sb1 hsb).1]
      exact hsel
    · simp only [Except.ok.injEq] at hsb
      rw [← hsb]
      exact hsel

/-- The padding that `FANSI_writeline` adds to a content within the budget
fills the budget at most. -/
theorem writeline_pad_le (kb st : FANSI_state) (tar : Int) (pad_chr : List Nat)
    (h0 : st.pos_width = 0) (hk0 : 0 ≤ kb.pos_width) (hk : kb.pos_width ≤ tar)
    (ht : tar ≤ INT_MAX) :
    kb.pos_width + writeline_pad kb st tar pad_chr ≤ tar := by
  have hcw : to_size_t (kb.pos_width - st.pos_width) = kb.pos_width.toNat := by
    rw [h0, sub_zero]
    exact to_size_t_of_nonneg _ hk0 (by unfold INT_MAX at *; omega)
  unfold writeline_pad
  simp only [hcw]
  split
  · rw [if_neg (by omega)]
    omega
  · omega

/-- The scan of one iteration of the loop of `strwrap`, when the boundary has
the warning level of the state: the state is left as it is, a space, tab or
newline under the cursor is a boundary, which is the state unless spaces are
stripped and the unit before was a boundary, and another byte leaves the
boundary as it is. -/
theorem detect_general (K : FANSI_ctl_masks) (strip_spaces : Bool) (v : strwrap_vars)
    (hw : v.state_bound.warn = v.state.warn) :
    (strwrap_detect K strip_spaces v).state = v.state ∧
    (strwrap_detect K strip_spaces v).state_next =
      (if byteAt v.state.string v.state.pos_byte = 0 then v.state
       else FANSI_read_next K v.state) ∧
    ((byteAt v.state.string v.state.pos_byte = 32 ∨ byteAt v.state.string v.state.pos_byte = 9 ∨
        byteAt v.state.string v.state.pos_byte = 10) →
      (strwrap_detect K strip_spaces v).has_boundary = true ∧
      ((strip_spaces = false ∨ v.prev_boundary = false) →
        (strwrap_detect K strip_spaces v).state_bound = v.state) ∧
      (strip_spaces = true → v.prev_boundary = true →
        (strwrap_detect K strip_spaces v).state_bound = v.state_bound)) ∧
    (¬ (byteAt v.state.string v.state.pos_byte = 32 ∨
        byteAt v.state.string v.state.pos_byte = 9 ∨
        byteAt v.state.string v.state.pos_byte = 10) →
      (strwrap_detect K strip_spaces v).has_boundary = v.has_boundary ∧
      (strwrap_detect K strip_spaces v).state_bound = v.state_bound) := by
  have hw2 : (if byteAt v.state.string v.state.pos_byte = 0 then v.state
      else FANSI_read_next K v.state).warn = v.state.warn := by
    split
    · rfl
    · exact (read_next_facts K v.state).2.1
  have hS : ({ v.state with warn := (if byteAt v.state.string v.state.pos_byte = 0 then v.state
      else FANSI_read_next K v.state).warn } : FANSI_state) = v.state := by
    rw [hw2]
  have hB : ({ v.state_bound with
      warn := (if byteAt v.state.string v.state.pos_byte = 0 then v.state
        else FANSI_read_next K v.state).warn } : FANSI_state) = v.state_bound := by
    rw [hw2, ← hw]
  refine ⟨(detect_state K strip_spaces v).1, (detect_state K strip_spaces v).2, ?_, ?_⟩
  · intro hc
    unfold strwrap_detect
    simp only [hS, hB, hc, decide_True, if_true]
    refine ⟨trivial, ?_, ?_⟩
    · intro hs
      rcases hs with hs | hs
      · rw [hs]
        simp
      · rw [hs]
        cases strip_spaces <;> simp
    · intro hs hp
      rw [hs, hp]
      simp
  · intro hc
    unfold strwrap_detect
    simp only [hS, hB, hc, decide_False, Bool.false_eq_true, if_false]
    exact ⟨trivial, trivial⟩

/-- Keeping the boundary character leaves the boundary as it is or steps over
one unit, the latter only when spaces are kept and the boundary lies before
the state. -/
theorem keep_boundary_cases (K : FANSI_ctl_masks) (strip_spaces has_boundary : Bool)
    (st b : FANSI_state) :
    strwrap_keep_boundary K strip_spaces has_boundary st b = b ∨
    (strwrap_keep_boundary K strip_spaces has_boundary st b = FANSI_read_next K b ∧
      strip_spaces = false ∧ has_boundary = true ∧ b.pos_byte < st.pos_byte) := by
  unfold strwrap_keep_boundary
  simp only
  split
  · rename_i hc
    exact Or.inr ⟨rfl, hc.1, hc.2.1, hc.2.2.2⟩
  · exact Or.inl rfl

/-- The state is within the budget, or `wrap_always` is off and no space, tab
or newline lies between the line start and the state. -/
theorem state_within_or_token (K : FANSI_ctl_masks) (x : List Nat) (width_1 width_2 : Int)
    (wrap_always strip_spaces : Bool) (v : strwrap_vars)
    (hinv : width_inv K x width_1 width_2 wrap_always strip_spaces v) :
    v.state.pos_width ≤ v.width_tar ∨
      (wrap_always = false ∧ token_span K v.state_start v.state.pos_byte) := by
  by_cases hc : v.has_boundary = true ∨ wrap_always = true
  · exact Or.inl (hinv.within hc)
  · simp only [not_or, Bool.not_eq_true] at hc
    refine Or.inr ⟨hc.2, ?_⟩
    obtain ⟨k, hk, hnows⟩ := hinv.s_steps
    intro n hlt
    have hnk : n < k := by
      by_contra hge
      have := read_steps_mono K v.state_start k n (by omega)
      rw [hk] at hlt
      omega
    rw [hinv.st_string]
    exact hnows hc.1 n hnk

/-- The boundary up to which an iteration of the loop of `strwrap` writes a
line, on a string without a wide character: the state is not backed off, the
boundary is reached from the line start by steps of the cursor, it is not
past the state, and it is within the budget, unless `wrap_always` is off and the content is a token or
nothing. -/
theorem flush_bound_general (K : FANSI_ctl_masks) (x : List Nat) (width_1 width_2 : Int)
    (wrap_always strip_spaces first_only : Bool) (v : strwrap_vars)
    (hwa : wrap_always = true → 0 ≤ width_1 ∧ 0 ≤ width_2)
    (hinv : width_inv K x width_1 width_2 wrap_always strip_spaces v)
    (hble : v.state_bound.pos_byte ≤ v.state.pos_byte)
    (hmw : strwrap_must_write wrap_always first_only v.width_tar
      (strwrap_detect K strip_spaces v) = true) :
    (strwrap_line_end wrap_always first_only v (strwrap_detect K strip_spaces v)).1 = v.state ∧
    ∃ m, strwrap_keep_boundary K strip_spaces (strwrap_detect K strip_spaces v).has_boundary
        v.state
        (strwrap_line_end wrap_always first_only v (strwrap_detect K strip_spaces v)).2 =
          read_steps K v.state_start m ∧
      (read_steps K v.state_start m).pos_byte ≤ v.state.pos_byte ∧
      ((read_steps K v.state_start m).pos_width ≤ v.width_tar ∨
        (wrap_always = false ∧
          token_span K v.state_start (read_steps K v.state_start m).pos_byte)) := by
  obtain ⟨k, hk, hnows⟩ := hinv.s_steps
  obtain ⟨j, hj⟩ := hinv.b_steps
  obtain ⟨d1, d2, d3, d4⟩ := detect_general K strip_spaces v hinv.b_warn
  have hstate := state_within_or_token K x width_1 width_2 wrap_always strip_spaces v hinv
  have htar0 : wrap_always = true → 0 ≤ v.width_tar := by
    intro hc
    rw [hinv.tar]
    split
    · exact (hwa hc).1
    · exact (hwa hc).2
  -- the state is not backed off
  have hsw : ¬ ((strwrap_detect K strip_spaces v).state.pos_width > v.width_tar ∧
      wrap_always = true) := by
    intro hc
    have := hinv.within (Or.inr hc.2)
    rw [d1] at hc
    omega
  have he1 : (strwrap_line_end wrap_always first_only v (strwrap_detect K strip_spaces v)).1 =
      v.state := by
    unfold strwrap_line_end
    simp only [hsw, if_false]
    split
    · exact d1
    · exact d1
  have he2 := line_end_second wrap_always first_only v (strwrap_detect K strip_spaces v)
  rw [he1, d1] at he2
  refine ⟨he1, ?_⟩
  -- the boundary that is kept
  rcases keep_boundary_cases K strip_spaces (strwrap_detect K strip_spaces v).has_boundary
    v.state (strwrap_line_end wrap_always first_only v (strwrap_detect K strip_spaces v)).2
    with hkb | ⟨hkb, hns, hdb, hlt⟩
  · rw [hkb]
    by_cases hA : byteAt v.state.string v.state.pos_byte = 0 ∨
        (wrap_always = true ∧ (strwrap_detect K strip_spaces v).has_boundary = false) ∨
        first_only = true
    · rw [if_pos hA] at he2
      rw [he2]
      exact ⟨k, hk, by rw [← hk], by rw [← hk]; exact hstate⟩
    · rw [if_neg hA] at he2
      rw [he2]
      by_cases hws : byteAt v.state.string v.state.pos_byte = 32 ∨
          byteAt v.state.string v.state.pos_byte = 9 ∨
          byteAt v.state.string v.state.pos_byte = 10
      · obtain ⟨_, w2, w3⟩ := d3 hws
        by_cases hupd : strip_spaces = false ∨ v.prev_boundary = false
        · rw [w2 hupd]
          exact ⟨k, hk, by rw [← hk], by rw [← hk]; exact hstate⟩
        · simp only [not_or, Bool.not_eq_false] at hupd
          rw [w3 hupd.1 hupd.2]
          refine ⟨j, hj, by rw [← hj]; exact hble, ?_⟩
          rw [← hj]
          by_cases hb : v.has_boundary = true
          · exact Or.inl (hinv.b_within hb)
          · have hst := hinv.b_stale (by simpa using hb)
            rw [hst, hinv.st_width]
            by_cases h0 : 0 ≤ v.width_tar
            · exact Or.inl h0
            · refine Or.inr ⟨?_, ?_⟩
              · by_contra hc
                exact h0 (htar0 (by simpa using hc))
              · intro n hlt
                have := read_steps_mono K v.state_start 0 n (Nat.zero_le _)
                have h00 : (read_steps K v.state_start 0).pos_byte =
                    v.state_start.pos_byte := rfl
                omega
      · obtain ⟨w1, w2⟩ := d4 hws
        rw [w2]
        have hdb : (strwrap_detect K strip_spaces v).has_boundary = true := by
          unfold strwrap_must_write at hmw
          simp only [decide_eq_true_eq] at hmw
          rw [d1] at hmw
          simp only [not_or, not_and, Bool.not_eq_true] at hA
          rcases hmw with hc | hc | hc
          · exact absurd hc hA.1
          · exact absurd (Or.inr (Or.inr hc.1)) hws
          · rcases hc.2 with hc2 | hc2
            · exact hc2
            · by_contra hne
              exact hA.2.1 hc2 (by simpa using hne)
        rw [w1] at hdb
        exact ⟨j, hj, by rw [← hj]; exact hble, by rw [← hj]; exact Or.inl (hinv.b_within hdb)⟩
  · rw [hkb]
    -- the boundary of an earlier iteration, one unit further
    have hA : ¬ (byteAt v.state.string v.state.pos_byte = 0 ∨
        (wrap_always = true ∧ (strwrap_detect K strip_spaces v).has_boundary = false) ∨
        first_only = true) := by
      intro hc
      rw [if_pos hc] at he2
      rw [he2] at hlt
      omega
    rw [if_neg hA] at he2
    rw [he2] at hlt ⊢
    have hws : ¬ (byteAt v.state.string v.state.pos_byte = 32 ∨
        byteAt v.state.string v.state.pos_byte = 9 ∨
        byteAt v.state.string v.state.pos_byte = 10) := by
      intro hc
      obtain ⟨_, w2, _⟩ := d3 hc
      rw [w2 (Or.inl hns)] at hlt
      omega
    obtain ⟨w1, w2⟩ := d4 hws
    rw [w1] at hdb
    rw [w2]
    have hjk : j < k := by
      by_contra hge
      have := read_steps_mono K v.state_start k j (by omega)
      rw [w2, hj, hk] at hlt
      omega
    have hjk1 := read_steps_mono K v.state_start (j + 1) k (by omega)
    rw [← hk] at hjk1
    refine ⟨j + 1, by rw [hj]; rfl, hjk1, Or.inl ?_⟩
    show (FANSI_read_next K (read_steps K v.state_start j)).pos_width ≤ v.width_tar
    rw [← hj]
    have := hinv.b_next hns hdb
    have := hinv.within (Or.inl hdb)
    omega

/-- An iteration of the loop of `strwrap` that writes no line keeps the
invariant, on a string without a wide character. -/
theorem step_continue_general (K : FANSI_ctl_masks) (x : List Nat) (hn : no_wide x)
    (width_1 width_2 : Int) (wrap_always strip_spaces first_only : Bool) (v : strwrap_vars)
    (hinv : width_inv K x width_1 width_2 wrap_always strip_spaces v)
    (hmw : strwrap_must_write wrap_always first_only v.width_tar
      (strwrap_detect K strip_spaces v) = false) :
    width_inv K x width_1 width_2 wrap_always strip_spaces
      { v with state_prev := (strwrap_detect K strip_spaces v).state,
               state := (strwrap_detect K strip_spaces v).state_next,
               state_bound := (strwrap_detect K strip_spaces v).state_bound,
               prev_boundary := (strwrap_detect K strip_spaces v).prev_boundary,
               has_boundary := (strwrap_detect K strip_spaces v).has_boundary } := by
  obtain ⟨k, hk, hnows⟩ := hinv.s_steps
  obtain ⟨j, hj⟩ := hinv.b_steps
  obtain ⟨d1, d2, d3, d4⟩ := detect_general K strip_spaces v hinv.b_warn
  have hstr : v.state.string = x := by
    rw [hk, (read_steps_facts K v.state_start k).1]
    exact hinv.st_string
  have hs0 : 0 ≤ v.state.pos_width := by
    rw [hk]
    exact read_steps_nonneg K v.state_start (by rw [hinv.st_width]) k
  unfold strwrap_must_write at hmw
  simp only [decide_eq_false_iff_not, not_or, not_and] at hmw
  rw [d1] at hmw
  obtain ⟨hc0, hc10, hcw⟩ := hmw
  have hnext : (strwrap_detect K strip_spaces v).state_next = FANSI_read_next K v.state := by
    rw [d2, if_neg hc0]
  rw [hnext] at hcw
  have hnar := read_next_narrow K x hn v.state hstr hs0
  have hflush : ((strwrap_detect K strip_spaces v).has_boundary = true ∨ wrap_always = true) →
      v.state.pos_width ≤ v.width_tar ∧ (FANSI_read_next K v.state).pos_width ≤ v.width_tar := by
    intro hc
    by_cases hgt : v.state.pos_width > v.width_tar
    · exact absurd hc (by simpa using hcw (Or.inl hgt))
    · by_cases heq : v.state.pos_width = v.width_tar
      · by_cases hnx : (FANSI_read_next K v.state).pos_width > v.state.pos_width
        · exact absurd hc (by simpa using hcw (Or.inr ⟨heq, hnx⟩))
        · exact ⟨by omega, by omega⟩
      · exact ⟨by omega, by omega⟩
  -- the boundary after the scan
  have hsb : ((strwrap_detect K strip_spaces v).state_bound = v.state ∧
        (strwrap_detect K strip_spaces v).has_boundary = true ∧
        (byteAt v.state.string v.state.pos_byte = 32 ∨
          byteAt v.state.string v.state.pos_byte = 9 ∨
          byteAt v.state.string v.state.pos_byte = 10)) ∨
      ((strwrap_detect K strip_spaces v).state_bound = v.state_bound ∧
        (strwrap_detect K strip_spaces v).has_boundary = true ∧ strip_spaces = true) ∨
      ((strwrap_detect K strip_spaces v).state_bound = v.state_bound ∧
        (strwrap_detect K strip_spaces v).has_boundary = v.has_boundary ∧
        byteAt v.state.string v.state.pos_byte ≠ 32 ∧
        byteAt v.state.string v.state.pos_byte ≠ 9 ∧
        byteAt v.state.string v.state.pos_byte ≠ 10) := by
    by_cases hws : byteAt v.state.string v.state.pos_byte = 32 ∨
        byteAt v.state.string v.state.pos_byte = 9 ∨
        byteAt v.state.string v.state.pos_byte = 10
    · obtain ⟨w1, w2, w3⟩ := d3 hws
      by_cases hupd : strip_spaces = false ∨ v.prev_boundary = false
      · exact Or.inl ⟨w2 hupd, w1, hws⟩
      · simp only [not_or, Bool.not_eq_false] at hupd
        exact Or.inr (Or.inl ⟨w3 hupd.1 hupd.2, w1, hupd.1⟩)
    · obtain ⟨w1, w2⟩ := d4 hws
      simp only [not_or] at hws
      exact Or.inr (Or.inr ⟨w2, w1, hws.1, hws.2.1, hws.2.2⟩)
  exact
    { st_string := hinv.st_string
      st_width := hinv.st_width
      s_steps := by
        refine ⟨k + 1, ?_, ?_⟩
        · show (strwrap_detect K strip_spaces v).state_next = read_steps K v.state_start (k + 1)
          rw [hnext, hk]
          rfl
        · intro hb i hi
          have hb1 : (strwrap_detect K strip_spaces v).has_boundary = false := hb
          rcases hsb with ⟨_, s2, _⟩ | ⟨_, s2, _⟩ | ⟨_, s2, s3, s4, s5⟩
          · rw [s2] at hb1
            exact absurd hb1 (by simp)
          · rw [s2] at hb1
            exact absurd hb1 (by simp)
          · rw [s2] at hb1
            by_cases hik : i < k
            · exact hnows hb1 i hik
            · have hik1 : i = k := by omega
              rw [hik1, ← hk, ← hstr]
              exact ⟨s3, s4, s5⟩
      b_steps := by
        show ∃ j, (strwrap_detect K strip_spaces v).state_bound = read_steps K v.state_start j
        rcases hsb with ⟨s1, _⟩ | ⟨s1, _⟩ | ⟨s1, _⟩
        · exact ⟨k, by rw [s1, hk]⟩
        · exact ⟨j, by rw [s1, hj]⟩
        · exact ⟨j, by rw [s1, hj]⟩
      b_stale := by
        intro hb
        have hb1 : (strwrap_detect K strip_spaces v).has_boundary = false := hb
        show (strwrap_detect K strip_spaces v).state_bound = v.state_start
        rcases hsb with ⟨_, s2, _⟩ | ⟨s1, s2, _⟩ | ⟨s1, s2, _⟩
        · rw [s2] at hb1
          exact absurd hb1 (by simp)
        · rw [s2] at hb1
          exact absurd hb1 (by simp)
        · rw [s1]
          rw [s2] at hb1
          exact hinv.b_stale hb1
      b_warn := by
        show (strwrap_detect K strip_spaces v).state_bound.warn =
          (strwrap_detect K strip_spaces v).state_next.warn
        rw [hnext, (read_next_facts K v.state).2.1]
        rcases hsb with ⟨s1, _⟩ | ⟨s1, _⟩ | ⟨s1, _⟩
        · rw [s1]
        · rw [s1]
          exact hinv.b_warn
        · rw [s1]
          exact hinv.b_warn
      within := by
        intro hc
        show (strwrap_detect K strip_spaces v).state_next.pos_width ≤ v.width_tar
        rw [hnext]
        exact (hflush hc).2
      b_within := by
        intro hb
        have hb1 : (strwrap_detect K strip_spaces v).has_boundary = true := hb
        show (strwrap_detect K strip_spaces v).state_bound.pos_width ≤ v.width_tar
        have hfl := hflush (Or.inl hb1)
        have hold : v.state_bound.pos_width ≤ v.width_tar := by
          by_cases hvb : v.has_boundary = true
          · exact hinv.b_within hvb
          · rw [hinv.b_stale (by simpa using hvb), hinv.st_width]
            omega
        rcases hsb with ⟨s1, _⟩ | ⟨s1, _⟩ | ⟨s1, _⟩
        · rw [s1]
          exact hfl.1
        · rw [s1]
          exact hold
        · rw [s1]
          exact hold
      b_next := by
        intro hs hb
        have hb1 : (strwrap_detect K strip_spaces v).has_boundary = true := hb
        show (FANSI_read_next K (strwrap_detect K strip_spaces v).state_bound).pos_width ≤
          (strwrap_detect K strip_spaces v).state_next.pos_width
        rw [hnext]
        rcases hsb with ⟨s1, _⟩ | ⟨s1, s2, s3⟩ | ⟨s1, s2, s3, s4, s5⟩
        · rw [s1]
        · rw [s3] at hs
          exact absurd hs (by simp)
        · rw [s1]
          rw [s2] at hb1
          have := hinv.b_next hs hb1
          have := read_next_width_mono K v.state s5
          omega
      tar := hinv.tar }

/-- An iteration of the loop of `strwrap` that writes no line keeps the
invariant on the byte offsets. -/
theorem step_continue_span (K : FANSI_ctl_masks) (x : List Nat)
    (width_1 width_2 : Int) (wrap_always strip_spaces first_only : Bool) (v : strwrap_vars)
    (hinv : width_inv K x width_1 width_2 wrap_always strip_spaces v)
    (hsp : span_inv K x first_only v)
    (hmw : strwrap_must_write wrap_always first_only v.width_tar
      (strwrap_detect K strip_spaces v) = false) :
    span_inv K x first_only
      { v with state_prev := (strwrap_detect K strip_spaces v).state,
               state := (strwrap_detect K strip_spaces v).state_next,
               state_bound := (strwrap_detect K strip_spaces v).state_bound,
               prev_boundary := (strwrap_detect K strip_spaces v).prev_boundary,
               has_boundary := (strwrap_detect K strip_spaces v).has_boundary } := by
  obtain ⟨k, hk, _⟩ := hinv.s_steps
  obtain ⟨d1, d2, d3, d4⟩ := detect_general K strip_spaces v hinv.b_warn
  have hstr : v.state.string = x := by
    rw [hk, (read_steps_facts K v.state_start k).1]
    exact hinv.st_string
  unfold strwrap_must_write at hmw
  simp only [decide_eq_false_iff_not, not_or, not_and] at hmw
  rw [d1] at hmw
  obtain ⟨hc0, hc10, _⟩ := hmw
  have hnext : (strwrap_detect K strip_spaces v).state_next = FANSI_read_next K v.state := by
    rw [d2, if_neg hc0]
  have hmono := read_next_mono K v.state
  have hsb : (strwrap_detect K strip_spaces v).state_bound = v.state ∨
      (strwrap_detect K strip_spaces v).state_bound = v.state_bound := by
    by_cases hws : byteAt v.state.string v.state.pos_byte = 32 ∨
        byteAt v.state.string v.state.pos_byte = 9 ∨
        byteAt v.state.string v.state.pos_byte = 10
    · obtain ⟨_, w2, w3⟩ := d3 hws
      by_cases hupd : strip_spaces = false ∨ v.prev_boundary = false
      · exact Or.inl (w2 hupd)
      · simp only [not_or, Bool.not_eq_false] at hupd
        exact Or.inr (w3 hupd.1 hupd.2)
    · exact Or.inr (d4 hws).2
  exact
    { b_le := by
        show (strwrap_detect K strip_spaces v).state_bound.pos_byte ≤
          (strwrap_detect K strip_spaces v).state_next.pos_byte
        rw [hnext]
        have := hsp.b_le
        rcases hsb with s1 | s1
        · rw [s1]
          exact hmono
        · rw [s1]
          omega
      no_nl := by
        intro hf i hlt
        have hlt1 : (read_steps K v.state_start i).pos_byte <
            (strwrap_detect K strip_spaces v).state_next.pos_byte := hlt
        show byteAt x (read_steps K v.state_start i).pos_byte ≠ 10
        rw [hnext] at hlt1
        by_cases h1 : (read_steps K v.state_start i).pos_byte < v.state.pos_byte
        · exact hsp.no_nl hf i h1
        · have hik : i ≤ k := by
            by_contra hge
            have hm := read_steps_mono K v.state_start (k + 1) i (by omega)
            have hk1 : (read_steps K v.state_start (k + 1)).pos_byte =
                (FANSI_read_next K v.state).pos_byte := by
              rw [hk]
              rfl
            omega
          have hm := read_steps_mono K v.state_start i k hik
          rw [← hk] at hm
          have heq : (read_steps K v.state_start i).pos_byte = v.state.pos_byte := by omega
          rw [heq, ← hstr]
          intro hc
          exact hc10 hc hf }

/-- An iteration of the loop of `strwrap` on a string without a wide
character: a line that is written is within the target width, unless
`wrap_always` is off and its content is a token or nothing, and the invariant
holds when the loop goes on. -/
theorem strwrap_step_width (K : FANSI_ctl_masks) (int_max : Int) (x : List Nat)
    (width : Int) (pre_first pre_next : FANSI_prefix_dat) (width_1 width_2 : Int)
    (wrap_always : Bool) (pad_chr : List Nat) (strip_spaces first_only : Bool)
    (v w : strwrap_vars) (brk : Bool)
    (hn : no_wide x)
    (hw1 : width_1 = width - pre_first.width) (hw2 : width_2 = width - pre_next.width)
    (hb1 : width_1 ≤ INT_MAX) (hb2 : width_2 ≤ INT_MAX)
    (hwa : wrap_always = true → 0 ≤ width_1 ∧ 0 ≤ width_2)
    (hinv : width_inv K x width_1 width_2 wrap_always strip_spaces v)
    (hsp : span_inv K x first_only v)
    (hall : ∀ l ∈ v.char_list,
      line_within K int_max x width pre_first pre_next wrap_always first_only pad_chr l)
    (h : strwrap_step K int_max width_1 width_2 pre_first pre_next wrap_always pad_chr
      strip_spaces first_only v = .ok (brk, w)) :
    (∀ l ∈ w.char_list,
      line_within K int_max x width pre_first pre_next wrap_always first_only pad_chr l) ∧
    (brk = false → width_inv K x width_1 width_2 wrap_always strip_spaces w ∧
      span_inv K x first_only w) := by
  unfold strwrap_step at h
  simp only at h
  split at h
  · -- a line is written
    rename_i hmw
    obtain ⟨he1, m, hkb, hmle, hW⟩ := flush_bound_general K x width_1 width_2 wrap_always
      strip_spaces first_only v hwa hinv hsp.b_le hmw
    obtain ⟨k, hk, _⟩ := hinv.s_steps
    have hstr : v.state.string = x := by
      rw [hk, (read_steps_facts K v.state_start k).1]
      exact hinv.st_string
    have hkstr : (read_steps K v.state_start m).string = x := by
      rw [(read_steps_facts K v.state_start m).1]
      exact hinv.st_string
    have hk0 : 0 ≤ (read_steps K v.state_start m).pos_width :=
      read_steps_nonneg K v.state_start (by rw [hinv.st_width]) m
    have htar : v.width_tar ≤ INT_MAX := by
      rw [hinv.tar]
      split <;> assumption
    have hbudget : v.width_tar =
        width - (if v.para_start then pre_first else pre_next).width := by
      rw [hinv.tar]
      split
      · exact hw1
      · exact hw2
    unfold strwrap_write at h
    simp only [he1, hkb] at h
    split at h
    · exact absurd h (by simp)
    · split at h
      · exact absurd h (by simp)
      · rename_i res buff1 hres
        have hok : line_within K int_max x width pre_first pre_next wrap_always first_only pad_chr res := by
          refine ⟨if v.para_start then pre_first else pre_next, v.state_start, m, v.buff, buff1,
            ?_, hinv.st_string, hinv.st_width, ?_, ?_, ?_⟩
          · split
            · exact Or.inl rfl
            · exact Or.inr rfl
          · rw [← hbudget]
            exact hres
          · intro hf i hi
            exact hsp.no_nl hf i (by omega)
          · rw [← hbudget]
            by_cases hle : (read_steps K v.state_start m).pos_width ≤ v.width_tar
            · left
              have := writeline_pad_le (read_steps K v.state_start m) v.state_start v.width_tar
                pad_chr hinv.st_width hk0 hle htar
              omega
            · right
              rcases hW with hW | hW
              · exact absurd hW hle
              · exact ⟨hW.1, hW.2, by omega⟩
        split at h
        · simp only [Except.ok.injEq, Prod.mk.injEq] at h
          obtain ⟨hbrk, hw⟩ := h
          subst hw
          subst hbrk
          refine ⟨?_, fun hc => absurd hc (by simp)⟩
          intro l hl
          simp only [List.mem_singleton] at hl
          subst hl
          exact hok
        · have hall1 : ∀ l ∈ v.char_list ++ [res],
              line_within K int_max x width pre_first pre_next wrap_always first_only pad_chr l := by
            intro l hl
            rcases List.mem_append.mp hl with hl | hl
            · exact hall l hl
            · simp only [List.mem_singleton] at hl
              subst hl
              exact hok
          split at h
          · simp only [Except.ok.injEq, Prod.mk.injEq] at h
            obtain ⟨hbrk, hw⟩ := h
            subst hw
            subst hbrk
            exact ⟨hall1, fun hc => absurd hc (by simp)⟩
          · split at h
            · exact absurd h (by simp)
            · rename_i nb hnb
              simp only [Except.ok.injEq, Prod.mk.injEq] at h
              obtain ⟨hbrk, hw⟩ := h
              subst hw
              subst hbrk
              obtain ⟨n1, n2⟩ := next_start_facts K x strip_spaces _ _ _ _ nb hstr hkstr hnb
              refine ⟨hall1, fun _ => ⟨?_, ?_⟩⟩
              · exact
                { st_string := n1
                  st_width := n2
                  s_steps := ⟨0, rfl, fun _ i hi => absurd hi (by omega)⟩
                  b_steps := ⟨0, rfl⟩
                  b_stale := fun _ => rfl
                  b_warn := rfl
                  within := by
                    intro hc
                    show nb.pos_width ≤
                      (if decide (byteAt v.state.string v.state.pos_byte = 10) = true
                        then width_1 else width_2)
                    rw [n2]
                    rcases hc with hc | hc
                    · exact absurd hc (by simp)
                    · split
                      · exact (hwa hc).1
                      · exact (hwa hc).2
                  b_within := fun hc => absurd hc (by simp)
                  b_next := fun _ hc => absurd hc (by simp)
                  tar := rfl }
              · exact
                { b_le := le_refl _
                  no_nl := by
                    intro _ i hi
                    have hi1 : (read_steps K nb i).pos_byte < nb.pos_byte := hi
                    have hm := read_steps_mono K nb 0 i (Nat.zero_le _)
                    have h00 : (read_steps K nb 0).pos_byte = nb.pos_byte := rfl
                    omega }
  · -- no line is written
    rename_i hmw
    simp only [Except.ok.injEq, Prod.mk.injEq] at h
    obtain ⟨hbrk, hw⟩ := h
    subst hw
    refine ⟨hall, fun _ => ⟨?_, ?_⟩⟩
    · exact step_continue_general K x hn width_1 width_2 wrap_always strip_spaces first_only v
        hinv (by simpa using hmw)
    · exact step_continue_span K x width_1 width_2 wrap_always strip_spaces first_only v
        hinv hsp (by simpa using hmw)

/-- The loop of `strwrap` on a string without a wide character only adds lines
that are within the target width, or whose content is a token or nothing when
`wrap_always` is off. -/
theorem strwrap_loop_width (K : FANSI_ctl_masks) (int_max : Int) (x : List Nat)
    (width : Int) (pre_first pre_next : FANSI_prefix_dat) (width_1 width_2 : Int)
    (wrap_always : Bool) (pad_chr : List Nat) (strip_spaces first_only : Bool)
    (hn : no_wide x)
    (hw1 : width_1 = width - pre_first.width) (hw2 : width_2 = width - pre_next.width)
    (hb1 : width_1 ≤ INT_MAX) (hb2 : width_2 ≤ INT_MAX)
    (hwa : wrap_always = true → 0 ≤ width_1 ∧ 0 ≤ width_2) :
    ∀ (fuel : Nat) (v w : strwrap_vars),
      width_inv K x width_1 width_2 wrap_always strip_spaces v →
      span_inv K x first_only v →
      (∀ l ∈ v.char_list,
        line_within K int_max x width pre_first pre_next wrap_always first_only pad_chr l) →
      strwrap_loop K int_max width_1 width_2 pre_first pre_next wrap_always pad_chr
        strip_spaces first_only fuel v = .ok w →
      ∀ l ∈ w.char_list,
        line_within K int_max x width pre_first pre_next wrap_always first_only pad_chr l := by
  intro fuel
  induction fuel with
  | zero =>
    intro v w _ _ _ h
    exact absurd h (by simp [strwrap_loop])
  | succ n ih =>
    intro v w hinv hsp hall h
    unfold strwrap_loop at h
    split at h
    · exact absurd h (by simp)
    · rename_i w1 hstep
      simp only [Except.ok.injEq] at h
      subst h
      exact (strwrap_step_width K int_max x width pre_first pre_next width_1 width_2
        wrap_always pad_chr strip_spaces first_only v _ true hn hw1 hw2 hb1 hb2 hwa hinv hsp
        hall hstep).1
    · rename_i w1 hstep
      obtain ⟨s1, s2⟩ := strwrap_step_width K int_max x width pre_first pre_next width_1
        width_2 wrap_always pad_chr strip_spaces first_only v w1 false hn hw1 hw2 hb1 hb2 hwa
        hinv hsp hall hstep
      exact ih w1 w (s2 rfl).1 (s2 rfl).2 s1 h

/-- C8, amended: for every input string without a character wider than one
column, every line that `strwrap` emits is written for the prefix in force
(`pre_first` or `pre_next`) and a content that the cursor reads from a line
start at column 0, and its visual width, which is the width of the prefix, the
columns of the content and the padding, is at most the target width; except,
when `wrap_always` is false, a line whose content is a single token (the
cursor reads no space, tab or newline in it), or nothing at all, and wider
than the budget `width - pre.width`. In particular, with `wrap_always` true no
emitted line is wider than the target width. When `first_only` is off the
content holds no newline, so that the column the cursor ends at is the sum of
the widths of its units. -/
theorem strwrap_line_width (K : FANSI_ctl_masks) (int_max : Int) (x : List Nat)
    (width : Int) (pre_first pre_next : FANSI_prefix_dat) (wrap_always : Bool)
    (buff : FANSI_buff) (pad_chr : List Nat) (strip_spaces : Bool) (warn : Int)
    (first_only : Bool) (ctl : Nat) (lines : List CHARSXP) (buff1 : FANSI_buff)
    (hn : no_wide x) (hw : width ≤ INT_MAX)
    (h : strwrap K int_max x width pre_first pre_next wrap_always buff pad_chr strip_spaces
      warn first_only ctl = .ok (lines, buff1)) :
    ∀ line ∈ lines,
      line_within K int_max x width pre_first pre_next wrap_always first_only pad_chr line := by
  unfold strwrap at h
  simp only at h
  split at h
  · exact absurd h (by simp)
  · rename_i width_1 h1
    split at h
    · exact absurd h (by simp)
    · rename_i width_2 h2
      obtain ⟨e1, r1⟩ := add_int_ok _ _ _ h1
      obtain ⟨e2, r2⟩ := add_int_ok _ _ _ h2
      have hb1 : width_1 ≤ INT_MAX := by
        by_cases hp : 0 ≤ -pre_first.width
        · rw [e1]; exact r1 hp
        · omega
      have hb2 : width_2 ≤ INT_MAX := by
        by_cases hp : 0 ≤ -pre_next.width
        · rw [e2]; exact r2 hp
        · omega
      split at h
      · exact absurd h (by simp)
      · split at h
        · exact absurd h (by simp)
        · rename_i hg
          simp only [not_and, not_or, not_lt] at hg
          split at h
          · exact absurd h (by simp)
          · rename_i w hloop
            simp only [Except.ok.injEq, Prod.mk.injEq] at h
            obtain ⟨hl, _⟩ := h
            subst hl
            refine strwrap_loop_width K int_max x width pre_first pre_next width_1 width_2
              wrap_always pad_chr strip_spaces first_only hn (by omega) (by omega) hb1 hb2
              (fun hwa => hg hwa) _ _ w ?_ ?_ ?_ hloop
            · exact
                { st_string := rfl
                  st_width := rfl
                  s_steps := ⟨0, rfl, fun _ i hi => absurd hi (by omega)⟩
                  b_steps := ⟨0, rfl⟩
                  b_stale := fun _ => rfl
                  b_warn := rfl
                  within := by
                    intro hc
                    show (0 : Int) ≤ width_1
                    rcases hc with hc | hc
                    · exact absurd hc (by simp)
                    · exact (hg hc).1
                  b_within := fun hc => absurd hc (by simp)
                  b_next := fun _ hc => absurd hc (by simp)
                  tar := rfl }
            · exact
                { b_le := le_refl _
                  no_nl := by
                    intro _ i hi
                    have hi1 : (read_steps K (FANSI_state_init_full x warn ctl) i).pos_byte <
                        (FANSI_state_init_full x warn ctl).pos_byte := hi
                    have hm := read_steps_mono K (FANSI_state_init_full x warn ctl) 0 i
                      (Nat.zero_le _)
                    have h00 : (read_steps K (FANSI_state_init_full x warn ctl) 0).pos_byte =
                        (FANSI_state_init_full x warn ctl).pos_byte := rfl
                    omega }
            · intro l hl
              exact absurd hl (by simp)

/-- Witness of C8: `"a\tb é\x1b[31mcde\nf"`, with a tab, a character of two
bytes, a control sequence and a newline, is wrapped at width 3 without
`wrap_always` into `"a\tb"`, the token `"é\x1b[31mcde"` of four columns, and
`"f"`, the last two with the style closed and reopened. -/
theorem strwrap_line_width_witness :
    line_within FANSI_CTL INT_MAX
      [97, 9, 98, 32, 195, 169, 27, 91, 51, 49, 109, 99, 100, 101, 10, 102] 3
      empty_pre empty_pre false false [] ⟨[97, 9, 98], false⟩ ∧
    line_within FANSI_CTL INT_MAX
      [97, 9, 98, 32, 195, 169, 27, 91, 51, 49, 109, 99, 100, 101, 10, 102] 3
      empty_pre empty_pre false false []
      ⟨[195, 169, 27, 91, 51, 49, 109, 99, 100, 101, 27, 91, 48, 109], true⟩ ∧
    line_within FANSI_CTL INT_MAX
      [97, 9, 98, 32, 195, 169, 27, 91, 51, 49, 109, 99, 100, 101, 10, 102] 3
      empty_pre empty_pre false false [] ⟨[27, 91, 51, 49, 109, 102, 27, 91, 48, 109], true⟩ :=
  have h := strwrap_line_width FANSI_CTL INT_MAX
    [97, 9, 98, 32, 195, 169, 27, 91, 51, 49, 109, 99, 100, 101, 10, 102] 3
    empty_pre empty_pre false ⟨0, 0⟩ [] true 1 false 31
    [⟨[97, 9, 98], false⟩,
      ⟨[195, 169, 27, 91, 51, 49, 109, 99, 100, 101, 27, 91, 48, 109], true⟩,
      ⟨[27, 91, 51, 49, 109, 102, 27, 91, 48, 109], true⟩] ⟨128, 1⟩
    (by unfold no_wide; decide) (by decide) (by decide!)
  ⟨h _ (by simp), h _ (by simp), h _ (by simp)⟩

end Fansi
